import Mathlib

/-!
# AirLevi-NG cracking core: a shallow embedding

Byte buffers are lists of naturals, `std::string` values are byte lists,
C++ `int` values are integers.  Reads through raw pointers go through `rd`
and `rdN`, which report a read outside the buffer as the error
`Err.outOfBounds`; loops that the source writes as `while` take a fuel
argument and report `Err.outOfFuel` when it is exhausted.
-/

namespace Airlevi

/-- Byte sequences (`std::vector<uint8_t>`, `std::string`, raw buffers). -/
abbrev Bytes := List Nat

/-- The bytes of an ASCII string literal. -/
def ascii (s : String) : Bytes := s.toList.map Char.toNat

/-- Ways in which a run of the embedded code can fail to produce a value. -/
inductive Err where
  | outOfBounds
  | outOfFuel
  deriving DecidableEq, Repr

/-- Outcome of running embedded code that reads raw memory or loops. -/
abbrev Exec := Except Err

deriving instance DecidableEq for Except

/-- Read of one byte at offset `i` of a buffer; outside the buffer it is an error. -/
def rd (p : Bytes) (i : Nat) : Exec Nat :=
  match p.get? i with
  | some b => .ok b
  | none => .error .outOfBounds

/-- Read of the `n` bytes at offsets `off .. off+n-1` of a buffer. -/
def rdN (p : Bytes) (off n : Nat) : Exec Bytes :=
  if off + n ≤ p.length then .ok ((p.drop off).take n) else .error .outOfBounds

/-- Conversion of an `int` to `size_t` (64 bit), as the usual arithmetic
conversions do in a comparison of an `int` with a `sizeof`. -/
def toSizeT (i : Int) : Nat := (i % (2 ^ 64 : Int)).toNat

/-- Conversion of a wide integer to a 32-bit `int` (two's complement wrap). -/
def toInt32 (i : Int) : Int :=
  let m := i % (2 ^ 32 : Int)
  if m < 2 ^ 31 then m else m - 2 ^ 32

/-! ## common/types.h -/

/-- The struct `MacAddress`: `uint8_t bytes[6]`. -/
structure MacAddress where
  bytes : Bytes
  size_eq : bytes.length = 6
  deriving DecidableEq

/-- The default constructor `MacAddress()`: six zero bytes. -/
def MacAddress.zero : MacAddress := ⟨[0, 0, 0, 0, 0, 0], rfl⟩

/-- The C function `memcmp(a, b, n)` on buffers that hold at least `n` bytes:
negative, zero or positive by the first differing byte (unsigned). -/
def memcmp : Bytes → Bytes → Nat → Int
  | _, _, 0 => 0
  | a :: as, b :: bs, n + 1 =>
    if a < b then -1 else if b < a then 1 else memcmp as bs n
  | _, _, _ + 1 => 0

/-- The operator `MacAddress::operator==`. -/
def MacAddress.eq (a b : MacAddress) : Bool := memcmp a.bytes b.bytes 6 == 0

/-- The operator `MacAddress::operator<` (types.cpp:22). -/
def MacAddress.lt (a b : MacAddress) : Bool := decide (memcmp a.bytes b.bytes 6 < 0)

/-- The struct `HandshakePacket`. -/
structure HandshakePacket where
  ap_mac : MacAddress
  client_mac : MacAddress
  anonce : Bytes
  snonce : Bytes
  mic : Bytes
  eapol_data : Bytes
  essid : Bytes
  message_number : Int
  deriving DecidableEq

/-- The comparison `operator<` of `std::vector<uint8_t>`
(`std::lexicographical_compare` on unsigned bytes). -/
def vectorLt : Bytes → Bytes → Bool
  | [], [] => false
  | [], _ :: _ => true
  | _ :: _, [] => false
  | a :: as, b :: bs => if a < b then true else if b < a then false else vectorLt as bs

/-! ## OpenSSL primitives -/

/-- The OpenSSL primitives the code calls, taken as total functions with the
output sizes of the library: `HMAC(EVP_sha1(), key, data)` (20 bytes),
`HMAC(EVP_md5(), key, data)` (16 bytes) and
`PKCS5_PBKDF2_HMAC(pass, salt, iter, EVP_sha1(), keylen)` (`keylen` bytes). -/
structure Crypto where
  hmacSha1 : Bytes → Bytes → Bytes
  hmacMd5 : Bytes → Bytes → Bytes
  pbkdf2HmacSha1 : Bytes → Bytes → Nat → Nat → Bytes
  hmacSha1_size : ∀ k d, (hmacSha1 k d).length = 20
  hmacMd5_size : ∀ k d, (hmacMd5 k d).length = 16
  pbkdf2_size : ∀ p s i n, (pbkdf2HmacSha1 p s i n).length = n

/-! ## The primitives as published (RFC 1321, RFC 3174, RFC 2104, RFC 2898) -/

/-- Rotation of a 32-bit word to the left. -/
def rotl32 (x n : Nat) : Nat := ((x <<< n) ||| (x >>> (32 - n))) % 4294967296

/-- Bitwise complement of a 32-bit word. -/
def not32 (x : Nat) : Nat := x ^^^ 4294967295

/-- The padding of MD5 and SHA-1 without the length field: the byte 0x80 and
zero bytes up to 56 modulo 64. -/
def padTo56 (msg : Bytes) : Bytes :=
  msg ++ [0x80] ++ List.replicate ((119 - msg.length % 64) % 64) 0

/-- The eight bytes of a 64-bit number, least significant first. -/
def le64 (n : Nat) : Bytes := (List.range 8).map fun i => (n >>> (8 * i)) % 256

/-- The four bytes of a 32-bit word, least significant first. -/
def le32bytes (w : Nat) : Bytes := [w % 256, (w >>> 8) % 256, (w >>> 16) % 256, (w >>> 24) % 256]

/-- The four bytes of a 32-bit word, most significant first. -/
def be32bytes (w : Nat) : Bytes := [(w >>> 24) % 256, (w >>> 16) % 256, (w >>> 8) % 256, w % 256]

/-- Word `i` of a block, little endian. -/
def leWord (b : Bytes) (i : Nat) : Nat :=
  b.getD (4 * i) 0 + 256 * b.getD (4 * i + 1) 0 + 65536 * b.getD (4 * i + 2) 0 +
    16777216 * b.getD (4 * i + 3) 0

/-- Word `i` of a block, big endian. -/
def beWord (b : Bytes) (i : Nat) : Nat :=
  16777216 * b.getD (4 * i) 0 + 65536 * b.getD (4 * i + 1) 0 + 256 * b.getD (4 * i + 2) 0 +
    b.getD (4 * i + 3) 0

/-- The 64-byte blocks of a padded message (`n` of them). -/
def blocks (m : Bytes) : Nat → List Bytes
  | 0 => []
  | n + 1 => m.take 64 :: blocks (m.drop 64) n

/-- The sine table of MD5. -/
def md5K : List Nat :=
  [3614090360, 3905402710, 606105819, 3250441966, 4118548399, 1200080426] ++
  [2821735955, 4249261313, 1770035416, 2336552879, 4294925233, 2304563134] ++
  [1804603682, 4254626195, 2792965006, 1236535329, 4129170786, 3225465664] ++
  [643717713, 3921069994, 3593408605, 38016083, 3634488961, 3889429448] ++
  [568446438, 3275163606, 4107603335, 1163531501, 2850285829, 4243563512] ++
  [1735328473, 2368359562, 4294588738, 2272392833, 1839030562, 4259657740] ++
  [2763975236, 1272893353, 4139469664, 3200236656, 681279174, 3936430074] ++
  [3572445317, 76029189, 3654602809, 3873151461, 530742520, 3299628645] ++
  [4096336452, 1126891415, 2878612391, 4237533241, 1700485571, 2399980690] ++
  [4293915773, 2240044497, 1873313359, 4264355552, 2734768916, 1309151649] ++
  [4149444226, 3174756917, 718787259, 3951481745]

/-- The shift amounts of MD5. -/
def md5S : List Nat :=
  [7, 12, 17, 22, 7, 12, 17, 22, 7, 12, 17, 22, 7, 12, 17, 22] ++
  [5, 9, 14, 20, 5, 9, 14, 20, 5, 9, 14, 20, 5, 9, 14, 20] ++
  [4, 11, 16, 23, 4, 11, 16, 23, 4, 11, 16, 23, 4, 11, 16, 23] ++
  [6, 10, 15, 21, 6, 10, 15, 21, 6, 10, 15, 21, 6, 10, 15, 21]

/-- One step of MD5 on the state `(a, b, c, d)`. -/
def md5Step (blk : Bytes) (st : Nat × Nat × Nat × Nat) (i : Nat) : Nat × Nat × Nat × Nat :=
  let (a, b, c, d) := st
  let f :=
    if i < 16 then (b &&& c) ||| (not32 b &&& d)
    else if i < 32 then (d &&& b) ||| (not32 d &&& c)
    else if i < 48 then b ^^^ c ^^^ d
    else c ^^^ (b ||| not32 d)
  let g :=
    if i < 16 then i
    else if i < 32 then (5 * i + 1) % 16
    else if i < 48 then (3 * i + 5) % 16
    else (7 * i) % 16
  let x := (f + a + md5K.getD i 0 + leWord blk g) % 4294967296
  (d, (b + rotl32 x (md5S.getD i 0)) % 4294967296, b, c)

/-- The compression of one block into the MD5 state. -/
def md5Block (st : Nat × Nat × Nat × Nat) (blk : Bytes) : Nat × Nat × Nat × Nat :=
  let (a, b, c, d) := (List.range 64).foldl (md5Step blk) st
  ((st.1 + a) % 4294967296, (st.2.1 + b) % 4294967296, (st.2.2.1 + c) % 4294967296,
    (st.2.2.2 + d) % 4294967296)

/-- The hash function MD5. -/
def md5 (msg : Bytes) : Bytes :=
  let m := padTo56 msg ++ le64 (8 * msg.length)
  let st :=
    (blocks m (m.length / 64)).foldl md5Block (0x67452301, 0xefcdab89, 0x98badcfe, 0x10325476)
  le32bytes st.1 ++ le32bytes st.2.1 ++ le32bytes st.2.2.1 ++ le32bytes st.2.2.2

/-- The message schedule of SHA-1: the 80 words of a block. -/
def sha1Schedule (blk : Bytes) : List Nat :=
  (List.range 64).foldl
    (fun w i =>
      w ++ [rotl32 (w.getD (i + 13) 0 ^^^ w.getD (i + 8) 0 ^^^ w.getD (i + 2) 0 ^^^ w.getD i 0) 1])
    ((List.range 16).map (beWord blk))

/-- One step of SHA-1 on the state `(a, b, c, d, e)`. -/
def sha1Step (w : List Nat) (st : Nat × Nat × Nat × Nat × Nat) (i : Nat) :
    Nat × Nat × Nat × Nat × Nat :=
  let (a, b, c, d, e) := st
  let f :=
    if i < 20 then (b &&& c) ||| (not32 b &&& d)
    else if i < 40 then b ^^^ c ^^^ d
    else if i < 60 then (b &&& c) ||| (b &&& d) ||| (c &&& d)
    else b ^^^ c ^^^ d
  let k :=
    if i < 20 then 0x5a827999 else if i < 40 then 0x6ed9eba1
    else if i < 60 then 0x8f1bbcdc else 0xca62c1d6
  ((rotl32 a 5 + f + e + k + w.getD i 0) % 4294967296, a, rotl32 b 30, c, d)

/-- The compression of one block into the SHA-1 state. -/
def sha1Block (st : Nat × Nat × Nat × Nat × Nat) (blk : Bytes) : Nat × Nat × Nat × Nat × Nat :=
  let (a, b, c, d, e) := (List.range 80).foldl (sha1Step (sha1Schedule blk)) st
  ((st.1 + a) % 4294967296, (st.2.1 + b) % 4294967296, (st.2.2.1 + c) % 4294967296,
    (st.2.2.2.1 + d) % 4294967296, (st.2.2.2.2 + e) % 4294967296)

/-- The hash function SHA-1. -/
def sha1 (msg : Bytes) : Bytes :=
  let m := padTo56 msg ++ (le64 (8 * msg.length)).reverse
  let st :=
    (blocks m (m.length / 64)).foldl sha1Block
      (0x67452301, 0xefcdab89, 0x98badcfe, 0x10325476, 0xc3d2e1f0)
  be32bytes st.1 ++ be32bytes st.2.1 ++ be32bytes st.2.2.1 ++ be32bytes st.2.2.2.1 ++
    be32bytes st.2.2.2.2

/-- The construction HMAC over a hash function with 64-byte blocks. -/
def hmac (hash : Bytes → Bytes) (key data : Bytes) : Bytes :=
  let k := if key.length > 64 then hash key else key
  let k := k ++ List.replicate (64 - k.length) 0
  hash (k.map (· ^^^ 0x5c) ++ hash (k.map (· ^^^ 0x36) ++ data))

/-- The chain `U_1 xor ... xor U_c` of PBKDF2, from `U_1`. -/
def pbkdf2Chain (pass : Bytes) : Nat → Bytes → Bytes → Bytes
  | 0, _, acc => acc
  | c + 1, u, acc =>
    let u := hmac sha1 pass u
    pbkdf2Chain pass c u (List.zipWith (· ^^^ ·) acc u)

/-- The function PBKDF2 with HMAC-SHA1. -/
def pbkdf2Sha1 (pass salt : Bytes) (iter n : Nat) : Bytes :=
  ((List.range ((n + 19) / 20)).flatMap fun i =>
    let u1 := hmac sha1 pass (salt ++ be32bytes (i + 1))
    pbkdf2Chain pass (iter - 1) u1 u1).take n

/-- The primitives as the library computes them: HMAC-SHA1, HMAC-MD5 and
PBKDF2-HMAC-SHA1. -/
def refCrypto : Crypto where
  hmacSha1 := hmac sha1
  hmacMd5 := hmac md5
  pbkdf2HmacSha1 := pbkdf2Sha1
  hmacSha1_size := by intro k d; simp [hmac, sha1, be32bytes]
  hmacMd5_size := by intro k d; simp [hmac, md5, le32bytes]
  pbkdf2_size := by
    intro p s iter n
    have hh : ∀ k d, (hmac sha1 k d).length = 20 := by
      intro k d; simp [hmac, sha1, be32bytes]
    have hchain : ∀ c u acc, acc.length = 20 → (pbkdf2Chain p c u acc).length = 20 := by
      intro c
      induction c with
      | zero => intro u acc h; simpa [pbkdf2Chain] using h
      | succ c ih =>
        intro u acc h
        simp only [pbkdf2Chain]
        apply ih
        simp [h, hh]
    have hsum : ∀ m, ((List.range m).flatMap fun i =>
        let u1 := hmac sha1 p (s ++ be32bytes (i + 1))
        pbkdf2Chain p (iter - 1) u1 u1).length = 20 * m := by
      intro m
      induction m with
      | zero => simp
      | succ m ihm =>
        rw [List.range_succ, List.flatMap_append, List.length_append, ihm]
        simp [hchain _ _ _ (hh _ _)]
        omega
    unfold pbkdf2Sha1
    rw [List.length_take, hsum]
    omega

/-- A cheap instance of the primitives, for concrete runs that would
otherwise have to go through the 4096 rounds of PBKDF2: every output byte is a
checksum of the inputs. -/
def sumCrypto : Crypto where
  hmacSha1 k d := List.replicate 20 ((k.sum + d.sum + 1) % 256)
  hmacMd5 k d := List.replicate 16 ((k.sum + d.sum) % 256)
  pbkdf2HmacSha1 p s i n := List.replicate n ((p.sum + s.sum + i) % 256)
  hmacSha1_size := by intros; simp
  hmacMd5_size := by intros; simp
  pbkdf2_size := by intros; simp

/-! ## common/crypto_utils.cpp -/

namespace CryptoUtils

/-- The function `CryptoUtils::hmacSha1`: the `result_len` bytes `HMAC` wrote. -/
def hmacSha1 (C : Crypto) (key data : Bytes) : Bytes := C.hmacSha1 key data

/-- The function `CryptoUtils::pbkdf2`: a 32-byte vector filled by `PKCS5_PBKDF2_HMAC`. -/
def pbkdf2 (C : Crypto) (passphrase ssid : Bytes) (iterations : Nat) : Bytes :=
  C.pbkdf2HmacSha1 passphrase ssid iterations 32

/-- The function `CryptoUtils::generatePMK`. -/
def generatePMK (C : Crypto) (passphrase ssid : Bytes) : Bytes :=
  pbkdf2 C passphrase ssid 4096

/-- The loop of `CryptoUtils::prf` (crypto_utils.cpp:214-223): `hmac_input` is
the input without the counter byte, `counter` the `uint8_t` counter. -/
def prfLoop (C : Crypto) (key hmac_input : Bytes) (output_length : Nat) :
    Nat → Nat → Bytes → Exec Bytes
  | 0, _, _ => .error .outOfFuel
  | fuel + 1, counter, result =>
    if result.length < output_length then
      let hash := hmacSha1 C key (hmac_input ++ [counter])
      let bytes_to_copy := min hash.length (output_length - result.length)
      prfLoop C key hmac_input output_length fuel ((counter + 1) % 256)
        (result ++ hash.take bytes_to_copy)
    else
      .ok result

/-- The method `std::vector::resize(n)` (new elements are zero). -/
def resize (v : Bytes) (n : Nat) : Bytes :=
  v.take n ++ List.replicate (n - v.length) 0

/-- The function `CryptoUtils::prf`. -/
def prf (C : Crypto) (key label data : Bytes) (output_length : Nat) : Exec Bytes := do
  let hmac_input := label ++ [0x00] ++ data
  let result ← prfLoop C key hmac_input output_length (output_length + 1) 0 []
  pure (resize result output_length)

/-- The PRF input that `generatePTK` builds (crypto_utils.cpp:81-99). -/
def prfData (ap_mac client_mac : MacAddress) (anonce snonce : Bytes) : Bytes :=
  let macs :=
    if ap_mac.lt client_mac then ap_mac.bytes ++ client_mac.bytes
    else client_mac.bytes ++ ap_mac.bytes
  let nonces :=
    if vectorLt anonce snonce then anonce ++ snonce
    else snonce ++ anonce
  macs ++ nonces

/-- The function `CryptoUtils::generatePTK`. -/
def generatePTK (C : Crypto) (pmk : Bytes) (ap_mac client_mac : MacAddress)
    (anonce snonce : Bytes) : Exec Bytes :=
  prf C pmk (ascii "Pairwise key expansion") (prfData ap_mac client_mac anonce snonce) 64

/-- The MIC zeroing of `calculateMIC` (crypto_utils.cpp:121-126):
`std::fill(data.begin() + 77, data.begin() + 93, 0)` when the copy holds at
least 93 bytes. -/
def zeroMicField (eapol_data : Bytes) : Bytes :=
  if eapol_data.length ≥ 93 then
    eapol_data.take 77 ++ List.replicate 16 0 ++ eapol_data.drop 93
  else
    eapol_data

/-- The function `CryptoUtils::calculateMIC`: the 16 bytes of the local array
`mic` after `HMAC(EVP_md5(), ...)` wrote into it. -/
def calculateMIC (C : Crypto) (kck eapol_data : Bytes) : Bytes :=
  let data := zeroMicField eapol_data
  (C.hmacMd5 kck data).take 16

/-- The three-iterator `std::equal(first1, last1, first2)`: walks the first
range and reads the second one alongside, stopping at the first mismatch;
reading past the end of the second range is out of bounds. -/
def stdEqual : Bytes → Bytes → Exec Bool
  | [], _ => .ok true
  | _ :: _, [] => .error .outOfBounds
  | a :: as, b :: bs => if a = b then stdEqual as bs else .ok false

/-- The function `CryptoUtils::verifyMIC`. -/
def verifyMIC (C : Crypto) (handshake : HandshakePacket) (ptk : Bytes) : Exec Bool :=
  if ptk.length < 16 then .ok false
  else
    let kck := ptk.take 16
    let calculated_mic := calculateMIC C kck handshake.eapol_data
    stdEqual calculated_mic handshake.mic

end CryptoUtils

/-! ## common/packet_parser.cpp -/

/-- The enum `EncryptionType`. -/
inductive EncryptionType where
  | OPEN | WEP | WPA | WPA2 | WPA3 | UNKNOWN
  deriving DecidableEq, Repr

/-- The struct `WifiNetwork` (the clock field `last_seen` is left out). -/
structure WifiNetwork where
  bssid : MacAddress
  essid : Bytes
  channel : Int
  signal_strength : Int
  encryption : Bytes
  packets_captured : Nat
  has_handshake : Bool
  clients : List MacAddress
  deriving DecidableEq

/-- Read of a 6-byte address at offset `off` (`MacAddress(const uint8_t*)`). -/
def rdMac (p : Bytes) (off : Nat) : Exec MacAddress :=
  if h : off + 6 ≤ p.length then
    .ok ⟨(p.drop off).take 6, by simp; omega⟩
  else .error .outOfBounds

/-- A chain `p[off] == v0 && p[off+1] == v1 && ...`: bytes are read left to
right and the chain stops at the first mismatch. -/
def rdMatch (p : Bytes) : Nat → List Nat → Exec Bool
  | _, [] => .ok true
  | off, v :: vs => do
    let b ← rd p off
    if b = v then rdMatch p (off + 1) vs else pure false

namespace PacketParser

/-- The size `sizeof(IEEE80211Header)` of the packed header:
frame control (2), duration (2), three addresses (6 each), sequence control (2). -/
def sizeofIEEE80211Header : Nat := 24

/-- The size `sizeof(BeaconFrame)`: header, timestamp (8), interval (2), capabilities (2). -/
def sizeofBeaconFrame : Nat := 36

/-- The function `PacketParser::isDataFrame`; `none` is the null pointer. -/
def isDataFrame (packet : Option Bytes) : Exec Bool :=
  match packet with
  | none => .ok false
  | some p => do
    let b0 ← rd p 0
    pure (b0 &&& 0x0c == 0x08)

/-- The function `PacketParser::isEAPOLFrame`; `none` is the null pointer. -/
def isEAPOLFrame (packet : Option Bytes) : Exec Bool :=
  match packet with
  | none => .ok false
  | some p => do
    let isData ← isDataFrame (some p)
    if !isData then pure false
    else
      let llc_start := sizeofIEEE80211Header
      rdMatch p (llc_start + 6) [0x88, 0x8e]

/-- The message-number assignment of `parseEAPOLFrame` (packet_parser.cpp:103-111);
the number is left as it was when no branch applies. -/
def classifyMessage (ack install mic : Bool) (old : Int) : Int :=
  if ack && !install && !mic then 1
  else if !ack && !install && mic then 2
  else if ack && install && mic then 3
  else if !ack && !install && mic then 4
  else old

/-- The function `PacketParser::parseEAPOLFrame`; the result pairs the returned
flag with the state of the out-parameter `handshake`. -/
def parseEAPOLFrame (packet : Bytes) (length : Int) (handshake : HandshakePacket) :
    Exec (Bool × HandshakePacket) :=
  if toSizeT length < sizeofIEEE80211Header + 8 then .ok (false, handshake)
  else do
    let eapol_start := sizeofIEEE80211Header
    let e6 ← rd packet (eapol_start + 6)
    if e6 ≠ 0x88 then pure (false, handshake)
    else do
      let e7 ← rd packet (eapol_start + 7)
      if e7 ≠ 0x8e then pure (false, handshake)
      else do
        let eapol_packet := eapol_start + 8
        let ty ← rd packet (eapol_packet + 1)
        if ty ≠ 0x03 then pure (false, handshake)
        else do
          let ap ← rdMac packet 4
          let cl ← rdMac packet 10
          let key_info := eapol_packet + 4
          let k1 ← rd packet (key_info + 1)
          let k0 ← rd packet key_info
          let key_info_flags := ((k1 <<< 8) ||| k0) % 65536
          let install := key_info_flags &&& 0x0040 != 0
          let ack := key_info_flags &&& 0x0080 != 0
          let mic := key_info_flags &&& 0x0100 != 0
          let message_number := classifyMessage ack install mic handshake.message_number
          let anonce ←
            (if message_number = 1 ∨ message_number = 3 then rdN packet (key_info + 13) 32
            else pure handshake.anonce)
          let snonce ←
            (if message_number = 2 ∨ message_number = 4 then rdN packet (key_info + 13) 32
            else pure handshake.snonce)
          let micBytes ←
            (if mic then rdN packet (key_info + 77) 16 else pure handshake.mic)
          let l2 ← rd packet (eapol_packet + 2)
          let l3 ← rd packet (eapol_packet + 3)
          let eapol_length := (l2 <<< 8) ||| l3
          let eapol_data ← rdN packet eapol_packet (eapol_length + 4)
          pure (true,
            { handshake with
              ap_mac := ap, client_mac := cl, message_number := message_number,
              anonce := anonce, snonce := snonce, mic := micBytes,
              eapol_data := eapol_data })

/-- The loop of `PacketParser::findInformationElement`; positions are offsets
into the frame buffer and `none` is the null pointer. -/
def findLoop (packet : Bytes) (ie_end : Int) (element_id : Nat) :
    Nat → Nat → Exec (Option Nat)
  | 0, _ => .error .outOfFuel
  | fuel + 1, current =>
    if (current : Int) + 2 ≤ ie_end then do
      let id ← rd packet current
      let len ← rd packet (current + 1)
      if (current : Int) + 2 + len > ie_end then pure none
      else if id = element_id then pure (some current)
      else findLoop packet ie_end element_id fuel (current + 2 + len)
    else pure none

/-- The function `PacketParser::findInformationElement`, on the area that
starts at offset `ie_data` of the frame buffer. -/
def findInformationElement (packet : Bytes) (ie_data : Nat) (ie_length : Int)
    (element_id : Nat) : Exec (Option Nat) :=
  findLoop packet ((ie_data : Int) + ie_length) element_id (ie_length.toNat + 1) ie_data

/-- The function `PacketParser::extractSSID`. -/
def extractSSID (packet : Bytes) (ie_data : Nat) (ie_length : Int) : Exec Bytes := do
  let ssid_ie ← findInformationElement packet ie_data ie_length 0
  match ssid_ie with
  | none => pure (ascii "")
  | some q => do
    let ssid_len ← rd packet (q + 1)
    if ssid_len = 0 then pure (ascii "<hidden>")
    else rdN packet (q + 2) ssid_len

/-- The function `PacketParser::extractChannel`. -/
def extractChannel (packet : Bytes) (ie_data : Nat) (ie_length : Int) : Exec Int := do
  let channel_ie ← findInformationElement packet ie_data ie_length 3
  match channel_ie with
  | none => pure 0
  | some q => do
    let len ← rd packet (q + 1)
    if len ≠ 1 then pure 0
    else do
      let c ← rd packet (q + 2)
      pure (c : Int)

/-- The AKM suite loop of `parseRSNInformation` (packet_parser.cpp:288-295):
the flag `is_wpa3` after `count` rounds starting at offset `current`. -/
def akmLoop (packet : Bytes) : Nat → Nat → Exec Bool
  | 0, _ => .ok false
  | count + 1, current => do
    let hit ← rdMatch packet current [0x00, 0x0F, 0xAC, 0x08]
    if hit then pure true else akmLoop packet count (current + 4)

/-- The function `PacketParser::parseRSNInformation`; `none` is the result
`false` (the out-parameter is not written), `some t` the result `true` with the
out-parameter set to `t`. -/
def parseRSNInformation (packet : Bytes) (rsn_data : Nat) (rsn_length : Int) :
    Exec (Option EncryptionType) :=
  if rsn_length < 8 then .ok none
  else do
    let v0 ← rd packet rsn_data
    if v0 ≠ 0x01 then pure none
    else do
      let v1 ← rd packet (rsn_data + 1)
      if v1 ≠ 0x00 then pure none
      else
        let current := rsn_data + 2
        let remaining_length := rsn_length - 2
        let current := current + 4
        let remaining_length := remaining_length - 4
        if remaining_length < 2 then pure none
        else do
          let p1 ← rd packet (current + 1)
          let p0 ← rd packet current
          let pairwise_count := ((p1 <<< 8) ||| p0) % 65536
          let current := current + 2
          let remaining_length := remaining_length - 2
          if remaining_length < (pairwise_count : Int) * 4 then pure none
          else
            let current := current + pairwise_count * 4
            let remaining_length := remaining_length - (pairwise_count : Int) * 4
            if remaining_length < 2 then pure none
            else do
              let a1 ← rd packet (current + 1)
              let a0 ← rd packet current
              let akm_count := ((a1 <<< 8) ||| a0) % 65536
              let current := current + 2
              let remaining_length := remaining_length - 2
              if remaining_length < (akm_count : Int) * 4 then pure none
              else do
                let is_wpa3 ← akmLoop packet akm_count current
                if is_wpa3 then pure (some EncryptionType.WPA3)
                else pure (some EncryptionType.WPA2)

/-- The function `PacketParser::parseWPAInformation` (it reads no byte). -/
def parseWPAInformation (wpa_length : Int) : Option EncryptionType :=
  if wpa_length < 2 then none else some EncryptionType.WPA

/-- The vendor-element part of `extractEncryption` (packet_parser.cpp:175-187). -/
def extractEncryptionWPA (packet : Bytes) (ie_data : Nat) (ie_length : Int) :
    Exec EncryptionType := do
  let wpa_ie ← findInformationElement packet ie_data ie_length 221
  match wpa_ie with
  | none => pure EncryptionType.OPEN
  | some q => do
    let len ← rd packet (q + 1)
    if len ≥ 4 then do
      let oui ← rdMatch packet (q + 2) [0x00, 0x50, 0xf2, 0x01]
      if oui then
        match parseWPAInformation ((len : Int) - 4) with
        | some t => pure t
        | none => pure EncryptionType.OPEN
      else pure EncryptionType.OPEN
    else pure EncryptionType.OPEN

/-- The function `PacketParser::extractEncryption`. -/
def extractEncryption (packet : Bytes) (ie_data : Nat) (ie_length : Int) :
    Exec EncryptionType := do
  let rsn_ie ← findInformationElement packet ie_data ie_length 48
  match rsn_ie with
  | none => extractEncryptionWPA packet ie_data ie_length
  | some q => do
    let len ← rd packet (q + 1)
    let r ← parseRSNInformation packet (q + 2) len
    match r with
    | some t => pure t
    | none => extractEncryptionWPA packet ie_data ie_length

/-- The switch of `parseBeaconFrame` that names the encryption. -/
def encryptionName : EncryptionType → Bytes
  | .OPEN => ascii "Open"
  | .WEP => ascii "WEP"
  | .WPA => ascii "WPA"
  | .WPA2 => ascii "WPA2"
  | .WPA3 => ascii "WPA3"
  | .UNKNOWN => ascii "Unknown"

/-- The function `PacketParser::parseBeaconFrame`; the result pairs the returned
flag with the state of the out-parameter `network`. -/
def parseBeaconFrame (packet : Bytes) (length : Int) (network : WifiNetwork) :
    Exec (Bool × WifiNetwork) :=
  if toSizeT length < sizeofBeaconFrame then .ok (false, network)
  else do
    let bssid ← rdMac packet 16
    let ie_start := sizeofBeaconFrame
    let ie_length := toInt32 ((toSizeT length : Int) - sizeofBeaconFrame)
    let essid ← extractSSID packet ie_start ie_length
    let channel ← extractChannel packet ie_start ie_length
    let enc_type ← extractEncryption packet ie_start ie_length
    pure (true,
      { network with
        bssid := bssid, essid := essid, channel := channel,
        encryption := encryptionName enc_type })

end PacketParser

/-! ## airlevi-crack/wpa_crack.cpp -/

/-- The struct `Config`, with the fields the cracking code reads. -/
structure Config where
  output_file : Bytes
  wordlist_file : Bytes
  target_bssid : Bytes
  target_essid : Bytes
  verbose : Bool
  deriving DecidableEq

/-- The files behind a configuration: `capture` is the content of
`config_.output_file` and `wordlist` the successive results of `std::getline`
on `config_.wordlist_file`; `none` is a file that cannot be opened. -/
structure Env where
  capture : Option Bytes
  wordlist : Option (List Bytes)

/-- One lower-case hexadecimal digit, as a character code. -/
def hexDigit (n : Nat) : Nat := if n < 10 then 48 + n else 87 + n

/-- The function `MacAddress::toString`: `aa:bb:cc:dd:ee:ff`. -/
def MacAddress.toString (m : MacAddress) : Bytes :=
  List.intercalate [58] (m.bytes.map fun b => [hexDigit (b / 16), hexDigit (b % 16)])

/-- A default-initialised `HandshakePacket handshake;`: empty containers, zero
addresses, and a message number that is whatever the storage held. -/
def HandshakePacket.fresh (junk : Int) : HandshakePacket where
  ap_mac := MacAddress.zero
  client_mac := MacAddress.zero
  anonce := []
  snonce := []
  mic := []
  eapol_data := []
  essid := []
  message_number := junk

/-- The pointer `std::vector::data()`: null for an empty vector (as in
libstdc++), else the start of the storage. -/
def vectorData (v : Bytes) : Option Bytes := if v.isEmpty then none else some v

/-- A little-endian `uint32_t` made of the first four bytes of `b`. -/
def le32 (b : Bytes) : Nat :=
  b.getD 0 0 + 256 * b.getD 1 0 + 65536 * b.getD 2 0 + 16777216 * b.getD 3 0

/-- The class `WPACrack`: its data members. -/
structure WPACrack where
  config_ : Config
  handshakes_ : List HandshakePacket
  pmkids_ : List Bytes
  deriving DecidableEq

namespace WPACrack

/-- The constructor `WPACrack::WPACrack(config)`. -/
def new (config : Config) : WPACrack := ⟨config, [], []⟩

/-- The record loop of `WPACrack::loadCaptureFile` (wpa_crack.cpp:168-192) on
the unread rest of the file; `k` counts the records and `junk k` is the
indeterminate message number of the `k`-th local `handshake`. -/
def loadLoop (junk : Nat → Int) :
    Nat → Nat → Bytes → List HandshakePacket → Exec (List HandshakePacket)
  | 0, _, _, _ => .error .outOfFuel
  | fuel + 1, k, rest, handshakes =>
    if rest.length < 16 then .ok handshakes
    else
      let caplen := le32 (rest.drop 8)
      let body := rest.drop 16
      if body.length < caplen then .ok handshakes
      else
        let packet := body.take caplen
        do
          let isEapol ← PacketParser.isEAPOLFrame (vectorData packet)
          let handshakes ←
            (if isEapol then do
              let r ← PacketParser.parseEAPOLFrame packet (toInt32 caplen)
                (HandshakePacket.fresh (junk k))
              pure (if r.1 then handshakes ++ [r.2] else handshakes)
            else pure handshakes)
          loadLoop junk fuel (k + 1) (body.drop caplen) handshakes

/-- The function `WPACrack::loadCaptureFile`. -/
def loadCaptureFile (self : WPACrack) (env : Env) (junk : Nat → Int) :
    Exec (Bool × WPACrack) :=
  match env.capture with
  | none => .ok (false, self)
  | some file => do
    let hs ← loadLoop junk (file.length + 1) 0 (file.drop 24) self.handshakes_
    pure (!hs.isEmpty, { self with handshakes_ := hs })

/-- The function `WPACrack::verifyHandshakeIntegrity`. -/
def verifyHandshakeIntegrity (handshake : HandshakePacket) : Bool :=
  if handshake.anonce.length ≠ 32 ∨ handshake.snonce.length ≠ 32 then false
  else if handshake.mic.length ≠ 16 then false
  else if handshake.eapol_data.length < 95 then false
  else true

/-- The function `WPACrack::validateHandshake`. -/
def validateHandshake (handshake : HandshakePacket) : Bool :=
  if handshake.essid.isEmpty ∨ handshake.anonce.isEmpty ∨ handshake.snonce.isEmpty then false
  else if handshake.mic.isEmpty ∨ handshake.eapol_data.isEmpty then false
  else if handshake.message_number < 1 ∨ handshake.message_number > 4 then false
  else verifyHandshakeIntegrity handshake

/-- The function `WPACrack::isCompleteHandshake`. -/
def isCompleteHandshake (packets : List HandshakePacket) : Bool :=
  if packets.length < 2 then false
  else
    let has_msg2 := packets.any fun pkt => pkt.message_number = 2
    let has_msg3 := packets.any fun pkt => pkt.message_number = 3
    has_msg2 && has_msg3

/-- The predicate of the first `remove_if` of `extractHandshakes`. -/
def notTargeted (config : Config) (hs : HandshakePacket) : Bool :=
  if !config.target_bssid.isEmpty ∧ hs.ap_mac.toString ≠ config.target_bssid then true
  else if !config.target_essid.isEmpty ∧ hs.essid ≠ config.target_essid then true
  else false

/-- The function `WPACrack::extractHandshakes`. -/
def extractHandshakes (self : WPACrack) : Bool × WPACrack :=
  if self.handshakes_.isEmpty then (false, self)
  else
    let hs1 :=
      if !self.config_.target_bssid.isEmpty ∨ !self.config_.target_essid.isEmpty then
        self.handshakes_.filter fun hs => !notTargeted self.config_ hs
      else self.handshakes_
    let hs2 := hs1.filter fun hs => validateHandshake hs
    (!hs2.isEmpty, { self with handshakes_ := hs2 })

/-- The function `WPACrack::extractPMKIDs` (a placeholder in the source). -/
def extractPMKIDs (self : WPACrack) : Bool × WPACrack := (false, self)

/-- The function `WPACrack::testPassword`. -/
def testPassword (C : Crypto) (password : Bytes) (handshake : HandshakePacket) : Exec Bool :=
  if password.length < 8 ∨ password.length > 63 then .ok false
  else do
    let pmk := CryptoUtils.generatePMK C password handshake.essid
    let ptk ← CryptoUtils.generatePTK C pmk handshake.ap_mac handshake.client_mac
      handshake.anonce handshake.snonce
    CryptoUtils.verifyMIC C handshake ptk

/-- The function `WPACrack::testPasswordPMKID` (a placeholder in the source). -/
def testPasswordPMKID (_password : Bytes) (_pmkid : Bytes) : Bool := false

/-- Insertion into the `std::map<MacAddress, std::vector<HandshakePacket>>` of
`findBestHandshake`, kept as a list sorted by `MacAddress::operator<`. -/
def groupInsert (hs : HandshakePacket) :
    List (MacAddress × List HandshakePacket) → List (MacAddress × List HandshakePacket)
  | [] => [(hs.ap_mac, [hs])]
  | (k, v) :: rest =>
    if hs.ap_mac.lt k then (hs.ap_mac, [hs]) :: (k, v) :: rest
    else if k.lt hs.ap_mac then (k, v) :: groupInsert hs rest
    else (k, v ++ [hs]) :: rest

/-- The scoring of one packet in `findBestHandshake` (wpa_crack.cpp:284-290). -/
def score (pkt : HandshakePacket) : Int :=
  (if !pkt.anonce.isEmpty then 10 else 0) + (if !pkt.snonce.isEmpty then 10 else 0) +
    (if !pkt.mic.isEmpty then 20 else 0) + (if !pkt.essid.isEmpty then 5 else 0)

/-- The nonce fill-in loop of `findBestHandshake` (wpa_crack.cpp:297-304). -/
def fillNonces (best : HandshakePacket) : List HandshakePacket → HandshakePacket
  | [] => best
  | other :: rest =>
    let best :=
      if best.anonce.isEmpty ∧ !other.anonce.isEmpty then { best with anonce := other.anonce }
      else best
    let best :=
      if best.snonce.isEmpty ∧ !other.snonce.isEmpty then { best with snonce := other.snonce }
      else best
    fillNonces best rest

/-- The inner loop of `findBestHandshake` over the packets of one AP. -/
def scanPackets (packets : List HandshakePacket) :
    List HandshakePacket → HandshakePacket × Int → HandshakePacket × Int
  | [], acc => acc
  | pkt :: rest, (best, best_score) =>
    if pkt.message_number = 2 ∨ pkt.message_number = 3 then
      if score pkt > best_score then
        scanPackets packets rest (fillNonces pkt packets, score pkt)
      else scanPackets packets rest (best, best_score)
    else scanPackets packets rest (best, best_score)

/-- The function `WPACrack::findBestHandshake`; `junk` is the indeterminate
message number of the default-initialised local `best`. -/
def findBestHandshake (self : WPACrack) (junk : Int) : HandshakePacket :=
  if self.handshakes_.isEmpty then HandshakePacket.fresh 0
  else
    let grouped := self.handshakes_.foldl (fun g hs => groupInsert hs g) []
    (grouped.foldl
      (fun acc pair => if isCompleteHandshake pair.2 then scanPackets pair.2 pair.2 acc else acc)
      (HandshakePacket.fresh junk, 0)).1

/-- The wordlist loop of `handshakeAttack` (wpa_crack.cpp:64-76). -/
def handshakeLoop (C : Crypto) (best : HandshakePacket) :
    List Bytes → Nat → Exec (Option Bytes)
  | [], _ => .ok none
  | password :: rest, attempts =>
    if attempts < 10000000 then do
      let hit ← testPassword C password best
      if hit then pure (some password) else handshakeLoop C best rest (attempts + 1)
    else pure none

/-- The function `WPACrack::handshakeAttack`; the result pairs the returned flag
with the state of the out-parameter `found_password`. -/
def handshakeAttack (C : Crypto) (self : WPACrack) (env : Env) (junk : Int)
    (found_password : Bytes) : Exec (Bool × Bytes) :=
  let best_handshake := findBestHandshake self junk
  if best_handshake.essid.isEmpty then .ok (false, found_password)
  else if !self.config_.wordlist_file.isEmpty then
    match env.wordlist with
    | none => .ok (false, found_password)
    | some lines => do
      let r ← handshakeLoop C best_handshake lines 0
      match r with
      | some password => pure (true, password)
      | none => pure (false, found_password)
  else .ok (false, found_password)

/-- The wordlist loop of `pmkidAttack` (wpa_crack.cpp:99-113). -/
def pmkidLoop (pmkids : List Bytes) : List Bytes → Nat → Option Bytes
  | [], _ => none
  | password :: rest, attempts =>
    if attempts < 10000000 then
      if pmkids.any fun pmkid => testPasswordPMKID password pmkid then some password
      else pmkidLoop pmkids rest (attempts + 1)
    else none

/-- The function `WPACrack::pmkidAttack`. -/
def pmkidAttack (self : WPACrack) (env : Env) (found_password : Bytes) : Bool × Bytes :=
  if self.pmkids_.isEmpty then (false, found_password)
  else if !self.config_.wordlist_file.isEmpty then
    match env.wordlist with
    | none => (false, found_password)
    | some lines =>
      match pmkidLoop self.pmkids_ lines 0 with
      | some password => (true, password)
      | none => (false, found_password)
  else (false, found_password)

/-- The function `WPACrack::crack`; the result pairs the returned flag with the
state of the out-parameter `found_password`.  `junk` supplies the
indeterminate message numbers of default-initialised locals. -/
def crack (C : Crypto) (self : WPACrack) (env : Env) (junk : Nat → Int)
    (found_password : Bytes) : Exec (Bool × Bytes) := do
  let (loaded, self) ← loadCaptureFile self env junk
  if !loaded then pure (false, found_password)
  else
    let (hasHs, self) := extractHandshakes self
    let (hasPmkid, self) := if !hasHs then extractPMKIDs self else (false, self)
    if !hasHs && !hasPmkid then pure (false, found_password)
    else
      let viaPmkid :=
        if !self.pmkids_.isEmpty then pmkidAttack self env found_password
        else (false, found_password)
      if viaPmkid.1 then pure (true, viaPmkid.2)
      else if !self.handshakes_.isEmpty then do
        let r ← handshakeAttack C self env (junk 0) viaPmkid.2
        if r.1 then pure (true, r.2) else pure (false, r.2)
      else pure (false, viaPmkid.2)

end WPACrack

/-! ## airlevi-crack/dictionary_attack.cpp -/

/-- The class `DictionaryAttack`: its data members (threads and mutexes apart). -/
structure DictionaryAttack where
  config_ : Config
  num_threads_ : Nat
  running_ : Bool
  found_ : Bool
  attempts_ : Nat
  result_password_ : Bytes
  password_queue_ : List Bytes

namespace DictionaryAttack

/-- The function `DictionaryAttack::testPasswordWorker` (dictionary_attack.cpp:143-155):
it builds a local cracker and returns `false`. -/
def testPasswordWorker (_self : DictionaryAttack) (_password : Bytes) : Bool := false

/-- The function `DictionaryAttack::addPasswordToQueue`. -/
def addPasswordToQueue (self : DictionaryAttack) (password : Bytes) : DictionaryAttack :=
  { self with password_queue_ := self.password_queue_ ++ [password] }

/-- The function `DictionaryAttack::getPasswordFromQueue`: `none` is the result
`false`, else the dequeued password. -/
def getPasswordFromQueue (self : DictionaryAttack) : Option Bytes × DictionaryAttack :=
  match self.password_queue_ with
  | [] => (none, self)
  | password :: rest => (some password, { self with password_queue_ := rest })

/-- Where one worker thread stands in `workerThread`. -/
inductive Worker where
  | atLoopHead
  | testing (password : Bytes)
  | finished
  deriving DecidableEq

/-- Where the calling thread stands in `loadPasswords`. -/
inductive Loader where
  | notStarted
  | reading (rest : List Bytes)
  | finished
  deriving DecidableEq

/-- The characters `" \t\r\n"` that `loadPasswords` trims. -/
def isTrimmed (c : Nat) : Bool := c == 32 || c == 9 || c == 13 || c == 10

/-- The trimming of `loadPasswords` (dictionary_attack.cpp:123-124). -/
def trim (password : Bytes) : Bytes :=
  ((password.dropWhile isTrimmed).reverse.dropWhile isTrimmed).reverse

/-- One step of a worker thread (dictionary_attack.cpp:83-101): from the loop
head, the loop condition with the dequeue; from `testing`, the test, the
guarded record under `result_mutex_`, or the attempt count. -/
def workerStep (self : DictionaryAttack) : Worker → Worker × DictionaryAttack
  | .atLoopHead =>
    if self.running_ && !self.found_ then
      match getPasswordFromQueue self with
      | (none, self) => (.finished, self)
      | (some password, self) => (.testing password, self)
    else (.finished, self)
  | .testing password =>
    if testPasswordWorker self password then
      if !self.found_ then
        (.finished, { self with found_ := true, result_password_ := password })
      else (.finished, self)
    else (.atLoopHead, { self with attempts_ := self.attempts_ + 1 })
  | .finished => (.finished, self)

/-- One step of `loadPasswords` on the calling thread (dictionary_attack.cpp:104-141):
the two opening checks, then one round of the `getline` loop. -/
def loaderStep (self : DictionaryAttack) (env : Env) : Loader → Loader × DictionaryAttack
  | .notStarted =>
    if self.config_.wordlist_file.isEmpty then (.finished, { self with running_ := false })
    else
      match env.wordlist with
      | none => (.finished, { self with running_ := false })
      | some lines => (.reading lines, self)
  | .reading [] => (.finished, self)
  | .reading (line :: rest) =>
    if !self.running_ then (.finished, self)
    else
      let password := trim line
      if password.isEmpty || password.head? == some 35 then (.reading rest, self)
      else if password.length ≥ 8 ∧ password.length ≤ 63 then
        (.reading rest, addPasswordToQueue self password)
      else (.reading rest, self)
  | .finished => (.finished, self)

/-- The threads of one `crack` call together with the shared object. -/
structure Run where
  self : DictionaryAttack
  workers : List Worker
  loader : Loader

/-- A scheduling decision: the calling thread or worker `i` moves next. -/
inductive Event where
  | load
  | work (i : Nat)
  deriving DecidableEq

/-- The effect of one scheduling decision. -/
def step (env : Env) (r : Run) : Event → Run
  | .load =>
    let (l, s) := loaderStep r.self env r.loader
    { r with self := s, loader := l }
  | .work i =>
    match r.workers.get? i with
    | none => r
    | some w =>
      let (w, s) := workerStep r.self w
      { r with self := s, workers := r.workers.set i w }

/-- The function `DictionaryAttack::crack` under the interleaving `sched` of its
threads; the result pairs the returned flag with the state of the
out-parameter `found_password`. -/
def crack (C : Crypto) (self : DictionaryAttack) (env : Env) (junk : Nat → Int)
    (sched : List Event) (found_password : Bytes) : Exec (Bool × Bytes) := do
  let _ ← WPACrack.crack C (WPACrack.new self.config_) env junk []
  let self := { self with running_ := true, found_ := false, attempts_ := 0 }
  let start : Run :=
    { self := self, workers := List.replicate self.num_threads_ Worker.atLoopHead,
      loader := Loader.notStarted }
  let final := sched.foldl (step env) start
  if final.self.found_ then pure (true, final.self.result_password_)
  else pure (false, found_password)

end DictionaryAttack

/-! ## airlevi-pmkid/pmkid_attack.cpp -/

/-- Modelled from the spec: the record type `PMKIDResult` that
`pmkid_attack.cpp` uses is not declared under `src/`; its fields are those of
the spec's PMKIDRecord (AP address, client address, network name, 16-byte
PMKID) and the `passphrase` slot the cracking loop fills. -/
structure PMKIDResult where
  bssid : MacAddress
  client_mac : MacAddress
  ssid : Bytes
  pmkid : Bytes
  passphrase : Bytes

namespace PMKIDAttack

/-- The local `dummy_client` of `verifyPMKID`, the address written
`"02:00:00:00:00:01"` (`MacAddress::fromString` is not under `src/`). -/
def dummy_client : MacAddress := ⟨[0x02, 0x00, 0x00, 0x00, 0x00, 0x01], rfl⟩

/-- The function `PMKIDAttack::verifyPMKID` (pmkid_attack.cpp:458-486); the
library calls are taken to succeed, and `memcmp` over 16 bytes of a shorter
stored PMKID is a read out of bounds. -/
def verifyPMKID (C : Crypto) (result : PMKIDResult) (password : Bytes) : Exec Bool :=
  let pmk := C.pbkdf2HmacSha1 password result.ssid 4096 32
  let pmkid_data := ascii "PMK Name" ++ result.bssid.bytes ++ dummy_client.bytes
  let calculated_pmkid := C.hmacSha1 pmk pmkid_data
  if result.pmkid.length < 16 then .error .outOfBounds
  else .ok (memcmp calculated_pmkid result.pmkid 16 == 0)

end PMKIDAttack

/-- Spec wording: the PMKID of a master key and an address pair, the first 16
bytes of HMAC-SHA1 keyed with the master key over `"PMK Name"`, the AP address
and the client address. -/
def specPMKID (C : Crypto) (masterKey : Bytes) (ap client : MacAddress) : Bytes :=
  (C.hmacSha1 masterKey (ascii "PMK Name" ++ ap.bytes ++ client.bytes)).take 16

/-- Spec wording: byte-wise unsigned lexicographic order on byte strings. -/
def LexBefore (a b : Bytes) : Prop := List.Lex (fun x y : Nat => x < y) a b

instance (a b : Bytes) : Decidable (LexBefore a b) := by
  unfold LexBefore; infer_instance

/-- Spec wording: the lexicographically smaller of two byte strings. -/
def lexSmaller (a b : Bytes) : Bytes := if LexBefore a b then a else b

/-- Spec wording: the lexicographically larger of two byte strings. -/
def lexLarger (a b : Bytes) : Bytes := if LexBefore a b then b else a

/-- Spec wording: the data `D` of the session-key derivation. -/
def specPrfData (ap client aNonce sNonce : Bytes) : Bytes :=
  lexSmaller ap client ++ lexLarger ap client ++
    (lexSmaller aNonce sNonce ++ lexLarger aNonce sNonce)

/-- Spec wording: the first `n` blocks of the counter-mode expansion
`HMAC-SHA1(key, L ‖ 0x00 ‖ D ‖ 0x00) ‖ HMAC-SHA1(key, L ‖ 0x00 ‖ D ‖ 0x01) ‖ ...`. -/
def specPrfStream (C : Crypto) (key label data : Bytes) (n : Nat) : Bytes :=
  (List.range n).flatMap fun i => C.hmacSha1 key (label ++ [0x00] ++ data ++ [i])

/-- Flip of bit `j` of byte `i` of a byte string. -/
def flipBit (m : Bytes) (i j : Nat) : Bytes := m.set i (m.getD i 0 ^^^ 2 ^ j)

/-- Spec wording: the key-descriptor version an EAPOL-Key payload declares,
the low three bits of its Key Information field (payload bytes 5-6, big
endian, so the low-order byte is byte 6).  No function of the source reads it. -/
def declaredKeyDescriptorVersion (eapol_data : Bytes) : Nat := eapol_data.getD 6 0 % 8

/-- A capture file (pcap, link type 802.11) with the four EAPOL-Key frames of one WPA2
handshake of network "TestNet" (AP 00:11:22:33:44:55, client 66:77:88:99:aa:bb,
passphrase "password123"), the MICs of messages 2 to 4 being the genuine ones. -/
def captureHandshake : Bytes :=
  [212, 195, 178, 161, 2, 0, 4, 0, 0, 0, 0, 0, 0, 0, 0, 0, 255, 255, 0, 0] ++
  [105, 0, 0, 0, 0, 241, 83, 101, 0, 0, 0, 0, 131, 0, 0, 0, 131, 0, 0, 0] ++
  [8, 2, 58, 1, 102, 119, 136, 153, 170, 187, 0, 17, 34, 51, 68, 85, 0, 17, 34, 51] ++
  [68, 85, 16, 0, 170, 170, 3, 0, 0, 0, 136, 142, 2, 3, 0, 95, 2, 0, 138, 0] ++
  [16, 0, 0, 0, 0, 0, 0, 0, 1, 16, 17, 18, 19, 20, 21, 22, 23, 24, 25, 26] ++
  [27, 28, 29, 30, 31, 32, 33, 34, 35, 36, 37, 38, 39, 40, 41, 42, 43, 44, 45, 46] ++
  [47, 0, 0, 0, 0, 0, 0, 0, 0, 0, 0, 0, 0, 0, 0, 0, 0, 0, 0, 0] ++
  [0, 0, 0, 0, 0, 0, 0, 0, 0, 0, 0, 0, 0, 0, 0, 0, 0, 0, 0, 0] ++
  [0, 0, 0, 0, 0, 0, 0, 0, 0, 0, 0, 0, 241, 83, 101, 1, 0, 0, 0, 131] ++
  [0, 0, 0, 131, 0, 0, 0, 8, 1, 58, 1, 0, 17, 34, 51, 68, 85, 102, 119, 136] ++
  [153, 170, 187, 0, 17, 34, 51, 68, 85, 32, 0, 170, 170, 3, 0, 0, 0, 136, 142, 2] ++
  [3, 0, 95, 2, 1, 10, 0, 16, 0, 0, 0, 0, 0, 0, 0, 1, 80, 81, 82, 83] ++
  [84, 85, 86, 87, 88, 89, 90, 91, 92, 93, 94, 95, 96, 97, 98, 99, 100, 101, 102, 103] ++
  [104, 105, 106, 107, 108, 109, 110, 111, 0, 0, 0, 0, 0, 0, 0, 0, 0, 0, 0, 0] ++
  [0, 0, 0, 0, 0, 0, 0, 0, 0, 0, 0, 0, 0, 0, 0, 0, 0, 0, 0, 0] ++
  [159, 149, 62, 4, 244, 182, 169, 54, 196, 94, 170, 25, 246, 255, 220, 18, 0, 0, 0, 241] ++
  [83, 101, 2, 0, 0, 0, 131, 0, 0, 0, 131, 0, 0, 0, 8, 2, 58, 1, 102, 119] ++
  [136, 153, 170, 187, 0, 17, 34, 51, 68, 85, 0, 17, 34, 51, 68, 85, 48, 0, 170, 170] ++
  [3, 0, 0, 0, 136, 142, 2, 3, 0, 95, 2, 19, 202, 0, 16, 0, 0, 0, 0, 0] ++
  [0, 0, 2, 16, 17, 18, 19, 20, 21, 22, 23, 24, 25, 26, 27, 28, 29, 30, 31, 32] ++
  [33, 34, 35, 36, 37, 38, 39, 40, 41, 42, 43, 44, 45, 46, 47, 0, 0, 0, 0, 0] ++
  [0, 0, 0, 0, 0, 0, 0, 0, 0, 0, 0, 0, 0, 0, 0, 0, 0, 0, 0, 0] ++
  [0, 0, 0, 0, 0, 0, 0, 11, 41, 55, 241, 209, 224, 68, 85, 214, 20, 242, 27, 148] ++
  [61, 244, 17, 0, 0, 0, 241, 83, 101, 3, 0, 0, 0, 131, 0, 0, 0, 131, 0, 0] ++
  [0, 8, 1, 58, 1, 0, 17, 34, 51, 68, 85, 102, 119, 136, 153, 170, 187, 0, 17, 34] ++
  [51, 68, 85, 64, 0, 170, 170, 3, 0, 0, 0, 136, 142, 2, 3, 0, 95, 2, 3, 10] ++
  [0, 16, 0, 0, 0, 0, 0, 0, 0, 2, 0, 0, 0, 0, 0, 0, 0, 0, 0, 0] ++
  [0, 0, 0, 0, 0, 0, 0, 0, 0, 0, 0, 0, 0, 0, 0, 0, 0, 0, 0, 0] ++
  [0, 0, 0, 0, 0, 0, 0, 0, 0, 0, 0, 0, 0, 0, 0, 0, 0, 0, 0, 0] ++
  [0, 0, 0, 0, 0, 0, 0, 0, 0, 0, 0, 0, 0, 0, 79, 234, 95, 182, 145, 120] ++
  [54, 107, 114, 245, 73, 99, 71, 142, 47, 12, 0, 0]

/-- A capture file with one EAPOL-Key frame, message 1 of the same network, whose
key data carries the genuine PMKID of passphrase "password123"; no other frame. -/
def capturePMKID : Bytes :=
  [212, 195, 178, 161, 2, 0, 4, 0, 0, 0, 0, 0, 0, 0, 0, 0, 255, 255, 0, 0] ++
  [105, 0, 0, 0, 0, 241, 83, 101, 0, 0, 0, 0, 153, 0, 0, 0, 153, 0, 0, 0] ++
  [8, 2, 58, 1, 102, 119, 136, 153, 170, 187, 0, 17, 34, 51, 68, 85, 0, 17, 34, 51] ++
  [68, 85, 16, 0, 170, 170, 3, 0, 0, 0, 136, 142, 2, 3, 0, 117, 2, 0, 138, 0] ++
  [16, 0, 0, 0, 0, 0, 0, 0, 1, 16, 17, 18, 19, 20, 21, 22, 23, 24, 25, 26] ++
  [27, 28, 29, 30, 31, 32, 33, 34, 35, 36, 37, 38, 39, 40, 41, 42, 43, 44, 45, 46] ++
  [47, 0, 0, 0, 0, 0, 0, 0, 0, 0, 0, 0, 0, 0, 0, 0, 0, 0, 0, 0] ++
  [0, 0, 0, 0, 0, 0, 0, 0, 0, 0, 0, 0, 0, 0, 0, 0, 0, 0, 0, 0] ++
  [0, 0, 0, 0, 0, 0, 0, 0, 0, 0, 22, 221, 20, 0, 15, 172, 4, 131, 231, 164] ++
  [115, 74, 222, 81, 148, 91, 203, 176, 105, 211, 166, 25, 95]

/-- The EAPOL payload of message 2 of the handshake capture (99 bytes from
offset 219 of the file), as `parseEAPOLFrame` stores it; its Key Information
field is 0x010a, key-descriptor version 2. -/
def eapolMsg2 : Bytes := (captureHandshake.drop 219).take 99

/-- The confirmation key of the captured handshake: the first 16 bytes of the
session key that the published derivation gives for passphrase "password123",
network "TestNet", the two addresses and the two nonces of the capture. -/
def kckGenuine : Bytes :=
  [0x25, 0xb6, 0xb6, 0x02, 0xa6, 0xc9, 0xc7, 0xc2, 0xae, 0x2c, 0x85, 0xae, 0xe7, 0x57, 0xf9, 0xb2]

/-- A handshake record used in concrete runs: message 2 of the capture. -/
def hsSample : HandshakePacket where
  ap_mac := ⟨[0x00, 0x11, 0x22, 0x33, 0x44, 0x55], rfl⟩
  client_mac := ⟨[0x66, 0x77, 0x88, 0x99, 0xaa, 0xbb], rfl⟩
  anonce := []
  snonce := (captureHandshake.drop 236).take 32
  mic := (captureHandshake.drop 300).take 16
  eapol_data := eapolMsg2
  essid := ascii "TestNet"
  message_number := 2

/-- A configuration that names a capture file and a wordlist and no target. -/
def cfgSample : Config where
  output_file := ascii "capture.cap"
  wordlist_file := ascii "wordlist.txt"
  target_bssid := []
  target_essid := []
  verbose := false

/-- A wordlist file that holds the passphrase of the captured network. -/
def wordlistSample : List Bytes :=
  [ascii "letmein2024", ascii "password123", ascii "correcthorse"]

/-- The handshake capture together with the wordlist. -/
def envHandshake : Env := ⟨some captureHandshake, some wordlistSample⟩

/-- The PMKID-only capture together with the wordlist. -/
def envPMKID : Env := ⟨some capturePMKID, some wordlistSample⟩

/-- Whether a run produced a value. -/
def Exec.isOk {α : Type} : Exec α → Bool
  | .ok _ => true
  | .error _ => false

/-- A global pcap header (24 bytes, link type 802.11). -/
def pcapHeader : Bytes :=
  [212, 195, 178, 161, 2, 0, 4, 0, 0, 0, 0, 0, 0, 0, 0, 0, 255, 255, 0, 0, 105, 0, 0, 0]

/-- A pcap record: the 16-byte record header (capture length = frame length)
followed by the frame; frames here are shorter than 256 bytes. -/
def pcapRecord (frame : Bytes) : Bytes :=
  [0, 241, 83, 101, 0, 0, 0, 0, frame.length, 0, 0, 0, frame.length, 0, 0, 0] ++ frame

/-- An 81-byte data frame: LLC/SNAP with EtherType 0x888e at offsets 30-31,
EAPOL type 3 and body length 0 at offsets 32-35, the two bytes at offsets 36-37
that the parser reads as key-info flags 0x0080 (ACK only), and 32 bytes 0xab at
offsets 49-80.  It is 46 bytes shorter than 24 + 8 + 95. -/
def frame81 : Bytes :=
  [0x08, 0x02] ++ List.replicate 22 0 ++ [0xaa, 0xaa, 0x03, 0, 0, 0, 0x88, 0x8e] ++
    [1, 3, 0, 0] ++ [0x80, 0] ++ List.replicate 11 0 ++ List.replicate 32 0xab

/-- The record that `parseEAPOLFrame` makes of `frame81`. -/
def handshake81 : HandshakePacket where
  ap_mac := MacAddress.zero
  client_mac := MacAddress.zero
  anonce := List.replicate 32 0xab
  snonce := []
  mic := []
  eapol_data := [1, 3, 0, 0]
  essid := []
  message_number := 1

/-- A 32-byte data frame that ends with the LLC/SNAP header of an EAPOL frame. -/
def frame32 : Bytes :=
  [0x08, 0x02] ++ List.replicate 22 0 ++ [0xaa, 0xaa, 0x03, 0, 0, 0, 0x88, 0x8e]

/-- Message 2 of the handshake capture (bytes 187..317 of the file), cut to a
capture length of 100 bytes as a capture with a snap length of 100 stores it. -/
def frameMsg2Cut : Bytes := ((captureHandshake.drop 187).take 131).take 100

/-- A run that does not stop for lack of fuel. -/
def Exec.Finishes {α : Type} (x : Exec α) : Prop := x ≠ .error .outOfFuel

/-- A PMKID record of the sample network for the checksum instance of the
primitives: its PMKID is the spec's PMKID of passphrase `password123` for the
record's own client address 66:77:88:99:aa:bb. -/
def pmkidSample : PMKIDResult where
  bssid := ⟨[0x00, 0x11, 0x22, 0x33, 0x44, 0x55], rfl⟩
  client_mac := ⟨[0x66, 0x77, 0x88, 0x99, 0xaa, 0xbb], rfl⟩
  ssid := ascii "TestNet"
  pmkid := specPMKID sumCrypto
    (sumCrypto.pbkdf2HmacSha1 (ascii "password123") (ascii "TestNet") 4096 32)
    ⟨[0x00, 0x11, 0x22, 0x33, 0x44, 0x55], rfl⟩ ⟨[0x66, 0x77, 0x88, 0x99, 0xaa, 0xbb], rfl⟩
  passphrase := []

/-- A 79-byte beacon frame: header with BSSID 00:11:22:33:44:55, the 12 fixed
bytes, an SSID element "TestNet", a DS element (channel 6), an RSN element
(one pairwise suite, AKM 00-0F-AC:2), and a last vendor element that declares
24 bytes of which only 3 are in the buffer. -/
def beaconSample : Bytes :=
  [0x80, 0x00, 0x00, 0x00, 0xff, 0xff, 0xff, 0xff, 0xff, 0xff] ++
  [0x00, 0x11, 0x22, 0x33, 0x44, 0x55, 0x00, 0x11, 0x22, 0x33, 0x44, 0x55, 0x10, 0x00] ++
  [0, 0, 0, 0, 0, 0, 0, 0, 0x64, 0x00, 0x11, 0x04] ++
  [0, 7, 84, 101, 115, 116, 78, 101, 116] ++
  [3, 1, 6] ++
  [48, 20, 1, 0, 0x00, 0x0f, 0xac, 4, 1, 0, 0x00, 0x0f, 0xac, 4, 1, 0, 0x00, 0x0f, 0xac, 2,
    0, 0] ++
  [221, 24, 0x00, 0x50, 0xf2]

/-- A network record before parsing. -/
def networkSample : WifiNetwork where
  bssid := MacAddress.zero
  essid := []
  channel := 0
  signal_strength := 0
  encryption := []
  packets_captured := 0
  has_handshake := false
  clients := []

/-! ## Reading of the handshake selection -/

/-- The messages of a handshake set that carry the AP address `k`, in the
order of the set. -/
def groupOf (hs : List HandshakePacket) (k : MacAddress) : List HandshakePacket :=
  hs.filter fun h => h.ap_mac = k

/-- The AP `k` is complete in a handshake set: its messages include a message 2
and a message 3. -/
def IsComplete (hs : List HandshakePacket) (k : MacAddress) : Prop :=
  (∃ h ∈ hs, h.ap_mac = k ∧ h.message_number = 2) ∧
    (∃ h ∈ hs, h.ap_mac = k ∧ h.message_number = 3)

instance (hs : List HandshakePacket) (k : MacAddress) : Decidable (IsComplete hs k) := by
  unfold IsComplete; infer_instance

/-- A candidate of a handshake set: a message 2 or message 3 of a complete AP. -/
def IsCandidate (hs : List HandshakePacket) (c : HandshakePacket) : Prop :=
  c ∈ hs ∧ (c.message_number = 2 ∨ c.message_number = 3) ∧ IsComplete hs c.ap_mac

instance (hs : List HandshakePacket) (c : HandshakePacket) : Decidable (IsCandidate hs c) := by
  unfold IsCandidate; infer_instance

/-- The backfilling rule for one nonce: a nonce that was not empty is kept; an
empty one becomes a non-empty nonce of a sibling when one exists, and stays
empty otherwise. -/
def NonceFilled (old : Bytes) (siblings : List Bytes) (new : Bytes) : Prop :=
  if old ≠ [] then new = old
  else if ∃ n ∈ siblings, n ≠ [] then new ∈ siblings ∧ new ≠ []
  else new = []

instance (old : Bytes) (siblings : List Bytes) (new : Bytes) :
    Decidable (NonceFilled old siblings new) := by
  unfold NonceFilled; infer_instance

/-- The record `r` is the candidate `c` backfilled from its sibling messages:
both nonces follow the backfilling rule and every other field is that of `c`. -/
def Backfilled (c : HandshakePacket) (siblings : List HandshakePacket)
    (r : HandshakePacket) : Prop :=
  r.ap_mac = c.ap_mac ∧ r.client_mac = c.client_mac ∧ r.mic = c.mic ∧
    r.eapol_data = c.eapol_data ∧ r.essid = c.essid ∧
    r.message_number = c.message_number ∧
    NonceFilled c.anonce (siblings.map fun s => s.anonce) r.anonce ∧
    NonceFilled c.snonce (siblings.map fun s => s.snonce) r.snonce

instance (c : HandshakePacket) (siblings : List HandshakePacket) (r : HandshakePacket) :
    Decidable (Backfilled c siblings r) := by
  unfold Backfilled; infer_instance

/-- The state of the selection after the candidates `S` (each with its group)
have been visited, starting from the record `b0` and the score 0: the score
bounds every visited candidate, and the record is either still `b0` or the
backfilled copy of a visited candidate that has the score. -/
def BestSoFar (b0 : HandshakePacket) (S : HandshakePacket → List HandshakePacket → Prop)
    (acc : HandshakePacket × Int) : Prop :=
  (∀ c g, S c g → WPACrack.score c ≤ acc.2) ∧
    (acc = (b0, 0) ∨
      ∃ c g, S c g ∧ 0 < WPACrack.score c ∧ acc = (WPACrack.fillNonces c g, WPACrack.score c))

/-- An AP address used in concrete handshake sets. -/
def apA : MacAddress := ⟨[0x00, 0x11, 0x22, 0x33, 0x44, 0x55], rfl⟩

/-- A second AP address, ordered before `apA`. -/
def apB : MacAddress := ⟨[0x00, 0x11, 0x22, 0x33, 0x44, 0x54], rfl⟩

/-- A message 2 as the parser leaves it when the MIC flag is clear: SNonce of
the capture, empty MIC. -/
def msg2NoMic : HandshakePacket where
  ap_mac := apA
  client_mac := ⟨[0x66, 0x77, 0x88, 0x99, 0xaa, 0xbb], rfl⟩
  anonce := []
  snonce := (captureHandshake.drop 236).take 32
  mic := []
  eapol_data := eapolMsg2
  essid := []
  message_number := 2

/-- A message 3 of the same AP: ANonce and MIC present, SNonce empty. -/
def msg3Mic : HandshakePacket where
  ap_mac := apA
  client_mac := ⟨[0x66, 0x77, 0x88, 0x99, 0xaa, 0xbb], rfl⟩
  anonce := (captureHandshake.drop 89).take 32
  snonce := []
  mic := List.replicate 16 0x5a
  eapol_data := List.replicate 99 0x03
  essid := []
  message_number := 3

/-- A message 2 of the second AP with both nonces, a MIC and a network name. -/
def otherMsg2 : HandshakePacket where
  ap_mac := apB
  client_mac := ⟨[0x02, 0x00, 0x00, 0x00, 0x00, 0x09], rfl⟩
  anonce := List.replicate 32 0x01
  snonce := List.replicate 32 0x02
  mic := List.replicate 16 0x04
  eapol_data := List.replicate 99 0x05
  essid := ascii "Other"
  message_number := 2

/-- A message 3 of the second AP, with no field filled. -/
def otherMsg3 : HandshakePacket where
  ap_mac := apB
  client_mac := ⟨[0x02, 0x00, 0x00, 0x00, 0x00, 0x09], rfl⟩
  anonce := []
  snonce := []
  mic := []
  eapol_data := []
  essid := []
  message_number := 3

/-- A message 2 with every container empty. -/
def bareMsg2 : HandshakePacket := { HandshakePacket.fresh 2 with ap_mac := apA }

/-- A message 3 with every container empty. -/
def bareMsg3 : HandshakePacket := { HandshakePacket.fresh 3 with ap_mac := apA }

/-- A handshake record that passes the structural check: message 2 of the
capture with the ANonce of message 1. -/
def hsComplete : HandshakePacket := { hsSample with anonce := (captureHandshake.drop 89).take 32 }

/-! ## Beacon frames used in concrete runs -/

/-- The tagged parameters of a frame body as (type, value) pairs, in order; an
element whose declared length passes the end of the body ends the list. -/
def taggedParameters : Nat → Bytes → List (Nat × Bytes)
  | fuel + 1, id :: len :: rest =>
    if rest.length < len then [] else (id, rest.take len) :: taggedParameters fuel (rest.drop len)
  | _, _ => []

/-- The privacy bit (bit 4) of the capability field of a beacon frame, which is
the little-endian 16-bit field at bytes 34..35. -/
def privacyBit (frame : Bytes) : Bool := frame.getD 34 0 &&& 0x10 != 0

/-- A 47-byte beacon frame of a WEP network: capability field 0x0011 (ESS and
privacy), an SSID element "WepNet" and a DS element (channel 6); no RSN
element and no vendor element. -/
def beaconPrivacy : Bytes :=
  [0x80, 0x00, 0x00, 0x00, 0xff, 0xff, 0xff, 0xff, 0xff, 0xff] ++
  [0x00, 0x11, 0x22, 0x33, 0x44, 0x55, 0x00, 0x11, 0x22, 0x33, 0x44, 0x55, 0x10, 0x00] ++
  [0, 0, 0, 0, 0, 0, 0, 0, 0x64, 0x00, 0x11, 0x00] ++
  [0, 6, 87, 101, 112, 78, 101, 116] ++
  [3, 1, 6]

/-- An 80-byte beacon frame of a WPA network: an SSID element "WpaNet", a DS
element (channel 1), a vendor element of the Wi-Fi Alliance (WMM, OUI
00-50-F2 type 2) and after it the vendor element with the Microsoft WPA OUI
00-50-F2 type 1, version 1, TKIP group and pairwise ciphers and PSK key
management; no RSN element. -/
def beaconLateWpa : Bytes :=
  [0x80, 0x00, 0x00, 0x00, 0xff, 0xff, 0xff, 0xff, 0xff, 0xff] ++
  [0x00, 0x11, 0x22, 0x33, 0x44, 0x55, 0x00, 0x11, 0x22, 0x33, 0x44, 0x55, 0x10, 0x00] ++
  [0, 0, 0, 0, 0, 0, 0, 0, 0x64, 0x00, 0x11, 0x00] ++
  [0, 6, 87, 112, 97, 78, 101, 116] ++
  [3, 1, 1] ++
  [221, 7, 0x00, 0x50, 0xf2, 0x02, 0x00, 0x01, 0x00] ++
  [221, 22, 0x00, 0x50, 0xf2, 0x01, 0x01, 0x00, 0x00, 0x50, 0xf2, 0x02, 0x01, 0x00,
    0x00, 0x50, 0xf2, 0x02, 0x01, 0x00, 0x00, 0x50, 0xf2, 0x02]

/-- The same frame with the two vendor elements exchanged. -/
def beaconEarlyWpa : Bytes :=
  beaconLateWpa.take 47 ++ (beaconLateWpa.drop 56).take 24 ++ (beaconLateWpa.drop 47).take 9

/-! ## OpenSSL primitives of the WEP code -/

/-- The OpenSSL primitives the WEP code calls, taken as total functions:
`RC4_set_key` on a key followed by `RC4` on the data (the output has the size
of the data), and `MD5` (16 bytes). -/
structure WepPrimitives where
  rc4 : Bytes → Bytes → Bytes
  md5 : Bytes → Bytes
  rc4_size : ∀ key data, (rc4 key data).length = data.length
  md5_size : ∀ data, (md5 data).length = 16

/-- Entry `i` of an RC4 state table, the table being held as a base-256 number. -/
def sboxGet (s i : Nat) : Nat := (s >>> (8 * i)) % 256

/-- The table with entry `i` set to `v`. -/
def sboxSet (s i v : Nat) : Nat := s - (sboxGet s i <<< (8 * i)) + (v <<< (8 * i))

/-- The table with entries `i` and `j` exchanged. -/
def sboxSwap (s i j : Nat) : Nat := sboxSet (sboxSet s i (sboxGet s j)) j (sboxGet s i)

/-- The key schedule of RC4: the identity table, then 256 exchanges driven by
the key bytes taken cyclically. -/
def rc4Ksa (key : Bytes) : Nat :=
  ((List.range 256).foldl (fun (st : Nat × Nat) i =>
      let j := (st.2 + sboxGet st.1 i + key.getD (i % key.length) 0) % 256
      (sboxSwap st.1 i j, j))
    ((List.range 256).foldl (fun s i => sboxSet s i i) 0, 0)).1

/-- The output stage of RC4, XORed onto the data. -/
def rc4Stream : Nat → Nat → Nat → Bytes → Bytes
  | _, _, _, [] => []
  | s, i, j, d :: ds =>
    let i := (i + 1) % 256
    let j := (j + sboxGet s i) % 256
    let s := sboxSwap s i j
    (d ^^^ sboxGet s ((sboxGet s i + sboxGet s j) % 256)) :: rc4Stream s i j ds

/-- The stream cipher RC4. -/
def rc4 (key data : Bytes) : Bytes := rc4Stream (rc4Ksa key) 0 0 data

/-- The primitives as the library computes them: RC4 and MD5. -/
def refWep : WepPrimitives where
  rc4 := rc4
  md5 := md5
  rc4_size := by
    intro key data
    have h : ∀ (d : Bytes) (s i j : Nat), (rc4Stream s i j d).length = d.length := by
      intro d
      induction d with
      | nil => intro s i j; rfl
      | cons x xs ih => intro s i j; simp only [rc4Stream, List.length_cons, ih]
    exact h data _ 0 0
  md5_size := by intro d; simp [md5, le32bytes]

/-- A cheap instance of the primitives for concrete runs: the data XORed with
a checksum of the key. -/
def sumWep : WepPrimitives where
  rc4 key data := data.map fun d => d ^^^ (key.sum % 256)
  md5 data := List.replicate 16 (data.sum % 256)
  rc4_size := by intros; simp
  md5_size := by intros; simp

/-! ## The `double` comparison of `testKey` -/

/-- A finite non-negative `double`, as the number `m / 2 ^ e`. -/
structure Dbl where
  m : Nat
  e : Nat
  deriving DecidableEq

/-- The quotient `static_cast<double>(s) / t` of two `int` values `0 ≤ s` and
`0 < t`: both convert exactly, and IEEE 754 division rounds the exact quotient
to 53 significant bits, to nearest, ties to even. -/
def dblDiv (s t : Nat) : Dbl :=
  if s = 0 then ⟨0, 0⟩
  else
    match (List.range 128).find? fun e => decide (t * 2 ^ 52 ≤ s * 2 ^ e) with
    | none => ⟨0, 0⟩
    | some e =>
      let q := s * 2 ^ e / t
      let r := s * 2 ^ e % t
      if 2 * r > t ∨ (2 * r = t ∧ q % 2 = 1) then ⟨q + 1, e⟩ else ⟨q, e⟩

/-- The comparison `a >= b` of two such values. -/
def Dbl.ge (a b : Dbl) : Bool := decide (b.m * 2 ^ a.e ≤ a.m * 2 ^ b.e)

/-- The literal `0.7`: the `double` nearest to 7/10, 0x3FE6666666666666, which
is 6305039478318694 / 2^53. -/
def dbl07 : Dbl := ⟨6305039478318694, 53⟩

namespace CryptoUtils

/-- The function `CryptoUtils::wepDecrypt`. -/
def wepDecrypt (W : WepPrimitives) (data key : Bytes) : Bytes :=
  if data.length < 4 then []
  else
    let full_key := data.take 3 ++ key
    W.rc4 full_key (data.drop 4)

/-- The function `CryptoUtils::generateWEPKeyFromPassphrase`. -/
def generateWEPKeyFromPassphrase (W : WepPrimitives) (passphrase : Bytes) (key_length : Nat) :
    Bytes :=
  let hash := W.md5 passphrase
  (List.range key_length).map fun i => hash.getD (i % hash.length) 0

/-- The function `CryptoUtils::bytesToHex`: two lower-case digits per byte. -/
def bytesToHex (bytes : Bytes) : Bytes :=
  bytes.flatMap fun byte => [hexDigit (byte / 16), hexDigit (byte % 16)]

end CryptoUtils

/-! ## airlevi-crack/wep_crack.cpp -/

/-- The class `WEPCrack`: its data members, and with them `log_`, the lines
that the attacks of this object write to the `Logger` singleton on entry (of
the logger output only these lines are kept; they record which attacks ran). -/
structure WEPCrack where
  config_ : Config
  captured_packets_ : List Bytes
  weak_ivs_ : List Bytes
  log_ : List Bytes
  deriving DecidableEq

namespace WEPCrack

/-- The constructor `WEPCrack::WEPCrack(config)`. -/
def new (config : Config) : WEPCrack := ⟨config, [], [], []⟩

/-- The record loop of `WEPCrack::loadCaptureFile` (wep_crack.cpp:224-248) on
the unread rest of the file. -/
def loadLoop : Nat → Bytes → List Bytes → Exec (List Bytes)
  | 0, _, _ => .error .outOfFuel
  | fuel + 1, rest, captured_packets =>
    if rest.length < 16 then .ok captured_packets
    else
      let caplen := le32 (rest.drop 8)
      let body := rest.drop 16
      if body.length < caplen then .ok captured_packets
      else
        let packet := body.take caplen
        do
          let keep ←
            (if packet.length > 24 then do
              let isData ← PacketParser.isDataFrame (vectorData packet)
              if isData then do
                let b1 ← rd packet 1
                pure (b1 &&& 0x40 != 0)
              else pure false
            else pure false)
          loadLoop fuel (body.drop caplen)
            (if keep then captured_packets ++ [packet] else captured_packets)

/-- The function `WEPCrack::loadCaptureFile`. -/
def loadCaptureFile (self : WEPCrack) (env : Env) : Exec (Bool × WEPCrack) :=
  match env.capture with
  | none => .ok (false, self)
  | some file => do
    let ps ← loadLoop (file.length + 1) (file.drop 24) self.captured_packets_
    pure (!ps.isEmpty, { self with captured_packets_ := ps })

/-- The `remove_if` of `extractWEPData` (wep_crack.cpp:258-268): the frames
that stay, in order. -/
def removeOtherBssid (config : Config) : List Bytes → Exec (List Bytes)
  | [] => pure []
  | packet :: rest => do
    let remove ←
      (if packet.length < 24 then pure true
      else do
        let bssid ← rdMac packet 16
        pure (decide (bssid.toString ≠ config.target_bssid)))
    let rest ← removeOtherBssid config rest
    pure (if remove then rest else packet :: rest)

/-- The function `WEPCrack::extractWEPData`. -/
def extractWEPData (self : WEPCrack) : Exec (Bool × WEPCrack) :=
  if self.captured_packets_.isEmpty then .ok (false, self)
  else do
    let ps ←
      (if !self.config_.target_bssid.isEmpty then
        removeOtherBssid self.config_ self.captured_packets_
      else pure self.captured_packets_)
    pure (!ps.isEmpty, { self with captured_packets_ := ps })

/-- The vote that `recoverKey` gives a candidate by the byte it decodes to
(wep_crack.cpp:295-301). -/
def voteFor (test_byte : Nat) : Int :=
  if test_byte = 0xAA ∨ test_byte = 0x03 ∨ test_byte = 0x00 then 2
  else if test_byte < 0x20 ∨ test_byte > 0x7E then -1
  else 1

/-- The loop over key-byte positions of `recoverKey` for one frame
(wep_crack.cpp:285-303), from position `pos`. -/
def recoverPositions (key_length : Nat) (packet iv : Bytes) :
    Nat → Nat → List (List Int) → List (List Int)
  | 0, _, votes => votes
  | fuel + 1, pos, votes =>
    if pos < key_length ∧ pos < 16 then
      if packet.length ≤ 28 + pos then votes
      else
        let encrypted_byte := packet.getD (28 + pos) 0
        let row := votes.getD pos []
        let row := (List.range 256).map fun candidate =>
          row.getD candidate 0 + voteFor (encrypted_byte ^^^ candidate ^^^ iv.getD (pos % 3) 0)
        recoverPositions key_length packet iv fuel (pos + 1) (votes.set pos row)
    else votes

/-- The position of the first largest entry (`std::max_element` followed by
`std::distance`); 0 for an empty row. -/
def maxIndex (row : List Int) : Nat :=
  ((List.range row.length).foldl
    (fun (best : Nat × Int) i => if best.2 < row.getD i 0 then (i, row.getD i 0) else best)
    (0, row.getD 0 0)).1

/-- The function `WEPCrack::recoverKey`. -/
def recoverKey (self : WEPCrack) (key_length : Nat) : Bytes :=
  let votes := self.captured_packets_.foldl
    (fun votes packet =>
      if packet.length < 28 then votes
      else
        let iv := (packet.drop 24).take 3
        recoverPositions key_length packet iv 17 0 votes)
    (List.replicate key_length (List.replicate 256 (0 : Int)))
  votes.map fun row => maxIndex row % 256

/-- One round of the loop of `testKey` (wep_crack.cpp:322-337): whether the
frame adds to `successful_decrypts`. -/
def testKeyFrame (W : WepPrimitives) (key packet : Bytes) : Bool :=
  if packet.length < 32 then false
  else
    let encrypted_data := (packet.drop 28).take (packet.length - 32)
    let decrypted := CryptoUtils.wepDecrypt W encrypted_data key
    if !decrypted.isEmpty ∧ decrypted.length ≥ 8 then
      decrypted.getD 0 0 = 0xAA ∧ decrypted.getD 1 0 = 0xAA ∧ decrypted.getD 2 0 = 0x03
    else false

/-- The loop of `testKey` over the frames with index below `total_tests`,
from the count `successful_decrypts`. -/
def testKeyLoop (W : WepPrimitives) (key : Bytes) : List Bytes → Nat → Nat
  | [], successful_decrypts => successful_decrypts
  | packet :: rest, successful_decrypts =>
    testKeyLoop W key rest
      (if testKeyFrame W key packet then successful_decrypts + 1 else successful_decrypts)

/-- The function `WEPCrack::testKey`.  A frame count of 2^31 or more makes
`total_tests` zero or negative; the quotient is then NaN or not positive and
the comparison fails. -/
def testKey (W : WepPrimitives) (self : WEPCrack) (key : Bytes) : Bool :=
  if self.captured_packets_.isEmpty then false
  else
    let total_tests := min 10 (toInt32 self.captured_packets_.length)
    if total_tests ≤ 0 then false
    else
      let successful_decrypts :=
        testKeyLoop W key (self.captured_packets_.take total_tests.toNat) 0
      (dblDiv successful_decrypts total_tests.toNat).ge dbl07

/-- The function `WEPCrack::isWeakIV`. -/
def isWeakIV (iv : Bytes) : Bool :=
  if iv.length ≠ 3 then false
  else if (List.range 16).any fun a => iv.getD 0 0 = a + 3 ∧ iv.getD 1 0 = 255 then true
  else if iv.getD 0 0 < 16 ∧ iv.getD 1 0 = 255 then true
  else if iv.getD 0 0 = 255 ∧ iv.getD 1 0 < 16 then true
  else false

/-- The function `WEPCrack::collectWeakIVs`. -/
def collectWeakIVs (self : WEPCrack) : WEPCrack :=
  { self with
    weak_ivs_ := self.captured_packets_.foldl
      (fun weak_ivs packet =>
        if packet.length < 27 then weak_ivs
        else
          let iv := (packet.drop 24).take 3
          if isWeakIV iv then weak_ivs ++ [iv] else weak_ivs)
      [] }

/-- The loop over key lengths of `statisticalAttack`: the key text of the
first length whose recovered key passes `testKey`. -/
def statisticalLoop (W : WepPrimitives) (self : WEPCrack) : List Nat → Option Bytes
  | [] => none
  | key_len :: rest =>
    let key := recoverKey self key_len
    if !key.isEmpty ∧ testKey W self key then some (CryptoUtils.bytesToHex key)
    else statisticalLoop W self rest

/-- The function `WEPCrack::statisticalAttack`; the result holds the returned
flag, the state of the out-parameter `found_key` and the object. -/
def statisticalAttack (W : WepPrimitives) (self : WEPCrack) (found_key : Bytes) :
    Bool × Bytes × WEPCrack :=
  let self := { self with log_ := self.log_ ++ [ascii "Attempting statistical attack"] }
  match statisticalLoop W self [5, 13, 16, 29] with
  | some key => (true, key, self)
  | none => (false, found_key, self)

/-- The statement `key_votes[pos][candidate]++` on a `std::map<uint8_t, int>`,
held as a list sorted by key. -/
def voteIncrement (candidate : Nat) : List (Nat × Int) → List (Nat × Int)
  | [] => [(candidate, 1)]
  | (k, v) :: rest =>
    if candidate < k then (candidate, 1) :: (k, v) :: rest
    else if k < candidate then (k, v) :: voteIncrement candidate rest
    else (k, v + 1) :: rest

/-- The loop over positions of `fmsAttack` for one weak IV
(wep_crack.cpp:96-99), from position `pos`. -/
def fmsPositions (key_len : Nat) (iv : Bytes) :
    Nat → Nat → List (List (Nat × Int)) → List (List (Nat × Int))
  | 0, _, key_votes => key_votes
  | fuel + 1, pos, key_votes =>
    if pos < key_len ∧ pos < 3 then
      let candidate := (iv.getD pos 0 ^^^ (pos + 1)) % 256
      fmsPositions key_len iv fuel (pos + 1)
        (key_votes.set pos (voteIncrement candidate (key_votes.getD pos [])))
    else key_votes

/-- The vote tables of `fmsAttack` for one key length (wep_crack.cpp:89-100). -/
def fmsVotes (self : WEPCrack) (key_len : Nat) : List (List (Nat × Int)) :=
  self.weak_ivs_.foldl
    (fun key_votes iv => if iv.length < 3 then key_votes else fmsPositions key_len iv 4 0 key_votes)
    (List.replicate key_len [])

/-- The first entry with the largest count (`std::max_element` with the
comparison of the counts), from the entry `best`. -/
def maxVote (best : Nat × Int) : List (Nat × Int) → Nat × Int
  | [] => best
  | e :: rest => if best.2 < e.2 then maxVote e rest else maxVote best rest

/-- The selection of `fmsAttack` (wep_crack.cpp:103-115): `none` when a
position has no vote (`valid_key` false), else the key. -/
def fmsSelect : List (List (Nat × Int)) → Option Bytes
  | [] => some []
  | [] :: _ => none
  | (e :: es) :: rest =>
    match fmsSelect rest with
    | none => none
    | some key => some ((maxVote e es).1 :: key)

/-- The loop over key lengths of `fmsAttack`. -/
def fmsLoop (W : WepPrimitives) (self : WEPCrack) : List Nat → Option Bytes
  | [] => none
  | key_len :: rest =>
    match fmsSelect (fmsVotes self key_len) with
    | some key =>
      if testKey W self key then some (CryptoUtils.bytesToHex key) else fmsLoop W self rest
    | none => fmsLoop W self rest

/-- The function `WEPCrack::fmsAttack`. -/
def fmsAttack (W : WepPrimitives) (self : WEPCrack) (found_key : Bytes) :
    Bool × Bytes × WEPCrack :=
  let self := { self with log_ := self.log_ ++ [ascii "Attempting FMS attack"] }
  let self := collectWeakIVs self
  if self.weak_ivs_.length < 100 then (false, found_key, self)
  else
    match fmsLoop W self [5, 13] with
    | some key => (true, key, self)
    | none => (false, found_key, self)

/-- The statement `votes[pos][candidate] += n`. -/
def addVote (votes : List (List Int)) (pos candidate : Nat) (n : Int) : List (List Int) :=
  votes.set pos ((votes.getD pos []).set candidate ((votes.getD pos []).getD candidate 0 + n))

/-- The loop over positions of `koreKAttack` for one frame
(wep_crack.cpp:140-155), from position `pos`. -/
def koreKPositions (key_len : Nat) (packet iv : Bytes) :
    Nat → Nat → List (List Int) → Exec (List (List Int))
  | 0, _, _ => .error .outOfFuel
  | fuel + 1, pos, votes =>
    if pos < key_len then do
      let votes ←
        (if iv.getD 0 0 = pos + 3 then do
          let b ← rd packet (3 + pos)
          pure (addVote votes pos ((b ^^^ iv.getD 0 0) % 256) 2)
        else pure votes)
      let votes ←
        (if iv.getD 0 0 = pos + 1 then do
          let b ← rd packet (3 + pos)
          pure (addVote votes pos ((b ^^^ (iv.getD 0 0 + iv.getD 1 0)) % 256) 1)
        else pure votes)
      koreKPositions key_len packet iv fuel (pos + 1) votes
    else pure votes

/-- The loop over frames of `koreKAttack` (wep_crack.cpp:134-156). -/
def koreKVotes (key_len : Nat) : List Bytes → List (List Int) → Exec (List (List Int))
  | [], votes => pure votes
  | packet :: rest, votes =>
    if packet.length < 8 then koreKVotes key_len rest votes
    else do
      let iv := packet.take 3
      let votes ← koreKPositions key_len packet iv (key_len + 1) 0 votes
      koreKVotes key_len rest votes

/-- The loop over key lengths of `koreKAttack`. -/
def koreKLoop (W : WepPrimitives) (self : WEPCrack) : List Nat → Exec (Option Bytes)
  | [] => pure none
  | key_len :: rest => do
    let votes ← koreKVotes key_len self.captured_packets_
      (List.replicate key_len (List.replicate 256 (0 : Int)))
    let key := votes.map fun row => maxIndex row % 256
    if testKey W self key then pure (some (CryptoUtils.bytesToHex key))
    else koreKLoop W self rest

/-- The function `WEPCrack::koreKAttack`. -/
def koreKAttack (W : WepPrimitives) (self : WEPCrack) (found_key : Bytes) :
    Exec (Bool × Bytes × WEPCrack) := do
  let self := { self with log_ := self.log_ ++ [ascii "Attempting KoreK attack"] }
  let r ← koreKLoop W self [5, 13]
  match r with
  | some key => pure (true, key, self)
  | none => pure (false, found_key, self)

/-- The `getline` loop of `WEPCrack::dictionaryAttack` (wep_crack.cpp:185-207)
on the lines not yet read. -/
def dictionaryLoop (W : WepPrimitives) (self : WEPCrack) : List Bytes → Nat → Option Bytes
  | [], _ => none
  | password :: rest, attempts =>
    if attempts < 1000000 then
      let key := CryptoUtils.generateWEPKeyFromPassphrase W password 5
      if testKey W self key then
        some (password ++ ascii " (" ++ CryptoUtils.bytesToHex key ++ ascii ")")
      else
        let key := CryptoUtils.generateWEPKeyFromPassphrase W password 13
        if testKey W self key then
          some (password ++ ascii " (" ++ CryptoUtils.bytesToHex key ++ ascii ")")
        else dictionaryLoop W self rest (attempts + 1)
    else none

/-- The function `WEPCrack::dictionaryAttack`. -/
def dictionaryAttack (W : WepPrimitives) (self : WEPCrack) (env : Env) (found_key : Bytes) :
    Bool × Bytes × WEPCrack :=
  let self := { self with log_ := self.log_ ++ [ascii "Attempting dictionary attack"] }
  match env.wordlist with
  | none => (false, found_key, self)
  | some lines =>
    match dictionaryLoop W self lines 0 with
    | some key => (true, key, self)
    | none => (false, found_key, self)

/-- The function `WEPCrack::crack`. -/
def crack (W : WepPrimitives) (self : WEPCrack) (env : Env) (found_key : Bytes) :
    Exec (Bool × Bytes × WEPCrack) := do
  let (loaded, self) ← loadCaptureFile self env
  if !loaded then pure (false, found_key, self)
  else do
    let (extracted, self) ← extractWEPData self
    if !extracted then pure (false, found_key, self)
    else
      let (found, found_key, self) := statisticalAttack W self found_key
      if found then pure (true, found_key, self)
      else
        let (found, found_key, self) := fmsAttack W self found_key
        if found then pure (true, found_key, self)
        else do
          let (found, found_key, self) ← koreKAttack W self found_key
          if found then pure (true, found_key, self)
          else if !self.config_.wordlist_file.isEmpty then
            pure (dictionaryAttack W self env found_key)
          else pure (false, found_key, self)

end WEPCrack

/-! ## Reading of the key test -/

/-- The payload that `testKey` obtains from a frame: for a frame of at least 32
bytes, the bytes from offset 28 up to the 4-byte ICV, decrypted by
`wepDecrypt` under the key; none for a shorter frame. -/
def decryptedPayload (W : WepPrimitives) (key packet : Bytes) : Option Bytes :=
  if packet.length < 32 then none
  else some (CryptoUtils.wepDecrypt W ((packet.drop 28).take (packet.length - 32)) key)

/-- The payload starts with the LLC/SNAP bytes 0xAA 0xAA 0x03. -/
def startsLlcSnap (payload : Bytes) : Bool := decide (payload.take 3 = [0xAA, 0xAA, 0x03])

/-- The frame decrypts under the key to a payload that starts 0xAA 0xAA 0x03. -/
def decryptsToLlcSnap (W : WepPrimitives) (key packet : Bytes) : Bool :=
  match decryptedPayload W key packet with
  | none => false
  | some payload => startsLlcSnap payload

/-- The frame decrypts under the key to a payload of at least 8 bytes (the
size of an LLC/SNAP header) that starts 0xAA 0xAA 0x03. -/
def decryptsToLlcSnapHeader (W : WepPrimitives) (key packet : Bytes) : Bool :=
  match decryptedPayload W key packet with
  | none => false
  | some payload => decide (8 ≤ payload.length) && startsLlcSnap payload

/-- A 40-bit WEP key used in concrete runs. -/
def wepKeySample : Bytes := [0x11, 0x22, 0x33, 0x44, 0x55]

/-- The first 32 bytes of the WEP frames used in concrete runs: a data frame
header with the protected bit (24 bytes), the IV 0a 0b 0c with key index 0,
and the four bytes 01 02 03 00 at offsets 28..31. -/
def wepFrameHead : Bytes :=
  [0x08, 0x41, 0x00, 0x00, 0x00, 0x11, 0x22, 0x33, 0x44, 0x55] ++
  [0x66, 0x77, 0x88, 0x99, 0xaa, 0xbb, 0x00, 0x11, 0x22, 0x33, 0x44, 0x55, 0x10, 0x00] ++
  [0x0a, 0x0b, 0x0c, 0x00] ++
  [0x01, 0x02, 0x03, 0x00]

/-- A 41-byte frame whose five bytes at offsets 32..36 are AA AA 03 00 00
under the RC4 keystream of 01 02 03 followed by `wepKeySample`. -/
def wepFrameShort : Bytes := wepFrameHead ++ [65, 19, 206, 182, 8] ++ [0xde, 0xad, 0xbe, 0xef]

/-- A 44-byte frame whose eight bytes at offsets 32..39 are
AA AA 03 00 00 00 08 00 under the same keystream. -/
def wepFrameLlc : Bytes :=
  wepFrameHead ++ [65, 19, 206, 182, 8, 99, 78, 250] ++ [0xde, 0xad, 0xbe, 0xef]

/-- A 44-byte frame whose eight bytes at offsets 32..39 are zero under the
same keystream. -/
def wepFrameNoise : Bytes :=
  wepFrameHead ++ [235, 185, 205, 182, 8, 99, 70, 250] ++ [0xde, 0xad, 0xbe, 0xef]

/-- An object that holds the given frames. -/
def wepWith (packets : List Bytes) : WEPCrack := ⟨cfgSample, packets, [], []⟩

/-! ## Reading of the attack order -/

/-- The four attacks of `WEPCrack::crack`. -/
inductive WepAttack where
  | statistical
  | fms
  | korek
  | dictionary
  deriving DecidableEq

/-- The line an attack writes to the logger on entry. -/
def WepAttack.entryLine : WepAttack → Bytes
  | .statistical => ascii "Attempting statistical attack"
  | .fms => ascii "Attempting FMS attack"
  | .korek => ascii "Attempting KoreK attack"
  | .dictionary => ascii "Attempting dictionary attack"

/-- One attack, by name. -/
def runAttack (W : WepPrimitives) (env : Env) :
    WepAttack → WEPCrack → Bytes → Exec (Bool × Bytes × WEPCrack)
  | .statistical, self, found_key => pure (WEPCrack.statisticalAttack W self found_key)
  | .fms, self, found_key => pure (WEPCrack.fmsAttack W self found_key)
  | .korek, self, found_key => WEPCrack.koreKAttack W self found_key
  | .dictionary, self, found_key => pure (WEPCrack.dictionaryAttack W self env found_key)

/-- The attack order of the specification: statistical, FMS, KoreK, and the
dictionary attack last and only when a wordlist is configured. -/
def attackOrder (config : Config) : List WepAttack :=
  [.statistical, .fms, .korek] ++ (if config.wordlist_file.isEmpty then [] else [.dictionary])

/-- The attacks of a list run in order up to the first that succeeds: the
result holds the flag, the key text, the object, and the attacks that ran. -/
def firstSuccess (W : WepPrimitives) (env : Env) :
    List WepAttack → WEPCrack → Bytes → Exec (Bool × Bytes × WEPCrack × List WepAttack)
  | [], self, found_key => pure (false, found_key, self, [])
  | a :: rest, self, found_key => do
    let r ← runAttack W env a self found_key
    if r.1 then pure (true, r.2.1, r.2.2, [a])
    else do
      let r2 ← firstSuccess W env rest r.2.2 r.2.1
      pure (r2.1, r2.2.1, r2.2.2.1, a :: r2.2.2.2)

/-- A 44-byte frame whose eight bytes at offsets 32..39 are
AA AA 03 00 00 00 08 00 under the RC4 keystream of 01 02 03 followed by
48 2c 81 1d a5, the first five bytes of the MD5 digest of "password123". -/
def wepFramePass : Bytes :=
  wepFrameHead ++ [247, 45, 183, 205, 95, 142, 245, 229] ++ [0xde, 0xad, 0xbe, 0xef]

/-- A capture file with ten records, each the WEP data frame `wepFramePass`. -/
def captureWep : Bytes := pcapHeader ++ (List.replicate 10 (pcapRecord wepFramePass)).flatten

/-- The files of a WEP run: the capture of ten WEP frames, and the wordlist. -/
def envWep : Env := ⟨some captureWep, some wordlistSample⟩

/-! ## airlevi-crack/dictionary_attack.cpp with the password test as a parameter -/

namespace DictionaryAttack

/-- One step of a worker thread (dictionary_attack.cpp:83-101) with the call
`testPasswordWorker(password)` taken as the parameter `test`, so that runs in
which a test succeeds can be stated; `workerStep` is the case of the function
of the source, which returns `false`. -/
def workerStepWith (test : DictionaryAttack → Bytes → Bool) (self : DictionaryAttack) :
    Worker → Worker × DictionaryAttack
  | .atLoopHead =>
    if self.running_ && !self.found_ then
      match getPasswordFromQueue self with
      | (none, self) => (.finished, self)
      | (some password, self) => (.testing password, self)
    else (.finished, self)
  | .testing password =>
    if test self password then
      if !self.found_ then
        (.finished, { self with found_ := true, result_password_ := password })
      else (.finished, self)
    else (.atLoopHead, { self with attempts_ := self.attempts_ + 1 })
  | .finished => (.finished, self)

/-- The effect of one scheduling decision, with the password test `test`. -/
def stepWith (test : DictionaryAttack → Bytes → Bool) (env : Env) (r : Run) : Event → Run
  | .load =>
    let (l, s) := loaderStep r.self env r.loader
    { r with self := s, loader := l }
  | .work i =>
    match r.workers.get? i with
    | none => r
    | some w =>
      let (w, s) := workerStepWith test r.self w
      { r with self := s, workers := r.workers.set i w }

/-- The threads and the shared object as `crack` starts them
(dictionary_attack.cpp:30-39). -/
def startRun (self : DictionaryAttack) : Run :=
  { self := { self with running_ := true, found_ := false, attempts_ := 0 },
    workers := List.replicate self.num_threads_ Worker.atLoopHead,
    loader := Loader.notStarted }

/-- The function `DictionaryAttack::crack` under the interleaving `sched`, with
the password test `test`. -/
def crackWith (test : DictionaryAttack → Bytes → Bool) (C : Crypto) (self : DictionaryAttack)
    (env : Env) (junk : Nat → Int) (sched : List Event) (found_password : Bytes) :
    Exec (Bool × Bytes) := do
  let _ ← WPACrack.crack C (WPACrack.new self.config_) env junk []
  let final := sched.foldl (stepWith test env) (startRun self)
  if final.self.found_ then pure (true, final.self.result_password_)
  else pure (false, found_password)

/-- The candidate that a scheduling decision reports as a success, if any: the
worker stands at its test with a password for which the test holds. -/
def reported (test : DictionaryAttack → Bytes → Bool) (r : Run) : Event → Option Bytes
  | .load => none
  | .work i =>
    match r.workers.get? i with
    | some (.testing password) => if test r.self password then some password else none
    | _ => none

/-- The successes reported along a schedule, in order. -/
def reports (test : DictionaryAttack → Bytes → Bool) (env : Env) : Run → List Event → List Bytes
  | _, [] => []
  | r, e :: es => (reported test r e).toList ++ reports test env (stepWith test env r e) es

/-- The password that a scheduling decision takes from the queue, if any: the
worker goes from the loop head to the test of that password. -/
def dequeued (test : DictionaryAttack → Bytes → Bool) (env : Env) (r : Run) :
    Event → Option Bytes
  | .load => none
  | .work i =>
    match r.workers.get? i, (stepWith test env r (.work i)).workers.get? i with
    | some .atLoopHead, some (.testing password) => some password
    | _, _ => none

/-- The passwords taken from the queue along a schedule, in order. -/
def dequeues (test : DictionaryAttack → Bytes → Bool) (env : Env) : Run → List Event → List Bytes
  | _, [] => []
  | r, e :: es => (dequeued test env r e).toList ++ dequeues test env (stepWith test env r e) es

/-- The candidates of a wordlist: the lines trimmed of surrounding spaces,
tabs, CR and LF that are then non-empty, do not begin with `#` and are 8 to 63
bytes long, in file order. -/
def wordlistCandidates (lines : List Bytes) : List Bytes :=
  (lines.map trim).filter fun password =>
    !password.isEmpty && password.head? != some 35 &&
      decide (8 ≤ password.length) && decide (password.length ≤ 63)

/-- The state of a run against the wordlist `lines` and the queue `q0` it
started with: no stop has been requested, the loader stands between the lines
`processed` and `rest`, and the passwords taken so far followed by the queue
are `q0` followed by the candidates of the processed lines. -/
def QueueInv (lines q0 : List Bytes) (r : Run) (taken : List Bytes) : Prop :=
  r.self.running_ = true ∧ r.self.config_.wordlist_file ≠ [] ∧
    ∃ processed rest, processed ++ rest = lines ∧
      ((r.loader = .notStarted ∧ processed = []) ∨ r.loader = .reading rest ∨
        (r.loader = .finished ∧ rest = [])) ∧
      taken ++ r.self.password_queue_ = q0 ++ wordlistCandidates processed

/-- The state of a run against the successes reported so far: the found flag
is set exactly when there is a report, and the recorded password is the first. -/
def RecordInv (r : Run) (reps : List Bytes) : Prop :=
  r.self.found_ = reps.head?.isSome ∧ ∀ p, reps.head? = some p → r.self.result_password_ = p

/-- A dictionary attack object with two worker threads, as constructed. -/
def dictSample : DictionaryAttack := ⟨cfgSample, 2, false, false, 0, [], []⟩

/-- The lines of a wordlist file: a comment, "letmein2024" between two spaces
and a CR, a word of 5 bytes, an empty line, "password123" after a tab and
before two spaces, a line of 64 bytes, and "correcthorse". -/
def wordlistRaw : List Bytes :=
  [ascii "# comment", [32, 32] ++ ascii "letmein2024" ++ [13], ascii "short", [],
    [9] ++ ascii "password123" ++ [32, 32], List.replicate 64 120, ascii "correcthorse"]

/-- The wordlist file alone. -/
def envRaw : Env := ⟨none, some wordlistRaw⟩

/-- An interleaving of the loader with the two workers. -/
def schedSample : List Event :=
  [.load, .load, .load, .work 1, .load, .load, .load, .work 0, .work 1, .work 1, .load, .load,
    .load, .work 0, .work 0]

/-- A password test that accepts "password123" and "correcthorse". -/
def testTwo (_self : DictionaryAttack) (password : Bytes) : Bool :=
  password == ascii "password123" || password == ascii "correcthorse"

/-- An interleaving in which both workers reach a success: worker 0 takes
"letmein2024" and fails, worker 1 takes "password123", worker 0 takes
"correcthorse" and reports first, worker 1 reports second. -/
def schedRace : List Event :=
  [.load, .load, .load, .load, .load, .load, .load, .load, .load, .work 0, .work 1, .work 0,
    .work 0, .work 0, .work 1]

end DictionaryAttack

/-! ## airlevi-crack/brute_force.cpp -/

/-- The class `BruteForce`: its data members (threads, mutex and the unused
`wpa_cracker_` apart).  The two length bounds are `int` in the source and are
held as natural numbers: negative lengths are not modelled. -/
structure BruteForce where
  config_ : Config
  num_threads_ : Nat
  charset_ : Bytes
  min_length_ : Nat
  max_length_ : Nat
  running_ : Bool
  found_ : Bool
  attempts_ : Nat
  current_index_ : Nat
  result_password_ : Bytes
  deriving DecidableEq

namespace BruteForce

/-- The constructor `BruteForce::BruteForce(config, num_threads)` for a
positive `num_threads`. -/
def new (config : Config) (num_threads : Nat) : BruteForce where
  config_ := config
  num_threads_ := num_threads
  charset_ := ascii "abcdefghijklmnopqrstuvwxyzABCDEFGHIJKLMNOPQRSTUVWXYZ0123456789"
  min_length_ := 8
  max_length_ := 12
  running_ := false
  found_ := false
  attempts_ := 0
  current_index_ := 0
  result_password_ := []

/-- The number of binary digits of `x` (the first argument bounds the recursion). -/
def bitLength : Nat → Nat → Nat
  | 0, _ => 0
  | fuel + 1, x => if x = 0 then 0 else 1 + bitLength fuel (x / 2)

/-- The `double` nearest to a natural number (53 significant bits, round to
nearest, ties to even), as a natural number. -/
def roundToDouble (x : Nat) : Nat :=
  if x < 2 ^ 53 then x
  else
    let e := bitLength x x - 53
    let q := x / 2 ^ e
    let r := x % 2 ^ e
    let half := 2 ^ (e - 1)
    if r > half ∨ (r = half ∧ q % 2 = 1) then (q + 1) * 2 ^ e else q * 2 ^ e

/-- The expression `static_cast<uint64_t>(std::pow(n, length))` for a size `n`
and a length: `std::pow` is taken as correctly rounded, and the conversion of
a value that is not below 2^64 is undefined (`none`). -/
def powCast (n length : Nat) : Option Nat :=
  if roundToDouble (n ^ length) < 2 ^ 64 then some (roundToDouble (n ^ length)) else none

/-- The loop of `generatePassword` (brute_force.cpp:120-123). -/
def generateLoop (charset : Bytes) : Nat → Nat → Bytes
  | 0, _ => []
  | length + 1, index =>
    charset.getD (index % charset.length) 0 :: generateLoop charset length (index / charset.length)

/-- The function `BruteForce::generatePassword`. -/
def generatePassword (self : BruteForce) (index length : Nat) : Bytes :=
  generateLoop self.charset_ length index

/-- The loop of `calculateTotalCombinations` from the length `length`, with
the `uint64_t` sum `total`. -/
def totalLoop (self : BruteForce) : Nat → Nat → Nat → Option Nat
  | 0, _, total => some total
  | fuel + 1, length, total =>
    match powCast self.charset_.length length with
    | none => none
    | some c => totalLoop self fuel (length + 1) ((total + c) % 2 ^ 64)

/-- The function `BruteForce::calculateTotalCombinations`; `none` when a
conversion in it is undefined. -/
def calculateTotalCombinations (self : BruteForce) : Option Nat :=
  totalLoop self (self.max_length_ + 1 - self.min_length_) self.min_length_ 0

/-- The function `BruteForce::testPasswordWorker` (brute_force.cpp:139-148):
it builds a local cracker and returns `false`. -/
def testPasswordWorker (_self : BruteForce) (_password : Bytes) : Bool := false

/-- Where one worker thread stands in `workerThread`: at the head of the
`while` loop, at the condition of the `for` loop with its `index` and
`length`, at the test of a password, returned, or past an undefined
conversion. -/
inductive Worker where
  | atLoopHead
  | forLoop (index length : Nat)
  | testing (password : Bytes)
  | finished
  | undefined
  deriving DecidableEq

/-- The body of the `for` loop of `workerThread` up to the test
(brute_force.cpp:83-90): the next state of the worker. -/
def forBody (self : BruteForce) (index length : Nat) : Worker :=
  match powCast self.charset_.length length with
  | none => .undefined
  | some combinations_for_length =>
    if index ≥ combinations_for_length then .forLoop (index - combinations_for_length) (length + 1)
    else .testing (self.generatePassword index length)

/-- One step of a worker thread (brute_force.cpp:76-112), with the call
`testPasswordWorker(password)` taken as the parameter `test`: from the loop
head, the `while` condition and the draw of the shared index; from the `for`
loop, its condition and its body up to the test; from `testing`, the test,
then the guarded record under `result_mutex_` and the return, or the attempt
count and the `break`. -/
def workerStepWith (test : BruteForce → Bytes → Bool) (self : BruteForce) :
    Worker → Worker × BruteForce
  | .atLoopHead =>
    if self.running_ && !self.found_ then
      (.forLoop self.current_index_ self.min_length_,
        { self with current_index_ := (self.current_index_ + 1) % 2 ^ 64 })
    else (.finished, self)
  | .forLoop index length =>
    if length ≤ self.max_length_ ∧ self.running_ ∧ !self.found_ then
      (forBody self index length, self)
    else (.atLoopHead, self)
  | .testing password =>
    if test self password then
      if !self.found_ then
        (.finished, { self with found_ := true, result_password_ := password })
      else (.finished, self)
    else (.atLoopHead, { self with attempts_ := (self.attempts_ + 1) % 2 ^ 64 })
  | .finished => (.finished, self)
  | .undefined => (.undefined, self)

/-- One step of a worker thread with the password test of the source. -/
def workerStep (self : BruteForce) : Worker → Worker × BruteForce :=
  workerStepWith testPasswordWorker self

/-- The worker threads of one `crack` call together with the shared object. -/
structure Run where
  self : BruteForce
  workers : List Worker

/-- The effect of one scheduling decision: worker `i` moves next. -/
def stepWith (test : BruteForce → Bytes → Bool) (r : Run) (i : Nat) : Run :=
  match r.workers.get? i with
  | none => r
  | some w =>
    let (w, s) := workerStepWith test r.self w
    { self := s, workers := r.workers.set i w }

/-- The threads and the shared object as `crack` starts them
(brute_force.cpp:29-40). -/
def startRun (self : BruteForce) : Run :=
  { self := { self with running_ := true, found_ := false, attempts_ := 0, current_index_ := 0 },
    workers := List.replicate self.num_threads_ Worker.atLoopHead }

/-- What a call of `crack` comes to under a schedule: it has executed an
undefined conversion, it is still blocked in a `join`, or it has returned. -/
inductive Outcome where
  | undefined
  | blocked
  | returned (found : Bool) (found_password : Bytes)
  deriving DecidableEq

/-- The function `BruteForce::crack` under the interleaving `sched` of its
worker threads, with the password test `test`: the `join`s return when every
worker has returned. -/
def crackWith (test : BruteForce → Bytes → Bool) (self : BruteForce) (sched : List Nat)
    (found_password : Bytes) : Outcome :=
  match calculateTotalCombinations self with
  | none => .undefined
  | some _ =>
    let final := sched.foldl (stepWith test) (startRun self)
    if final.workers.any (fun w => w == Worker.undefined) then .undefined
    else if final.workers.all (fun w => w == Worker.finished) then
      if final.self.found_ then .returned true final.self.result_password_
      else .returned false found_password
    else .blocked

/-- The function `BruteForce::crack` under the interleaving `sched`. -/
def crack (self : BruteForce) (sched : List Nat) (found_password : Bytes) : Outcome :=
  crackWith testPasswordWorker self sched found_password

/-- The `for` loop of `workerThread` run from `length` for a drawn index while
`running_` holds and `found_` does not: the state in which the worker leaves
it (`testing` of the candidate, the loop head when no length takes the index,
or `undefined`). -/
def searchFrom (self : BruteForce) : Nat → Nat → Nat → Worker
  | 0, _, _ => .atLoopHead
  | fuel + 1, index, length =>
    if length ≤ self.max_length_ then
      match forBody self index length with
      | .forLoop index length => searchFrom self fuel index length
      | w => w
    else .atLoopHead

/-- The candidate that the workers generate for the shared index `index`. -/
def candidateOf (self : BruteForce) (index : Nat) : Worker :=
  searchFrom self (self.max_length_ + 1 - self.min_length_) index self.min_length_

/-- The size of the keyspace: the sum over the lengths of the range of
(charset size)^length. -/
def keyspace (self : BruteForce) : Nat :=
  ((List.range (self.max_length_ + 1 - self.min_length_)).map fun k =>
    self.charset_.length ^ (self.min_length_ + k)).sum

/-- The number of strings over `n` characters with a length from `length` up
to `length + count - 1`. -/
def powSum (n length : Nat) : Nat → Nat
  | 0 => 0
  | count + 1 => n ^ length + powSum n (length + 1) count

/-- The candidate that a scheduling decision reports as a success, if any. -/
def reported (test : BruteForce → Bytes → Bool) (r : Run) (i : Nat) : Option Bytes :=
  match r.workers.get? i with
  | some (.testing password) => if test r.self password then some password else none
  | _ => none

/-- The successes reported along a schedule, in order. -/
def reports (test : BruteForce → Bytes → Bool) : Run → List Nat → List Bytes
  | _, [] => []
  | r, i :: is => (reported test r i).toList ++ reports test (stepWith test r i) is

/-- The state of a run against the successes reported so far: the found flag
is set exactly when there is a report, and the recorded password is the first. -/
def RecordInv (r : Run) (reps : List Bytes) : Prop :=
  r.self.found_ = reps.head?.isSome ∧ ∀ p, reps.head? = some p → r.self.result_password_ = p

/-- A search over the charset "ab" with lengths 3..3 and two workers. -/
def bruteAb3 : BruteForce :=
  { new cfgSample 2 with charset_ := ascii "ab", min_length_ := 3, max_length_ := 3 }

/-- A search over the charset "ab" with lengths 64..64. -/
def bruteAb64 : BruteForce :=
  { new cfgSample 2 with charset_ := ascii "ab", min_length_ := 64, max_length_ := 64 }

/-- A schedule that lets each of `n` workers move twice, one after the other. -/
def drain (n : Nat) : List Nat := (List.range n).flatMap fun i => [i, i]

/-- A password test that accepts "aaa" and "baa". -/
def testTwo (_self : BruteForce) (password : Bytes) : Bool :=
  password == ascii "aaa" || password == ascii "baa"

/-- An interleaving in which both workers reach a success: worker 0 draws
index 0 ("aaa"), worker 1 draws index 1 ("baa") and reports first. -/
def schedRace : List Nat := [0, 1, 0, 1, 1, 0]

end BruteForce

namespace WEPCrack

/-- The vector `key` of `fmsAttack` after the selection loop
(wep_crack.cpp:103-115): each position takes the key of the entry
`std::max_element` returns, up to the first position whose table is empty,
where the loop breaks and the remaining bytes keep their initial zero. -/
def fmsKeyBytes : List (List (Nat × Int)) → Bytes
  | [] => []
  | [] :: rest => List.replicate (rest.length + 1) 0
  | (e :: es) :: rest => (maxVote e es).1 :: fmsKeyBytes rest

/-- The value `m[k]` of a `std::map<uint8_t, int>` read without insertion:
the count stored under `k`, zero when the key is absent. -/
def voteOf : List (Nat × Int) → Nat → Int
  | [], _ => 0
  | (k, v) :: rest, c => if k = c then v else voteOf rest c

/-- The table of one position after the loop over the weak IVs
(wep_crack.cpp:92-100), from the table `t`. -/
def fmsTable (pos : Nat) (weak_ivs : List Bytes) (t : List (Nat × Int)) : List (Nat × Int) :=
  weak_ivs.foldl
    (fun t iv => if iv.length < 3 then t
      else voteIncrement ((iv.getD pos 0 ^^^ (pos + 1)) % 256) t) t

end WEPCrack

/-- Spec wording: the number of votes a candidate byte receives at a key
position, one from each weak IV whose byte at that position, XORed with the
position plus one, is the candidate. -/
def fmsVoteCount (weak_ivs : List Bytes) (pos candidate : Nat) : Nat :=
  (weak_ivs.filter fun iv =>
    decide (3 ≤ iv.length) && decide ((iv.getD pos 0 ^^^ (pos + 1)) % 256 = candidate)).length

/-- Spec wording: one vote entered in a vote table kept in insertion order. -/
def specTally (table : List (Nat × Nat)) (candidate : Nat) : List (Nat × Nat) :=
  if table.any (fun e => e.1 = candidate) then
    table.map fun e => if e.1 = candidate then (e.1, e.2 + 1) else e
  else table ++ [(candidate, 1)]

/-- Spec wording: the first-encountered maximum of a vote table. -/
def specFirstMax : List (Nat × Nat) → Option (Nat × Nat)
  | [] => none
  | e :: rest =>
    match specFirstMax rest with
    | some m => if m.2 ≤ e.2 then some e else some m
    | none => some e

/-- Spec wording: the key byte selected at a position, the candidate with the
most votes, ties broken by insertion order of the vote table. -/
def specFmsSelect (weak_ivs : List Bytes) (pos : Nat) : Option Nat :=
  (specFirstMax (((weak_ivs.filter fun iv => decide (3 ≤ iv.length)).map
    fun iv => (iv.getD pos 0 ^^^ (pos + 1)) % 256).foldl specTally [])).map Prod.fst

/-- A 32-byte WEP data frame with the given IV at offsets 24..26. -/
def wepFrameIv (iv : Bytes) : Bytes :=
  [0x08, 0x41] ++ List.replicate 22 0 ++ iv.take 3 ++ [0x00, 0x01, 0x02, 0x03, 0x04]

/-- Spec wording: the IV of a WEP frame, frame bytes 24-26. -/
def frameIv (packet : Bytes) : Bytes := (packet.drop 24).take 3

/-- Spec wording: the ciphertext of a WEP frame, from frame byte 28 (after the
4-byte IV/key-index field) up to, not including, the trailing 4-byte ICV. -/
def frameCiphertext (packet : Bytes) : Bytes := (packet.drop 28).take (packet.length - 32)

/-- Spec wording: the decryption of a frame under a candidate key, the
keystream of the frame's IV followed by the key XORed with the ciphertext. -/
def specWepDecrypt (W : WepPrimitives) (key packet : Bytes) : Bytes :=
  W.rc4 (frameIv packet ++ key) (frameCiphertext packet)

/-- A 44-byte WEP data frame as a station sends it: the header, the IV
0a 0b 0c with key index 0 at offsets 24..27, and from offset 28 the payload
AA AA 03 00 00 00 08 00 45 00 00 1c and its 4-byte ICV, encrypted with the
RC4 keystream of the IV followed by `wepKeySample`. -/
def wepFrameGenuine : Bytes :=
  wepFrameHead.take 28 ++
  [218, 36, 116, 51, 119, 68, 96, 125, 167, 116, 54, 6] ++ [199, 188, 229, 37]

namespace BruteForce

/-- A search over the charset "ab" with lengths 3..3 and one worker. -/
def bruteAb3Single : BruteForce :=
  { new cfgSample 1 with charset_ := ascii "ab", min_length_ := 3, max_length_ := 3 }

/-- No worker has returned and the `while` condition still holds. -/
def StillSearching (r : Run) : Prop :=
  r.self.running_ = true ∧ r.self.found_ = false ∧ ∀ w ∈ r.workers, w ≠ Worker.finished

instance (r : Run) : Decidable (StillSearching r) := by
  unfold StillSearching; infer_instance

end BruteForce

namespace PacketParser

/-- The value `key_info_flags` of `parseEAPOLFrame` (packet_parser.cpp:96):
`(key_info[1] << 8) | key_info[0]` as a `uint16_t`, `key_info` being at
offset 36 of the frame. -/
def keyInfoFlags (packet : Bytes) : Nat :=
  ((packet.getD 37 0 <<< 8) ||| packet.getD 36 0) % 65536

/-- The variable `install` of `parseEAPOLFrame`. -/
def installFlag (packet : Bytes) : Bool := keyInfoFlags packet &&& 0x0040 != 0

/-- The variable `ack` of `parseEAPOLFrame`. -/
def ackFlag (packet : Bytes) : Bool := keyInfoFlags packet &&& 0x0080 != 0

/-- The variable `mic` of `parseEAPOLFrame`. -/
def micFlag (packet : Bytes) : Bool := keyInfoFlags packet &&& 0x0100 != 0

end PacketParser

/-- Spec wording: the copy of an EAPOL payload in which the 16 bytes that the
parser extracts as the MIC (payload offsets 81..96) are zero and no other
byte is changed. -/
def specZeroMic (eapol_data : Bytes) : Bytes :=
  eapol_data.take 81 ++ List.replicate 16 0 ++ eapol_data.drop 97

/-- Message 1 of the handshake capture (bytes 40..170 of the file), a frame
of 131 bytes whose Key Information field is 00 8a. -/
def frameMsg1 : Bytes := (captureHandshake.drop 40).take 131

/-- Message 2 of the handshake capture (bytes 187..317 of the file), a frame
of 131 bytes whose Key Information field is 01 0a. -/
def frameMsg2 : Bytes := (captureHandshake.drop 187).take 131

/-- Message 3 of the handshake capture (bytes 334..464 of the file), a frame
of 131 bytes whose Key Information field is 13 ca. -/
def frameMsg3 : Bytes := (captureHandshake.drop 334).take 131

/-- Spec wording: the Key Information field of an EAPOL-Key frame, the two
bytes after the descriptor type (frame offsets 37 and 38), most significant
first; bit 6 is Install, bit 7 is ACK, bit 8 is MIC-present. -/
def specKeyInfo (packet : Bytes) : Nat := packet.getD 37 0 * 256 + packet.getD 38 0

deriving instance DecidableEq for PMKIDResult

/-- Modelled from the spec: the members `results` and `targets` of the class
`PMKIDAttack`, which pmkid_attack.cpp uses and no header under `src/`
declares (the header has `captured_pmkids_` and `targets_`): `results` is the
list of PMKID records in the order of their `push_back`, and `targets` maps
the address of an AP to the network name of its beacon.  The counter
`pmkids_captured`, the clock fields and the hex text of a record are left
out. -/
structure PMKIDAttack where
  results : List PMKIDResult
  targets : List (MacAddress × Bytes)
  deriving DecidableEq

namespace PMKIDAttack

/-- The search loop of `extractPMKID` (pmkid_attack.cpp:319-326 and the
`break` of line 364) over the scan positions `i`, with `key_data` at offset
99 of the frame: the 16 bytes copied at the first position whose tag bytes
match, none when no position matches. -/
def scanPMKID (packet : Bytes) : List Nat → Exec (Option Bytes)
  | [] => .ok none
  | i :: rest => do
    let b0 ← rd packet (99 + i)
    if b0 ≠ 0xDD then scanPMKID packet rest
    else do
      let b1 ← rd packet (99 + i + 1)
      if b1 < 20 then scanPMKID packet rest
      else do
        let m ← rdMatch packet (99 + i + 2) [0x00, 0x0F, 0xAC, 0x04]
        if !m then scanPMKID packet rest
        else do
          let pmkid ← rdN packet (99 + i + 6) 16
          pure (some pmkid)

/-- The loop of `extractPMKID` with its bounds: positions `0 ≤ i <
key_data_len - 20`, where `key_data_len = length - 99`. -/
def findPMKID (packet : Bytes) (length : Int) : Exec (Option Bytes) :=
  let key_data_len := length - 99
  scanPMKID packet (List.range (key_data_len - 20).toNat)

/-- The network name `extractPMKID` takes from `targets.find(bssid)`: empty
when the AP is not among the targets. -/
def targetSsid (self : PMKIDAttack) (bssid : MacAddress) : Bytes :=
  match self.targets.find? (fun t => t.1.eq bssid) with
  | some t => t.2
  | none => []

/-- The function `PMKIDAttack::extractPMKID` (pmkid_attack.cpp:309-366), for
a length in the range its caller passes (at least 50). -/
def extractPMKID (self : PMKIDAttack) (packet : Bytes) (length : Int) : Exec PMKIDAttack := do
  let bssid ← rdMac packet 16
  let found ← findPMKID packet length
  match found with
  | none => pure self
  | some pmkid =>
    let already_exists := self.results.any fun result => result.bssid.eq bssid
    if already_exists then pure self
    else
      pure { self with
        results := self.results ++
          [{ bssid := bssid, client_mac := MacAddress.zero, ssid := targetSsid self bssid,
             pmkid := pmkid, passphrase := [] }] }

/-- The function `PMKIDAttack::parseDataFrame` (pmkid_attack.cpp:293-307). -/
def parseDataFrame (self : PMKIDAttack) (packet : Bytes) (length : Int) : Exec PMKIDAttack :=
  if length < 50 then pure self
  else do
    let llc03 ← rdMatch packet 24 [0xAA, 0xAA, 0x03]
    if !llc03 then pure self
    else do
      let llc67 ← rdMatch packet 30 [0x88, 0x8E]
      if !llc67 then pure self
      else do
        let eapol1 ← rd packet 33
        if eapol1 = 3 then extractPMKID self packet length else pure self

/-- The frames of a list handed to `extractPMKID` one after the other, each
with its own length. -/
def extractAll (self : PMKIDAttack) : List Bytes → Exec PMKIDAttack
  | [] => pure self
  | packet :: rest => do
    let self ← extractPMKID self packet packet.length
    extractAll self rest

/-- An object with no result and no target. -/
def empty : PMKIDAttack := ⟨[], []⟩

end PMKIDAttack

/-- The frame of the PMKID capture (bytes 40..192 of the file): 153 bytes,
BSSID 00:11:22:33:44:55 at offsets 16..21, the PMKID element dd 14 00 0f ac 04
at offsets 131..136 and the 16 PMKID bytes at offsets 137..152, the last
bytes of the frame. -/
def framePMKID : Bytes := (capturePMKID.drop 40).take 153

/-- The frame `framePMKID` as a capture with a snap length of 152 bytes
stores it: its last byte is missing. -/
def framePMKIDCut : Bytes := framePMKID.take 152

/-- A second frame of the same AP whose PMKID element carries other bytes. -/
def framePMKIDSecond : Bytes := framePMKID.take 137 ++ List.replicate 16 0x5a

/-- A frame of another AP, 00:11:22:33:44:56, with the PMKID bytes 0x77. -/
def framePMKIDOther : Bytes := (framePMKID.take 137 ++ List.replicate 16 0x77).set 21 0x56

/-- Spec wording: the result list against the frames processed so far: at
most one record per AP address; each record stems from the first processed
frame of its AP in which a PMKID element was found, and holds the PMKID of
that frame; every AP of which such a frame was processed has a record. -/
def PMKIDAttack.FirstWins (frames : List Bytes) (s : PMKIDAttack) : Prop :=
  s.results.Pairwise (fun a b => a.bssid ≠ b.bssid) ∧
  (∀ r ∈ s.results, ∃ pre f post, frames = pre ++ f :: post ∧
    rdMac f 16 = .ok r.bssid ∧ PMKIDAttack.findPMKID f f.length = .ok (some r.pmkid) ∧
    ∀ g ∈ pre, rdMac g 16 = .ok r.bssid → PMKIDAttack.findPMKID g g.length = .ok none) ∧
  (∀ f ∈ frames, ∀ b p, rdMac f 16 = .ok b →
    PMKIDAttack.findPMKID f f.length = .ok (some p) → ∃ r ∈ s.results, r.bssid = b)

/-- The four frames of the sample run: the PMKID frame of AP 00:11:22:33:44:55,
a second frame of that AP with another PMKID, a frame of AP 00:11:22:33:44:56,
and the first frame again. -/
def pmkidFrames : List Bytes := [framePMKID, framePMKIDSecond, framePMKIDOther, framePMKID]

/-- The object after the sample run: one record for each of the two APs. -/
def pmkidTwoAps : PMKIDAttack where
  results :=
    [{ bssid := ⟨[0x00, 0x11, 0x22, 0x33, 0x44, 0x55], rfl⟩, client_mac := MacAddress.zero,
       ssid := [],
       pmkid := [0x83, 0xe7, 0xa4, 0x73, 0x4a, 0xde, 0x51, 0x94, 0x5b, 0xcb, 0xb0, 0x69,
         0xd3, 0xa6, 0x19, 0x5f],
       passphrase := [] },
     { bssid := ⟨[0x00, 0x11, 0x22, 0x33, 0x44, 0x56], rfl⟩, client_mac := MacAddress.zero,
       ssid := [], pmkid := List.replicate 16 0x77, passphrase := [] }]
  targets := []

/-- Spec wording: `computeMIC(confirmationKey, eapolPayload)`: the MIC field
(payload bytes 81..96) zeroed in a copy of the EAPOL payload, then the keyed
hash that the declared key-descriptor version selects: HMAC-MD5 for version 1,
the first 16 bytes of HMAC-SHA1 for version 2; none for another version. -/
def specComputeMIC (C : Crypto) (kck eapol_data : Bytes) : Option Bytes :=
  if declaredKeyDescriptorVersion eapol_data = 1 then
    some (C.hmacMd5 kck (specZeroMic eapol_data))
  else if declaredKeyDescriptorVersion eapol_data = 2 then
    some ((C.hmacSha1 kck (specZeroMic eapol_data)).take 16)
  else none

/-- The payload `eapolMsg2` with key-descriptor version 1 declared in its Key
Information field (01 09 instead of 01 0a). -/
def eapolMsg2V1 : Bytes := eapolMsg2.set 6 0x09

/-- Spec wording: the frame decrypts under the key (the frame's IV followed by
the key, applied to the ciphertext) to a payload starting 0xAA 0xAA 0x03. -/
def specDecryptsToLlcSnap (W : WepPrimitives) (key packet : Bytes) : Bool :=
  startsLlcSnap (specWepDecrypt W key packet)

/-- A 44-byte WEP data frame with the IV 0a 0b 0c whose ciphertext starts
AA AA 03 under the RC4 keystream of the IV followed by `wepKeySample`, and
whose bytes 32..39 are AA AA 03 00 00 00 08 00 under the keystream of the
ciphertext bytes da 24 74 followed by `wepKeySample`. -/
def wepFrameBoth : Bytes :=
  wepFrameHead.take 28 ++ [218, 36, 116, 0, 93, 233, 192, 12, 42, 148, 251, 241] ++
    [0xde, 0xad, 0xbe, 0xef]

namespace WEPCrack

/-- The vector `key` of `fmsAttack` at the end of the selection loop, for
each pass of the loop over the key lengths that is run (wep_crack.cpp:88-121):
a pass is the last one when its key is valid and passes `testKey`. -/
def fmsLoopKeys (W : WepPrimitives) (self : WEPCrack) : List Nat → List Bytes
  | [] => []
  | key_len :: rest =>
    let key_votes := fmsVotes self key_len
    match fmsSelect key_votes with
    | some key =>
      if testKey W self key then [fmsKeyBytes key_votes]
      else fmsKeyBytes key_votes :: fmsLoopKeys W self rest
    | none => fmsKeyBytes key_votes :: fmsLoopKeys W self rest

/-- The keys that a call of `fmsAttack` selects: none when it returns for
lack of weak IVs, else the vector `key` of each pass over the key lengths. -/
def fmsAttackKeys (W : WepPrimitives) (self : WEPCrack) : List Bytes :=
  let self := { self with log_ := self.log_ ++ [ascii "Attempting FMS attack"] }
  let self := collectWeakIVs self
  if self.weak_ivs_.length < 100 then [] else fmsLoopKeys W self [5, 13]

end WEPCrack

/-- An object with 100 frames, 50 with the weak IV 03 ff 09 followed by 50
with the weak IV 03 ff 02: at key position 2 the first 50 vote for byte 0x0a,
the last 50 for byte 0x01. -/
def fmsTie100 : WEPCrack :=
  wepWith (List.replicate 50 (wepFrameIv [0x03, 0xff, 0x09]) ++
    List.replicate 50 (wepFrameIv [0x03, 0xff, 0x02]))

/-! # Theorems -/

theorem vectorLt_iff (a b : Bytes) : vectorLt a b = true ↔ LexBefore a b := by
  unfold LexBefore
  induction a generalizing b with
  | nil =>
    cases b with
    | nil => simp [vectorLt]
    | cons y t => simp [vectorLt, List.Lex.nil]
  | cons x s ih =>
    cases b with
    | nil => simp [vectorLt]
    | cons y t =>
      simp only [vectorLt]
      by_cases h1 : x < y
      · simp only [h1, if_true, true_iff]
        exact List.Lex.rel h1
      · by_cases h2 : y < x
        · simp only [h1, h2, if_false, if_true, false_iff, Bool.false_eq_true]
          intro h
          cases h with
          | cons h => omega
          | rel h => exact h1 h
        · have hxy : x = y := by omega
          subst hxy
          simp only [h1, if_false, ih]
          constructor
          · intro h
            exact List.Lex.cons h
          · intro h
            cases h with
            | cons h => exact h
            | rel h => exact absurd h h1

theorem memcmp_lt_iff (a b : Bytes) (n : Nat) (ha : a.length = n) (hb : b.length = n) :
    memcmp a b n < 0 ↔ LexBefore a b := by
  unfold LexBefore
  induction n generalizing a b with
  | zero =>
    have h1 : a = [] := List.length_eq_zero.mp ha
    have h2 : b = [] := List.length_eq_zero.mp hb
    subst h1; subst h2
    simp [memcmp]
  | succ n ih =>
    cases a with
    | nil => simp at ha
    | cons x s =>
      cases b with
      | nil => simp at hb
      | cons y t =>
        simp only [List.length_cons, Nat.add_right_cancel_iff] at ha hb
        simp only [memcmp]
        by_cases h1 : x < y
        · simp only [h1, if_true]
          constructor
          · intro _; exact List.Lex.rel h1
          · intro _; decide
        · by_cases h2 : y < x
          · simp only [h1, h2, if_false, if_true]
            constructor
            · intro h; exact absurd h (by decide)
            · intro h
              cases h with
              | cons h => omega
              | rel h => exact absurd h h1
          · have hxy : x = y := by omega
            subst hxy
            simp only [h1, if_false, ih s t ha hb]
            constructor
            · intro h
              exact List.Lex.cons h
            · intro h
              cases h with
              | cons h => exact h
              | rel h => exact absurd h h1

theorem MacAddress.lt_iff (a b : MacAddress) : a.lt b = true ↔ LexBefore a.bytes b.bytes := by
  unfold MacAddress.lt
  rw [decide_eq_true_iff]
  exact memcmp_lt_iff a.bytes b.bytes 6 a.size_eq b.size_eq

theorem prfData_eq_spec (ap cl : MacAddress) (an sn : Bytes) :
    CryptoUtils.prfData ap cl an sn = specPrfData ap.bytes cl.bytes an sn := by
  unfold CryptoUtils.prfData specPrfData lexSmaller lexLarger
  by_cases h1 : LexBefore ap.bytes cl.bytes <;> by_cases h2 : LexBefore an sn
  · simp [h1, h2, (MacAddress.lt_iff ap cl).mpr h1, (vectorLt_iff an sn).mpr h2]
  · have h2f : vectorLt an sn = false := by
      rw [← Bool.not_eq_true]; exact fun h => h2 ((vectorLt_iff an sn).mp h)
    simp [h1, h2, (MacAddress.lt_iff ap cl).mpr h1, h2f]
  · have h1f : ap.lt cl = false := by
      rw [← Bool.not_eq_true]; exact fun h => h1 ((MacAddress.lt_iff ap cl).mp h)
    simp [h1, h2, h1f, (vectorLt_iff an sn).mpr h2]
  · have h2f : vectorLt an sn = false := by
      rw [← Bool.not_eq_true]; exact fun h => h2 ((vectorLt_iff an sn).mp h)
    have h1f : ap.lt cl = false := by
      rw [← Bool.not_eq_true]; exact fun h => h1 ((MacAddress.lt_iff ap cl).mp h)
    simp [h1, h2, h1f, h2f]

theorem take_hmacSha1 (C : Crypto) (k d : Bytes) (n : Nat) (h : 20 ≤ n) :
    (C.hmacSha1 k d).take n = C.hmacSha1 k d :=
  List.take_of_length_le (by rw [C.hmacSha1_size]; exact h)

theorem prfLoop_64 (C : Crypto) (key inp : Bytes) :
    CryptoUtils.prfLoop C key inp 64 65 0 [] =
      .ok (C.hmacSha1 key (inp ++ [0]) ++ C.hmacSha1 key (inp ++ [1]) ++
        C.hmacSha1 key (inp ++ [2]) ++ (C.hmacSha1 key (inp ++ [3])).take 4) := by
  simp [CryptoUtils.prfLoop, CryptoUtils.hmacSha1, C.hmacSha1_size, take_hmacSha1]

theorem specPrfStream_take (C : Crypto) (key label data : Bytes) (n : Nat) :
    (specPrfStream C key label data (4 + n)).take 64 =
      C.hmacSha1 key (label ++ [0x00] ++ data ++ [0]) ++
      C.hmacSha1 key (label ++ [0x00] ++ data ++ [1]) ++
      C.hmacSha1 key (label ++ [0x00] ++ data ++ [2]) ++
      (C.hmacSha1 key (label ++ [0x00] ++ data ++ [3])).take 4 := by
  unfold specPrfStream
  rw [List.range_add, List.flatMap_append]
  have h4 : List.range 4 = [0, 1, 2, 3] := by decide
  rw [h4]
  simp [List.flatMap, List.take_append_eq_append_take, C.hmacSha1_size, take_hmacSha1]

theorem generatePTK_ok (C : Crypto) (pmk : Bytes) (ap cl : MacAddress) (an sn : Bytes)
    (n : Nat) :
    CryptoUtils.generatePTK C pmk ap cl an sn =
      .ok ((specPrfStream C pmk (ascii "Pairwise key expansion")
        (specPrfData ap.bytes cl.bytes an sn) (4 + n)).take 64) := by
  unfold CryptoUtils.generatePTK CryptoUtils.prf
  simp only [show (64 : Nat) + 1 = 65 from rfl]
  rw [prfLoop_64, specPrfStream_take, prfData_eq_spec]
  simp [CryptoUtils.resize, C.hmacSha1_size, bind, Except.bind, pure, Except.pure]

theorem specPrfStream_take_length (C : Crypto) (key label data : Bytes) (n : Nat) :
    ((specPrfStream C key label data (4 + n)).take 64).length = 64 := by
  rw [specPrfStream_take]
  simp [C.hmacSha1_size]

/-- **C3.** `generatePTK` always returns, its result has exactly 64 bytes, and
these are the first 64 bytes of the counter-mode stream
`HMAC-SHA1(pmk, L ‖ 0x00 ‖ D ‖ 0x00) ‖ HMAC-SHA1(pmk, L ‖ 0x00 ‖ D ‖ 0x01) ‖ ...`
(cut after any number `4 + n` of blocks), with `L` the label
"Pairwise key expansion" and `D` the smaller address, the larger address, the
smaller nonce and the larger nonce in byte-wise unsigned lexicographic order. -/
theorem generatePTK_is_prf64 (C : Crypto) (pmk : Bytes) (ap cl : MacAddress)
    (an sn : Bytes) (n : Nat) :
    ∃ ptk, CryptoUtils.generatePTK C pmk ap cl an sn = .ok ptk ∧ ptk.length = 64 ∧
      ptk = (specPrfStream C pmk (ascii "Pairwise key expansion")
        (lexSmaller ap.bytes cl.bytes ++ lexLarger ap.bytes cl.bytes ++
          (lexSmaller an sn ++ lexLarger an sn)) (4 + n)).take 64 :=
  ⟨_, generatePTK_ok C pmk ap cl an sn n, specPrfStream_take_length C pmk _ _ n, rfl⟩

theorem calculateMIC_length (C : Crypto) (kck eapol : Bytes) :
    (CryptoUtils.calculateMIC C kck eapol).length = 16 := by
  simp [CryptoUtils.calculateMIC, C.hmacMd5_size]

theorem stdEqual_append (a e : Bytes) : CryptoUtils.stdEqual a (a ++ e) = .ok true := by
  induction a with
  | nil => simp [CryptoUtils.stdEqual]
  | cons x s ih => simp [CryptoUtils.stdEqual, ih]

theorem stdEqual_same_length (a b : Bytes) (h : a.length = b.length) :
    CryptoUtils.stdEqual a b = .ok (decide (a = b)) := by
  induction a generalizing b with
  | nil =>
    cases b with
    | nil => simp [CryptoUtils.stdEqual]
    | cons y t => simp at h
  | cons x s ih =>
    cases b with
    | nil => simp at h
    | cons y t =>
      simp only [List.length_cons, Nat.add_right_cancel_iff] at h
      by_cases hxy : x = y
      · simp [CryptoUtils.stdEqual, hxy, ih t h]
      · simp [CryptoUtils.stdEqual, hxy]

theorem xor_pow_ne (b j : Nat) : b ^^^ 2 ^ j ≠ b := by
  intro h
  have h2 : b ^^^ (b ^^^ 2 ^ j) = b ^^^ b := by rw [h]
  rw [Nat.xor_cancel_left, Nat.xor_self] at h2
  exact absurd h2 (by positivity)

theorem flipBit_ne (m : Bytes) (i j : Nat) (hi : i < m.length) : flipBit m i j ≠ m := by
  intro h
  have h1 : (flipBit m i j)[i]? = m[i]? := by rw [h]
  unfold flipBit at h1
  rw [List.getElem?_set] at h1
  simp only [if_true, hi, List.getD_eq_getElem?_getD, List.getElem?_eq_getElem hi,
    Option.getD_some, Option.some.injEq] at h1
  exact xor_pow_ne _ _ h1

theorem verifyMIC_of_length (C : Crypto) (hs : HandshakePacket) (ptk : Bytes)
    (h : 16 ≤ ptk.length) :
    CryptoUtils.verifyMIC C hs ptk =
      CryptoUtils.stdEqual (CryptoUtils.calculateMIC C (ptk.take 16) hs.eapol_data) hs.mic := by
  unfold CryptoUtils.verifyMIC
  rw [if_neg (by omega)]

/-- The comparison of `verifyMIC` against the value of `calculateMIC` itself:
for every passphrase, network name, address pair, nonce pair and record, the
session key `generatePTK(generatePMK(passphrase, ssid), ap, client, aNonce,
sNonce)` exists, a record that stores `calculateMIC` of its payload under the
first 16 bytes of that key passes, and the record with any single bit (bit
`j` of byte `i`) of that value flipped fails. -/
theorem verifyMIC_accepts_computed_rejects_bitflip (C : Crypto) (passphrase ssid : Bytes)
    (ap cl : MacAddress) (an sn : Bytes) (hs : HandshakePacket) :
    ∃ ptk,
      CryptoUtils.generatePTK C (CryptoUtils.generatePMK C passphrase ssid) ap cl an sn
        = .ok ptk ∧
      CryptoUtils.verifyMIC C
        { hs with mic := CryptoUtils.calculateMIC C (ptk.take 16) hs.eapol_data } ptk
        = .ok true ∧
      ∀ (i : Fin 16) (j : Fin 8),
        CryptoUtils.verifyMIC C
          { hs with mic :=
              flipBit (CryptoUtils.calculateMIC C (ptk.take 16) hs.eapol_data) i j } ptk
          = .ok false := by
  refine ⟨_, generatePTK_ok C _ ap cl an sn 0, ?_, ?_⟩
  · rw [verifyMIC_of_length _ _ _ (by rw [specPrfStream_take_length]; decide)]
    simpa using stdEqual_append (CryptoUtils.calculateMIC C _ hs.eapol_data) []
  · intro i j
    rw [verifyMIC_of_length _ _ _ (by rw [specPrfStream_take_length]; decide)]
    have hlen := calculateMIC_length C
      (((specPrfStream C (CryptoUtils.generatePMK C passphrase ssid)
        (ascii "Pairwise key expansion") (specPrfData ap.bytes cl.bytes an sn) (4 + 0)).take
          64).take 16) hs.eapol_data
    rw [stdEqual_same_length _ _ (by simp [flipBit, hlen])]
    have hne := flipBit_ne (CryptoUtils.calculateMIC C
      (((specPrfStream C (CryptoUtils.generatePMK C passphrase ssid)
        (ascii "Pairwise key expansion") (specPrfData ap.bytes cl.bytes an sn) (4 + 0)).take
          64).take 16) hs.eapol_data) i j (by rw [hlen]; exact i.isLt)
    simp only [decide_eq_false (Ne.symm hne)]

theorem zeroMicField_length (d : Bytes) : (CryptoUtils.zeroMicField d).length = d.length := by
  unfold CryptoUtils.zeroMicField
  split
  · simp; omega
  · rfl

theorem replicate_zero_getD (n k : Nat) : ((List.replicate n 0)[k]?).getD 0 = 0 := by
  rw [List.getElem?_replicate]
  split <;> rfl

theorem zeroMicField_getD (d : Bytes) (i : Nat) :
    (CryptoUtils.zeroMicField d).getD i 0 =
      if 93 ≤ d.length ∧ 77 ≤ i ∧ i < 93 then 0 else d.getD i 0 := by
  unfold CryptoUtils.zeroMicField
  by_cases h : d.length ≥ 93
  · rw [if_pos h]
    simp only [List.getD_eq_getElem?_getD]
    by_cases h1 : i < 77
    · rw [List.append_assoc, List.getElem?_append_left (by simp; omega)]
      rw [if_neg (by omega), List.getElem?_take_of_lt h1]
    · by_cases h2 : i < 93
      · rw [List.append_assoc, List.getElem?_append_right (by simp; omega)]
        rw [List.getElem?_append_left (by simp; omega)]
        rw [if_pos ⟨h, by omega, h2⟩]
        exact replicate_zero_getD 16 _
      · rw [List.getElem?_append_right (by simp; omega)]
        rw [if_neg (by omega), List.getElem?_drop]
        congr 2
        simp
        omega
  · rw [if_neg h, if_neg (by omega)]

/-- What `calculateMIC` computes: whatever key-descriptor version the payload
declares, the 16-byte HMAC-MD5, under the given key, of the copy of the
payload in which bytes 77..92 are zero when the payload holds at least 93
bytes and which equals the payload everywhere else. -/
theorem calculateMIC_is_hmacMd5 (C : Crypto) (kck eapol_data : Bytes) :
    ∃ data, CryptoUtils.calculateMIC C kck eapol_data = C.hmacMd5 kck data ∧
      (CryptoUtils.calculateMIC C kck eapol_data).length = 16 ∧
      data.length = eapol_data.length ∧
      ∀ i, data.getD i 0 =
        if 93 ≤ eapol_data.length ∧ 77 ≤ i ∧ i < 93 then 0 else eapol_data.getD i 0 := by
  refine ⟨CryptoUtils.zeroMicField eapol_data, ?_, calculateMIC_length C kck eapol_data,
    zeroMicField_length eapol_data, zeroMicField_getD eapol_data⟩
  unfold CryptoUtils.calculateMIC
  exact List.take_of_length_le (by rw [C.hmacMd5_size])

/-- **C7, the code at the failing inputs.** With a session key of at least 16
bytes, `verifyMIC` accepts a stored MIC that is the computed MIC followed by
any further bytes (so a 17-byte MIC is accepted), and on a record with an
empty MIC it reads past the end of the stored MIC. -/
theorem verifyMIC_ignores_mic_length (C : Crypto) (hs : HandshakePacket) (ptk extra : Bytes)
    (h : 16 ≤ ptk.length) :
    CryptoUtils.verifyMIC C
      { hs with mic := (CryptoUtils.calculateMIC C (ptk.take 16) hs.eapol_data ++ extra) } ptk
      = .ok true ∧
    CryptoUtils.verifyMIC C { hs with mic := [] } ptk = .error .outOfBounds := by
  constructor
  · rw [verifyMIC_of_length _ _ _ h]
    exact stdEqual_append _ _
  · rw [verifyMIC_of_length _ _ _ h]
    have hlen := calculateMIC_length C (ptk.take 16) hs.eapol_data
    match hm : CryptoUtils.calculateMIC C (ptk.take 16) hs.eapol_data with
    | [] => rw [hm] at hlen; simp at hlen
    | x :: s => simp [CryptoUtils.stdEqual]

/-- Witness for C7: message 2 of the capture with a 64-byte session key and a
one-byte extension of the computed MIC. -/
theorem verifyMIC_ignores_mic_length_witness :
    16 ≤ (kckGenuine ++ List.replicate 48 0).length ∧
    CryptoUtils.verifyMIC refCrypto
      { hsSample with mic :=
          (CryptoUtils.calculateMIC refCrypto ((kckGenuine ++ List.replicate 48 0).take 16)
            hsSample.eapol_data ++ [0xff]) } (kckGenuine ++ List.replicate 48 0)
      = .ok true ∧
    CryptoUtils.verifyMIC refCrypto { hsSample with mic := [] }
      (kckGenuine ++ List.replicate 48 0) = .error .outOfBounds :=
  ⟨by decide, verifyMIC_ignores_mic_length refCrypto hsSample
    (kckGenuine ++ List.replicate 48 0) [0xff] (by decide)⟩

theorem bind_ok {α β : Type} {x : Exec α} {f : α → Exec β} {b : β}
    (h : (x >>= f) = .ok b) : ∃ a, x = .ok a ∧ f a = .ok b := by
  cases x with
  | error e => simp [bind, Except.bind] at h
  | ok a => exact ⟨a, rfl, h⟩

theorem parseEAPOLFrame_essid (p : Bytes) (len : Int) (hs : HandshakePacket)
    (r : Bool × HandshakePacket) (h : PacketParser.parseEAPOLFrame p len hs = .ok r) :
    r.2.essid = hs.essid := by
  unfold PacketParser.parseEAPOLFrame at h
  split at h
  · injection h with h; subst h; rfl
  · obtain ⟨e6, -, h⟩ := bind_ok h
    split at h
    · injection h with h; subst h; rfl
    · obtain ⟨e7, -, h⟩ := bind_ok h
      split at h
      · injection h with h; subst h; rfl
      · obtain ⟨ty, -, h⟩ := bind_ok h
        split at h
        · injection h with h; subst h; rfl
        · obtain ⟨ap, -, h⟩ := bind_ok h
          obtain ⟨cl, -, h⟩ := bind_ok h
          obtain ⟨k1, -, h⟩ := bind_ok h
          obtain ⟨k0, -, h⟩ := bind_ok h
          dsimp only at h
          obtain ⟨an, -, h⟩ := bind_ok h
          obtain ⟨sn, -, h⟩ := bind_ok h
          obtain ⟨mi, -, h⟩ := bind_ok h
          obtain ⟨l2, -, h⟩ := bind_ok h
          obtain ⟨l3, -, h⟩ := bind_ok h
          obtain ⟨ed, -, h⟩ := bind_ok h
          injection h with h; subst h; rfl

theorem loadLoop_essid (junk : Nat → Int) (fuel : Nat) :
    ∀ (k : Nat) (rest : Bytes) (hss out : List HandshakePacket),
      (∀ h ∈ hss, h.essid = []) → WPACrack.loadLoop junk fuel k rest hss = .ok out →
      ∀ h ∈ out, h.essid = [] := by
  induction fuel with
  | zero => intro k rest hss out _ h; simp [WPACrack.loadLoop] at h
  | succ fuel ih =>
    intro k rest hss out hinv h
    unfold WPACrack.loadLoop at h
    split at h
    · injection h with h; subst h; exact hinv
    · dsimp only at h
      split at h
      · injection h with h; subst h; exact hinv
      · obtain ⟨isE, -, h⟩ := bind_ok h
        obtain ⟨hss2, h2, h⟩ := bind_ok h
        refine ih _ _ hss2 out ?_ h
        split at h2
        · obtain ⟨r, hr, h2⟩ := bind_ok h2
          injection h2 with h2; subst h2
          split
          · intro x hx
            rcases List.mem_append.mp hx with hx | hx
            · exact hinv x hx
            · rw [List.mem_singleton.mp hx, parseEAPOLFrame_essid _ _ _ _ hr]; rfl
          · exact hinv
        · injection h2 with h2; subst h2; exact hinv



theorem finishes_ok {α : Type} (a : α) : Exec.Finishes (Except.ok a : Exec α) := by
  simp [Exec.Finishes]

theorem finishes_pure {α : Type} (a : α) : Exec.Finishes (pure a : Exec α) := by
  simp [Exec.Finishes, pure, Except.pure]

theorem finishes_oob {α : Type} : Exec.Finishes (Except.error Err.outOfBounds : Exec α) := by
  simp [Exec.Finishes]

theorem finishes_bind {α β : Type} {x : Exec α} {f : α → Exec β}
    (hx : Exec.Finishes x) (hf : ∀ a, Exec.Finishes (f a)) : Exec.Finishes (x >>= f) := by
  cases x with
  | error e =>
    cases e with
    | outOfBounds => simp [Exec.Finishes, bind, Except.bind]
    | outOfFuel => exact absurd rfl hx
  | ok a => exact hf a

theorem rd_finishes (p : Bytes) (i : Nat) : Exec.Finishes (rd p i) := by
  unfold rd; split
  · exact finishes_ok _
  · exact finishes_oob

theorem rdN_finishes (p : Bytes) (off n : Nat) : Exec.Finishes (rdN p off n) := by
  unfold rdN; split
  · exact finishes_ok _
  · exact finishes_oob

theorem rdMac_finishes (p : Bytes) (off : Nat) : Exec.Finishes (rdMac p off) := by
  unfold rdMac; split
  · exact finishes_ok _
  · exact finishes_oob

theorem rdMatch_finishes (p : Bytes) (vs : List Nat) :
    ∀ off, Exec.Finishes (rdMatch p off vs) := by
  induction vs with
  | nil => intro off; exact finishes_ok _
  | cons v vs ih =>
    intro off
    unfold rdMatch
    refine finishes_bind (rd_finishes _ _) (fun b => ?_)
    split
    · exact ih _
    · exact finishes_pure _

theorem isEAPOLFrame_finishes (packet : Option Bytes) :
    Exec.Finishes (PacketParser.isEAPOLFrame packet) := by
  unfold PacketParser.isEAPOLFrame PacketParser.isDataFrame
  repeat' (first
    | exact finishes_ok _
    | exact finishes_pure _
    | exact rd_finishes _ _
    | exact rdMatch_finishes _ _ _
    | refine finishes_bind ?_ (fun _ => ?_)
    | split)

theorem parseEAPOLFrame_finishes (p : Bytes) (len : Int) (hs : HandshakePacket) :
    Exec.Finishes (PacketParser.parseEAPOLFrame p len hs) := by
  unfold PacketParser.parseEAPOLFrame
  repeat' (first
    | exact finishes_ok _
    | exact finishes_pure _
    | exact rd_finishes _ _
    | exact rdN_finishes _ _ _
    | exact rdMac_finishes _ _
    | refine finishes_bind ?_ (fun _ => ?_)
    | split)

theorem loadLoop_finishes (junk : Nat → Int) (fuel : Nat) :
    ∀ (k : Nat) (rest : Bytes) (hss : List HandshakePacket), rest.length < fuel →
      Exec.Finishes (WPACrack.loadLoop junk fuel k rest hss) := by
  induction fuel with
  | zero => intro k rest hss h; omega
  | succ fuel ih =>
    intro k rest hss hlen
    unfold WPACrack.loadLoop
    split
    · exact finishes_ok _
    · dsimp only
      split
      · exact finishes_ok _
      · refine finishes_bind (isEAPOLFrame_finishes _) (fun isE => ?_)
        refine finishes_bind ?_ (fun hss2 => ?_)
        · split
          · exact finishes_bind (parseEAPOLFrame_finishes _ _ _) (fun _ => finishes_pure _)
          · exact finishes_pure _
        · apply ih
          simp only [List.length_drop]
          omega

theorem validateHandshake_no_essid (h : HandshakePacket) (he : h.essid = []) :
    WPACrack.validateHandshake h = false := by
  simp [WPACrack.validateHandshake, he]

theorem extractHandshakes_no_essid (s : WPACrack) (hinv : ∀ h ∈ s.handshakes_, h.essid = []) :
    (WPACrack.extractHandshakes s).1 = false := by
  unfold WPACrack.extractHandshakes
  split
  · rfl
  · have hnil : ∀ l : List HandshakePacket, (∀ h ∈ l, h.essid = []) →
        l.filter (fun hs => WPACrack.validateHandshake hs) = [] := by
      intro l hl
      rw [List.filter_eq_nil_iff]
      intro a ha
      simp [validateHandshake_no_essid a (hl a ha)]
    dsimp only
    rw [hnil]
    · rfl
    · intro h hh
      split at hh
      · exact hinv h (List.mem_of_mem_filter hh)
      · exact hinv h hh

theorem loadCaptureFile_cases (cfg : Config) (env : Env) (junk : Nat → Int) :
    WPACrack.loadCaptureFile (WPACrack.new cfg) env junk = .error .outOfBounds ∨
    ∃ b s, WPACrack.loadCaptureFile (WPACrack.new cfg) env junk = .ok (b, s) ∧
      ∀ h ∈ s.handshakes_, h.essid = [] := by
  unfold WPACrack.loadCaptureFile
  cases env.capture with
  | none => right; exact ⟨false, WPACrack.new cfg, rfl, by simp [WPACrack.new]⟩
  | some file =>
    dsimp only
    have hfin := loadLoop_finishes junk (file.length + 1) 0 (file.drop 24)
      (WPACrack.new cfg).handshakes_ (by simp only [List.length_drop]; omega)
    cases hl : WPACrack.loadLoop junk (file.length + 1) 0 (file.drop 24)
        (WPACrack.new cfg).handshakes_ with
    | error e =>
      left
      cases e with
      | outOfBounds => rfl
      | outOfFuel => exact absurd hl hfin
    | ok hs =>
      right
      refine ⟨_, _, rfl, ?_⟩
      exact loadLoop_essid junk _ _ _ _ _ (by simp [WPACrack.new]) hl

theorem WPACrack_crack_cases (C : Crypto) (cfg : Config) (env : Env) (junk : Nat → Int)
    (fp : Bytes) :
    WPACrack.crack C (WPACrack.new cfg) env junk fp = .ok (false, fp) ∨
    WPACrack.crack C (WPACrack.new cfg) env junk fp = .error .outOfBounds := by
  unfold WPACrack.crack
  rcases loadCaptureFile_cases cfg env junk with h | ⟨b, s, h, hinv⟩
  · right; rw [h]; rfl
  · left
    rw [h]
    have hx := extractHandshakes_no_essid s hinv
    rcases hs : WPACrack.extractHandshakes s with ⟨b2, s2⟩
    rw [hs] at hx
    simp only at hx
    subst hx
    cases b <;> simp [bind, Except.bind, pure, Except.pure, hs, WPACrack.extractPMKIDs]

theorem WPACrack_crack_of_load (C : Crypto) (cfg : Config) (env : Env) (junk : Nat → Int)
    (fp : Bytes)
    (h : Exec.isOk (WPACrack.loadCaptureFile (WPACrack.new cfg) env junk) = true) :
    WPACrack.crack C (WPACrack.new cfg) env junk fp = .ok (false, fp) := by
  rcases WPACrack_crack_cases C cfg env junk fp with hc | hc
  · exact hc
  · exfalso
    unfold WPACrack.crack at hc
    cases hl : WPACrack.loadCaptureFile (WPACrack.new cfg) env junk with
    | error e => rw [hl] at h; simp [Exec.isOk] at h
    | ok r =>
      rcases loadCaptureFile_cases cfg env junk with h2 | ⟨b, s, h2, hinv⟩
      · rw [h2] at hl; cases hl
      · rw [h2] at hc
        have hx := extractHandshakes_no_essid s hinv
        rcases hs : WPACrack.extractHandshakes s with ⟨b2, s2⟩
        rw [hs] at hx
        simp only at hx
        subst hx
        cases b <;> simp [bind, Except.bind, pure, Except.pure, hs, WPACrack.extractPMKIDs] at hc

set_option maxRecDepth 100000 in
theorem loadCaptureFile_envPMKID_ok :
    Exec.isOk (WPACrack.loadCaptureFile (WPACrack.new cfgSample) envPMKID (fun _ => 0)) = true := by
  decide

set_option maxRecDepth 100000 in
theorem loadCaptureFile_envHandshake_ok :
    Exec.isOk (WPACrack.loadCaptureFile (WPACrack.new cfgSample) envHandshake (fun _ => 0))
      = true := by
  decide

/-- **C5, the code on every input and at the failing input.** `extractPMKIDs`
finds nothing and `testPasswordPMKID` rejects every password; on every capture,
wordlist and configuration `WPACrack::crack` (on a new object) either returns
false with `found_password` untouched or reads out of bounds while loading; and
on the capture that holds only the genuine PMKID frame of "TestNet", with
"password123" in the wordlist, it returns false. -/
theorem WPACrack_crack_pmkid_never_found :
    (∀ self : WPACrack, WPACrack.extractPMKIDs self = (false, self)) ∧
    (∀ password pmkid : Bytes, WPACrack.testPasswordPMKID password pmkid = false) ∧
    (∀ (C : Crypto) (cfg : Config) (env : Env) (junk : Nat → Int) (fp : Bytes),
      WPACrack.crack C (WPACrack.new cfg) env junk fp = .ok (false, fp) ∨
      WPACrack.crack C (WPACrack.new cfg) env junk fp = .error .outOfBounds) ∧
    (∀ (C : Crypto) (fp : Bytes),
      WPACrack.crack C (WPACrack.new cfgSample) envPMKID (fun _ => 0) fp = .ok (false, fp)) :=
  ⟨fun _ => rfl, fun _ _ => rfl, WPACrack_crack_cases,
    fun C fp => WPACrack_crack_of_load C cfgSample envPMKID _ fp loadCaptureFile_envPMKID_ok⟩

theorem loaderStep_found (self : DictionaryAttack) (env : Env) (l : DictionaryAttack.Loader) :
    (DictionaryAttack.loaderStep self env l).2.found_ = self.found_ := by
  unfold DictionaryAttack.loaderStep
  repeat' (first | rfl | split | dsimp only)

theorem workerStep_found (self : DictionaryAttack) (w : DictionaryAttack.Worker)
    (h : self.found_ = false) : (DictionaryAttack.workerStep self w).2.found_ = false := by
  cases w with
  | atLoopHead =>
    simp only [DictionaryAttack.workerStep, DictionaryAttack.getPasswordFromQueue]
    split
    · cases self.password_queue_ <;> exact h
    · exact h
  | testing password => simp [DictionaryAttack.workerStep, DictionaryAttack.testPasswordWorker, h]
  | finished => exact h

theorem step_found (env : Env) (r : DictionaryAttack.Run) (e : DictionaryAttack.Event)
    (h : r.self.found_ = false) : (DictionaryAttack.step env r e).self.found_ = false := by
  cases e with
  | load =>
    simp only [DictionaryAttack.step]
    rw [loaderStep_found]; exact h
  | work i =>
    simp only [DictionaryAttack.step]
    cases r.workers.get? i with
    | none => exact h
    | some w => exact workerStep_found r.self w h

theorem run_found (env : Env) (sched : List DictionaryAttack.Event) :
    ∀ r : DictionaryAttack.Run, r.self.found_ = false →
      (sched.foldl (DictionaryAttack.step env) r).self.found_ = false := by
  induction sched with
  | nil => intro r h; exact h
  | cons e es ih => intro r h; exact ih _ (step_found env r e h)

theorem DictionaryAttack_crack_of_preload (C : Crypto) (self : DictionaryAttack) (env : Env)
    (junk : Nat → Int) (sched : List DictionaryAttack.Event) (fp : Bytes) (v : Bool × Bytes)
    (h : WPACrack.crack C (WPACrack.new self.config_) env junk [] = .ok v) :
    DictionaryAttack.crack C self env junk sched fp = .ok (false, fp) := by
  unfold DictionaryAttack.crack
  rw [h]
  simp only [bind, Except.bind]
  rw [run_found env sched _ rfl]
  rfl

/-- **C1, the code on every input and at the failing input.**
`testPasswordWorker` rejects every password; under every interleaving of its
threads `DictionaryAttack::crack` either returns false with `found_password`
untouched or reads out of bounds while loading the capture; and on the capture
with the genuine four-message handshake of "TestNet" and a wordlist that holds
"password123" it returns false, whatever the thread count and interleaving. -/
theorem DictionaryAttack_crack_never_finds :
    (∀ (self : DictionaryAttack) (password : Bytes),
      DictionaryAttack.testPasswordWorker self password = false) ∧
    (∀ (C : Crypto) (self : DictionaryAttack) (env : Env) (junk : Nat → Int)
        (sched : List DictionaryAttack.Event) (fp : Bytes),
      DictionaryAttack.crack C self env junk sched fp = .ok (false, fp) ∨
      DictionaryAttack.crack C self env junk sched fp = .error .outOfBounds) ∧
    (∀ (C : Crypto) (threads : Nat) (sched : List DictionaryAttack.Event) (fp : Bytes),
      DictionaryAttack.crack C ⟨cfgSample, threads, false, false, 0, [], []⟩ envHandshake
        (fun _ => 0) sched fp = .ok (false, fp)) := by
  refine ⟨fun _ _ => rfl, ?_, ?_⟩
  · intro C self env junk sched fp
    rcases WPACrack_crack_cases C self.config_ env junk [] with h | h
    · left; exact DictionaryAttack_crack_of_preload C self env junk sched fp _ h
    · right
      unfold DictionaryAttack.crack
      rw [h]; rfl
  · intro C threads sched fp
    exact DictionaryAttack_crack_of_preload C _ envHandshake _ sched fp _
      (WPACrack_crack_of_load C cfgSample envHandshake _ [] loadCaptureFile_envHandshake_ok)

set_option maxRecDepth 100000 in
/-- **C8, the code at the failing input.** The 81-byte frame `frame81` is
shorter than 24 + 8 + 95 bytes, yet `parseEAPOLFrame` returns true for it with
a message-1 record, and `loadCaptureFile` stores that record. -/
theorem parseEAPOLFrame_accepts_short_frame :
    frame81.length = 81 ∧ 81 < 24 + 8 + 95 ∧
    PacketParser.parseEAPOLFrame frame81 81 (HandshakePacket.fresh 0)
      = .ok (true, handshake81) ∧
    WPACrack.loadCaptureFile (WPACrack.new cfgSample)
      ⟨some (pcapHeader ++ pcapRecord frame81), none⟩ (fun _ => 0)
      = .ok (true, ⟨cfgSample, [handshake81], []⟩) := by
  decide

set_option maxRecDepth 100000 in
/-- **C9, the code at the failing inputs.** On a one-byte data frame
`isEAPOLFrame` reads offset 30; on a 32-byte frame with the EAPOL EtherType
`parseEAPOLFrame` passes its length check and reads offset 33; on message 2 of
the genuine handshake cut to a capture length of 100 it reads the MIC at
offsets 113..128; and `loadCaptureFile` on a capture with that record reads
out of bounds. -/
theorem eapol_reads_past_capture_length :
    PacketParser.isEAPOLFrame (vectorData [0x08]) = .error .outOfBounds ∧
    PacketParser.parseEAPOLFrame frame32 32 (HandshakePacket.fresh 0) = .error .outOfBounds ∧
    frameMsg2Cut.length = 100 ∧
    PacketParser.parseEAPOLFrame frameMsg2Cut 100 (HandshakePacket.fresh 0)
      = .error .outOfBounds ∧
    WPACrack.loadCaptureFile (WPACrack.new cfgSample)
      ⟨some (pcapHeader ++ pcapRecord frameMsg2Cut), none⟩ (fun _ => 0)
      = .error .outOfBounds := by
  decide

theorem memcmp_eq_zero_iff (n : Nat) :
    ∀ a b : Bytes, n ≤ a.length → n ≤ b.length → (memcmp a b n = 0 ↔ a.take n = b.take n) := by
  induction n with
  | zero => intro a b _ _; simp [memcmp]
  | succ n ih =>
    intro a b ha hb
    cases a with
    | nil => simp at ha
    | cons x s =>
      cases b with
      | nil => simp at hb
      | cons y t =>
        simp only [List.length_cons, Nat.add_le_add_iff_right] at ha hb
        simp only [memcmp, List.take_succ_cons, List.cons.injEq]
        by_cases h1 : x < y
        · simp only [h1, if_true]
          constructor
          · intro h; exact absurd h (by decide)
          · intro h; omega
        · by_cases h2 : y < x
          · simp only [h1, h2, if_false, if_true]
            constructor
            · intro h; exact absurd h (by decide)
            · intro h; omega
          · have hxy : x = y := by omega
            subst hxy
            simp only [h1, if_false, ih s t ha hb, true_and]

/-- **C4, the code on every record.** For a record with a 16-byte PMKID,
`verifyPMKID` accepts exactly when the PMKID equals the spec's PMKID for the
fixed address 02:00:00:00:00:01 in place of the record's client address; so
when the stored PMKID is the one of the record's client and the two values
differ, the right password is rejected; the record's client address never
enters the verdict. -/
theorem verifyPMKID_uses_dummy_client (C : Crypto) (result : PMKIDResult) (password : Bytes)
    (h : result.pmkid.length = 16) :
    PMKIDAttack.verifyPMKID C result password =
      .ok (decide (specPMKID C (C.pbkdf2HmacSha1 password result.ssid 4096 32) result.bssid
        PMKIDAttack.dummy_client = result.pmkid)) ∧
    (specPMKID C (C.pbkdf2HmacSha1 password result.ssid 4096 32) result.bssid
        result.client_mac = result.pmkid →
      specPMKID C (C.pbkdf2HmacSha1 password result.ssid 4096 32) result.bssid
        PMKIDAttack.dummy_client ≠
      specPMKID C (C.pbkdf2HmacSha1 password result.ssid 4096 32) result.bssid
        result.client_mac →
      PMKIDAttack.verifyPMKID C result password = .ok false) ∧
    (∀ client : MacAddress,
      PMKIDAttack.verifyPMKID C { result with client_mac := client } password =
        PMKIDAttack.verifyPMKID C result password) := by
  have key : PMKIDAttack.verifyPMKID C result password =
      .ok (decide (specPMKID C (C.pbkdf2HmacSha1 password result.ssid 4096 32) result.bssid
        PMKIDAttack.dummy_client = result.pmkid)) := by
    unfold PMKIDAttack.verifyPMKID specPMKID
    dsimp only
    rw [if_neg (by omega)]
    congr 1
    have hm := memcmp_eq_zero_iff 16
      (C.hmacSha1 (C.pbkdf2HmacSha1 password result.ssid 4096 32)
        (ascii "PMK Name" ++ result.bssid.bytes ++ PMKIDAttack.dummy_client.bytes))
      result.pmkid (by rw [C.hmacSha1_size]; decide) (by omega)
    rw [List.take_of_length_le (l := result.pmkid) (by omega)] at hm
    rw [Bool.eq_iff_iff]
    simp only [beq_iff_eq, decide_eq_true_eq]
    exact hm
  refine ⟨key, ?_, fun _ => rfl⟩
  intro h1 h2
  rw [key, ← h1]
  simp only [decide_eq_false h2]

/-- Witness for C4: the sample record, whose PMKID is the one of its own
client address, with the right passphrase. -/
theorem verifyPMKID_uses_dummy_client_witness :
    pmkidSample.pmkid.length = 16 ∧
    PMKIDAttack.verifyPMKID sumCrypto pmkidSample (ascii "password123") = .ok false := by
  have h16 : pmkidSample.pmkid.length = 16 := by decide
  exact ⟨h16, (verifyPMKID_uses_dummy_client sumCrypto pmkidSample (ascii "password123") h16).2.1
    (by decide) (by decide)⟩

theorem rd_ok (p : Bytes) (i : Nat) (h : i < p.length) : rd p i = .ok (p.getD i 0) := by
  unfold rd
  rw [List.get?_eq_getElem?, List.getElem?_eq_getElem h]
  simp [List.getD_eq_getElem?_getD, List.getElem?_eq_getElem h]

theorem rdN_ok (p : Bytes) (off n : Nat) (h : off + n ≤ p.length) :
    rdN p off n = .ok ((p.drop off).take n) := by
  unfold rdN
  rw [if_pos h]

theorem rdMac_ok (p : Bytes) (off : Nat) (h : off + 6 ≤ p.length) :
    ∃ m, rdMac p off = .ok m := by
  unfold rdMac
  rw [dif_pos h]
  exact ⟨_, rfl⟩

theorem ok_bind {α β : Type} {x : Exec α} {f : α → Exec β} {a : α}
    (hx : x = .ok a) (hf : ∃ b, f a = .ok b) : ∃ b, (x >>= f) = .ok b := by
  subst hx
  exact hf

theorem rdMatch_ok (p : Bytes) (vs : List Nat) :
    ∀ off, off + vs.length ≤ p.length → ∃ b, rdMatch p off vs = .ok b := by
  induction vs with
  | nil => intro off _; exact ⟨true, rfl⟩
  | cons v vs ih =>
    intro off h
    simp only [List.length_cons] at h
    unfold rdMatch
    refine ok_bind (rd_ok p off (by omega)) ?_
    split
    · exact ih (off + 1) (by omega)
    · exact ⟨false, rfl⟩

theorem toSizeT_natCast (n : Nat) (h : n < 2 ^ 64) : toSizeT (n : Int) = n := by
  unfold toSizeT
  rw [Int.emod_eq_of_lt (by omega) (by norm_num; omega)]
  simp

theorem toInt32_of_small (i : Int) (h0 : 0 ≤ i) (h1 : i < 2 ^ 31) : toInt32 i = i := by
  unfold toInt32
  have hm : i % (2 ^ 32 : Int) = i := Int.emod_eq_of_lt h0 (by norm_num at h1 ⊢; omega)
  simp only [hm]
  rw [if_pos h1]

theorem findLoop_ok (packet : Bytes) (L : Nat) (hL : L ≤ packet.length) (id : Nat) :
    ∀ (fuel cur : Nat), L - cur < fuel →
      ∃ r, PacketParser.findLoop packet (L : Int) id fuel cur = .ok r ∧
        ∀ q, r = some q → cur ≤ q ∧ q + 2 + packet.getD (q + 1) 0 ≤ L := by
  intro fuel
  induction fuel with
  | zero => intro cur h; omega
  | succ fuel ih =>
    intro cur hfuel
    unfold PacketParser.findLoop
    by_cases hc : (cur : Int) + 2 ≤ (L : Int)
    · rw [if_pos hc]
      rw [rd_ok packet cur (by omega), rd_ok packet (cur + 1) (by omega)]
      simp only [bind, Except.bind]
      by_cases hov : (cur : Int) + 2 + (packet.getD (cur + 1) 0 : Nat) > (L : Int)
      · rw [if_pos hov]
        exact ⟨none, rfl, by intro q hq; cases hq⟩
      · rw [if_neg hov]
        by_cases hid : packet.getD cur 0 = id
        · rw [if_pos hid]
          refine ⟨some cur, rfl, ?_⟩
          intro q hq
          injection hq with hq
          subst hq
          exact ⟨le_refl _, by omega⟩
        · rw [if_neg hid]
          obtain ⟨r, hr, hprop⟩ := ih (cur + 2 + packet.getD (cur + 1) 0) (by omega)
          refine ⟨r, hr, ?_⟩
          intro q hq
          have := hprop q hq
          omega
    · rw [if_neg hc]
      exact ⟨none, rfl, by intro q hq; cases hq⟩

theorem findInformationElement_ok (packet : Bytes) (d n : Nat) (h : d + n ≤ packet.length)
    (id : Nat) :
    ∃ r, PacketParser.findInformationElement packet d (n : Int) id = .ok r ∧
      ∀ q, r = some q → d ≤ q ∧ q + 2 + packet.getD (q + 1) 0 ≤ d + n := by
  unfold PacketParser.findInformationElement
  have hcast : (d : Int) + (n : Int) = ((d + n : Nat) : Int) := by push_cast; rfl
  rw [hcast]
  exact findLoop_ok packet (d + n) h id _ _ (by simp)

theorem extractSSID_ok (packet : Bytes) (d n : Nat) (h : d + n ≤ packet.length) :
    ∃ r, PacketParser.extractSSID packet d (n : Int) = .ok r := by
  unfold PacketParser.extractSSID
  obtain ⟨r, hr, hprop⟩ := findInformationElement_ok packet d n h 0
  refine ok_bind hr ?_
  cases r with
  | none => exact ⟨_, rfl⟩
  | some q =>
    have hq := (hprop q rfl).2
    dsimp only
    refine ok_bind (rd_ok packet (q + 1) (by omega)) ?_
    split
    · exact ⟨_, rfl⟩
    · exact ⟨_, rdN_ok packet (q + 2) _ (by omega)⟩

theorem extractChannel_ok (packet : Bytes) (d n : Nat) (h : d + n ≤ packet.length) :
    ∃ r, PacketParser.extractChannel packet d (n : Int) = .ok r := by
  unfold PacketParser.extractChannel
  obtain ⟨r, hr, hprop⟩ := findInformationElement_ok packet d n h 3
  refine ok_bind hr ?_
  cases r with
  | none => exact ⟨_, rfl⟩
  | some q =>
    have hq := (hprop q rfl).2
    dsimp only
    refine ok_bind (rd_ok packet (q + 1) (by omega)) ?_
    split
    · exact ⟨_, rfl⟩
    · rename_i hlen
      have h1 : packet.getD (q + 1) 0 = 1 := by
        by_contra hne; exact hlen hne
      exact ok_bind (rd_ok packet (q + 2) (by omega)) ⟨_, rfl⟩

theorem akmLoop_ok (packet : Bytes) (count : Nat) :
    ∀ cur, cur + count * 4 ≤ packet.length →
      ∃ b, PacketParser.akmLoop packet count cur = .ok b := by
  induction count with
  | zero => intro cur _; exact ⟨false, rfl⟩
  | succ count ih =>
    intro cur h
    unfold PacketParser.akmLoop
    obtain ⟨hit, hhit⟩ := rdMatch_ok packet [0x00, 0x0F, 0xAC, 0x08] cur
      (by simp only [List.length_cons, List.length_nil]; omega)
    refine ok_bind hhit ?_
    split
    · exact ⟨true, rfl⟩
    · exact ih (cur + 4) (by omega)

theorem parseRSNInformation_ok (packet : Bytes) (d n : Nat) (h : d + n ≤ packet.length) :
    ∃ r, PacketParser.parseRSNInformation packet d (n : Int) = .ok r := by
  unfold PacketParser.parseRSNInformation
  split
  · exact ⟨_, rfl⟩
  · rename_i h8
    refine ok_bind (rd_ok packet d (by omega)) ?_
    split
    · exact ⟨_, rfl⟩
    · refine ok_bind (rd_ok packet (d + 1) (by omega)) ?_
      split
      · exact ⟨_, rfl⟩
      · dsimp only
        split
        · exact ⟨_, rfl⟩
        · refine ok_bind (rd_ok packet (d + 2 + 4 + 1) (by omega)) ?_
          refine ok_bind (rd_ok packet (d + 2 + 4) (by omega)) ?_
          dsimp only
          generalize ((packet.getD (d + 2 + 4 + 1) 0 <<< 8) ||| packet.getD (d + 2 + 4) 0)
            % 65536 = pc
          split
          · exact ⟨_, rfl⟩
          · rename_i hpc
            split
            · exact ⟨_, rfl⟩
            · rename_i hrem
              refine ok_bind (rd_ok packet (d + 2 + 4 + 2 + pc * 4 + 1) (by omega)) ?_
              refine ok_bind (rd_ok packet (d + 2 + 4 + 2 + pc * 4) (by omega)) ?_
              dsimp only
              generalize ((packet.getD (d + 2 + 4 + 2 + pc * 4 + 1) 0 <<< 8) |||
                packet.getD (d + 2 + 4 + 2 + pc * 4) 0) % 65536 = ac
              split
              · exact ⟨_, rfl⟩
              · rename_i hac
                obtain ⟨b, hb⟩ := akmLoop_ok packet ac (d + 2 + 4 + 2 + pc * 4 + 2)
                  (by omega)
                refine ok_bind hb ?_
                split
                · exact ⟨_, rfl⟩
                · exact ⟨_, rfl⟩

theorem extractEncryptionWPA_ok (packet : Bytes) (d n : Nat) (h : d + n ≤ packet.length) :
    ∃ r, PacketParser.extractEncryptionWPA packet d (n : Int) = .ok r := by
  unfold PacketParser.extractEncryptionWPA
  obtain ⟨r, hr, hprop⟩ := findInformationElement_ok packet d n h 221
  refine ok_bind hr ?_
  cases r with
  | none => exact ⟨_, rfl⟩
  | some q =>
    have hq := (hprop q rfl).2
    dsimp only
    refine ok_bind (rd_ok packet (q + 1) (by omega)) ?_
    split
    · obtain ⟨b, hb⟩ := rdMatch_ok packet [0x00, 0x50, 0xf2, 0x01] (q + 2)
        (by simp only [List.length_cons, List.length_nil]; omega)
      refine ok_bind hb ?_
      split
      · split
        · exact ⟨_, rfl⟩
        · exact ⟨_, rfl⟩
      · exact ⟨_, rfl⟩
    · exact ⟨_, rfl⟩

theorem extractEncryption_ok (packet : Bytes) (d n : Nat) (h : d + n ≤ packet.length) :
    ∃ r, PacketParser.extractEncryption packet d (n : Int) = .ok r := by
  unfold PacketParser.extractEncryption
  obtain ⟨r, hr, hprop⟩ := findInformationElement_ok packet d n h 48
  refine ok_bind hr ?_
  cases r with
  | none => exact extractEncryptionWPA_ok packet d n h
  | some q =>
    have hq := (hprop q rfl).2
    dsimp only
    refine ok_bind (rd_ok packet (q + 1) (by omega)) ?_
    obtain ⟨t, ht⟩ := parseRSNInformation_ok packet (q + 2) (packet.getD (q + 1) 0) (by omega)
    refine ok_bind ht ?_
    cases t with
    | none => exact extractEncryptionWPA_ok packet d n h
    | some t => exact ⟨_, rfl⟩

theorem parseBeaconFrame_ok (packet : Bytes) (network : WifiNetwork)
    (h36 : 36 ≤ packet.length) (hint : packet.length < 2 ^ 31) :
    ∃ net, PacketParser.parseBeaconFrame packet (packet.length : Int) network
      = .ok (true, net) := by
  unfold PacketParser.parseBeaconFrame
  have hsz : toSizeT (packet.length : Int) = packet.length :=
    toSizeT_natCast _ (by omega)
  rw [hsz, if_neg (by unfold PacketParser.sizeofBeaconFrame; omega)]
  obtain ⟨m, hm⟩ := rdMac_ok packet 16 (by omega)
  have hlen : toInt32 ((packet.length : Int) - (PacketParser.sizeofBeaconFrame : Nat))
      = ((packet.length - 36 : Nat) : Int) := by
    unfold PacketParser.sizeofBeaconFrame
    rw [toInt32_of_small _ (by omega) (by omega)]
    omega
  have hfit : PacketParser.sizeofBeaconFrame + (packet.length - 36) ≤ packet.length := by
    unfold PacketParser.sizeofBeaconFrame; omega
  obtain ⟨s, hs⟩ := extractSSID_ok packet _ _ hfit
  obtain ⟨c, hc⟩ := extractChannel_ok packet _ _ hfit
  obtain ⟨e, he⟩ := extractEncryption_ok packet _ _ hfit
  rw [hm]
  simp only [bind, Except.bind, hlen, hs, hc, he, pure, Except.pure]
  exact ⟨_, rfl⟩

/-- **C10.** For every beacon buffer of at least 36 bytes (and a length that
fits the `int` parameter), whatever its tagged parameters hold:
`parseBeaconFrame`, `extractSSID`, `extractChannel`, `extractEncryption` and
`findInformationElement` return without reading outside the buffer; an element
that `findInformationElement` returns lies, with its declared length, inside
the buffer; and when the walk reaches an element whose declared length exceeds
the rest of the buffer it stops with the null result. -/
theorem parseBeaconFrame_reads_in_bounds (packet : Bytes) (network : WifiNetwork)
    (h36 : 36 ≤ packet.length) (hint : packet.length < 2 ^ 31) :
    (∃ net, PacketParser.parseBeaconFrame packet (packet.length : Int) network
      = .ok (true, net)) ∧
    (∃ s, PacketParser.extractSSID packet 36 ((packet.length - 36 : Nat) : Int) = .ok s) ∧
    (∃ c, PacketParser.extractChannel packet 36 ((packet.length - 36 : Nat) : Int) = .ok c) ∧
    (∃ e, PacketParser.extractEncryption packet 36 ((packet.length - 36 : Nat) : Int)
      = .ok e) ∧
    (∀ id, ∃ r,
      PacketParser.findInformationElement packet 36 ((packet.length - 36 : Nat) : Int) id
        = .ok r ∧
      ∀ q, r = some q → 36 ≤ q ∧ q + 2 + packet.getD (q + 1) 0 ≤ packet.length) ∧
    (∀ id fuel cur, cur + 2 ≤ packet.length →
      packet.length < cur + 2 + packet.getD (cur + 1) 0 →
      PacketParser.findLoop packet (packet.length : Int) id (fuel + 1) cur = .ok none) := by
  have hfit : 36 + (packet.length - 36) ≤ packet.length := by omega
  refine ⟨parseBeaconFrame_ok packet network h36 hint, extractSSID_ok packet _ _ hfit,
    extractChannel_ok packet _ _ hfit, extractEncryption_ok packet _ _ hfit, ?_, ?_⟩
  · intro id
    obtain ⟨r, hr, hprop⟩ := findInformationElement_ok packet 36 (packet.length - 36) hfit id
    refine ⟨r, hr, ?_⟩
    intro q hq
    have := hprop q hq
    omega
  · intro id fuel cur h2 hov
    unfold PacketParser.findLoop
    rw [if_pos (by omega), rd_ok packet cur (by omega), rd_ok packet (cur + 1) (by omega)]
    simp only [bind, Except.bind]
    rw [if_pos (by omega)]
    rfl

set_option maxRecDepth 100000 in
/-- Witness for C10: the sample beacon, whose last element overruns the
buffer; it parses to network "TestNet", channel 6, WPA2. -/
theorem parseBeaconFrame_reads_in_bounds_witness :
    36 ≤ beaconSample.length ∧ beaconSample.length < 2 ^ 31 ∧
    (∃ net, PacketParser.parseBeaconFrame beaconSample (beaconSample.length : Int)
      networkSample = .ok (true, net)) ∧
    PacketParser.parseBeaconFrame beaconSample (beaconSample.length : Int) networkSample =
      .ok (true, { networkSample with
        bssid := ⟨[0x00, 0x11, 0x22, 0x33, 0x44, 0x55], rfl⟩, essid := ascii "TestNet",
        channel := 6, encryption := ascii "WPA2" }) ∧
    PacketParser.findInformationElement beaconSample 36
      ((beaconSample.length - 36 : Nat) : Int) 221 = .ok none :=
  ⟨by decide, by decide,
    (parseBeaconFrame_reads_in_bounds beaconSample networkSample (by decide) (by decide)).1,
    by decide, by decide⟩

set_option maxRecDepth 1000000 in
/-- The MIC that message 2 of the handshake capture carries is the genuine one
for the primitives as published: the HMAC-SHA1-128, under `kckGenuine`, of its
EAPOL frame with the MIC field (bytes 81..96) zeroed. -/
theorem captureHandshake_mic_genuine :
    (refCrypto.hmacSha1 kckGenuine
      (eapolMsg2.take 81 ++ List.replicate 16 0 ++ eapolMsg2.drop 97)).take 16
      = hsSample.mic := by
  decide

/-- C13: for a record whose message number is in 1..4, `validateHandshake`
returns true exactly when the network name is non-empty, both nonces are 32
bytes long, the MIC is 16 bytes long and the EAPOL payload has at least 95
bytes. -/
theorem validateHandshake_iff_structural (h : HandshakePacket)
    (h1 : 1 ≤ h.message_number) (h4 : h.message_number ≤ 4) :
    WPACrack.validateHandshake h = true ↔
      (h.essid ≠ [] ∧ h.anonce.length = 32 ∧ h.snonce.length = 32 ∧
        h.mic.length = 16 ∧ 95 ≤ h.eapol_data.length) := by
  obtain ⟨ap, cl, an, sn, mic, ed, es, mn⟩ := h
  simp only at h1 h4
  have hmn : ¬ (mn < 1 ∨ mn > 4) := by omega
  simp only [WPACrack.validateHandshake, WPACrack.verifyHandshakeIntegrity, hmn, if_false]
  constructor
  · intro hv
    split at hv
    · cases hv
    · split at hv
      · cases hv
      · split at hv
        · cases hv
        · split at hv
          · cases hv
          · split at hv
            · cases hv
            · rename_i a b c d e
              simp only [List.isEmpty_iff, not_or] at a
              refine ⟨a.1, ?_, ?_, ?_, ?_⟩ <;> omega
  · rintro ⟨he, ha, hs, hm, hd⟩
    have e1 : es.isEmpty = false := by cases es <;> simp_all
    have e2 : an.isEmpty = false := by cases an <;> simp_all
    have e3 : sn.isEmpty = false := by cases sn <;> simp_all
    have e4 : mic.isEmpty = false := by cases mic <;> simp_all
    have e5 : ed.isEmpty = false := by cases ed <;> simp_all
    simp [e1, e2, e3, e4, e5, ha, hs, hm]
    omega

set_option maxRecDepth 100000 in
/-- The structural rule at a full record: message 2 of the capture with the
ANonce of message 1 satisfies both sides. -/
theorem validateHandshake_iff_structural_witness :
    (1 ≤ hsComplete.message_number ∧ hsComplete.message_number ≤ 4) ∧
    WPACrack.validateHandshake hsComplete = true ∧
    (WPACrack.validateHandshake hsComplete = true ↔
      (hsComplete.essid ≠ [] ∧ hsComplete.anonce.length = 32 ∧
        hsComplete.snonce.length = 32 ∧ hsComplete.mic.length = 16 ∧
        95 ≤ hsComplete.eapol_data.length)) :=
  ⟨⟨by decide, by decide⟩, by decide,
    validateHandshake_iff_structural hsComplete (by decide) (by decide)⟩

/-! ## The order of AP addresses -/

theorem MacAddress.lt_irrefl (a : MacAddress) : a.lt a = false := by
  cases h : a.lt a with
  | false => rfl
  | true =>
    rw [MacAddress.lt_iff] at h
    exact absurd h (irrefl_of (List.Lex fun x y : Nat => x < y) a.bytes)

theorem MacAddress.lt_trans {a b c : MacAddress} (h1 : a.lt b = true) (h2 : b.lt c = true) :
    a.lt c = true := by
  rw [MacAddress.lt_iff] at h1 h2 ⊢
  exact trans_of (List.Lex fun x y : Nat => x < y) h1 h2

theorem MacAddress.eq_of_not_lt {a b : MacAddress} (h1 : a.lt b = false) (h2 : b.lt a = false) :
    a = b := by
  have e : a.bytes = b.bytes := by
    rcases trichotomous_of (List.Lex fun x y : Nat => x < y) a.bytes b.bytes with h | h | h
    · rw [← LexBefore, ← MacAddress.lt_iff, h1] at h; cases h
    · exact h
    · rw [← LexBefore, ← MacAddress.lt_iff, h2] at h; cases h
  obtain ⟨x, hx⟩ := a
  obtain ⟨y, hy⟩ := b
  simp only at e
  subst e
  rfl

theorem MacAddress.ne_of_lt {a b : MacAddress} (h : a.lt b = true) : a ≠ b := by
  intro e
  subst e
  rw [MacAddress.lt_irrefl] at h
  cases h

/-! ## Grouping by AP -/

/-- The keys of the map of `findBestHandshake` are strictly increasing. -/
theorem groupInsert_sorted (h : HandshakePacket) :
    ∀ g : List (MacAddress × List HandshakePacket),
      (g.map Prod.fst).Pairwise (fun a b => a.lt b = true) →
      ((WPACrack.groupInsert h g).map Prod.fst).Pairwise (fun a b => a.lt b = true) ∧
        ∀ k ∈ (WPACrack.groupInsert h g).map Prod.fst, k = h.ap_mac ∨ k ∈ g.map Prod.fst := by
  intro g
  induction g with
  | nil =>
    intro _
    simp [WPACrack.groupInsert]
  | cons p rest ih =>
    obtain ⟨k, v⟩ := p
    intro hs
    simp only [List.map_cons, List.pairwise_cons] at hs
    obtain ⟨hk, hrest⟩ := hs
    simp only [WPACrack.groupInsert]
    by_cases h1 : h.ap_mac.lt k = true
    · rw [if_pos h1]
      simp only [List.map_cons, List.pairwise_cons, List.mem_cons]
      refine ⟨⟨?_, hk, hrest⟩, ?_⟩
      · intro a ha
        rcases ha with ha | ha
        · subst ha; exact h1
        · exact MacAddress.lt_trans h1 (hk a ha)
      · intro a ha
        rcases ha with ha | ha | ha
        · exact Or.inl ha
        · exact Or.inr (Or.inl ha)
        · exact Or.inr (Or.inr ha)
    · rw [if_neg h1]
      by_cases h2 : k.lt h.ap_mac = true
      · rw [if_pos h2]
        simp only [List.map_cons, List.pairwise_cons, List.mem_cons]
        obtain ⟨i1, i2⟩ := ih hrest
        refine ⟨⟨?_, i1⟩, ?_⟩
        · intro a ha
          rcases i2 a ha with e | e
          · subst e; exact h2
          · exact hk a e
        · intro a ha
          rcases ha with ha | ha
          · exact Or.inr (Or.inl ha)
          · rcases i2 a ha with e | e
            · exact Or.inl e
            · exact Or.inr (Or.inr e)
      · rw [if_neg h2]
        simp only [List.map_cons, List.pairwise_cons, List.mem_cons]
        refine ⟨⟨hk, hrest⟩, ?_⟩
        intro a ha
        rcases ha with ha | ha
        · exact Or.inr (Or.inl ha)
        · exact Or.inr (Or.inr ha)

/-- The entries of the map after one insertion. -/
theorem mem_groupInsert (h : HandshakePacket) :
    ∀ g : List (MacAddress × List HandshakePacket),
      (g.map Prod.fst).Pairwise (fun a b => a.lt b = true) →
      ∀ p, p ∈ WPACrack.groupInsert h g ↔
        ((p ∈ g ∧ p.1 ≠ h.ap_mac) ∨ (∃ v, (h.ap_mac, v) ∈ g ∧ p = (h.ap_mac, v ++ [h])) ∨
          (h.ap_mac ∉ g.map Prod.fst ∧ p = (h.ap_mac, [h]))) := by
  intro g
  induction g with
  | nil =>
    intro _ p
    simp [WPACrack.groupInsert]
  | cons q rest ih =>
    obtain ⟨k, v⟩ := q
    intro hs p
    simp only [List.map_cons, List.pairwise_cons] at hs
    obtain ⟨hk, hrest⟩ := hs
    have hkne : ∀ a ∈ rest.map Prod.fst, k ≠ a := fun a ha => MacAddress.ne_of_lt (hk a ha)
    simp only [WPACrack.groupInsert]
    by_cases h1 : h.ap_mac.lt k = true
    · have hne : h.ap_mac ≠ k := MacAddress.ne_of_lt h1
      have hnotin : h.ap_mac ∉ rest.map Prod.fst := fun hin =>
        MacAddress.ne_of_lt (MacAddress.lt_trans h1 (hk _ hin)) rfl
      have hnov : ∀ w, (h.ap_mac, w) ∉ rest := fun w hw =>
        hnotin (List.mem_map_of_mem Prod.fst hw)
      rw [if_pos h1]
      simp only [List.mem_cons, List.map_cons]
      constructor
      · rintro (e | e | e)
        · exact Or.inr (Or.inr ⟨by
            intro hh
            rcases hh with hh | hh
            · exact hne hh
            · exact hnotin hh, e⟩)
        · subst e
          exact Or.inl ⟨Or.inl rfl, fun e => hne e.symm⟩
        · refine Or.inl ⟨Or.inr e, ?_⟩
          intro e2
          apply hnotin
          rw [← e2]
          exact List.mem_map_of_mem Prod.fst e
      · rintro (⟨e | e, _⟩ | ⟨w, hw | hw, _⟩ | ⟨_, e⟩)
        · exact Or.inr (Or.inl e)
        · exact Or.inr (Or.inr e)
        · exact absurd (congrArg Prod.fst hw) hne
        · exact absurd hw (hnov w)
        · exact Or.inl e
    · rw [if_neg h1]
      by_cases h2 : k.lt h.ap_mac = true
      · have hne : k ≠ h.ap_mac := MacAddress.ne_of_lt h2
        rw [if_pos h2]
        simp only [List.mem_cons, List.map_cons, ih hrest p]
        constructor
        · rintro (e | ⟨e, e2⟩ | ⟨w, hw, e⟩ | ⟨hn, e⟩)
          · subst e
            exact Or.inl ⟨Or.inl rfl, hne⟩
          · exact Or.inl ⟨Or.inr e, e2⟩
          · exact Or.inr (Or.inl ⟨w, Or.inr hw, e⟩)
          · refine Or.inr (Or.inr ⟨?_, e⟩)
            intro hh
            rcases hh with hh | hh
            · exact hne hh.symm
            · exact hn hh
        · rintro (⟨e | e, e2⟩ | ⟨w, hw | hw, e⟩ | ⟨hn, e⟩)
          · exact Or.inl e
          · exact Or.inr (Or.inl ⟨e, e2⟩)
          · exact absurd (congrArg Prod.fst hw).symm hne
          · exact Or.inr (Or.inr (Or.inl ⟨w, hw, e⟩))
          · refine Or.inr (Or.inr (Or.inr ⟨?_, e⟩))
            intro hh
            exact hn (Or.inr hh)
      · have hb1 : h.ap_mac.lt k = false := by simpa using h1
        have hb2 : k.lt h.ap_mac = false := by simpa using h2
        have heq : h.ap_mac = k := MacAddress.eq_of_not_lt hb1 hb2
        have hnotin : h.ap_mac ∉ rest.map Prod.fst := fun hin => hkne _ (heq ▸ hin) rfl
        have hnov : ∀ w, (h.ap_mac, w) ∉ rest := fun w hw =>
          hnotin (List.mem_map_of_mem Prod.fst hw)
        rw [if_neg h2]
        simp only [List.mem_cons, List.map_cons]
        constructor
        · rintro (e | e)
          · refine Or.inr (Or.inl ⟨v, Or.inl (by rw [heq]), ?_⟩)
            rw [e, heq]
          · refine Or.inl ⟨Or.inr e, ?_⟩
            intro e2
            apply hnotin
            rw [← e2]
            exact List.mem_map_of_mem Prod.fst e
        · rintro (⟨e | e, e2⟩ | ⟨w, hw | hw, e⟩ | ⟨hn, _⟩)
          · exact absurd (by rw [e, heq]) e2
          · exact Or.inr e
          · have hwv : w = v := (congrArg Prod.snd hw)
            subst hwv
            left
            rw [e, heq]
          · exact absurd hw (hnov w)
          · exact absurd (Or.inl heq) hn

theorem groupOf_append (hs : List HandshakePacket) (h : HandshakePacket) (k : MacAddress) :
    groupOf (hs ++ [h]) k = groupOf hs k ++ (if h.ap_mac = k then [h] else []) := by
  unfold groupOf
  rw [List.filter_append]
  by_cases e : h.ap_mac = k <;> simp [List.filter, e]

/-- What the grouping loop of `findBestHandshake` has built after the messages
`hs`: sorted keys, each entry the messages of its AP, and an entry for every
message. -/
theorem grouped_invariant (hs : List HandshakePacket) :
    ∀ (hs0 : List HandshakePacket) (g : List (MacAddress × List HandshakePacket)),
      (g.map Prod.fst).Pairwise (fun a b => a.lt b = true) →
      (∀ p ∈ g, p.2 = groupOf hs0 p.1) →
      (∀ h ∈ hs0, (h.ap_mac, groupOf hs0 h.ap_mac) ∈ g) →
      (∀ p ∈ hs.foldl (fun g h => WPACrack.groupInsert h g) g, p.2 = groupOf (hs0 ++ hs) p.1) ∧
        (∀ h ∈ hs0 ++ hs,
          (h.ap_mac, groupOf (hs0 ++ hs) h.ap_mac) ∈
            hs.foldl (fun g h => WPACrack.groupInsert h g) g) := by
  induction hs with
  | nil =>
    intro hs0 g _ h1 h2
    simp only [List.foldl_nil, List.append_nil]
    exact ⟨h1, h2⟩
  | cons h rest ih =>
    intro hs0 g hsort h1 h2
    have hempty : h.ap_mac ∉ g.map Prod.fst → groupOf hs0 h.ap_mac = [] := by
      intro hn
      unfold groupOf
      rw [List.filter_eq_nil_iff]
      intro x hx
      simp only [decide_eq_true_eq]
      intro e
      apply hn
      have := h2 x hx
      rw [e] at this
      exact List.mem_map_of_mem Prod.fst this
    have key := ih (hs0 ++ [h]) (WPACrack.groupInsert h g) (groupInsert_sorted h g hsort).1
      (by
        intro p hp
        rw [mem_groupInsert h g hsort] at hp
        rw [groupOf_append]
        rcases hp with ⟨hp, hne⟩ | ⟨v, hv, e⟩ | ⟨hn, e⟩
        · rw [h1 p hp, if_neg (fun e => hne e.symm)]
          simp
        · subst e
          have := h1 _ hv
          simp only at this
          simp [this]
        · subst e
          simp [hempty hn])
      (by
        intro x hx
        rw [mem_groupInsert h g hsort, groupOf_append]
        have hcase : ∀ y : HandshakePacket, y.ap_mac = h.ap_mac →
            (∃ v, (h.ap_mac, v) ∈ g) ∨ h.ap_mac ∉ g.map Prod.fst := by
          intro y _
          by_cases hin : h.ap_mac ∈ g.map Prod.fst
          · left
            rw [List.mem_map] at hin
            obtain ⟨⟨a, v⟩, hp, e⟩ := hin
            simp only at e
            subst e
            exact ⟨v, hp⟩
          · exact Or.inr hin
        by_cases e : x.ap_mac = h.ap_mac
        · rw [e]
          rcases hcase x e with ⟨v, hv⟩ | hn
          · right; left
            refine ⟨v, hv, ?_⟩
            have := h1 _ hv
            simp only at this
            simp [this]
          · right; right
            refine ⟨hn, ?_⟩
            simp [hempty hn]
        · left
          simp only [List.mem_append, List.mem_singleton] at hx
          rcases hx with hx | hx
          · refine ⟨?_, e⟩
            rw [if_neg (fun e2 => e e2.symm)]
            simpa using h2 x hx
          · exact absurd (by rw [hx]) e)
    simpa [List.append_assoc] using key

/-! ## Backfilling and the scan for the best candidate -/

theorem nonceFilled_step (old o : Bytes) (rest : List Bytes) (new : Bytes)
    (h : NonceFilled (if old.isEmpty ∧ !o.isEmpty then o else old) rest new) :
    NonceFilled old (o :: rest) new := by
  unfold NonceFilled at h ⊢
  cases old with
  | cons x xs => simpa using h
  | nil =>
    cases o with
    | nil =>
      simp only [List.isEmpty_nil, Bool.not_true, Bool.false_eq_true, and_false, if_false,
        ne_eq, not_true_eq_false] at h
      simp only [ne_eq, not_true_eq_false, if_false, List.mem_cons, exists_eq_or_imp]
      split at h
      · rename_i hex
        rw [if_pos (Or.inr hex)]
        exact ⟨Or.inr h.1, h.2⟩
      · rename_i hex
        rw [if_neg (by simpa using hex)]
        exact h
    | cons y ys =>
      simp only [List.isEmpty_nil, List.isEmpty_cons, Bool.not_false, and_self, if_true, ne_eq,
        reduceCtorEq, not_false_eq_true] at h
      simp [h]

theorem fillNonces_spec (grp : List HandshakePacket) :
    ∀ best : HandshakePacket,
      (WPACrack.fillNonces best grp).ap_mac = best.ap_mac ∧
      (WPACrack.fillNonces best grp).client_mac = best.client_mac ∧
      (WPACrack.fillNonces best grp).mic = best.mic ∧
      (WPACrack.fillNonces best grp).eapol_data = best.eapol_data ∧
      (WPACrack.fillNonces best grp).essid = best.essid ∧
      (WPACrack.fillNonces best grp).message_number = best.message_number ∧
      NonceFilled best.anonce (grp.map fun s => s.anonce) (WPACrack.fillNonces best grp).anonce ∧
      NonceFilled best.snonce (grp.map fun s => s.snonce) (WPACrack.fillNonces best grp).snonce := by
  induction grp with
  | nil =>
    intro best
    simp only [WPACrack.fillNonces, List.map_nil, true_and]
    constructor
    · unfold NonceFilled; by_cases h : best.anonce = [] <;> simp [h]
    · unfold NonceFilled; by_cases h : best.snonce = [] <;> simp [h]
  | cons other rest ih =>
    intro best
    simp only [WPACrack.fillNonces, List.map_cons]
    obtain ⟨i1, i2, i3, i4, i5, i6, i7, i8⟩ := ih
      (if (if best.anonce.isEmpty ∧ !other.anonce.isEmpty then
              { best with anonce := other.anonce } else best).snonce.isEmpty ∧
            !other.snonce.isEmpty then
          { (if best.anonce.isEmpty ∧ !other.anonce.isEmpty then
              { best with anonce := other.anonce } else best) with snonce := other.snonce }
        else (if best.anonce.isEmpty ∧ !other.anonce.isEmpty then
              { best with anonce := other.anonce } else best))
    refine ⟨?_, ?_, ?_, ?_, ?_, ?_, ?_, ?_⟩
    · rw [i1]; split <;> split <;> rfl
    · rw [i2]; split <;> split <;> rfl
    · rw [i3]; split <;> split <;> rfl
    · rw [i4]; split <;> split <;> rfl
    · rw [i5]; split <;> split <;> rfl
    · rw [i6]; split <;> split <;> rfl
    · apply nonceFilled_step
      convert i7 using 1
      split <;> split <;> simp_all
    · apply nonceFilled_step
      convert i8 using 1
      split <;> split <;> simp_all

theorem fillNonces_backfilled (c : HandshakePacket) (grp : List HandshakePacket) :
    Backfilled c grp (WPACrack.fillNonces c grp) :=
  fillNonces_spec grp c

theorem score_nonneg (c : HandshakePacket) : 0 ≤ WPACrack.score c := by
  unfold WPACrack.score
  split <;> split <;> split <;> split <;> omega

theorem bestSoFar_mono {b0 : HandshakePacket}
    {S T : HandshakePacket → List HandshakePacket → Prop} {acc : HandshakePacket × Int}
    (h : BestSoFar b0 S acc) (hst : ∀ c g, S c g ↔ T c g) : BestSoFar b0 T acc := by
  obtain ⟨h1, h2⟩ := h
  refine ⟨fun c g hc => h1 c g ((hst c g).mpr hc), ?_⟩
  rcases h2 with h2 | ⟨c, g, hc, hp, e⟩
  · exact Or.inl h2
  · exact Or.inr ⟨c, g, (hst c g).mp hc, hp, e⟩

/-- The inner loop of `findBestHandshake` over the messages `rest` of the
group `grp` keeps the selection state. -/
theorem scanPackets_bestSoFar (b0 : HandshakePacket) (grp : List HandshakePacket) :
    ∀ (rest : List HandshakePacket) (S : HandshakePacket → List HandshakePacket → Prop)
      (acc : HandshakePacket × Int),
      BestSoFar b0 S acc → 0 ≤ acc.2 →
      BestSoFar b0
        (fun c g => S c g ∨
          (c ∈ rest ∧ (c.message_number = 2 ∨ c.message_number = 3) ∧ g = grp))
        (WPACrack.scanPackets grp rest acc) ∧ 0 ≤ (WPACrack.scanPackets grp rest acc).2 := by
  intro rest
  induction rest with
  | nil =>
    intro S acc h h0
    simp only [WPACrack.scanPackets]
    exact ⟨bestSoFar_mono h (by simp), h0⟩
  | cons pkt rest ih =>
    intro S acc h h0
    obtain ⟨best, bs⟩ := acc
    simp only [WPACrack.scanPackets]
    have widen : ∀ (acc2 : HandshakePacket × Int),
        BestSoFar b0 (fun c g => S c g ∨
          (c = pkt ∧ (c.message_number = 2 ∨ c.message_number = 3) ∧ g = grp)) acc2 →
        0 ≤ acc2.2 →
        BestSoFar b0 (fun c g => S c g ∨
          (c ∈ pkt :: rest ∧ (c.message_number = 2 ∨ c.message_number = 3) ∧ g = grp))
          (WPACrack.scanPackets grp rest acc2) ∧
          0 ≤ (WPACrack.scanPackets grp rest acc2).2 := by
      intro acc2 hb hz
      obtain ⟨r1, r2⟩ := ih _ acc2 hb hz
      refine ⟨bestSoFar_mono r1 ?_, r2⟩
      intro c g
      simp only [List.mem_cons]
      tauto
    by_cases hm : pkt.message_number = 2 ∨ pkt.message_number = 3
    · rw [if_pos hm]
      by_cases hs : WPACrack.score pkt > bs
      · rw [if_pos hs]
        apply widen
        · refine ⟨?_, Or.inr ⟨pkt, grp, Or.inr ⟨rfl, hm, rfl⟩, ?_, rfl⟩⟩
          · intro c g hc
            rcases hc with hc | ⟨e, _, _⟩
            · have := h.1 c g hc
              simp only at this ⊢
              omega
            · subst e
              exact le_refl _
          · simp only at h0
            omega
        · exact score_nonneg pkt
      · rw [if_neg hs]
        apply widen
        · obtain ⟨h1, h2⟩ := h
          refine ⟨?_, ?_⟩
          · intro c g hc
            rcases hc with hc | ⟨e, _, _⟩
            · exact h1 c g hc
            · subst e
              simp only
              omega
          · rcases h2 with h2 | ⟨c, g, hc, hp, e⟩
            · exact Or.inl h2
            · exact Or.inr ⟨c, g, Or.inl hc, hp, e⟩
        · exact h0
    · rw [if_neg hm]
      apply widen
      · obtain ⟨h1, h2⟩ := h
        refine ⟨?_, ?_⟩
        · intro c g hc
          rcases hc with hc | ⟨e, hm2, _⟩
          · exact h1 c g hc
          · subst e
            exact absurd hm2 hm
        · rcases h2 with h2 | ⟨c, g, hc, hp, e⟩
          · exact Or.inl h2
          · exact Or.inr ⟨c, g, Or.inl hc, hp, e⟩
      · exact h0

/-- The outer loop of `findBestHandshake` over the groups `gs` keeps the
selection state. -/
theorem groups_bestSoFar (b0 : HandshakePacket) :
    ∀ (gs : List (MacAddress × List HandshakePacket))
      (S : HandshakePacket → List HandshakePacket → Prop) (acc : HandshakePacket × Int),
      BestSoFar b0 S acc → 0 ≤ acc.2 →
      BestSoFar b0
        (fun c g => S c g ∨ ∃ p ∈ gs, WPACrack.isCompleteHandshake p.2 = true ∧ c ∈ p.2 ∧
          (c.message_number = 2 ∨ c.message_number = 3) ∧ g = p.2)
        (gs.foldl (fun acc pair =>
          if WPACrack.isCompleteHandshake pair.2 then WPACrack.scanPackets pair.2 pair.2 acc
          else acc) acc) := by
  intro gs
  induction gs with
  | nil =>
    intro S acc h _
    simp only [List.foldl_nil]
    exact bestSoFar_mono h (by simp)
  | cons p rest ih =>
    intro S acc h h0
    simp only [List.foldl_cons]
    by_cases hc : WPACrack.isCompleteHandshake p.2 = true
    · rw [if_pos hc]
      obtain ⟨r1, r2⟩ := scanPackets_bestSoFar b0 p.2 p.2 S acc h h0
      refine bestSoFar_mono (ih _ _ r1 r2) ?_
      intro c g
      simp only [List.mem_cons, exists_eq_or_imp]
      constructor
      · rintro ((h1 | ⟨h1, h2, h3⟩) | h1)
        · exact Or.inl h1
        · exact Or.inr (Or.inl ⟨hc, h1, h2, h3⟩)
        · exact Or.inr (Or.inr h1)
      · rintro (h1 | ⟨_, h1, h2, h3⟩ | h1)
        · exact Or.inl (Or.inl h1)
        · exact Or.inl (Or.inr ⟨h1, h2, h3⟩)
        · exact Or.inr h1
    · rw [if_neg hc]
      refine bestSoFar_mono (ih _ _ h h0) ?_
      intro c g
      simp only [List.mem_cons, exists_eq_or_imp]
      constructor
      · rintro (h1 | h1)
        · exact Or.inl h1
        · exact Or.inr (Or.inr h1)
      · rintro (h1 | ⟨h1, _⟩ | h1)
        · exact Or.inl h1
        · exact absurd h1 hc
        · exact Or.inr h1

theorem isCompleteHandshake_iff (v : List HandshakePacket) :
    WPACrack.isCompleteHandshake v = true ↔
      (∃ h ∈ v, h.message_number = 2) ∧ (∃ h ∈ v, h.message_number = 3) := by
  unfold WPACrack.isCompleteHandshake
  constructor
  · intro h
    split at h
    · cases h
    · simpa using h
  · rintro ⟨⟨a, ha, ea⟩, ⟨b, hb, eb⟩⟩
    have hlen : ¬ v.length < 2 := by
      intro hl
      match v, ha, hb, hl with
      | [], ha, _, _ => cases ha
      | [x], ha, hb, _ =>
        simp only [List.mem_singleton] at ha hb
        subst ha; subst hb
        omega
      | _ :: _ :: _, _, _, hl => simp at hl; omega
    rw [if_neg hlen]
    simp only [Bool.and_eq_true, List.any_eq_true, decide_eq_true_eq]
    exact ⟨⟨a, ha, ea⟩, ⟨b, hb, eb⟩⟩

theorem mem_groupOf (hs : List HandshakePacket) (k : MacAddress) (c : HandshakePacket) :
    c ∈ groupOf hs k ↔ c ∈ hs ∧ c.ap_mac = k := by
  unfold groupOf
  simp [List.mem_filter]

theorem isComplete_groupOf (hs : List HandshakePacket) (k : MacAddress) :
    WPACrack.isCompleteHandshake (groupOf hs k) = true ↔ IsComplete hs k := by
  rw [isCompleteHandshake_iff]
  unfold IsComplete
  simp only [mem_groupOf, and_assoc]

/-- The selection state at the end of `findBestHandshake` on a non-empty set:
every candidate has been visited with the messages of its AP as its group. -/
theorem findBestHandshake_bestSoFar (cfg : Config) (hs : List HandshakePacket)
    (pm : List Bytes) (junk : Int) (hne : hs ≠ []) :
    ∃ s, BestSoFar (HandshakePacket.fresh junk)
      (fun c g => IsCandidate hs c ∧ g = groupOf hs c.ap_mac)
      (WPACrack.findBestHandshake ⟨cfg, hs, pm⟩ junk, s) := by
  have hemp : hs.isEmpty = false := by cases hs <;> simp_all
  obtain ⟨g1, g2⟩ := grouped_invariant hs [] [] (by simp) (by simp) (by simp)
  simp only [List.nil_append] at g1 g2
  have start : BestSoFar (HandshakePacket.fresh junk) (fun _ _ => False)
      (HandshakePacket.fresh junk, 0) := ⟨by simp, Or.inl rfl⟩
  have fin := groups_bestSoFar (HandshakePacket.fresh junk)
    (hs.foldl (fun g h => WPACrack.groupInsert h g) []) _ _ start (le_refl _)
  have hres : WPACrack.findBestHandshake ⟨cfg, hs, pm⟩ junk =
      (List.foldl (fun acc pair =>
        if WPACrack.isCompleteHandshake pair.2 then WPACrack.scanPackets pair.2 pair.2 acc
        else acc) (HandshakePacket.fresh junk, 0)
        (hs.foldl (fun g h => WPACrack.groupInsert h g) [])).1 := by
    simp only [WPACrack.findBestHandshake, hemp, Bool.false_eq_true, if_false]
  rw [hres]
  refine ⟨_, bestSoFar_mono fin ?_⟩
  · intro c g
    simp only [false_or]
    constructor
    · rintro ⟨p, hp, hc, hin, hm, e⟩
      have hp2 := g1 p hp
      rw [hp2] at hc hin
      rw [mem_groupOf] at hin
      rw [isComplete_groupOf] at hc
      obtain ⟨hin1, hin2⟩ := hin
      refine ⟨⟨hin1, hm, ?_⟩, ?_⟩
      · rw [hin2]; exact hc
      · rw [e, hp2, hin2]
    · rintro ⟨⟨hin, hm, hc⟩, e⟩
      refine ⟨_, g2 c hin, ?_, ?_, hm, e⟩
      · exact (isComplete_groupOf hs c.ap_mac).mpr hc
      · exact (mem_groupOf hs c.ap_mac c).mpr ⟨hin, rfl⟩

/-- The result of `findBestHandshake`: the fresh record when no candidate has a
positive score, else the backfilled copy of a candidate of maximal score. -/
theorem findBestHandshake_cases (cfg : Config) (hs : List HandshakePacket)
    (pm : List Bytes) (junk : Int) :
    ((∀ c, IsCandidate hs c → WPACrack.score c ≤ 0) ∧
        WPACrack.findBestHandshake ⟨cfg, hs, pm⟩ junk =
          HandshakePacket.fresh (if hs.isEmpty then 0 else junk)) ∨
      ∃ c, IsCandidate hs c ∧ 0 < WPACrack.score c ∧
        (∀ d, IsCandidate hs d → WPACrack.score d ≤ WPACrack.score c) ∧
        WPACrack.findBestHandshake ⟨cfg, hs, pm⟩ junk =
          WPACrack.fillNonces c (groupOf hs c.ap_mac) := by
  by_cases hne : hs = []
  · subst hne
    left
    refine ⟨?_, by simp [WPACrack.findBestHandshake]⟩
    intro c hc
    exact absurd hc.1 (by simp)
  · have hemp : hs.isEmpty = false := by cases hs <;> simp_all
    obtain ⟨s, h1, h2⟩ := findBestHandshake_bestSoFar cfg hs pm junk hne
    rcases h2 with h2 | ⟨c, g, ⟨hc, hg⟩, hp, e⟩
    · left
      have e1 := congrArg Prod.fst h2
      have e2 := congrArg Prod.snd h2
      simp only at e1 e2
      refine ⟨?_, by simp [hemp, e1]⟩
      intro c hc
      have := h1 c _ ⟨hc, rfl⟩
      simp only at this
      omega
    · right
      have e1 := congrArg Prod.fst e
      have e2 := congrArg Prod.snd e
      simp only at e1 e2
      refine ⟨c, hc, hp, ?_, ?_⟩
      · intro d hd
        have := h1 d _ ⟨hd, rfl⟩
        simp only at this
        omega
      · rw [e1, hg]

theorem score_le_of_no_mic (d : HandshakePacket) (h : d.mic = []) : WPACrack.score d ≤ 25 := by
  unfold WPACrack.score
  rw [h]
  simp only [List.isEmpty_nil, Bool.not_true, Bool.false_eq_true, if_false]
  split <;> split <;> split <;> omega

theorem score_ge_of_mic_anonce (d : HandshakePacket) (h1 : d.mic ≠ []) (h2 : d.anonce ≠ []) :
    30 ≤ WPACrack.score d := by
  unfold WPACrack.score
  have e1 : d.mic.isEmpty = false := by cases hm : d.mic <;> simp_all
  have e2 : d.anonce.isEmpty = false := by cases hm : d.anonce <;> simp_all
  rw [e1, e2]
  simp only [Bool.not_false, if_true]
  split <;> split <;> omega

theorem extractEncryptionWPA_values (packet : Bytes) (d : Nat) (n : Int) (t : EncryptionType)
    (h : PacketParser.extractEncryptionWPA packet d n = .ok t) :
    t = EncryptionType.OPEN ∨ t = EncryptionType.WPA := by
  unfold PacketParser.extractEncryptionWPA at h
  obtain ⟨w, -, h⟩ := bind_ok h
  cases w with
  | none => injection h with h; exact Or.inl h.symm
  | some q =>
    dsimp only at h
    obtain ⟨len, -, h⟩ := bind_ok h
    split at h
    · obtain ⟨oui, -, h⟩ := bind_ok h
      split at h
      · unfold PacketParser.parseWPAInformation at h
        split at h
        · rename_i t2 heq
          split at heq
          · cases heq
          · injection heq with heq
            injection h with h
            right; rw [← h, ← heq]
        · injection h with h; exact Or.inl h.symm
      · injection h with h; exact Or.inl h.symm
    · injection h with h; exact Or.inl h.symm

theorem parseRSNInformation_values (packet : Bytes) (d : Nat) (n : Int) (t : EncryptionType)
    (h : PacketParser.parseRSNInformation packet d n = .ok (some t)) :
    t = EncryptionType.WPA2 ∨ t = EncryptionType.WPA3 := by
  unfold PacketParser.parseRSNInformation at h
  split at h
  · cases h
  · obtain ⟨v0, -, h⟩ := bind_ok h
    split at h
    · cases h
    · obtain ⟨v1, -, h⟩ := bind_ok h
      split at h
      · cases h
      · dsimp only at h
        split at h
        · cases h
        · obtain ⟨p1, -, h⟩ := bind_ok h
          obtain ⟨p0, -, h⟩ := bind_ok h
          split at h
          · cases h
          · split at h
            · cases h
            · obtain ⟨a1, -, h⟩ := bind_ok h
              obtain ⟨a0, -, h⟩ := bind_ok h
              split at h
              · cases h
              · obtain ⟨w, -, h⟩ := bind_ok h
                split at h
                · injection h with h; injection h with h; exact Or.inr h.symm
                · injection h with h; injection h with h; exact Or.inl h.symm

theorem extractEncryption_values (packet : Bytes) (d : Nat) (n : Int) (t : EncryptionType)
    (h : PacketParser.extractEncryption packet d n = .ok t) :
    t = EncryptionType.OPEN ∨ t = EncryptionType.WPA ∨ t = EncryptionType.WPA2 ∨
      t = EncryptionType.WPA3 := by
  unfold PacketParser.extractEncryption at h
  obtain ⟨w, -, h⟩ := bind_ok h
  cases w with
  | none =>
    rcases extractEncryptionWPA_values packet d n t h with e | e
    · exact Or.inl e
    · exact Or.inr (Or.inl e)
  | some q =>
    dsimp only at h
    obtain ⟨len, -, h⟩ := bind_ok h
    obtain ⟨r, hr, h⟩ := bind_ok h
    cases r with
    | none =>
      rcases extractEncryptionWPA_values packet d n t h with e | e
      · exact Or.inl e
      · exact Or.inr (Or.inl e)
    | some t2 =>
      injection h with h
      subst h
      rcases parseRSNInformation_values packet _ _ t2 hr with e | e
      · exact Or.inr (Or.inr (Or.inl e))
      · exact Or.inr (Or.inr (Or.inr e))

set_option maxRecDepth 100000 in
/-- C20 (divergence): `parseBeaconFrame` never reports WEP, whatever the
capability field holds, and reports WPA only for a WPA element that is the
first vendor element.  A beacon of a WEP network (privacy bit set, no RSN and
no vendor element) is reported Open; a beacon whose WPA element stands behind
another vendor element is reported Open, while the same elements with the WPA
element first are reported WPA. -/
theorem parseBeaconFrame_misses_wep_and_late_wpa :
    (∀ (packet : Bytes) (length : Int) (network net : WifiNetwork) (b : Bool),
      PacketParser.parseBeaconFrame packet length network = .ok (b, net) → b = true →
        net.encryption ≠ ascii "WEP") ∧
    (privacyBit beaconPrivacy = true ∧
      taggedParameters 12 (beaconPrivacy.drop 36) = [(0, ascii "WepNet"), (3, [6])] ∧
      PacketParser.parseBeaconFrame beaconPrivacy 47 networkSample =
        .ok (true, { networkSample with
          bssid := ⟨[0x00, 0x11, 0x22, 0x33, 0x44, 0x55], rfl⟩, essid := ascii "WepNet",
          channel := 6, encryption := ascii "Open" })) ∧
    (taggedParameters 46 (beaconLateWpa.drop 36) =
        [(0, ascii "WpaNet"), (3, [1]), (221, [0x00, 0x50, 0xf2, 0x02, 0x00, 0x01, 0x00]),
          (221, [0x00, 0x50, 0xf2, 0x01, 0x01, 0x00, 0x00, 0x50, 0xf2, 0x02, 0x01, 0x00,
            0x00, 0x50, 0xf2, 0x02, 0x01, 0x00, 0x00, 0x50, 0xf2, 0x02])] ∧
      PacketParser.parseBeaconFrame beaconLateWpa 80 networkSample =
        .ok (true, { networkSample with
          bssid := ⟨[0x00, 0x11, 0x22, 0x33, 0x44, 0x55], rfl⟩, essid := ascii "WpaNet",
          channel := 1, encryption := ascii "Open" }) ∧
      PacketParser.parseBeaconFrame beaconEarlyWpa 80 networkSample =
        .ok (true, { networkSample with
          bssid := ⟨[0x00, 0x11, 0x22, 0x33, 0x44, 0x55], rfl⟩, essid := ascii "WpaNet",
          channel := 1, encryption := ascii "WPA" })) := by
  refine ⟨?_, ⟨by decide, by decide, by decide⟩, ⟨by decide, by decide, by decide⟩⟩
  intro packet length network net b h hb
  unfold PacketParser.parseBeaconFrame at h
  split at h
  · injection h with h
    rw [Prod.mk.injEq] at h
    rw [← h.1] at hb
    cases hb
  · obtain ⟨bssid, -, h⟩ := bind_ok h
    dsimp only at h
    obtain ⟨essid, -, h⟩ := bind_ok h
    obtain ⟨channel, -, h⟩ := bind_ok h
    obtain ⟨t, ht, h⟩ := bind_ok h
    injection h with h
    rw [Prod.mk.injEq] at h
    rw [← h.2]
    simp only
    rcases extractEncryption_values packet _ _ t ht with e | e | e | e <;> (subst e; decide)

/-! ## Weak IVs and the key test -/

/-- C15: for every key-byte position `A` in 0..15 and every third byte `X`,
`isWeakIV` accepts the IV `(A+3, 255, X)`; it rejects the IV `(16, 0, 0)`. -/
theorem isWeakIV_fms_pattern (A : Fin 16) (X : Nat) :
    WEPCrack.isWeakIV [A.val + 3, 255, X] = true ∧ WEPCrack.isWeakIV [16, 0, 0] = false := by
  refine ⟨?_, by decide⟩
  have h : ∀ A : Fin 16, ((List.range 16).any fun a => decide (A.val + 3 = a + 3 ∧ 255 = 255))
      = true := by decide
  simp only [WEPCrack.isWeakIV, List.length_cons, List.length_nil]
  have h2 := h A
  simp only [List.getD_cons_zero, List.getD_cons_succ] at *
  simp [h2]

theorem testKeyFrame_eq (W : WepPrimitives) (key packet : Bytes) :
    WEPCrack.testKeyFrame W key packet = decryptsToLlcSnapHeader W key packet := by
  unfold WEPCrack.testKeyFrame decryptsToLlcSnapHeader decryptedPayload
  by_cases h : packet.length < 32
  · simp [h]
  · simp only [h, if_false]
    generalize CryptoUtils.wepDecrypt W _ key = d
    unfold startsLlcSnap
    match d with
    | [] => simp
    | [_] => simp
    | [_, _] => simp
    | a :: b :: c :: rest =>
      by_cases h8 : 8 ≤ (a :: b :: c :: rest).length
      · simp [h8]
      · simp [h8]

theorem testKeyLoop_eq (W : WepPrimitives) (key : Bytes) (l : List Bytes) :
    ∀ n, WEPCrack.testKeyLoop W key l n = n + (l.filter (WEPCrack.testKeyFrame W key)).length := by
  induction l with
  | nil => intro n; simp [WEPCrack.testKeyLoop]
  | cons p rest ih =>
    intro n
    simp only [WEPCrack.testKeyLoop, ih, List.filter_cons]
    split
    · simp; omega
    · simp

theorem dblDiv_ten_threshold : ∀ c : Fin 11, (dblDiv c.val 10).ge dbl07 = decide (7 ≤ c.val) := by
  decide

/-- The result of `testKey` on ten or more frames: whether at least seven of
the first ten count. -/
theorem testKey_eq_count (W : WepPrimitives) (self : WEPCrack) (key : Bytes)
    (h10 : 10 ≤ self.captured_packets_.length) (hint : self.captured_packets_.length < 2 ^ 31) :
    WEPCrack.testKey W self key =
      decide (7 ≤ ((self.captured_packets_.take 10).filter
        (decryptsToLlcSnapHeader W key)).length) := by
  have hne : self.captured_packets_.isEmpty = false := by
    cases hp : self.captured_packets_ with
    | nil => rw [hp] at h10; simp at h10
    | cons _ _ => rfl
  have hcast : toInt32 (self.captured_packets_.length : Int) = self.captured_packets_.length :=
    toInt32_of_small _ (by omega) (by exact_mod_cast hint)
  have hmin : min (10 : Int) (self.captured_packets_.length : Int) = 10 := by
    apply min_eq_left
    exact_mod_cast h10
  have hfun : WEPCrack.testKeyFrame W key = decryptsToLlcSnapHeader W key :=
    funext (testKeyFrame_eq W key)
  unfold WEPCrack.testKey
  simp only [hne, Bool.false_eq_true, if_false, hcast, hmin]
  simp only [show ¬ ((10 : Int) ≤ 0) by decide, if_false, show (10 : Int).toNat = 10 from rfl,
    testKeyLoop_eq, Nat.zero_add, hfun]
  have hle : ((self.captured_packets_.take 10).filter (decryptsToLlcSnapHeader W key)).length
      < 11 := by
    have h1 := List.length_filter_le (decryptsToLlcSnapHeader W key)
      (self.captured_packets_.take 10)
    have h2 : (self.captured_packets_.take 10).length ≤ 10 := by
      rw [List.length_take]; omega
    omega
  exact dblDiv_ten_threshold ⟨_, hle⟩

/-- The count rule of `testKey` on a frame set of at least 10 (and fewer than
2^31) frames, in terms of the payloads that its own call of `wepDecrypt`
produces: true exactly when at least 7 of the first 10 have 8 bytes or more
and start 0xAA 0xAA 0x03; the frames after the tenth have no influence. -/
theorem testKey_seventy_percent (W : WepPrimitives) (self other : WEPCrack) (key : Bytes)
    (h10 : 10 ≤ self.captured_packets_.length) (hint : self.captured_packets_.length < 2 ^ 31)
    (h10o : 10 ≤ other.captured_packets_.length)
    (hinto : other.captured_packets_.length < 2 ^ 31)
    (hsame : other.captured_packets_.take 10 = self.captured_packets_.take 10) :
    (((self.captured_packets_.take 10).filter (decryptsToLlcSnapHeader W key)).length = 7 →
      WEPCrack.testKey W self key = true) ∧
    (((self.captured_packets_.take 10).filter (decryptsToLlcSnapHeader W key)).length = 6 →
      WEPCrack.testKey W self key = false) ∧
    (WEPCrack.testKey W self key = true ↔
      7 ≤ ((self.captured_packets_.take 10).filter (decryptsToLlcSnapHeader W key)).length) ∧
    WEPCrack.testKey W other key = WEPCrack.testKey W self key := by
  rw [testKey_eq_count W self key h10 hint, testKey_eq_count W other key h10o hinto, hsame]
  refine ⟨?_, ?_, ?_, rfl⟩
  · intro h; rw [h]; decide
  · intro h; rw [h]; decide
  · simp

set_option maxRecDepth 1000000 in
/-- The count rule under RC4, on frames made for the decryption of `testKey`:
seven frames that pass its test and three that do not give true, whatever
follows the tenth frame; six and four give false. -/
theorem testKey_seventy_percent_witness :
    WEPCrack.testKey refWep
        (wepWith (List.replicate 7 wepFrameLlc ++ List.replicate 3 wepFrameNoise))
        wepKeySample = true ∧
      WEPCrack.testKey refWep
        (wepWith (List.replicate 6 wepFrameLlc ++ List.replicate 4 wepFrameNoise))
        wepKeySample = false ∧
      WEPCrack.testKey refWep
        (wepWith (List.replicate 7 wepFrameLlc ++ List.replicate 3 wepFrameNoise ++
          List.replicate 5 wepFrameNoise))
        wepKeySample = true :=
  ⟨(testKey_seventy_percent refWep
      (wepWith (List.replicate 7 wepFrameLlc ++ List.replicate 3 wepFrameNoise))
      (wepWith (List.replicate 7 wepFrameLlc ++ List.replicate 3 wepFrameNoise ++
          List.replicate 5 wepFrameNoise))
      wepKeySample (by decide) (by decide) (by decide) (by decide) (by decide)).1 (by decide),
    (testKey_seventy_percent refWep
      (wepWith (List.replicate 6 wepFrameLlc ++ List.replicate 4 wepFrameNoise))
      (wepWith (List.replicate 6 wepFrameLlc ++ List.replicate 4 wepFrameNoise))
      wepKeySample (by decide) (by decide) (by decide) (by decide) (by decide)).2.1 (by decide),
    by decide⟩

/-! ## The attacks of `WEPCrack::crack` -/

theorem statisticalAttack_effect (W : WepPrimitives) (s : WEPCrack) (fk : Bytes) :
    (WEPCrack.statisticalAttack W s fk).2.2 =
        { s with log_ := s.log_ ++ [WepAttack.entryLine .statistical] } ∧
      ((WEPCrack.statisticalAttack W s fk).1 = false →
        (WEPCrack.statisticalAttack W s fk).2.1 = fk) := by
  unfold WEPCrack.statisticalAttack
  dsimp only
  split <;> simp [WepAttack.entryLine]

theorem fmsAttack_effect (W : WepPrimitives) (s : WEPCrack) (fk : Bytes) :
    (WEPCrack.fmsAttack W s fk).2.2 =
        WEPCrack.collectWeakIVs { s with log_ := s.log_ ++ [WepAttack.entryLine .fms] } ∧
      ((WEPCrack.fmsAttack W s fk).1 = false → (WEPCrack.fmsAttack W s fk).2.1 = fk) := by
  unfold WEPCrack.fmsAttack
  dsimp only
  split
  · simp [WepAttack.entryLine]
  · split <;> simp [WepAttack.entryLine]

theorem koreKAttack_effect (W : WepPrimitives) (s : WEPCrack) (fk : Bytes)
    (r : Bool × Bytes × WEPCrack) (h : WEPCrack.koreKAttack W s fk = .ok r) :
    r.2.2 = { s with log_ := s.log_ ++ [WepAttack.entryLine .korek] } ∧
      (r.1 = false → r.2.1 = fk) := by
  unfold WEPCrack.koreKAttack at h
  obtain ⟨o, -, h⟩ := bind_ok h
  cases o with
  | none => injection h with h; subst h; simp [WepAttack.entryLine]
  | some key => injection h with h; subst h; simp [WepAttack.entryLine]

theorem dictionaryAttack_effect (W : WepPrimitives) (s : WEPCrack) (env : Env) (fk : Bytes) :
    (WEPCrack.dictionaryAttack W s env fk).2.2 =
        { s with log_ := s.log_ ++ [WepAttack.entryLine .dictionary] } ∧
      ((WEPCrack.dictionaryAttack W s env fk).1 = false →
        (WEPCrack.dictionaryAttack W s env fk).2.1 = fk) := by
  unfold WEPCrack.dictionaryAttack
  dsimp only
  split
  · simp [WepAttack.entryLine]
  · split <;> simp [WepAttack.entryLine]

/-- What one attack leaves behind: its entry line in the log, the frames and
the configuration as they were, and the key text untouched when it fails. -/
theorem runAttack_effect (W : WepPrimitives) (env : Env) (a : WepAttack) (s : WEPCrack)
    (fk : Bytes) (r : Bool × Bytes × WEPCrack) (h : runAttack W env a s fk = .ok r) :
    r.2.2.log_ = s.log_ ++ [a.entryLine] ∧ r.2.2.config_ = s.config_ ∧
      r.2.2.captured_packets_ = s.captured_packets_ ∧ (r.1 = false → r.2.1 = fk) := by
  cases a with
  | statistical =>
    injection h with h
    subst h
    obtain ⟨e1, e2⟩ := statisticalAttack_effect W s fk
    rw [e1]
    exact ⟨rfl, rfl, rfl, e2⟩
  | fms =>
    injection h with h
    subst h
    obtain ⟨e1, e2⟩ := fmsAttack_effect W s fk
    rw [e1]
    exact ⟨rfl, rfl, rfl, e2⟩
  | korek =>
    obtain ⟨e1, e2⟩ := koreKAttack_effect W s fk r h
    rw [e1]
    exact ⟨rfl, rfl, rfl, e2⟩
  | dictionary =>
    injection h with h
    subst h
    obtain ⟨e1, e2⟩ := dictionaryAttack_effect W s env fk
    rw [e1]
    exact ⟨rfl, rfl, rfl, e2⟩

/-- The attacks that `firstSuccess` ran: an opening part of the list, all of
it when none succeeded, each with its entry line in the log. -/
theorem firstSuccess_effect (W : WepPrimitives) (env : Env) :
    ∀ (l : List WepAttack) (s : WEPCrack) (fk : Bytes)
      (r : Bool × Bytes × WEPCrack × List WepAttack),
      firstSuccess W env l s fk = .ok r →
      r.2.2.1.log_ = s.log_ ++ r.2.2.2.map WepAttack.entryLine ∧
        (∃ rest, r.2.2.2 ++ rest = l) ∧
        (r.1 = false → r.2.2.2 = l ∧ r.2.1 = fk) ∧
        (r.1 = true → r.2.2.2 ≠ []) := by
  intro l
  induction l with
  | nil =>
    intro s fk r h
    injection h with h
    subst h
    simp
  | cons a rest ih =>
    intro s fk r h
    unfold firstSuccess at h
    obtain ⟨r1, h1, h⟩ := bind_ok h
    obtain ⟨e1, -, -, e4⟩ := runAttack_effect W env a s fk r1 h1
    split at h
    · injection h with h
      subst h
      simp [e1]
    · rename_i hf
      obtain ⟨r2, h2, h⟩ := bind_ok h
      injection h with h
      subst h
      obtain ⟨i1, ⟨tl, i2⟩, i3, i4⟩ := ih _ _ r2 h2
      have hk : r1.2.1 = fk := e4 (by simpa using hf)
      refine ⟨?_, ⟨tl, ?_⟩, ?_, ?_⟩
      · simp [i1, e1]
      · simp [i2]
      · intro hb
        obtain ⟨j1, j2⟩ := i3 hb
        simp only at j1 j2 ⊢
        exact ⟨by rw [j1], by rw [j2, hk]⟩
      · intro _
        simp

theorem koreKPositions_ok (key_len : Nat) (packet iv : Bytes)
    (hlen : 3 + key_len ≤ packet.length) :
    ∀ (fuel pos : Nat) (votes : List (List Int)), key_len < pos + fuel → 0 < fuel →
      ∃ v, WEPCrack.koreKPositions key_len packet iv fuel pos votes = .ok v := by
  intro fuel
  induction fuel with
  | zero =>
    intro pos votes _ h0
    omega
  | succ fuel ih =>
    intro pos votes h _
    unfold WEPCrack.koreKPositions
    by_cases hp : pos < key_len
    · rw [if_pos hp]
      have hrd : rd packet (3 + pos) = .ok (packet.getD (3 + pos) 0) :=
        rd_ok packet (3 + pos) (by omega)
      have h1 : ∃ v1, (if iv.getD 0 0 = pos + 3 then do
            let b ← rd packet (3 + pos)
            pure (WEPCrack.addVote votes pos ((b ^^^ iv.getD 0 0) % 256) 2)
          else pure votes : Exec (List (List Int))) = .ok v1 := by
        split
        · rw [hrd]; exact ⟨_, rfl⟩
        · exact ⟨_, rfl⟩
      obtain ⟨v1, hv1⟩ := h1
      refine ok_bind hv1 ?_
      have h2 : ∃ v2, (if iv.getD 0 0 = pos + 1 then do
            let b ← rd packet (3 + pos)
            pure (WEPCrack.addVote v1 pos ((b ^^^ (iv.getD 0 0 + iv.getD 1 0)) % 256) 1)
          else pure v1 : Exec (List (List Int))) = .ok v2 := by
        split
        · rw [hrd]; exact ⟨_, rfl⟩
        · exact ⟨_, rfl⟩
      obtain ⟨v2, hv2⟩ := h2
      refine ok_bind hv2 ?_
      exact ih (pos + 1) v2 (by omega) (by omega)
    · rw [if_neg hp]
      exact ⟨_, rfl⟩

theorem koreKVotes_ok (key_len : Nat) (hk : key_len ≤ 13) :
    ∀ (packets : List Bytes) (votes : List (List Int)),
      (∀ p ∈ packets, 24 < p.length) →
      ∃ v, WEPCrack.koreKVotes key_len packets votes = .ok v := by
  intro packets
  induction packets with
  | nil => intro votes _; exact ⟨_, rfl⟩
  | cons p rest ih =>
    intro votes hs
    have hp := hs p (List.mem_cons_self _ _)
    unfold WEPCrack.koreKVotes
    rw [if_neg (by omega)]
    obtain ⟨v, hv⟩ := koreKPositions_ok key_len p (p.take 3) (by omega) (key_len + 1) 0 votes
      (by omega) (by omega)
    refine ok_bind hv ?_
    exact ih v (fun q hq => hs q (List.mem_cons_of_mem _ hq))

theorem koreKAttack_ok (W : WepPrimitives) (s : WEPCrack) (fk : Bytes)
    (hs : ∀ p ∈ s.captured_packets_, 24 < p.length) :
    ∃ r, WEPCrack.koreKAttack W s fk = .ok r := by
  unfold WEPCrack.koreKAttack
  have hloop : ∃ o, WEPCrack.koreKLoop W
      { s with log_ := s.log_ ++ [ascii "Attempting KoreK attack"] } [5, 13] = .ok o := by
    unfold WEPCrack.koreKLoop
    obtain ⟨v5, h5⟩ := koreKVotes_ok 5 (by omega) s.captured_packets_
      (List.replicate 5 (List.replicate 256 (0 : Int))) hs
    refine ok_bind h5 ?_
    dsimp only
    split
    · exact ⟨_, rfl⟩
    · unfold WEPCrack.koreKLoop
      obtain ⟨v13, h13⟩ := koreKVotes_ok 13 (by omega) s.captured_packets_
        (List.replicate 13 (List.replicate 256 (0 : Int))) hs
      refine ok_bind h13 ?_
      dsimp only
      split
      · exact ⟨_, rfl⟩
      · exact ⟨_, rfl⟩
  obtain ⟨o, ho⟩ := hloop
  refine ok_bind ho ?_
  cases o <;> exact ⟨_, rfl⟩

/-- The frames that `loadCaptureFile` keeps are longer than 24 bytes. -/
theorem wep_loadLoop_sizes :
    ∀ (fuel : Nat) (rest : Bytes) (ps r : List Bytes),
      WEPCrack.loadLoop fuel rest ps = .ok r → (∀ p ∈ ps, 24 < p.length) →
      ∀ p ∈ r, 24 < p.length := by
  intro fuel
  induction fuel with
  | zero => intro rest ps r h; cases h
  | succ fuel ih =>
    intro rest ps r h hps
    unfold WEPCrack.loadLoop at h
    split at h
    · injection h with h; subst h; exact hps
    · dsimp only at h
      split at h
      · injection h with h; subst h; exact hps
      · obtain ⟨keep, hkeep, h⟩ := bind_ok h
        refine ih _ _ r h ?_
        split
        · intro p hp
          rw [List.mem_append, List.mem_singleton] at hp
          rcases hp with hp | hp
          · exact hps p hp
          · subst hp
            split at hkeep
            · assumption
            · injection hkeep with hkeep
              subst hkeep
              contradiction
        · exact hps

theorem removeOtherBssid_subset (config : Config) :
    ∀ (ps r : List Bytes), WEPCrack.removeOtherBssid config ps = .ok r → ∀ p ∈ r, p ∈ ps := by
  intro ps
  induction ps with
  | nil => intro r h; injection h with h; subst h; simp
  | cons q rest ih =>
    intro r h
    unfold WEPCrack.removeOtherBssid at h
    obtain ⟨rm, -, h⟩ := bind_ok h
    obtain ⟨rest2, hrest, h⟩ := bind_ok h
    injection h with h
    subst h
    intro p hp
    split at hp
    · exact List.mem_cons_of_mem _ (ih rest2 hrest p hp)
    · rw [List.mem_cons] at hp
      rcases hp with hp | hp
      · subst hp; exact List.mem_cons_self _ _
      · exact List.mem_cons_of_mem _ (ih rest2 hrest p hp)

theorem wep_load_extract_sizes (cfg : Config) (env : Env) (s1 s2 : WEPCrack) (b1 b2 : Bool)
    (hload : WEPCrack.loadCaptureFile (WEPCrack.new cfg) env = .ok (b1, s1))
    (hext : WEPCrack.extractWEPData s1 = .ok (b2, s2)) :
    s2.config_ = cfg ∧ ∀ p ∈ s2.captured_packets_, 24 < p.length := by
  have h1 : s1.config_ = cfg ∧ ∀ p ∈ s1.captured_packets_, 24 < p.length := by
    unfold WEPCrack.loadCaptureFile at hload
    split at hload
    · injection hload with hload
      rw [Prod.mk.injEq] at hload
      rw [← hload.2]
      simp [WEPCrack.new]
    · obtain ⟨ps, hps, hload⟩ := bind_ok hload
      injection hload with hload
      rw [Prod.mk.injEq] at hload
      rw [← hload.2]
      refine ⟨rfl, ?_⟩
      exact wep_loadLoop_sizes _ _ _ _ hps (by simp [WEPCrack.new])
  unfold WEPCrack.extractWEPData at hext
  split at hext
  · injection hext with hext
    rw [Prod.mk.injEq] at hext
    rw [← hext.2]
    exact h1
  · obtain ⟨ps, hps, hext⟩ := bind_ok hext
    injection hext with hext
    rw [Prod.mk.injEq] at hext
    rw [← hext.2]
    refine ⟨h1.1, ?_⟩
    intro p hp
    split at hps
    · exact h1.2 p (removeOtherBssid_subset _ _ _ hps p hp)
    · injection hps with hps
      subst hps
      exact h1.2 p hp

theorem crack_after_extract (W : WepPrimitives) (cfg : Config) (env : Env) (fk : Bytes)
    (s1 s2 : WEPCrack)
    (hload : WEPCrack.loadCaptureFile (WEPCrack.new cfg) env = .ok (true, s1))
    (hext : WEPCrack.extractWEPData s1 = .ok (true, s2)) :
    WEPCrack.crack W (WEPCrack.new cfg) env fk =
      (firstSuccess W env (attackOrder s2.config_) s2 fk >>= fun r =>
        pure (r.1, r.2.1, r.2.2.1)) := by
  unfold WEPCrack.crack
  rw [hload]
  simp only [bind, Except.bind, Bool.not_true, Bool.false_eq_true, if_false, hext]
  obtain ⟨e1, k1⟩ := statisticalAttack_effect W s2 fk
  unfold attackOrder
  simp only [List.cons_append, List.nil_append, firstSuccess, runAttack, bind, Except.bind, pure,
    Except.pure]
  generalize WEPCrack.statisticalAttack W s2 fk = r1 at e1 k1 ⊢
  obtain ⟨b1, key1, t1⟩ := r1
  simp only at e1 k1 ⊢
  cases b1 with
  | true => simp
  | false =>
    simp only [Bool.false_eq_true, if_false]
    obtain ⟨e2, k2⟩ := fmsAttack_effect W t1 key1
    generalize WEPCrack.fmsAttack W t1 key1 = r2 at e2 k2 ⊢
    obtain ⟨b2, key2, t2⟩ := r2
    simp only at e2 k2 ⊢
    cases b2 with
    | true => simp
    | false =>
      simp only [Bool.false_eq_true, if_false]
      cases h3 : WEPCrack.koreKAttack W t2 key2 with
      | error e => simp
      | ok r3 =>
        obtain ⟨e3, k3⟩ := koreKAttack_effect W t2 key2 r3 h3
        obtain ⟨b3, key3, t3⟩ := r3
        simp only at e3 k3 ⊢
        cases b3 with
        | true => simp
        | false =>
          have hc : t3.config_.wordlist_file = s2.config_.wordlist_file := by
            rw [e3, e2, e1]
            rfl
          simp only [Bool.false_eq_true, if_false, hc]
          by_cases hw : s2.config_.wordlist_file.isEmpty = true
          · simp only [hw, Bool.not_true, Bool.false_eq_true, if_false, if_true, firstSuccess]
            rfl
          · have hw2 : s2.config_.wordlist_file.isEmpty = false := by simpa using hw
            simp only [hw2, Bool.not_false, Bool.false_eq_true, if_false, if_true, firstSuccess,
              runAttack, bind, Except.bind, pure, Except.pure]
            generalize WEPCrack.dictionaryAttack W t3 env key3 = r4
            obtain ⟨b4, key4, t4⟩ := r4
            cases b4 <;> rfl

theorem runAttack_ok (W : WepPrimitives) (env : Env) (a : WepAttack) (s : WEPCrack) (fk : Bytes)
    (hs : ∀ p ∈ s.captured_packets_, 24 < p.length) :
    ∃ r, runAttack W env a s fk = .ok r := by
  cases a with
  | statistical => exact ⟨_, rfl⟩
  | fms => exact ⟨_, rfl⟩
  | korek => exact koreKAttack_ok W s fk hs
  | dictionary => exact ⟨_, rfl⟩

theorem firstSuccess_ok (W : WepPrimitives) (env : Env) :
    ∀ (l : List WepAttack) (s : WEPCrack) (fk : Bytes),
      (∀ p ∈ s.captured_packets_, 24 < p.length) →
      ∃ r, firstSuccess W env l s fk = .ok r := by
  intro l
  induction l with
  | nil => intro s fk _; exact ⟨_, rfl⟩
  | cons a rest ih =>
    intro s fk hs
    unfold firstSuccess
    obtain ⟨r1, h1⟩ := runAttack_ok W env a s fk hs
    refine ok_bind h1 ?_
    obtain ⟨-, -, e3, -⟩ := runAttack_effect W env a s fk r1 h1
    split
    · exact ⟨_, rfl⟩
    · obtain ⟨r2, h2⟩ := ih r1.2.2 r1.2.1 (by rw [e3]; exact hs)
      exact ok_bind h2 ⟨_, rfl⟩

/-- C16: once `loadCaptureFile` and `extractWEPData` have succeeded (the frame
set is not empty), `crack` returns, and what it returns is the outcome of the
attacks run in the order statistical, FMS, KoreK and, only when a wordlist is
configured, dictionary, up to the first that succeeds: the flag and key of
that attack, or false with the key text untouched when none succeeds.  The
attacks that ran are an opening part of that order, all of it on failure, and
the log holds their entry lines and no entry line of a later attack. -/
theorem WEPCrack_crack_attack_order (W : WepPrimitives) (cfg : Config) (env : Env)
    (found_key : Bytes) (s1 s2 : WEPCrack)
    (hload : WEPCrack.loadCaptureFile (WEPCrack.new cfg) env = .ok (true, s1))
    (hext : WEPCrack.extractWEPData s1 = .ok (true, s2)) :
    ∃ (found : Bool) (key : Bytes) (final : WEPCrack) (ran : List WepAttack),
      WEPCrack.crack W (WEPCrack.new cfg) env found_key = .ok (found, key, final) ∧
      firstSuccess W env (attackOrder cfg) s2 found_key = .ok (found, key, final, ran) ∧
      final.log_ = s2.log_ ++ ran.map WepAttack.entryLine ∧
      (∃ rest, ran ++ rest = attackOrder cfg) ∧
      (found = false → ran = attackOrder cfg ∧ key = found_key) ∧
      (found = true → ran ≠ []) := by
  obtain ⟨hcfg, hsz⟩ := wep_load_extract_sizes cfg env s1 s2 true true hload hext
  have hc := crack_after_extract W cfg env found_key s1 s2 hload hext
  rw [hcfg] at hc
  obtain ⟨r, hr⟩ := firstSuccess_ok W env (attackOrder cfg) s2 found_key hsz
  obtain ⟨f1, f2, f3, f4⟩ := firstSuccess_effect W env _ s2 found_key r hr
  refine ⟨r.1, r.2.1, r.2.2.1, r.2.2.2, ?_, hr, f1, f2, f3, f4⟩
  rw [hc, hr]
  rfl

set_option maxRecDepth 1000000 in
/-- The attack order at a capture of ten WEP frames and a configured wordlist:
the load and the extraction succeed and `crack` returns. -/
theorem WEPCrack_crack_attack_order_witness :
    ∃ (found : Bool) (key : Bytes) (final : WEPCrack) (ran : List WepAttack),
      WEPCrack.crack refWep (WEPCrack.new cfgSample) envWep [] = .ok (found, key, final) ∧
      firstSuccess refWep envWep (attackOrder cfgSample)
        ⟨cfgSample, List.replicate 10 wepFramePass, [], []⟩ [] = .ok (found, key, final, ran) ∧
      final.log_ = ran.map WepAttack.entryLine ∧
      (∃ rest, ran ++ rest = attackOrder cfgSample) ∧
      (found = false → ran = attackOrder cfgSample ∧ key = []) ∧
      (found = true → ran ≠ []) :=
  WEPCrack_crack_attack_order refWep cfgSample envWep []
    ⟨cfgSample, List.replicate 10 wepFramePass, [], []⟩
    ⟨cfgSample, List.replicate 10 wepFramePass, [], []⟩ (by decide) (by decide)

/-! ## The work queue of the dictionary attack -/

theorem workerStepWith_placeholder (self : DictionaryAttack) (w : DictionaryAttack.Worker) :
    DictionaryAttack.workerStepWith DictionaryAttack.testPasswordWorker self w =
      DictionaryAttack.workerStep self w := by
  cases w <;> rfl

theorem stepWith_placeholder (env : Env) (r : DictionaryAttack.Run) (e : DictionaryAttack.Event) :
    DictionaryAttack.stepWith DictionaryAttack.testPasswordWorker env r e =
      DictionaryAttack.step env r e := by
  cases e with
  | load => rfl
  | work i =>
    cases hg : r.workers.get? i with
    | none => simp only [DictionaryAttack.stepWith, DictionaryAttack.step, hg]
    | some w =>
      simp only [DictionaryAttack.stepWith, DictionaryAttack.step, hg, workerStepWith_placeholder]

/-- The function `crack` of the source is `crackWith` at its own password test. -/
theorem crackWith_placeholder (C : Crypto) (self : DictionaryAttack) (env : Env)
    (junk : Nat → Int) (sched : List DictionaryAttack.Event) (fp : Bytes) :
    DictionaryAttack.crackWith DictionaryAttack.testPasswordWorker C self env junk sched fp =
      DictionaryAttack.crack C self env junk sched fp := by
  have h : DictionaryAttack.stepWith DictionaryAttack.testPasswordWorker env =
      DictionaryAttack.step env := by
    funext r e
    exact stepWith_placeholder env r e
  unfold DictionaryAttack.crackWith DictionaryAttack.crack DictionaryAttack.startRun
  rw [h]

theorem wordlistCandidates_append (a b : List Bytes) :
    DictionaryAttack.wordlistCandidates (a ++ b) =
      DictionaryAttack.wordlistCandidates a ++ DictionaryAttack.wordlistCandidates b := by
  simp [DictionaryAttack.wordlistCandidates]

/-- Where the loader stands, against the lines it has gone through. -/
theorem loader_step_queue (self : DictionaryAttack) (env : Env) (lines : List Bytes)
    (l : DictionaryAttack.Loader) (processed rest : List Bytes)
    (hw : self.config_.wordlist_file ≠ []) (hl : env.wordlist = some lines)
    (hrun : self.running_ = true) (hsplit : processed ++ rest = lines)
    (hat : (l = .notStarted ∧ processed = []) ∨ l = .reading rest ∨ (l = .finished ∧ rest = [])) :
    ∃ processed2 rest2, processed2 ++ rest2 = lines ∧
      (((DictionaryAttack.loaderStep self env l).1 = .notStarted ∧ processed2 = []) ∨
        (DictionaryAttack.loaderStep self env l).1 = .reading rest2 ∨
        ((DictionaryAttack.loaderStep self env l).1 = .finished ∧ rest2 = [])) ∧
      (DictionaryAttack.loaderStep self env l).2.running_ = true ∧
      (DictionaryAttack.loaderStep self env l).2.config_ = self.config_ ∧
      (DictionaryAttack.loaderStep self env l).2.found_ = self.found_ ∧
      (DictionaryAttack.loaderStep self env l).2.result_password_ = self.result_password_ ∧
      ∃ added, (DictionaryAttack.loaderStep self env l).2.password_queue_ =
          self.password_queue_ ++ added ∧
        DictionaryAttack.wordlistCandidates processed2 =
          DictionaryAttack.wordlistCandidates processed ++ added := by
  have hwe : self.config_.wordlist_file.isEmpty = false := by
    cases h : self.config_.wordlist_file with
    | nil => exact absurd h hw
    | cons _ _ => rfl
  rcases hat with ⟨h1, h2⟩ | h1 | ⟨h1, h2⟩
  · subst h1
    subst h2
    refine ⟨[], lines, rfl, Or.inr (Or.inl ?_), ?_, ?_, ?_, ?_, [], ?_, ?_⟩ <;>
      simp [DictionaryAttack.loaderStep, hwe, hl, hrun]
  · subst h1
    cases rest with
    | nil =>
      refine ⟨processed, [], hsplit, Or.inr (Or.inr ⟨?_, rfl⟩), ?_, ?_, ?_, ?_, [], ?_, ?_⟩ <;>
        simp [DictionaryAttack.loaderStep, hrun]
    | cons line rest =>
      have hsplit2 : (processed ++ [line]) ++ rest = lines := by simpa using hsplit
      by_cases hskip : ((DictionaryAttack.trim line).isEmpty ||
          (DictionaryAttack.trim line).head? == some 35) = true
      · refine ⟨processed ++ [line], rest, hsplit2, Or.inr (Or.inl ?_), ?_, ?_, ?_, ?_, [],
          ?_, ?_⟩
        · simp [DictionaryAttack.loaderStep, hrun, hskip]
        · simp [DictionaryAttack.loaderStep, hrun, hskip]
        · simp [DictionaryAttack.loaderStep, hrun, hskip]
        · simp [DictionaryAttack.loaderStep, hrun, hskip]
        · simp [DictionaryAttack.loaderStep, hrun, hskip]
        · simp [DictionaryAttack.loaderStep, hrun, hskip]
        · rw [wordlistCandidates_append]
          simp only [DictionaryAttack.wordlistCandidates, List.map_cons, List.map_nil,
            List.append_nil, List.append_right_eq_self, List.filter_eq_nil_iff,
            List.mem_singleton]
          intro a ha
          subst ha
          simp only [Bool.or_eq_true] at hskip
          rcases hskip with hs | hs
          · simp [hs]
          · simp only [beq_iff_eq] at hs
            simp [hs]
      · have hskip2 : ((DictionaryAttack.trim line).isEmpty ||
            (DictionaryAttack.trim line).head? == some 35) = false := by simpa using hskip
        have hne : (DictionaryAttack.trim line).isEmpty = false := by
          simp only [Bool.or_eq_false_iff] at hskip2
          exact hskip2.1
        have hnh : ((DictionaryAttack.trim line).head? != some 35) = true := by
          simp only [Bool.or_eq_false_iff] at hskip2
          simp [bne, hskip2.2]
        by_cases hlen : (DictionaryAttack.trim line).length ≥ 8 ∧
            (DictionaryAttack.trim line).length ≤ 63
        · refine ⟨processed ++ [line], rest, hsplit2, Or.inr (Or.inl ?_), ?_, ?_, ?_, ?_,
            [DictionaryAttack.trim line], ?_, ?_⟩
          · simp [DictionaryAttack.loaderStep, hrun, hskip2, hlen]
          · simp [DictionaryAttack.loaderStep, hrun, hskip2, hlen,
              DictionaryAttack.addPasswordToQueue]
          · simp [DictionaryAttack.loaderStep, hrun, hskip2, hlen,
              DictionaryAttack.addPasswordToQueue]
          · simp [DictionaryAttack.loaderStep, hrun, hskip2, hlen,
              DictionaryAttack.addPasswordToQueue]
          · simp [DictionaryAttack.loaderStep, hrun, hskip2, hlen,
              DictionaryAttack.addPasswordToQueue]
          · simp [DictionaryAttack.loaderStep, hrun, hskip2, hlen,
              DictionaryAttack.addPasswordToQueue]
          · rw [wordlistCandidates_append]
            congr 1
            simp [DictionaryAttack.wordlistCandidates, List.filter, hne, hnh, hlen.1, hlen.2]
        · refine ⟨processed ++ [line], rest, hsplit2, Or.inr (Or.inl ?_), ?_, ?_, ?_, ?_, [],
            ?_, ?_⟩
          · simp [DictionaryAttack.loaderStep, hrun, hskip2, hlen]
          · simp [DictionaryAttack.loaderStep, hrun, hskip2, hlen]
          · simp [DictionaryAttack.loaderStep, hrun, hskip2, hlen]
          · simp [DictionaryAttack.loaderStep, hrun, hskip2, hlen]
          · simp [DictionaryAttack.loaderStep, hrun, hskip2, hlen]
          · simp [DictionaryAttack.loaderStep, hrun, hskip2, hlen]
          · rw [wordlistCandidates_append]
            simp only [DictionaryAttack.wordlistCandidates, List.map_cons, List.map_nil,
              List.append_nil, List.append_right_eq_self, List.filter_eq_nil_iff,
              List.mem_singleton]
            intro a ha
            subst ha
            simp only [not_and_or, not_le] at hlen
            rcases hlen with hlen | hlen
            · simp [hne, hnh]
              omega
            · simp [hne, hnh]
              omega
  · subst h1
    subst h2
    refine ⟨processed, [], hsplit, Or.inr (Or.inr ⟨?_, rfl⟩), ?_, ?_, ?_, ?_, [], ?_, ?_⟩ <;>
      simp [DictionaryAttack.loaderStep, hrun]

theorem dict_worker_step (test : DictionaryAttack → Bytes → Bool) (self : DictionaryAttack)
    (w : DictionaryAttack.Worker) :
    (DictionaryAttack.workerStepWith test self w).2.running_ = self.running_ ∧
      (DictionaryAttack.workerStepWith test self w).2.config_ = self.config_ ∧
      ((∃ p, w = .atLoopHead ∧ (DictionaryAttack.workerStepWith test self w).1 = .testing p ∧
          self.password_queue_ =
            p :: (DictionaryAttack.workerStepWith test self w).2.password_queue_) ∨
        ((¬ (w = .atLoopHead ∧
            ∃ p, (DictionaryAttack.workerStepWith test self w).1 = .testing p)) ∧
          (DictionaryAttack.workerStepWith test self w).2.password_queue_ =
            self.password_queue_)) := by
  cases w with
  | atLoopHead =>
    simp only [DictionaryAttack.workerStepWith, DictionaryAttack.getPasswordFromQueue]
    by_cases hc : (self.running_ && !self.found_) = true
    · rw [if_pos hc]
      cases hq : self.password_queue_ with
      | nil => simp [hq]
      | cons p q => simp [hq]
    · rw [if_neg hc]
      simp
  | testing p =>
    simp only [DictionaryAttack.workerStepWith]
    split
    · split <;> simp
    · simp
  | finished => simp [DictionaryAttack.workerStepWith]

/-- One scheduling decision keeps the queue state; the password it takes from
the queue is the head of the queue. -/
theorem queueInv_step (test : DictionaryAttack → Bytes → Bool) (env : Env)
    (lines q0 : List Bytes) (hl : env.wordlist = some lines) (r : DictionaryAttack.Run)
    (taken : List Bytes) (e : DictionaryAttack.Event)
    (h : DictionaryAttack.QueueInv lines q0 r taken) :
    DictionaryAttack.QueueInv lines q0 (DictionaryAttack.stepWith test env r e)
      (taken ++ (DictionaryAttack.dequeued test env r e).toList) := by
  obtain ⟨hrun, hw, processed, rest, hsplit, hat, hq⟩ := h
  cases e with
  | load =>
    obtain ⟨p2, r2, s2, a2, hr2, hc2, -, -, added, hadd, hcand⟩ :=
      loader_step_queue r.self env lines r.loader processed rest hw hl hrun hsplit hat
    refine ⟨hr2, by rw [show (DictionaryAttack.stepWith test env r .load).self.config_ =
      r.self.config_ from hc2]; exact hw, p2, r2, s2, a2, ?_⟩
    simp only [DictionaryAttack.dequeued, Option.toList, List.append_nil]
    show taken ++ (DictionaryAttack.loaderStep r.self env r.loader).2.password_queue_ = _
    rw [hadd, hcand, ← List.append_assoc, hq, List.append_assoc]
  | work i =>
    cases hg : r.workers.get? i with
    | none =>
      have hs : DictionaryAttack.stepWith test env r (.work i) = r := by
        simp only [DictionaryAttack.stepWith, hg]
      have hd : DictionaryAttack.dequeued test env r (.work i) = none := by
        simp only [DictionaryAttack.dequeued, hg]
      rw [hs, hd]
      simp only [Option.toList, List.append_nil]
      exact ⟨hrun, hw, processed, rest, hsplit, hat, hq⟩
    | some w =>
      have hi : i < r.workers.length := by
        rw [List.get?_eq_some] at hg
        exact hg.1
      obtain ⟨k1, k2, k3⟩ := dict_worker_step test r.self w
      generalize hws : DictionaryAttack.workerStepWith test r.self w = ws at k1 k2 k3
      obtain ⟨w2, s2⟩ := ws
      simp only at k1 k2 k3
      have hs : DictionaryAttack.stepWith test env r (.work i) =
          { self := s2, workers := r.workers.set i w2, loader := r.loader } := by
        simp only [DictionaryAttack.stepWith, hg, hws]
      have hg2 : (DictionaryAttack.stepWith test env r (.work i)).workers.get? i = some w2 := by
        rw [hs]
        simp [List.getElem?_set, hi]
      rcases k3 with ⟨p, e1, e2, e3⟩ | ⟨n1, n2⟩
      · subst e1
        subst e2
        have hd : DictionaryAttack.dequeued test env r (.work i) = some p := by
          simp only [DictionaryAttack.dequeued, hg, hg2]
        rw [hd, hs]
        refine ⟨by rw [show s2.running_ = r.self.running_ from k1]; exact hrun,
          by rw [show s2.config_ = r.self.config_ from k2]; exact hw,
          processed, rest, hsplit, hat, ?_⟩
        show _ ++ s2.password_queue_ = _
        simp only [Option.toList, List.append_assoc, List.singleton_append]
        rw [← e3]
        exact hq
      · have hd : DictionaryAttack.dequeued test env r (.work i) = none := by
          simp only [DictionaryAttack.dequeued, hg, hg2]
          split
          · rename_i pw h1 h2
            injection h1 with h1
            injection h2 with h2
            exact absurd ⟨h1, pw, h2⟩ n1
          · rfl
        rw [hd, hs]
        refine ⟨by rw [show s2.running_ = r.self.running_ from k1]; exact hrun,
          by rw [show s2.config_ = r.self.config_ from k2]; exact hw,
          processed, rest, hsplit, hat, ?_⟩
        show _ ++ s2.password_queue_ = _
        rw [n2]
        simpa using hq

theorem queueInv_run (test : DictionaryAttack → Bytes → Bool) (env : Env)
    (lines q0 : List Bytes) (hl : env.wordlist = some lines) (sched : List DictionaryAttack.Event) :
    ∀ (r : DictionaryAttack.Run) (taken : List Bytes),
      DictionaryAttack.QueueInv lines q0 r taken →
      DictionaryAttack.QueueInv lines q0 (sched.foldl (DictionaryAttack.stepWith test env) r)
        (taken ++ DictionaryAttack.dequeues test env r sched) := by
  induction sched with
  | nil => intro r taken h; simpa [DictionaryAttack.dequeues] using h
  | cons e es ih =>
    intro r taken h
    have := ih _ _ (queueInv_step test env lines q0 hl r taken e h)
    simpa [DictionaryAttack.dequeues, List.append_assoc] using this

theorem loads_finish (test : DictionaryAttack → Bytes → Bool) (env : Env) :
    ∀ (rest : List Bytes) (r : DictionaryAttack.Run), r.loader = .reading rest →
      r.self.running_ = true →
      ((List.replicate (rest.length + 1) DictionaryAttack.Event.load).foldl
        (DictionaryAttack.stepWith test env) r).loader = .finished := by
  intro rest
  induction rest with
  | nil =>
    intro r h _
    simp [DictionaryAttack.stepWith, h, DictionaryAttack.loaderStep]
  | cons line rest ih =>
    intro r h hrun
    rw [show (line :: rest).length + 1 = (rest.length + 1) + 1 from rfl, List.replicate_succ,
      List.foldl_cons]
    apply ih
    · simp only [DictionaryAttack.stepWith, h, DictionaryAttack.loaderStep, hrun]
      simp only [Bool.not_true, Bool.false_eq_true, if_false]
      split
      · rfl
      · split <;> rfl
    · simp only [DictionaryAttack.stepWith, h, DictionaryAttack.loaderStep, hrun]
      simp only [Bool.not_true, Bool.false_eq_true, if_false]
      split
      · exact hrun
      · split
        · simpa [DictionaryAttack.addPasswordToQueue] using hrun
        · exact hrun

theorem dequeues_loads (test : DictionaryAttack → Bytes → Bool) (env : Env) (n : Nat) :
    ∀ r, DictionaryAttack.dequeues test env r (List.replicate n DictionaryAttack.Event.load) = [] := by
  induction n with
  | zero => intro r; rfl
  | succ n ih =>
    intro r
    simp [List.replicate_succ, DictionaryAttack.dequeues, DictionaryAttack.dequeued, ih]

theorem queueInv_start (self : DictionaryAttack) (lines : List Bytes)
    (hw : self.config_.wordlist_file ≠ []) :
    DictionaryAttack.QueueInv lines self.password_queue_ (DictionaryAttack.startRun self) [] :=
  ⟨rfl, hw, [], lines, rfl, Or.inl ⟨rfl, rfl⟩, by simp [DictionaryAttack.startRun,
    DictionaryAttack.wordlistCandidates]⟩

/-- C19: with a wordlist configured and readable (and no stop request), the
candidates that `loadPasswords` puts on the queue are, in file order, the
lines trimmed of surrounding spaces, tabs, CR and LF that are then non-empty,
do not begin with `#` and are 8 to 63 bytes long: run to its end on its own,
the loader leaves the queue extended by exactly these; and under every
interleaving with the workers, the passwords the workers have dequeued, in the
order they dequeued them, followed by what is still queued, are the queue at
the start followed by the candidates of the lines read so far (all lines once
the loader has finished), so that passwords leave the queue in the order they
entered it. -/
theorem loadPasswords_queue_fifo (test : DictionaryAttack → Bytes → Bool)
    (self : DictionaryAttack) (env : Env) (lines : List Bytes)
    (sched : List DictionaryAttack.Event)
    (hw : self.config_.wordlist_file ≠ []) (hl : env.wordlist = some lines) :
    (((List.replicate (lines.length + 2) DictionaryAttack.Event.load).foldl
          (DictionaryAttack.stepWith test env) (DictionaryAttack.startRun self)).loader
        = .finished ∧
      ((List.replicate (lines.length + 2) DictionaryAttack.Event.load).foldl
          (DictionaryAttack.stepWith test env)
          (DictionaryAttack.startRun self)).self.password_queue_
        = self.password_queue_ ++ DictionaryAttack.wordlistCandidates lines) ∧
    (∃ processed rest, processed ++ rest = lines ∧
      DictionaryAttack.dequeues test env (DictionaryAttack.startRun self) sched ++
          (sched.foldl (DictionaryAttack.stepWith test env)
            (DictionaryAttack.startRun self)).self.password_queue_
        = self.password_queue_ ++ DictionaryAttack.wordlistCandidates processed) ∧
    ((sched.foldl (DictionaryAttack.stepWith test env) (DictionaryAttack.startRun self)).loader
        = .finished →
      DictionaryAttack.dequeues test env (DictionaryAttack.startRun self) sched ++
          (sched.foldl (DictionaryAttack.stepWith test env)
            (DictionaryAttack.startRun self)).self.password_queue_
        = self.password_queue_ ++ DictionaryAttack.wordlistCandidates lines) := by
  have hstart := queueInv_start self lines hw
  have hwe : self.config_.wordlist_file.isEmpty = false := by
    cases h : self.config_.wordlist_file with
    | nil => exact absurd h hw
    | cons _ _ => rfl
  have key : ∀ sch : List DictionaryAttack.Event,
      ∃ processed rest, processed ++ rest = lines ∧
        (((sch.foldl (DictionaryAttack.stepWith test env)
              (DictionaryAttack.startRun self)).loader = .notStarted ∧ processed = []) ∨
          (sch.foldl (DictionaryAttack.stepWith test env)
              (DictionaryAttack.startRun self)).loader = .reading rest ∨
          ((sch.foldl (DictionaryAttack.stepWith test env)
              (DictionaryAttack.startRun self)).loader = .finished ∧ rest = [])) ∧
        DictionaryAttack.dequeues test env (DictionaryAttack.startRun self) sch ++
            (sch.foldl (DictionaryAttack.stepWith test env)
              (DictionaryAttack.startRun self)).self.password_queue_
          = self.password_queue_ ++ DictionaryAttack.wordlistCandidates processed := by
    intro sch
    obtain ⟨-, -, processed, rest, h1, h2, h3⟩ :=
      queueInv_run test env lines self.password_queue_ hl sch _ _ hstart
    exact ⟨processed, rest, h1, h2, by simpa using h3⟩
  have fin : ∀ sch : List DictionaryAttack.Event,
      (sch.foldl (DictionaryAttack.stepWith test env) (DictionaryAttack.startRun self)).loader
          = .finished →
        DictionaryAttack.dequeues test env (DictionaryAttack.startRun self) sch ++
            (sch.foldl (DictionaryAttack.stepWith test env)
              (DictionaryAttack.startRun self)).self.password_queue_
          = self.password_queue_ ++ DictionaryAttack.wordlistCandidates lines := by
    intro sch hf
    obtain ⟨processed, rest, h1, h2, h3⟩ := key sch
    rw [hf] at h2
    rcases h2 with ⟨h2, _⟩ | h2 | ⟨_, h2⟩
    · cases h2
    · cases h2
    · subst h2
      rw [List.append_nil] at h1
      subst h1
      exact h3
  have hloads : ((List.replicate (lines.length + 2) DictionaryAttack.Event.load).foldl
      (DictionaryAttack.stepWith test env) (DictionaryAttack.startRun self)).loader
        = .finished := by
    rw [show lines.length + 2 = (lines.length + 1) + 1 from rfl, List.replicate_succ,
      List.foldl_cons]
    apply loads_finish
    · simp [DictionaryAttack.stepWith, DictionaryAttack.startRun, DictionaryAttack.loaderStep,
        hwe, hl]
    · simp [DictionaryAttack.stepWith, DictionaryAttack.startRun, DictionaryAttack.loaderStep,
        hwe, hl]
  refine ⟨⟨hloads, ?_⟩, ?_, fin sched⟩
  · have := fin _ hloads
    rw [dequeues_loads] at this
    simpa using this
  · obtain ⟨processed, rest, h1, -, h3⟩ := key sched
    exact ⟨processed, rest, h1, h3⟩

set_option maxRecDepth 100000 in
/-- The queue of a sample run: of the seven lines three are candidates, and the
two workers take them in file order while the loader is still reading. -/
theorem loadPasswords_queue_fifo_witness :
    DictionaryAttack.wordlistCandidates DictionaryAttack.wordlistRaw
        = [ascii "letmein2024", ascii "password123", ascii "correcthorse"] ∧
      DictionaryAttack.dequeues (fun _ _ => false) DictionaryAttack.envRaw
          (DictionaryAttack.startRun DictionaryAttack.dictSample) DictionaryAttack.schedSample
        = [ascii "letmein2024", ascii "password123", ascii "correcthorse"] ∧
      DictionaryAttack.dequeues (fun _ _ => false) DictionaryAttack.envRaw
            (DictionaryAttack.startRun DictionaryAttack.dictSample)
            DictionaryAttack.schedSample ++
          (DictionaryAttack.schedSample.foldl
            (DictionaryAttack.stepWith (fun _ _ => false) DictionaryAttack.envRaw)
            (DictionaryAttack.startRun DictionaryAttack.dictSample)).self.password_queue_
        = DictionaryAttack.dictSample.password_queue_ ++
          DictionaryAttack.wordlistCandidates DictionaryAttack.wordlistRaw :=
  ⟨by decide, by decide,
    (loadPasswords_queue_fifo (fun _ _ => false) DictionaryAttack.dictSample
      DictionaryAttack.envRaw DictionaryAttack.wordlistRaw DictionaryAttack.schedSample
      (by decide) rfl).2.2 (by decide)⟩

/-! ## The guarded record of a success -/

theorem head_append_toList (reps : List Bytes) (o : Option Bytes) :
    (reps ++ o.toList).head? = (reps.head?).or o := by
  cases reps <;> cases o <;> rfl

theorem dict_recordInv_step (test : DictionaryAttack → Bytes → Bool) (env : Env)
    (r : DictionaryAttack.Run) (reps : List Bytes) (e : DictionaryAttack.Event)
    (h : DictionaryAttack.RecordInv r reps) :
    DictionaryAttack.RecordInv (DictionaryAttack.stepWith test env r e)
      (reps ++ (DictionaryAttack.reported test r e).toList) := by
  obtain ⟨h1, h2⟩ := h
  unfold DictionaryAttack.RecordInv
  rw [head_append_toList]
  cases e with
  | load =>
    have hf : (DictionaryAttack.stepWith test env r .load).self.found_ = r.self.found_ := by
      show (DictionaryAttack.loaderStep r.self env r.loader).2.found_ = _
      exact loaderStep_found r.self env r.loader
    have hp : (DictionaryAttack.stepWith test env r .load).self.result_password_ =
        r.self.result_password_ := by
      show (DictionaryAttack.loaderStep r.self env r.loader).2.result_password_ = _
      cases hl : r.loader with
      | notStarted =>
        simp only [DictionaryAttack.loaderStep]
        split
        · rfl
        · split <;> rfl
      | reading rest =>
        cases rest with
        | nil => rfl
        | cons line rest =>
          simp only [DictionaryAttack.loaderStep]
          split
          · rfl
          · split
            · rfl
            · split <;> rfl
      | finished => rfl
    simp only [DictionaryAttack.reported, Option.or_none]
    rw [hf, hp]
    exact ⟨h1, h2⟩
  | work i =>
    cases hg : r.workers.get? i with
    | none =>
      simp only [DictionaryAttack.stepWith, DictionaryAttack.reported, hg, Option.or_none]
      exact ⟨h1, h2⟩
    | some w =>
      cases w with
      | atLoopHead =>
        simp only [DictionaryAttack.stepWith, DictionaryAttack.reported, hg, Option.or_none,
          DictionaryAttack.workerStepWith, DictionaryAttack.getPasswordFromQueue]
        split
        · split <;> (rename_i heq; split at heq <;>
            (injection heq with _ heq; subst heq; exact ⟨h1, h2⟩))
        · exact ⟨h1, h2⟩
      | finished =>
        simp only [DictionaryAttack.stepWith, DictionaryAttack.reported, hg, Option.or_none,
          DictionaryAttack.workerStepWith]
        exact ⟨h1, h2⟩
      | testing p =>
        simp only [DictionaryAttack.stepWith, DictionaryAttack.reported, hg,
          DictionaryAttack.workerStepWith]
        by_cases ht : test r.self p = true
        · simp only [ht, if_true]
          cases hf : r.self.found_ with
          | false =>
            rw [hf] at h1
            have hnone : reps.head? = none := by
              cases hh : reps.head? with
              | none => rfl
              | some x => rw [hh] at h1; cases h1
            simp [hnone]
          | true =>
            rw [hf] at h1
            cases hh : reps.head? with
            | none => rw [hh] at h1; cases h1
            | some x =>
              simp only [Bool.not_true, Bool.false_eq_true, if_false, Option.or_some,
                Option.isSome_some, Option.some.injEq]
              refine ⟨hf, ?_⟩
              intro q hq
              subst hq
              exact h2 x hh
        · simp only [ht, Bool.false_eq_true, if_false, Option.or_none]
          exact ⟨h1, h2⟩

theorem dict_recordInv_run (test : DictionaryAttack → Bytes → Bool) (env : Env)
    (sched : List DictionaryAttack.Event) :
    ∀ (r : DictionaryAttack.Run) (reps : List Bytes), DictionaryAttack.RecordInv r reps →
      DictionaryAttack.RecordInv (sched.foldl (DictionaryAttack.stepWith test env) r)
        (reps ++ DictionaryAttack.reports test env r sched) := by
  induction sched with
  | nil => intro r reps h; simpa [DictionaryAttack.reports] using h
  | cons e es ih =>
    intro r reps h
    have := ih _ _ (dict_recordInv_step test env r reps e h)
    simpa [DictionaryAttack.reports, List.append_assoc] using this

theorem brute_recordInv_step (test : BruteForce → Bytes → Bool) (r : BruteForce.Run)
    (reps : List Bytes) (i : Nat) (h : BruteForce.RecordInv r reps) :
    BruteForce.RecordInv (BruteForce.stepWith test r i)
      (reps ++ (BruteForce.reported test r i).toList) := by
  obtain ⟨h1, h2⟩ := h
  unfold BruteForce.RecordInv
  rw [head_append_toList]
  cases hg : r.workers.get? i with
  | none =>
    simp only [BruteForce.stepWith, BruteForce.reported, hg, Option.or_none]
    exact ⟨h1, h2⟩
  | some w =>
    cases w with
    | atLoopHead =>
      simp only [BruteForce.stepWith, BruteForce.reported, hg, Option.or_none,
        BruteForce.workerStepWith]
      split <;> exact ⟨h1, h2⟩
    | forLoop index length =>
      simp only [BruteForce.stepWith, BruteForce.reported, hg, Option.or_none,
        BruteForce.workerStepWith]
      split <;> exact ⟨h1, h2⟩
    | finished =>
      simp only [BruteForce.stepWith, BruteForce.reported, hg, Option.or_none,
        BruteForce.workerStepWith]
      exact ⟨h1, h2⟩
    | undefined =>
      simp only [BruteForce.stepWith, BruteForce.reported, hg, Option.or_none,
        BruteForce.workerStepWith]
      exact ⟨h1, h2⟩
    | testing p =>
      simp only [BruteForce.stepWith, BruteForce.reported, hg, BruteForce.workerStepWith]
      by_cases ht : test r.self p = true
      · simp only [ht, if_true]
        cases hf : r.self.found_ with
        | false =>
          rw [hf] at h1
          have hnone : reps.head? = none := by
            cases hh : reps.head? with
            | none => rfl
            | some x => rw [hh] at h1; cases h1
          simp [hnone]
        | true =>
          rw [hf] at h1
          cases hh : reps.head? with
          | none => rw [hh] at h1; cases h1
          | some x =>
            simp only [Bool.not_true, Bool.false_eq_true, if_false, Option.or_some,
              Option.isSome_some, Option.some.injEq]
            refine ⟨hf, ?_⟩
            intro q hq
            subst hq
            exact h2 x hh
      · simp only [ht, Bool.false_eq_true, if_false, Option.or_none]
        exact ⟨h1, h2⟩

theorem brute_recordInv_run (test : BruteForce → Bytes → Bool) (sched : List Nat) :
    ∀ (r : BruteForce.Run) (reps : List Bytes), BruteForce.RecordInv r reps →
      BruteForce.RecordInv (sched.foldl (BruteForce.stepWith test) r)
        (reps ++ BruteForce.reports test r sched) := by
  induction sched with
  | nil => intro r reps h; simpa [BruteForce.reports] using h
  | cons e es ih =>
    intro r reps h
    have := ih _ _ (brute_recordInv_step test r reps e h)
    simpa [BruteForce.reports, List.append_assoc] using this

theorem dict_recordInv_final (test : DictionaryAttack → Bytes → Bool) (self : DictionaryAttack)
    (env : Env) (sched : List DictionaryAttack.Event) :
    DictionaryAttack.RecordInv
      (sched.foldl (DictionaryAttack.stepWith test env) (DictionaryAttack.startRun self))
      (DictionaryAttack.reports test env (DictionaryAttack.startRun self) sched) := by
  have := dict_recordInv_run test env sched (DictionaryAttack.startRun self) []
    ⟨rfl, by intro p hp; cases hp⟩
  simpa using this

theorem brute_recordInv_final (test : BruteForce → Bytes → Bool) (self : BruteForce)
    (sched : List Nat) :
    BruteForce.RecordInv (sched.foldl (BruteForce.stepWith test) (BruteForce.startRun self))
      (BruteForce.reports test (BruteForce.startRun self) sched) := by
  have := brute_recordInv_run test sched (BruteForce.startRun self) []
    ⟨rfl, by intro p hp; cases hp⟩
  simpa using this

/-! ## The candidates of the brute-force search -/

theorem generateLoop_length (cs : Bytes) (len : Nat) :
    ∀ idx, (BruteForce.generateLoop cs len idx).length = len := by
  induction len with
  | zero => intro idx; rfl
  | succ len ih => intro idx; simp [BruteForce.generateLoop, ih]

theorem getD_mem_of_lt (cs : Bytes) (k : Nat) (h : k < cs.length) : cs.getD k 0 ∈ cs := by
  rw [List.getD_eq_getElem cs 0 h]
  exact List.getElem_mem h

theorem generateLoop_mem (cs : Bytes) (hn : 0 < cs.length) (len : Nat) :
    ∀ idx, ∀ c ∈ BruteForce.generateLoop cs len idx, c ∈ cs := by
  induction len with
  | zero => intro idx c hc; simp [BruteForce.generateLoop] at hc
  | succ len ih =>
    intro idx c hc
    simp only [BruteForce.generateLoop, List.mem_cons] at hc
    rcases hc with hc | hc
    · rw [hc]
      exact getD_mem_of_lt cs _ (Nat.mod_lt _ hn)
    · exact ih _ c hc

theorem getD_inj_of_nodup (cs : Bytes) (hnd : cs.Nodup) (a b : Nat) (ha : a < cs.length)
    (hb : b < cs.length) (h : cs.getD a 0 = cs.getD b 0) : a = b := by
  rw [List.getD_eq_getElem cs 0 ha, List.getD_eq_getElem cs 0 hb] at h
  exact (List.Nodup.getElem_inj_iff hnd).mp h

theorem generateLoop_inj (cs : Bytes) (hnd : cs.Nodup) (len : Nat) :
    ∀ i1 i2, i1 < cs.length ^ len → i2 < cs.length ^ len →
      BruteForce.generateLoop cs len i1 = BruteForce.generateLoop cs len i2 → i1 = i2 := by
  induction len with
  | zero =>
    intro i1 i2 h1 h2 _
    simp at h1 h2
    omega
  | succ len ih =>
    intro i1 i2 h1 h2 h
    have hn : 0 < cs.length := by
      rcases Nat.eq_zero_or_pos cs.length with h0 | h0
      · rw [h0] at h1; simp at h1
      · exact h0
    simp only [BruteForce.generateLoop, List.cons.injEq] at h
    obtain ⟨hh, ht⟩ := h
    have hm : i1 % cs.length = i2 % cs.length :=
      getD_inj_of_nodup cs hnd _ _ (Nat.mod_lt _ hn) (Nat.mod_lt _ hn) hh
    have hd : i1 / cs.length = i2 / cs.length := by
      apply ih _ _ _ _ ht
      · rw [Nat.div_lt_iff_lt_mul hn]; rw [pow_succ] at h1; exact h1
      · rw [Nat.div_lt_iff_lt_mul hn]; rw [pow_succ] at h2; exact h2
    rw [← Nat.div_add_mod i1 cs.length, ← Nat.div_add_mod i2 cs.length, hm, hd]

theorem generateLoop_surj (cs : Bytes) :
    ∀ s : Bytes, (∀ c ∈ s, c ∈ cs) →
      ∃ idx, idx < cs.length ^ s.length ∧ BruteForce.generateLoop cs s.length idx = s := by
  intro s
  induction s with
  | nil => intro _; exact ⟨0, by simp, rfl⟩
  | cons c t ih =>
    intro hs
    obtain ⟨j, hj, hgen⟩ := ih (fun x hx => hs x (List.mem_cons_of_mem _ hx))
    have hc : c ∈ cs := hs c (List.mem_cons_self _ _)
    obtain ⟨k, hk, hkc⟩ := List.getElem_of_mem hc
    have hn : 0 < cs.length := by omega
    refine ⟨k + cs.length * j, ?_, ?_⟩
    · rw [List.length_cons, pow_succ]
      calc k + cs.length * j < cs.length + cs.length * j := by omega
        _ = cs.length * (j + 1) := by ring
        _ ≤ cs.length * cs.length ^ t.length := Nat.mul_le_mul_left _ hj
        _ = cs.length ^ t.length * cs.length := by ring
    · simp only [List.length_cons, BruteForce.generateLoop]
      have h1 : (k + cs.length * j) % cs.length = k := by
        rw [Nat.add_mul_mod_self_left]
        exact Nat.mod_eq_of_lt hk
      have h2 : (k + cs.length * j) / cs.length = j := by
        rw [Nat.add_mul_div_left _ _ hn, Nat.div_eq_of_lt hk]
        simp
      rw [h1, h2, hgen, List.getD_eq_getElem cs 0 hk, hkc]

theorem powCast_exact (n len : Nat) (h : n ^ len < 2 ^ 53) :
    BruteForce.powCast n len = some (n ^ len) := by
  unfold BruteForce.powCast BruteForce.roundToDouble
  rw [if_pos h, if_pos (by omega)]

theorem pow_small (n len mx : Nat) (h : n ^ mx < 2 ^ 53) (hl : len ≤ mx) : n ^ len < 2 ^ 53 := by
  rcases Nat.eq_zero_or_pos n with h0 | h0
  · subst h0
    rcases Nat.eq_zero_or_pos len with hl0 | hl0
    · subst hl0; simp
    · rw [Nat.zero_pow hl0]; simp
  · exact lt_of_le_of_lt (Nat.pow_le_pow_right h0 hl) h

theorem powSum_succ_right (n len : Nat) :
    ∀ k, BruteForce.powSum n len (k + 1) = BruteForce.powSum n len k + n ^ (len + k) := by
  intro k
  induction k generalizing len with
  | zero => simp [BruteForce.powSum]
  | succ k ih =>
    rw [BruteForce.powSum, ih (len + 1), BruteForce.powSum]
    have : len + 1 + k = len + (k + 1) := by omega
    rw [this]
    omega

theorem powSum_mono (n len : Nat) : ∀ a b, a ≤ b → BruteForce.powSum n len a ≤ BruteForce.powSum n len b := by
  intro a b hab
  induction b with
  | zero =>
    have : a = 0 := by omega
    subst this
    exact le_refl _
  | succ b ih =>
    rcases Nat.eq_or_lt_of_le hab with h | h
    · rw [h]
    · have := ih (by omega)
      rw [powSum_succ_right]
      omega

theorem keyspace_eq_powSum (self : BruteForce) :
    BruteForce.keyspace self =
      BruteForce.powSum self.charset_.length self.min_length_
        (self.max_length_ + 1 - self.min_length_) := by
  unfold BruteForce.keyspace
  generalize self.max_length_ + 1 - self.min_length_ = m
  induction m with
  | zero => rfl
  | succ m ih =>
    rw [powSum_succ_right, ← ih, List.range_succ, List.map_append, List.sum_append]
    simp

/-- Every index below the size of the keyspace splits into a length and an
index within that length. -/
theorem powSum_decompose (n : Nat) :
    ∀ (fuel len idx : Nat), idx < BruteForce.powSum n len fuel →
      ∃ k j, k < fuel ∧ j < n ^ (len + k) ∧ idx = BruteForce.powSum n len k + j := by
  intro fuel
  induction fuel with
  | zero => intro len idx h; simp [BruteForce.powSum] at h
  | succ fuel ih =>
    intro len idx h
    rw [powSum_succ_right] at h
    by_cases hlt : idx < BruteForce.powSum n len fuel
    · obtain ⟨k, j, hk, hj, e⟩ := ih len idx hlt
      exact ⟨k, j, by omega, hj, e⟩
    · exact ⟨fuel, idx - BruteForce.powSum n len fuel, by omega, by omega, by omega⟩

/-- The `for` loop of the worker sends the `j`-th index of the `k`-th length
to the `j`-th string of that length. -/
theorem searchFrom_testing (self : BruteForce)
    (hpow : ∀ len, len ≤ self.max_length_ → self.charset_.length ^ len < 2 ^ 53) :
    ∀ (fuel len k j : Nat), len + fuel ≤ self.max_length_ + 1 → k < fuel →
      j < self.charset_.length ^ (len + k) →
      BruteForce.searchFrom self fuel (BruteForce.powSum self.charset_.length len k + j) len =
        .testing (BruteForce.generateLoop self.charset_ (len + k) j) := by
  intro fuel
  induction fuel with
  | zero => intro len k j _ hk _; omega
  | succ fuel ih =>
    intro len k j hlen hk hj
    have hle : len ≤ self.max_length_ := by omega
    unfold BruteForce.searchFrom
    rw [if_pos hle]
    unfold BruteForce.forBody
    rw [powCast_exact _ _ (hpow len hle)]
    cases k with
    | zero =>
      simp only [BruteForce.powSum, Nat.zero_add, Nat.add_zero] at hj ⊢
      rw [if_neg (by omega)]
      rfl
    | succ k =>
      simp only [BruteForce.powSum]
      rw [if_pos (by omega)]
      have e : self.charset_.length ^ len + BruteForce.powSum self.charset_.length (len + 1) k
          + j - self.charset_.length ^ len
          = BruteForce.powSum self.charset_.length (len + 1) k + j := by omega
      simp only [e]
      have := ih (len + 1) k j (by omega) (by omega) (by
        have : len + 1 + k = len + (k + 1) := by omega
        rw [this]; exact hj)
      rw [this]
      have : len + 1 + k = len + (k + 1) := by omega
      rw [this]

theorem searchFrom_exhausted (self : BruteForce)
    (hpow : ∀ len, len ≤ self.max_length_ → self.charset_.length ^ len < 2 ^ 53) :
    ∀ (fuel len idx : Nat), len + fuel ≤ self.max_length_ + 1 →
      BruteForce.powSum self.charset_.length len fuel ≤ idx →
      BruteForce.searchFrom self fuel idx len = .atLoopHead := by
  intro fuel
  induction fuel with
  | zero => intro len idx _ _; rfl
  | succ fuel ih =>
    intro len idx hlen hidx
    have hle : len ≤ self.max_length_ := by omega
    simp only [BruteForce.powSum] at hidx
    unfold BruteForce.searchFrom
    rw [if_pos hle]
    unfold BruteForce.forBody
    rw [powCast_exact _ _ (hpow len hle)]
    simp only
    rw [if_pos (by omega)]
    exact ih (len + 1) _ (by omega) (by omega)

/-- A worker that has drawn an index and runs on its own while `running_`
holds and `found_` does not reaches the state that `searchFrom` gives, with
the shared object untouched. -/
theorem worker_reaches_searchFrom (test : BruteForce → Bytes → Bool) (self : BruteForce)
    (hrun : self.running_ = true) (hfound : self.found_ = false) :
    ∀ (fuel index length : Nat), length + fuel = self.max_length_ + 1 →
      ∃ m, (fun p : BruteForce.Worker × BruteForce => BruteForce.workerStepWith test p.2 p.1)^[m]
          (.forLoop index length, self) = (BruteForce.searchFrom self fuel index length, self) := by
  intro fuel
  induction fuel with
  | zero =>
    intro index length hlen
    refine ⟨1, ?_⟩
    have : ¬ (length ≤ self.max_length_) := by omega
    simp [BruteForce.workerStepWith, BruteForce.searchFrom, this]
  | succ fuel ih =>
    intro index length hlen
    have hle : length ≤ self.max_length_ := by omega
    have hstep : BruteForce.workerStepWith test self (.forLoop index length) =
        (BruteForce.forBody self index length, self) := by
      simp [BruteForce.workerStepWith, hle, hrun, hfound]
    unfold BruteForce.searchFrom
    rw [if_pos hle]
    cases hb : BruteForce.forBody self index length with
    | forLoop i2 l2 =>
      have hl2 : l2 = length + 1 := by
        unfold BruteForce.forBody at hb
        split at hb
        · cases hb
        · split at hb
          · injection hb with _ h2; exact h2.symm
          · cases hb
      subst hl2
      obtain ⟨m, hm⟩ := ih i2 (length + 1) (by omega)
      refine ⟨m + 1, ?_⟩
      rw [Function.iterate_succ_apply]
      simp only [hstep, hb]
      exact hm
    | atLoopHead => exact ⟨1, by simp [hstep, hb]⟩
    | testing p => exact ⟨1, by simp [hstep, hb]⟩
    | finished => exact ⟨1, by simp [hstep, hb]⟩
    | undefined => exact ⟨1, by simp [hstep, hb]⟩

theorem candidateOf_of_decomposition (self : BruteForce)
    (hpow : self.charset_.length ^ self.max_length_ < 2 ^ 53) (k j : Nat)
    (hk : k < self.max_length_ + 1 - self.min_length_)
    (hj : j < self.charset_.length ^ (self.min_length_ + k)) :
    BruteForce.candidateOf self
        (BruteForce.powSum self.charset_.length self.min_length_ k + j) =
      .testing (BruteForce.generateLoop self.charset_ (self.min_length_ + k) j) := by
  unfold BruteForce.candidateOf
  exact searchFrom_testing self (fun len hl => pow_small _ _ _ hpow hl) _ _ k j (by omega) hk hj

theorem powSum_index_unique (n len : Nat) (k1 j1 k2 j2 : Nat) (h1 : j1 < n ^ (len + k1))
    (h2 : j2 < n ^ (len + k2))
    (e : BruteForce.powSum n len k1 + j1 = BruteForce.powSum n len k2 + j2) :
    k1 = k2 ∧ j1 = j2 := by
  have key : ∀ a b c d : Nat, c < n ^ (len + a) → a < b →
      BruteForce.powSum n len a + c ≠ BruteForce.powSum n len b + d := by
    intro a b c d hc hab he
    have := powSum_mono n len (a + 1) b (by omega)
    rw [powSum_succ_right] at this
    omega
  rcases Nat.lt_trichotomy k1 k2 with h | h | h
  · exact absurd e (key k1 k2 j1 j2 h1 h)
  · subst h
    exact ⟨rfl, by omega⟩
  · exact absurd e.symm (key k2 k1 j2 j1 h2 h)

/-- Once `found_` is set, a worker that is not past an undefined conversion
returns within two steps, and the record is left as it is. -/
theorem brute_worker_two_steps (test : BruteForce → Bytes → Bool) (s : BruteForce)
    (w : BruteForce.Worker) (hf : s.found_ = true) (hw : w ≠ .undefined) :
    (BruteForce.workerStepWith test
        (BruteForce.workerStepWith test s w).2 (BruteForce.workerStepWith test s w).1).1
      = .finished ∧
    (BruteForce.workerStepWith test
        (BruteForce.workerStepWith test s w).2 (BruteForce.workerStepWith test s w).1).2.found_
      = true ∧
    (BruteForce.workerStepWith test
        (BruteForce.workerStepWith test s w).2
        (BruteForce.workerStepWith test s w).1).2.result_password_
      = s.result_password_ := by
  cases w with
  | undefined => exact absurd rfl hw
  | finished => simp [BruteForce.workerStepWith, hf]
  | atLoopHead => simp [BruteForce.workerStepWith, hf]
  | forLoop index length => simp [BruteForce.workerStepWith, hf]
  | testing p =>
    by_cases ht : test s p = true
    · simp [BruteForce.workerStepWith, hf, ht]
    · simp [BruteForce.workerStepWith, hf, ht]

theorem brute_step_twice (test : BruteForce → Bytes → Bool) (r : BruteForce.Run) (i : Nat)
    (w : BruteForce.Worker) (hg : r.workers.get? i = some w) (hf : r.self.found_ = true)
    (hw : w ≠ .undefined) :
    (BruteForce.stepWith test (BruteForce.stepWith test r i) i).workers
        = r.workers.set i .finished ∧
      (BruteForce.stepWith test (BruteForce.stepWith test r i) i).self.found_ = true ∧
      (BruteForce.stepWith test (BruteForce.stepWith test r i) i).self.result_password_
        = r.self.result_password_ := by
  have hi : i < r.workers.length := by
    rw [List.get?_eq_some] at hg
    exact hg.1
  obtain ⟨k1, k2, k3⟩ := brute_worker_two_steps test r.self w hf hw
  generalize hws : BruteForce.workerStepWith test r.self w = ws at k1 k2 k3
  obtain ⟨w1, s1⟩ := ws
  simp only at k1 k2 k3
  have h1 : BruteForce.stepWith test r i = { self := s1, workers := r.workers.set i w1 } := by
    simp only [BruteForce.stepWith, hg, hws]
  have hg1 : (BruteForce.stepWith test r i).workers.get? i = some w1 := by
    rw [h1]
    simp [List.getElem?_set, hi]
  generalize hws2 : BruteForce.workerStepWith test s1 w1 = ws2 at k1 k2 k3
  obtain ⟨w2, s2⟩ := ws2
  simp only at k1 k2 k3
  have h2 : BruteForce.stepWith test (BruteForce.stepWith test r i) i =
      { self := s2, workers := (r.workers.set i w1).set i w2 } := by
    rw [h1] at hg1 ⊢
    simp only [BruteForce.stepWith, hg1, hws2]
  rw [h2]
  subst k1
  refine ⟨?_, k2, k3⟩
  simp

theorem brute_drain (test : BruteForce → Bytes → Bool) :
    ∀ (k : Nat) (r : BruteForce.Run), k ≤ r.workers.length → r.self.found_ = true →
      (∀ w ∈ r.workers, w ≠ BruteForce.Worker.undefined) →
      ((BruteForce.drain k).foldl (BruteForce.stepWith test) r).workers
          = List.replicate k BruteForce.Worker.finished ++ r.workers.drop k ∧
        ((BruteForce.drain k).foldl (BruteForce.stepWith test) r).self.found_ = true ∧
        ((BruteForce.drain k).foldl (BruteForce.stepWith test) r).self.result_password_
          = r.self.result_password_ := by
  intro k
  induction k with
  | zero =>
    intro r _ hf _
    simp [BruteForce.drain, hf]
  | succ k ih =>
    intro r hk hf hw
    obtain ⟨i1, i2, i3⟩ := ih r (by omega) hf hw
    have hd : BruteForce.drain (k + 1) = BruteForce.drain k ++ [k, k] := by
      simp [BruteForce.drain, List.range_succ]
    rw [hd, List.foldl_append]
    generalize (BruteForce.drain k).foldl (BruteForce.stepWith test) r = rk at i1 i2 i3
    have hlt : k < r.workers.length := by omega
    have hgk : rk.workers.get? k = some (r.workers.get ⟨k, hlt⟩) := by
      rw [i1, List.get?_eq_getElem?, List.getElem?_append_right (by simp)]
      simp [List.getElem?_drop, List.getElem?_eq_getElem hlt]
    have hne : r.workers.get ⟨k, hlt⟩ ≠ BruteForce.Worker.undefined :=
      hw _ (List.get_mem _ _ _)
    obtain ⟨j1, j2, j3⟩ := brute_step_twice test rk k _ hgk i2 hne
    simp only [List.foldl_cons, List.foldl_nil]
    refine ⟨?_, j2, by rw [j3, i3]⟩
    rw [j1, i1]
    apply List.ext_getElem?
    intro n
    rw [List.getElem?_set]
    simp only [List.length_append, List.length_replicate, List.length_drop]
    by_cases hn : k = n
    · subst hn
      rw [if_pos rfl, if_pos (by omega), List.getElem?_append_left (by simp)]
      simp
    · rw [if_neg hn]
      by_cases hlt2 : n < k
      · rw [List.getElem?_append_left (by simp; exact hlt2),
          List.getElem?_append_left (by simp; omega)]
        simp [List.getElem?_replicate, hlt2]
        omega
      · rw [List.getElem?_append_right (by simp; omega),
          List.getElem?_append_right (by simp; omega)]
        simp only [List.length_replicate, List.getElem?_drop]
        congr 1
        omega

theorem brute_workers_length (test : BruteForce → Bytes → Bool) (sched : List Nat) :
    ∀ r : BruteForce.Run,
      (sched.foldl (BruteForce.stepWith test) r).workers.length = r.workers.length := by
  induction sched with
  | nil => intro r; rfl
  | cons i is ih =>
    intro r
    rw [List.foldl_cons, ih]
    unfold BruteForce.stepWith
    split
    · rfl
    · simp

/-- After a success `BruteForce::crack` returns: if a report has been made
and no worker is past an undefined conversion, then once every worker has
moved twice more the `join`s return and `crack` returns the first report. -/
theorem brute_crack_returns_first_report (test : BruteForce → Bytes → Bool)
    (self : BruteForce) (sched : List Nat) (fp p : Bytes) (total : Nat)
    (htotal : BruteForce.calculateTotalCombinations self = some total)
    (hrep : (BruteForce.reports test (BruteForce.startRun self) sched).head? = some p)
    (hdef : ∀ w ∈ (sched.foldl (BruteForce.stepWith test) (BruteForce.startRun self)).workers,
      w ≠ BruteForce.Worker.undefined) :
    BruteForce.crackWith test self (sched ++ BruteForce.drain self.num_threads_) fp =
      .returned true p := by
  obtain ⟨h1, h2⟩ := brute_recordInv_final test self sched
  rw [hrep] at h1
  have hlen := brute_workers_length test sched (BruteForce.startRun self)
  have hn : (BruteForce.startRun self).workers.length = self.num_threads_ := by
    simp [BruteForce.startRun]
  obtain ⟨d1, d2, d3⟩ := brute_drain test self.num_threads_ _ (by omega) h1 hdef
  unfold BruteForce.crackWith
  rw [htotal]
  simp only [List.foldl_append]
  rw [List.drop_of_length_le (by omega), List.append_nil] at d1
  have hany : ((BruteForce.drain self.num_threads_).foldl (BruteForce.stepWith test)
      (sched.foldl (BruteForce.stepWith test) (BruteForce.startRun self))).workers.any
        (fun w => w == BruteForce.Worker.undefined) = false := by
    rw [d1]
    simp
  have hall : ((BruteForce.drain self.num_threads_).foldl (BruteForce.stepWith test)
      (sched.foldl (BruteForce.stepWith test) (BruteForce.startRun self))).workers.all
        (fun w => w == BruteForce.Worker.finished) = true := by
    rw [d1]
    simp
  simp only [hany, hall, d2, d3, h2 p hrep, Bool.false_eq_true, if_false, if_true]

set_option maxRecDepth 100000 in
/-- C18: in `DictionaryAttack` and in `BruteForce` alike, the step that records
a success writes the candidate only when the found flag is still false and
sets the flag in the same step; over every interleaving, and whatever the
password test, the found flag is set exactly when a success has been reported,
the recorded password is the candidate of the first report whatever is
reported later, and it is what `crack` returns: `DictionaryAttack::crack`
after its preload, `BruteForce::crack` whenever its `join`s return, which
they do once every worker has moved twice more after a report.  In the two
sample races the second report does not replace the first. -/
theorem guarded_record_first_report_wins :
    (∀ (test : DictionaryAttack → Bytes → Bool) (self : DictionaryAttack) (password : Bytes),
      test self password = true →
      DictionaryAttack.workerStepWith test self (.testing password) =
        (.finished,
          if self.found_ then self
          else { self with found_ := true, result_password_ := password })) ∧
    (∀ (test : DictionaryAttack → Bytes → Bool) (C : Crypto) (self : DictionaryAttack)
        (env : Env) (junk : Nat → Int) (sched : List DictionaryAttack.Event) (fp : Bytes),
      (sched.foldl (DictionaryAttack.stepWith test env)
          (DictionaryAttack.startRun self)).self.found_ =
        (DictionaryAttack.reports test env (DictionaryAttack.startRun self) sched).head?.isSome ∧
      (∀ p, (DictionaryAttack.reports test env (DictionaryAttack.startRun self) sched).head?
          = some p →
        (sched.foldl (DictionaryAttack.stepWith test env)
          (DictionaryAttack.startRun self)).self.result_password_ = p) ∧
      DictionaryAttack.crackWith test C self env junk sched fp =
        (WPACrack.crack C (WPACrack.new self.config_) env junk [] >>= fun _ =>
          pure (match (DictionaryAttack.reports test env
              (DictionaryAttack.startRun self) sched).head? with
            | some p => (true, p)
            | none => (false, fp)))) ∧
    (∀ (test : BruteForce → Bytes → Bool) (self : BruteForce) (password : Bytes),
      test self password = true →
      BruteForce.workerStepWith test self (.testing password) =
        (.finished,
          if self.found_ then self
          else { self with found_ := true, result_password_ := password })) ∧
    (∀ (test : BruteForce → Bytes → Bool) (self : BruteForce) (sched : List Nat) (fp : Bytes),
      (sched.foldl (BruteForce.stepWith test) (BruteForce.startRun self)).self.found_ =
        (BruteForce.reports test (BruteForce.startRun self) sched).head?.isSome ∧
      (∀ p, (BruteForce.reports test (BruteForce.startRun self) sched).head? = some p →
        (sched.foldl (BruteForce.stepWith test)
          (BruteForce.startRun self)).self.result_password_ = p) ∧
      (∀ b pw, BruteForce.crackWith test self sched fp = .returned b pw →
        (b, pw) = (match (BruteForce.reports test (BruteForce.startRun self) sched).head? with
          | some p => (true, p)
          | none => (false, fp))) ∧
      (∀ p total, BruteForce.calculateTotalCombinations self = some total →
        (BruteForce.reports test (BruteForce.startRun self) sched).head? = some p →
        (∀ w ∈ (sched.foldl (BruteForce.stepWith test) (BruteForce.startRun self)).workers,
          w ≠ BruteForce.Worker.undefined) →
        BruteForce.crackWith test self (sched ++ BruteForce.drain self.num_threads_) fp
          = .returned true p)) ∧
    (DictionaryAttack.reports DictionaryAttack.testTwo DictionaryAttack.envRaw
        (DictionaryAttack.startRun DictionaryAttack.dictSample) DictionaryAttack.schedRace
        = [ascii "correcthorse", ascii "password123"] ∧
      DictionaryAttack.crackWith DictionaryAttack.testTwo sumCrypto DictionaryAttack.dictSample
        DictionaryAttack.envRaw (fun _ => 0) DictionaryAttack.schedRace []
        = .ok (true, ascii "correcthorse")) ∧
    (BruteForce.reports BruteForce.testTwo (BruteForce.startRun BruteForce.bruteAb3)
        BruteForce.schedRace = [ascii "baa", ascii "aaa"] ∧
      BruteForce.crackWith BruteForce.testTwo BruteForce.bruteAb3 BruteForce.schedRace []
        = .returned true (ascii "baa")) := by
  refine ⟨?_, ?_, ?_, ?_, ⟨by decide, by decide⟩, ⟨by decide, by decide⟩⟩
  · intro test self password ht
    simp only [DictionaryAttack.workerStepWith, ht, if_true]
    cases self.found_ <;> rfl
  · intro test C self env junk sched fp
    obtain ⟨h1, h2⟩ := dict_recordInv_final test self env sched
    refine ⟨h1, h2, ?_⟩
    unfold DictionaryAttack.crackWith
    cases WPACrack.crack C (WPACrack.new self.config_) env junk [] with
    | error e => rfl
    | ok v =>
      simp only [bind, Except.bind]
      cases hh : (DictionaryAttack.reports test env (DictionaryAttack.startRun self)
          sched).head? with
      | none =>
        rw [hh] at h1
        simp only [h1, Option.isSome_none, Bool.false_eq_true, if_false]
      | some p =>
        rw [hh] at h1
        simp only [h1, Option.isSome_some, if_true, h2 p hh]
  · intro test self password ht
    simp only [BruteForce.workerStepWith, ht, if_true]
    cases self.found_ <;> rfl
  · intro test self sched fp
    obtain ⟨h1, h2⟩ := brute_recordInv_final test self sched
    refine ⟨h1, h2, ?_, fun p total ht hr hd =>
      brute_crack_returns_first_report test self sched fp p total ht hr hd⟩
    intro b pw hret
    unfold BruteForce.crackWith at hret
    split at hret
    · cases hret
    · dsimp only at hret
      split at hret
      · cases hret
      · split at hret
        · cases hh : (BruteForce.reports test (BruteForce.startRun self) sched).head? with
          | none =>
            rw [hh] at h1
            rw [h1] at hret
            simp only [Option.isSome_none, Bool.false_eq_true, if_false] at hret
            injection hret with e1 e2
            rw [← e1, ← e2]
          | some p =>
            rw [hh] at h1
            rw [h1, h2 p hh] at hret
            simp only [Option.isSome_some, if_true] at hret
            injection hret with e1 e2
            rw [← e1, ← e2]
        · cases hret

theorem fmsPositions_length (key_len : Nat) (iv : Bytes) :
    ∀ (fuel pos : Nat) (kv : List (List (Nat × Int))),
      (WEPCrack.fmsPositions key_len iv fuel pos kv).length = kv.length := by
  intro fuel
  induction fuel with
  | zero => intro pos kv; rfl
  | succ fuel ih =>
    intro pos kv
    unfold WEPCrack.fmsPositions
    split
    · dsimp only
      rw [ih, List.length_set]
    · rfl

theorem fmsPositions_high (key_len : Nat) (iv : Bytes) (j : Nat) (hj : 3 ≤ j) :
    ∀ (fuel pos : Nat) (kv : List (List (Nat × Int))),
      (WEPCrack.fmsPositions key_len iv fuel pos kv).getD j [] = kv.getD j [] := by
  intro fuel
  induction fuel with
  | zero => intro pos kv; rfl
  | succ fuel ih =>
    intro pos kv
    unfold WEPCrack.fmsPositions
    split
    · rename_i h
      dsimp only
      rw [ih]
      have hne : pos ≠ j := by omega
      simp only [List.getD_eq_getElem?_getD, List.getElem?_set_ne hne]
    · rfl

theorem fmsVotes_fold (key_len : Nat) (ivs : List Bytes) :
    ∀ kv : List (List (Nat × Int)),
      (ivs.foldl (fun key_votes iv =>
          if iv.length < 3 then key_votes else WEPCrack.fmsPositions key_len iv 4 0 key_votes) kv).length
        = kv.length ∧
      ∀ j, 3 ≤ j →
        (ivs.foldl (fun key_votes iv =>
          if iv.length < 3 then key_votes else WEPCrack.fmsPositions key_len iv 4 0 key_votes) kv).getD j []
        = kv.getD j [] := by
  induction ivs with
  | nil => intro kv; exact ⟨rfl, fun _ _ => rfl⟩
  | cons iv ivs ih =>
    intro kv
    simp only [List.foldl_cons]
    split
    · exact ih kv
    · obtain ⟨h1, h2⟩ := ih (WEPCrack.fmsPositions key_len iv 4 0 kv)
      refine ⟨by rw [h1, fmsPositions_length], fun j hj => ?_⟩
      rw [h2 j hj, fmsPositions_high key_len iv j hj]

theorem fmsVotes_length (s : WEPCrack) (key_len : Nat) :
    (WEPCrack.fmsVotes s key_len).length = key_len := by
  unfold WEPCrack.fmsVotes
  rw [(fmsVotes_fold key_len s.weak_ivs_ _).1, List.length_replicate]

theorem fmsVotes_high (s : WEPCrack) (key_len j : Nat) (hj : 3 ≤ j) :
    (WEPCrack.fmsVotes s key_len).getD j [] = [] := by
  unfold WEPCrack.fmsVotes
  rw [(fmsVotes_fold key_len s.weak_ivs_ _).2 j hj]
  simp only [List.getD_eq_getElem?_getD, List.getElem?_replicate]
  split <;> rfl

theorem fmsSelect_none_of_empty :
    ∀ (kv : List (List (Nat × Int))) (j : Nat), j < kv.length → kv.getD j [] = [] →
      WEPCrack.fmsSelect kv = none := by
  intro kv
  induction kv with
  | nil => intro j hj; simp at hj
  | cons t rest ih =>
    intro j hj he
    cases j with
    | zero =>
      simp only [List.getD_cons_zero] at he
      subst he
      rfl
    | succ j =>
      simp only [List.getD_cons_succ] at he
      have hr := ih j (by simpa using hj) he
      cases t with
      | nil => rfl
      | cons e es => simp only [WEPCrack.fmsSelect, hr]

theorem fmsSelect_fmsVotes (s : WEPCrack) (key_len : Nat) (h : 3 < key_len) :
    WEPCrack.fmsSelect (WEPCrack.fmsVotes s key_len) = none :=
  fmsSelect_none_of_empty _ 3 (by rw [fmsVotes_length]; exact h) (fmsVotes_high s key_len 3 (le_refl 3))

theorem fmsLoop_none (W : WepPrimitives) (s : WEPCrack) : WEPCrack.fmsLoop W s [5, 13] = none := by
  simp only [WEPCrack.fmsLoop, fmsSelect_fmsVotes s 5 (by decide), fmsSelect_fmsVotes s 13 (by decide)]

/-- C30: for every set of WEP frames, whatever the stream cipher and the
candidate keys would give, `WEPCrack.fmsAttack` returns false and leaves `found_key`
as it was; for key lengths 5 and 13 the vote tables of positions 3 and above
stay empty, so the selection marks the key invalid and `testKey` is not
reached. -/
theorem fmsAttack_always_false (W : WepPrimitives) (s : WEPCrack) (found_key : Bytes) :
    (WEPCrack.fmsAttack W s found_key).1 = false ∧ (WEPCrack.fmsAttack W s found_key).2.1 = found_key ∧
    (∀ t : WEPCrack, ∀ pos : Nat,
      (WEPCrack.fmsVotes t 5).getD (pos + 3) [] = [] ∧ (WEPCrack.fmsVotes t 13).getD (pos + 3) [] = []) ∧
    (∀ t : WEPCrack, WEPCrack.fmsSelect (WEPCrack.fmsVotes t 5) = none ∧ WEPCrack.fmsSelect (WEPCrack.fmsVotes t 13) = none) ∧
    (∀ t : WEPCrack, WEPCrack.fmsLoop W t [5, 13] = none) := by
  refine ⟨?_, ?_, fun t pos => ⟨fmsVotes_high t 5 _ (by omega), fmsVotes_high t 13 _ (by omega)⟩,
    fun t => ⟨fmsSelect_fmsVotes t 5 (by decide), fmsSelect_fmsVotes t 13 (by decide)⟩,
    fun t => fmsLoop_none W t⟩
  · unfold WEPCrack.fmsAttack
    dsimp only
    split
    · rfl
    · rw [fmsLoop_none]
  · unfold WEPCrack.fmsAttack
    dsimp only
    split
    · rfl
    · rw [fmsLoop_none]

theorem maxVote_spec :
    ∀ (l : List (Nat × Int)) (best : Nat × Int),
      (∀ x ∈ l, best.1 < x.1) → l.Pairwise (fun a b => a.1 < b.1) →
      (WEPCrack.maxVote best l = best ∨ WEPCrack.maxVote best l ∈ l) ∧
      best.2 ≤ (WEPCrack.maxVote best l).2 ∧
      (∀ x ∈ l, x.2 ≤ (WEPCrack.maxVote best l).2) ∧
      ((WEPCrack.maxVote best l).2 = best.2 → WEPCrack.maxVote best l = best) ∧
      (∀ x ∈ l, x.2 = (WEPCrack.maxVote best l).2 → (WEPCrack.maxVote best l).1 ≤ x.1) := by
  intro l
  induction l with
  | nil =>
    intro best _ _
    simp [WEPCrack.maxVote]
  | cons e rest ih =>
    intro best hb hs
    rw [List.pairwise_cons] at hs
    unfold WEPCrack.maxVote
    split
    · rename_i hlt
      obtain ⟨h1, h2, h3, h4, h5⟩ := ih e hs.1 hs.2
      refine ⟨?_, by omega, ?_, ?_, ?_⟩
      · right
        rcases h1 with h1 | h1
        · rw [h1]; exact List.mem_cons_self _ _
        · exact List.mem_cons_of_mem _ h1
      · intro x hx
        rcases List.mem_cons.mp hx with hx | hx
        · rw [hx]; exact h2
        · exact h3 x hx
      · intro h; omega
      · intro x hx hxe
        rcases List.mem_cons.mp hx with hx | hx
        · rw [hx] at hxe ⊢
          rw [h4 hxe.symm]
        · exact h5 x hx hxe
    · rename_i hlt
      obtain ⟨h1, h2, h3, h4, h5⟩ :=
        ih best (fun x hx => hb x (List.mem_cons_of_mem _ hx)) hs.2
      refine ⟨?_, h2, ?_, h4, ?_⟩
      · rcases h1 with h1 | h1
        · left; exact h1
        · right; exact List.mem_cons_of_mem _ h1
      · intro x hx
        rcases List.mem_cons.mp hx with hx | hx
        · rw [hx]; omega
        · exact h3 x hx
      · intro x hx hxe
        rcases List.mem_cons.mp hx with hx | hx
        · rw [hx] at hxe ⊢
          have hbe : (WEPCrack.maxVote best rest).2 = best.2 := by omega
          rw [h4 hbe]
          exact le_of_lt (hb e (List.mem_cons_self _ _))
        · exact h5 x hx hxe

theorem maxVote_table (e : Nat × Int) (es : List (Nat × Int))
    (hs : (e :: es).Pairwise (fun a b => a.1 < b.1)) :
    WEPCrack.maxVote e es ∈ e :: es ∧
    (∀ x ∈ e :: es, x.2 ≤ (WEPCrack.maxVote e es).2) ∧
    (∀ x ∈ e :: es, x.2 = (WEPCrack.maxVote e es).2 → (WEPCrack.maxVote e es).1 ≤ x.1) := by
  rw [List.pairwise_cons] at hs
  obtain ⟨h1, h2, h3, h4, h5⟩ := maxVote_spec es e hs.1 hs.2
  refine ⟨?_, ?_, ?_⟩
  · rcases h1 with h1 | h1
    · rw [h1]; exact List.mem_cons_self _ _
    · exact List.mem_cons_of_mem _ h1
  · intro x hx
    rcases List.mem_cons.mp hx with hx | hx
    · rw [hx]; exact h2
    · exact h3 x hx
  · intro x hx hxe
    rcases List.mem_cons.mp hx with hx | hx
    · rw [hx] at hxe ⊢
      rw [h4 hxe.symm]
    · exact h5 x hx hxe

theorem voteIncrement_keys (c : Nat) :
    ∀ (t : List (Nat × Int)) (x : Nat × Int), x ∈ WEPCrack.voteIncrement c t →
      x.1 = c ∨ ∃ y ∈ t, y.1 = x.1 := by
  intro t
  induction t with
  | nil =>
    intro x hx
    simp only [WEPCrack.voteIncrement, List.mem_singleton] at hx
    left; rw [hx]
  | cons e rest ih =>
    intro x hx
    obtain ⟨k, v⟩ := e
    unfold WEPCrack.voteIncrement at hx
    split at hx
    · rcases List.mem_cons.mp hx with hx | hx
      · left; rw [hx]
      · right; exact ⟨x, hx, rfl⟩
    · split at hx
      · rcases List.mem_cons.mp hx with hx | hx
        · right; exact ⟨(k, v), List.mem_cons_self _ _, by rw [hx]⟩
        · rcases ih x hx with h | ⟨y, hy, hyx⟩
          · left; exact h
          · right; exact ⟨y, List.mem_cons_of_mem _ hy, hyx⟩
      · rcases List.mem_cons.mp hx with hx | hx
        · right; exact ⟨(k, v), List.mem_cons_self _ _, by rw [hx]⟩
        · right; exact ⟨x, List.mem_cons_of_mem _ hx, rfl⟩

theorem voteIncrement_sorted (c : Nat) :
    ∀ t : List (Nat × Int), t.Pairwise (fun a b => a.1 < b.1) →
      (WEPCrack.voteIncrement c t).Pairwise (fun a b => a.1 < b.1) := by
  intro t
  induction t with
  | nil => intro _; simp [WEPCrack.voteIncrement]
  | cons e rest ih =>
    intro hs
    obtain ⟨k, v⟩ := e
    have hs2 := List.pairwise_cons.mp hs
    unfold WEPCrack.voteIncrement
    split
    · rename_i hck
      rw [List.pairwise_cons]
      refine ⟨?_, hs⟩
      intro x hx
      rcases List.mem_cons.mp hx with hx | hx
      · rw [hx]; exact hck
      · exact lt_trans hck (hs2.1 x hx)
    · split
      · rename_i hkc
        rw [List.pairwise_cons]
        refine ⟨?_, ih hs2.2⟩
        intro x hx
        rcases voteIncrement_keys c rest x hx with h | ⟨y, hy, hyx⟩
        · rw [h]; exact hkc
        · rw [← hyx]; exact hs2.1 y hy
      · rw [List.pairwise_cons]
        exact ⟨hs2.1, hs2.2⟩

theorem voteIncrement_positive (c : Nat) :
    ∀ t : List (Nat × Int), (∀ x ∈ t, 1 ≤ x.2) →
      ∀ x ∈ WEPCrack.voteIncrement c t, 1 ≤ x.2 := by
  intro t
  induction t with
  | nil =>
    intro _ x hx
    simp only [WEPCrack.voteIncrement, List.mem_singleton] at hx
    rw [hx]
  | cons e rest ih =>
    intro hp x hx
    obtain ⟨k, v⟩ := e
    have hv : 1 ≤ v := hp (k, v) (List.mem_cons_self _ _)
    unfold WEPCrack.voteIncrement at hx
    split at hx
    · rcases List.mem_cons.mp hx with hx | hx
      · rw [hx]
      · exact hp x hx
    · split at hx
      · rcases List.mem_cons.mp hx with hx | hx
        · rw [hx]; exact hv
        · exact ih (fun y hy => hp y (List.mem_cons_of_mem _ hy)) x hx
      · rcases List.mem_cons.mp hx with hx | hx
        · rw [hx]; show 1 ≤ v + 1; omega
        · exact hp x (List.mem_cons_of_mem _ hx)

theorem voteOf_absent :
    ∀ (t : List (Nat × Int)) (c : Nat), (∀ x ∈ t, c < x.1) → WEPCrack.voteOf t c = 0 := by
  intro t
  induction t with
  | nil => intro c _; rfl
  | cons e rest ih =>
    intro c h
    obtain ⟨k, v⟩ := e
    have hk : c < k := h (k, v) (List.mem_cons_self _ _)
    unfold WEPCrack.voteOf
    rw [if_neg (by omega)]
    exact ih c (fun x hx => h x (List.mem_cons_of_mem _ hx))

theorem voteOf_increment (c : Nat) :
    ∀ t : List (Nat × Int), t.Pairwise (fun a b => a.1 < b.1) →
      ∀ d, WEPCrack.voteOf (WEPCrack.voteIncrement c t) d =
        WEPCrack.voteOf t d + (if d = c then 1 else 0) := by
  intro t
  induction t with
  | nil =>
    intro _ d
    simp only [WEPCrack.voteIncrement, WEPCrack.voteOf]
    by_cases h : d = c
    · rw [if_pos h.symm, if_pos h]; rfl
    · rw [if_neg (fun h2 => h h2.symm), if_neg h]; rfl
  | cons e rest ih =>
    intro hs d
    obtain ⟨k, v⟩ := e
    have hs2 := List.pairwise_cons.mp hs
    unfold WEPCrack.voteIncrement
    split
    · rename_i hck
      by_cases h : d = c
      · subst h
        have h0 : WEPCrack.voteOf ((k, v) :: rest) d = 0 := by
          apply voteOf_absent
          intro x hx
          rcases List.mem_cons.mp hx with hx | hx
          · rw [hx]; exact hck
          · exact lt_trans hck (hs2.1 x hx)
        rw [h0]
        simp [WEPCrack.voteOf]
      · rw [if_neg h]
        conv => lhs; unfold WEPCrack.voteOf
        rw [if_neg (fun h2 => h h2.symm)]
        simp
    · split
      · rename_i hkc
        unfold WEPCrack.voteOf
        by_cases hkd : k = d
        · rw [if_pos hkd, if_pos hkd, if_neg (by omega)]; simp
        · rw [if_neg hkd, if_neg hkd]
          exact ih hs2.2 d
      · have hkc : k = c := by omega
        unfold WEPCrack.voteOf
        by_cases hkd : k = d
        · rw [if_pos hkd, if_pos hkd, if_pos (by omega)]
        · rw [if_neg hkd, if_neg hkd, if_neg (by omega)]; simp

theorem voteOf_mem :
    ∀ t : List (Nat × Int), t.Pairwise (fun a b => a.1 < b.1) →
      ∀ x ∈ t, WEPCrack.voteOf t x.1 = x.2 := by
  intro t
  induction t with
  | nil => intro _ x hx; simp at hx
  | cons e rest ih =>
    intro hs x hx
    obtain ⟨k, v⟩ := e
    have hs2 := List.pairwise_cons.mp hs
    unfold WEPCrack.voteOf
    rcases List.mem_cons.mp hx with hx | hx
    · rw [hx]; simp
    · have := hs2.1 x hx
      rw [if_neg (by simp only at this; omega)]
      exact ih hs2.2 x hx

theorem voteOf_nonzero :
    ∀ (t : List (Nat × Int)) (c : Nat), WEPCrack.voteOf t c ≠ 0 →
      (c, WEPCrack.voteOf t c) ∈ t := by
  intro t
  induction t with
  | nil => intro c h; exact absurd rfl h
  | cons e rest ih =>
    intro c h
    obtain ⟨k, v⟩ := e
    unfold WEPCrack.voteOf at h ⊢
    by_cases hk : k = c
    · rw [if_pos hk]; rw [hk]; exact List.mem_cons_self _ _
    · rw [if_neg hk] at h ⊢
      exact List.mem_cons_of_mem _ (ih c h)

theorem fmsTable_spec (pos : Nat) :
    ∀ (ivs : List Bytes) (t : List (Nat × Int)),
      t.Pairwise (fun a b => a.1 < b.1) → (∀ x ∈ t, 1 ≤ x.2) →
      (WEPCrack.fmsTable pos ivs t).Pairwise (fun a b => a.1 < b.1) ∧
      (∀ x ∈ WEPCrack.fmsTable pos ivs t, 1 ≤ x.2) ∧
      ∀ d, WEPCrack.voteOf (WEPCrack.fmsTable pos ivs t) d =
        WEPCrack.voteOf t d + (fmsVoteCount ivs pos d : Int) := by
  intro ivs
  induction ivs with
  | nil =>
    intro t hs hp
    exact ⟨hs, hp, fun d => by simp [WEPCrack.fmsTable, fmsVoteCount]⟩
  | cons iv ivs ih =>
    intro t hs hp
    have hstep : WEPCrack.fmsTable pos (iv :: ivs) t =
        WEPCrack.fmsTable pos ivs (if iv.length < 3 then t
          else WEPCrack.voteIncrement ((iv.getD pos 0 ^^^ (pos + 1)) % 256) t) := rfl
    rw [hstep]
    by_cases hl : iv.length < 3
    · rw [if_pos hl]
      obtain ⟨h1, h2, h3⟩ := ih t hs hp
      refine ⟨h1, h2, fun d => ?_⟩
      rw [h3 d]
      have : fmsVoteCount (iv :: ivs) pos d = fmsVoteCount ivs pos d := by
        unfold fmsVoteCount
        rw [List.filter_cons_of_neg]
        simp only [Bool.and_eq_true, decide_eq_true_eq, not_and]
        intro h; omega
      rw [this]
    · rw [if_neg hl]
      obtain ⟨h1, h2, h3⟩ := ih _ (voteIncrement_sorted _ t hs) (voteIncrement_positive _ t hp)
      refine ⟨h1, h2, fun d => ?_⟩
      rw [h3 d, voteOf_increment _ t hs d]
      by_cases hd : d = (iv.getD pos 0 ^^^ (pos + 1)) % 256
      · rw [if_pos hd]
        have : fmsVoteCount (iv :: ivs) pos d = fmsVoteCount ivs pos d + 1 := by
          unfold fmsVoteCount
          rw [List.filter_cons_of_pos, List.length_cons]
          simp only [Bool.and_eq_true, decide_eq_true_eq]
          exact ⟨by omega, hd.symm⟩
        rw [this]; push_cast; ring
      · rw [if_neg hd]
        have : fmsVoteCount (iv :: ivs) pos d = fmsVoteCount ivs pos d := by
          unfold fmsVoteCount
          rw [List.filter_cons_of_neg]
          simp only [Bool.and_eq_true, decide_eq_true_eq, not_and]
          intro _ h; exact hd h.symm
        rw [this]; ring

theorem fmsPositions_getD (key_len : Nat) (iv : Bytes) :
    ∀ (fuel pos : Nat) (kv : List (List (Nat × Int))) (j : Nat), j < kv.length →
      (WEPCrack.fmsPositions key_len iv fuel pos kv).getD j [] =
        if pos ≤ j ∧ j < pos + fuel ∧ j < key_len ∧ j < 3 then
          WEPCrack.voteIncrement ((iv.getD j 0 ^^^ (j + 1)) % 256) (kv.getD j [])
        else kv.getD j [] := by
  intro fuel
  induction fuel with
  | zero =>
    intro pos kv j _
    rw [if_neg (by omega)]
    rfl
  | succ fuel ih =>
    intro pos kv j hj
    unfold WEPCrack.fmsPositions
    split
    · rename_i hpos
      dsimp only
      rw [ih (pos + 1) _ j (by rw [List.length_set]; exact hj)]
      by_cases hjp : j = pos
      · subst hjp
        rw [if_neg (by omega), if_pos (by omega)]
        simp only [List.getD_eq_getElem?_getD, List.getElem?_set_self hj, Option.getD_some]
      · have hne : pos ≠ j := fun h => hjp h.symm
        simp only [List.getD_eq_getElem?_getD, List.getElem?_set_ne hne]
        by_cases hc : pos + 1 ≤ j ∧ j < pos + 1 + fuel ∧ j < key_len ∧ j < 3
        · rw [if_pos hc, if_pos (by omega)]
        · rw [if_neg hc, if_neg (by omega)]
    · rename_i hpos
      rw [if_neg (by omega)]

theorem fmsVotes_fold_table (key_len j : Nat) (hj : j < key_len) (hj3 : j < 3) :
    ∀ (ivs : List Bytes) (kv : List (List (Nat × Int))), kv.length = key_len →
      (ivs.foldl (fun key_votes iv =>
          if iv.length < 3 then key_votes
          else WEPCrack.fmsPositions key_len iv 4 0 key_votes) kv).getD j [] =
        WEPCrack.fmsTable j ivs (kv.getD j []) := by
  intro ivs
  induction ivs with
  | nil => intro kv _; rfl
  | cons iv ivs ih =>
    intro kv hkv
    simp only [List.foldl_cons]
    have hstep : WEPCrack.fmsTable j (iv :: ivs) (kv.getD j []) =
        WEPCrack.fmsTable j ivs (if iv.length < 3 then kv.getD j []
          else WEPCrack.voteIncrement ((iv.getD j 0 ^^^ (j + 1)) % 256) (kv.getD j [])) := rfl
    rw [hstep]
    by_cases hl : iv.length < 3
    · rw [if_pos hl, if_pos hl]
      exact ih kv hkv
    · rw [if_neg hl, if_neg hl]
      rw [ih _ (by rw [fmsPositions_length]; exact hkv)]
      rw [fmsPositions_getD key_len iv 4 0 kv j (by omega), if_pos (by omega)]

theorem fmsVotes_table (s : WEPCrack) (key_len j : Nat) (hj : j < key_len) (hj3 : j < 3) :
    (WEPCrack.fmsVotes s key_len).getD j [] = WEPCrack.fmsTable j s.weak_ivs_ [] := by
  unfold WEPCrack.fmsVotes
  rw [fmsVotes_fold_table key_len j hj hj3 s.weak_ivs_ _ (List.length_replicate _ _)]
  congr 1
  simp only [List.getD_eq_getElem?_getD, List.getElem?_replicate]
  rw [if_pos hj]; rfl

theorem fmsKeyBytes_getD :
    ∀ (votes : List (List (Nat × Int))) (pos : Nat), pos < votes.length →
      (∀ j, j ≤ pos → votes.getD j [] ≠ []) →
      ∃ e es, votes.getD pos [] = e :: es ∧
        (WEPCrack.fmsKeyBytes votes).getD pos 0 = (WEPCrack.maxVote e es).1 := by
  intro votes
  induction votes with
  | nil => intro pos h; simp at h
  | cons t rest ih =>
    intro pos hpos hne
    cases t with
    | nil => exact absurd rfl (hne 0 (Nat.zero_le _))
    | cons e es =>
      cases pos with
      | zero => exact ⟨e, es, rfl, rfl⟩
      | succ pos =>
        obtain ⟨e2, es2, h1, h2⟩ := ih pos (by simpa using hpos)
          (fun j hj => by
            have := hne (j + 1) (by omega)
            simpa using this)
        exact ⟨e2, es2, by simpa using h1, by simpa [WEPCrack.fmsKeyBytes] using h2⟩

theorem fmsSelect_eq_keyBytes :
    ∀ (votes : List (List (Nat × Int))) (key : Bytes),
      WEPCrack.fmsSelect votes = some key → WEPCrack.fmsKeyBytes votes = key := by
  intro votes
  induction votes with
  | nil => intro key h; simp only [WEPCrack.fmsSelect, Option.some.injEq] at h; rw [← h]; rfl
  | cons t rest ih =>
    intro key h
    cases t with
    | nil => simp [WEPCrack.fmsSelect] at h
    | cons e es =>
      unfold WEPCrack.fmsSelect at h
      cases hr : WEPCrack.fmsSelect rest with
      | none => rw [hr] at h; simp at h
      | some k =>
        rw [hr] at h
        simp only [Option.some.injEq] at h
        rw [← h]
        simp only [WEPCrack.fmsKeyBytes, ih k hr]

/-- The byte that the selection loop takes from the vote tables at a position
below 3, when one of the weak IVs has its three bytes: a candidate with the
largest number of votes at that position, and the smallest byte value among
the candidates with that number. -/
theorem fmsKeyBytes_max_smallest (s : WEPCrack) (key_len pos : Nat)
    (hpos : pos < key_len) (hpos3 : pos < 3)
    (hiv : ∃ iv ∈ s.weak_ivs_, 3 ≤ iv.length) :
    1 ≤ fmsVoteCount s.weak_ivs_ pos
        ((WEPCrack.fmsKeyBytes (WEPCrack.fmsVotes s key_len)).getD pos 0) ∧
    (∀ c, fmsVoteCount s.weak_ivs_ pos c ≤ fmsVoteCount s.weak_ivs_ pos
        ((WEPCrack.fmsKeyBytes (WEPCrack.fmsVotes s key_len)).getD pos 0)) ∧
    (∀ c, fmsVoteCount s.weak_ivs_ pos c = fmsVoteCount s.weak_ivs_ pos
        ((WEPCrack.fmsKeyBytes (WEPCrack.fmsVotes s key_len)).getD pos 0) →
      (WEPCrack.fmsKeyBytes (WEPCrack.fmsVotes s key_len)).getD pos 0 ≤ c) := by
  have htab : ∀ j, j ≤ pos →
      (WEPCrack.fmsVotes s key_len).getD j [] = WEPCrack.fmsTable j s.weak_ivs_ [] :=
    fun j hj => fmsVotes_table s key_len j (by omega) (by omega)
  have hspec : ∀ j, (WEPCrack.fmsTable j s.weak_ivs_ []).Pairwise (fun a b => a.1 < b.1) ∧
      (∀ x ∈ WEPCrack.fmsTable j s.weak_ivs_ [], 1 ≤ x.2) ∧
      ∀ d, WEPCrack.voteOf (WEPCrack.fmsTable j s.weak_ivs_ []) d =
        (fmsVoteCount s.weak_ivs_ j d : Int) := by
    intro j
    obtain ⟨h1, h2, h3⟩ := fmsTable_spec j s.weak_ivs_ [] List.Pairwise.nil
      (fun x hx => by simp at hx)
    refine ⟨h1, h2, fun d => ?_⟩
    rw [h3 d]
    simp [WEPCrack.voteOf]
  have hne : ∀ j, j ≤ pos → (WEPCrack.fmsVotes s key_len).getD j [] ≠ [] := by
    intro j hj he
    rw [htab j hj] at he
    obtain ⟨iv, hiv1, hiv2⟩ := hiv
    have h3 := (hspec j).2.2 ((iv.getD j 0 ^^^ (j + 1)) % 256)
    rw [he] at h3
    have hc : 1 ≤ fmsVoteCount s.weak_ivs_ j ((iv.getD j 0 ^^^ (j + 1)) % 256) := by
      unfold fmsVoteCount
      apply List.length_pos_of_mem (a := iv)
      rw [List.mem_filter]
      exact ⟨hiv1, by simp only [Bool.and_eq_true, decide_eq_true_eq]; exact ⟨hiv2, trivial⟩⟩
    simp only [WEPCrack.voteOf] at h3
    omega
  obtain ⟨e, es, het, hkey⟩ := fmsKeyBytes_getD (WEPCrack.fmsVotes s key_len) pos
    (by rw [fmsVotes_length]; exact hpos) hne
  rw [hkey]
  rw [htab pos (le_refl _)] at het
  obtain ⟨hsorted, hpositive, hcount⟩ := hspec pos
  rw [het] at hsorted hpositive hcount
  obtain ⟨hm1, hm2, hm3⟩ := maxVote_table e es hsorted
  have hmv := voteOf_mem (e :: es) hsorted _ hm1
  have hmc := hcount (WEPCrack.maxVote e es).1
  have hm1p := hpositive _ hm1
  refine ⟨by omega, ?_, ?_⟩
  · intro c
    have hcc := hcount c
    by_cases h0 : WEPCrack.voteOf (e :: es) c = 0
    · omega
    · have := hm2 _ (voteOf_nonzero (e :: es) c h0)
      simp only at this
      omega
  · intro c hceq
    have hcc := hcount c
    have h0 : WEPCrack.voteOf (e :: es) c ≠ 0 := by omega
    have := hm3 _ (voteOf_nonzero (e :: es) c h0) (by simp only; omega)
    exact this

theorem testKeyFrame_cipher (W : WepPrimitives) (key packet : Bytes) :
    WEPCrack.testKeyFrame W key packet =
      (decide (44 ≤ packet.length) &&
        startsLlcSnap (W.rc4 ((packet.drop 28).take 3 ++ key)
          ((packet.drop 32).take (packet.length - 36)))) := by
  rw [testKeyFrame_eq]
  unfold decryptsToLlcSnapHeader decryptedPayload
  by_cases h32 : packet.length < 32
  · rw [if_pos h32]
    simp only [Bool.false_eq, Bool.and_eq_false_imp, decide_eq_true_eq]
    intro h; omega
  · rw [if_neg h32]
    simp only
    unfold CryptoUtils.wepDecrypt
    have hlen : ((packet.drop 28).take (packet.length - 32)).length = packet.length - 32 := by
      rw [List.length_take, List.length_drop]; omega
    by_cases h36 : packet.length < 36
    · rw [if_pos (by rw [hlen]; omega)]
      simp only [List.length_nil, startsLlcSnap]
      have : ¬ 44 ≤ packet.length := by omega
      simp [this]
    · rw [if_neg (by rw [hlen]; omega)]
      simp only
      have ht : ((packet.drop 28).take (packet.length - 32)).take 3 = (packet.drop 28).take 3 := by
        rw [List.take_take]
        congr 1
        omega
      have hd : ((packet.drop 28).take (packet.length - 32)).drop 4 =
          (packet.drop 32).take (packet.length - 36) := by
        rw [List.drop_take, List.drop_drop]
        have e : packet.length - 32 - 4 = packet.length - 36 := by omega
        rw [e]
      rw [ht, hd, W.rc4_size]
      have hl2 : ((packet.drop 32).take (packet.length - 36)).length = packet.length - 36 := by
        rw [List.length_take, List.length_drop]; omega
      rw [hl2]
      congr 1
      apply decide_eq_decide.mpr
      omega

set_option maxRecDepth 1000000 in
/-- C24: for every frame and candidate key, the frame counts in `testKey`
exactly when it has at least 44 bytes and the RC4 output for the cipher key
made of frame bytes 28..30 followed by the candidate key, applied to frame
bytes 32 up to the ICV, starts AA AA 03: the cipher is keyed with the first
three ciphertext bytes, not with the IV at bytes 24..26, and the first four
ciphertext bytes are skipped.  On a frame encrypted under the IV 0a 0b 0c and
the sample key, decryption with the frame's IV gives the LLC/SNAP payload,
while `testKey` with that key rejects the frame, and a set of ten such frames. -/
theorem testKey_keys_cipher_with_ciphertext (W : WepPrimitives) (key packet : Bytes) :
    WEPCrack.testKeyFrame W key packet =
      (decide (44 ≤ packet.length) &&
        startsLlcSnap (W.rc4 ((packet.drop 28).take 3 ++ key)
          ((packet.drop 32).take (packet.length - 36)))) ∧
    frameIv wepFrameGenuine = [0x0a, 0x0b, 0x0c] ∧
    (WEPCrack.collectWeakIVs (wepWith [[0x08, 0x41] ++ List.replicate 22 0 ++ [0x03, 0xff, 0x07] ++
        List.replicate 5 0x99])).weak_ivs_ = [[0x03, 0xff, 0x07]] ∧
    specWepDecrypt refWep wepKeySample wepFrameGenuine =
      [0xaa, 0xaa, 0x03, 0x00, 0x00, 0x00, 0x08, 0x00, 0x45, 0x00, 0x00, 0x1c] ∧
    decryptedPayload refWep wepKeySample wepFrameGenuine =
      some [128, 7, 163, 113, 141, 224, 197, 247] ∧
    WEPCrack.testKeyFrame refWep wepKeySample wepFrameGenuine = false ∧
    WEPCrack.testKey refWep (wepWith (List.replicate 10 wepFrameGenuine)) wepKeySample = false :=
  ⟨testKeyFrame_cipher W key packet, by decide, by decide, by decide, by decide, by decide,
    by decide⟩

theorem brute_workerStep_stillSearching (test : BruteForce → Bytes → Bool) (s : BruteForce)
    (w : BruteForce.Worker) (hr : s.running_ = true) (hf : s.found_ = false)
    (hw : w ≠ BruteForce.Worker.finished)
    (ht : ∀ p, w = BruteForce.Worker.testing p → test s p = false) :
    (BruteForce.workerStepWith test s w).1 ≠ BruteForce.Worker.finished ∧
    (BruteForce.workerStepWith test s w).2.running_ = true ∧
    (BruteForce.workerStepWith test s w).2.found_ = false := by
  cases w with
  | finished => exact absurd rfl hw
  | undefined => simp [BruteForce.workerStepWith, hr, hf]
  | atLoopHead => simp [BruteForce.workerStepWith, hr, hf]
  | forLoop index length =>
    simp only [BruteForce.workerStepWith, hr, hf]
    split
    · refine ⟨?_, hr, hf⟩
      unfold BruteForce.forBody
      split
      · simp
      · split <;> simp
    · exact ⟨by simp, hr, hf⟩
  | testing p =>
    simp [BruteForce.workerStepWith, hr, hf, ht p rfl]

theorem brute_step_stillSearching (test : BruteForce → Bytes → Bool) (r : BruteForce.Run)
    (i : Nat) (h : BruteForce.StillSearching r) (hrep : BruteForce.reported test r i = none) :
    BruteForce.StillSearching (BruteForce.stepWith test r i) := by
  obtain ⟨hr, hf, hw⟩ := h
  cases hg : r.workers.get? i with
  | none =>
    simp only [BruteForce.stepWith, hg]
    exact ⟨hr, hf, hw⟩
  | some w =>
    have hmem : w ∈ r.workers := List.get?_mem hg
    have ht : ∀ p, w = BruteForce.Worker.testing p → test r.self p = false := by
      intro p hp
      subst hp
      simp only [BruteForce.reported, hg] at hrep
      cases hb : test r.self p with
      | false => rfl
      | true => rw [hb] at hrep; simp at hrep
    obtain ⟨k1, k2, k3⟩ := brute_workerStep_stillSearching test r.self w hr hf (hw w hmem) ht
    generalize hws : BruteForce.workerStepWith test r.self w = ws at k1 k2 k3
    obtain ⟨w1, s1⟩ := ws
    simp only at k1 k2 k3
    have h1 : BruteForce.stepWith test r i = { self := s1, workers := r.workers.set i w1 } := by
      simp only [BruteForce.stepWith, hg, hws]
    rw [h1]
    refine ⟨k2, k3, ?_⟩
    intro x hx
    rcases List.mem_or_eq_of_mem_set hx with hx | hx
    · exact hw x hx
    · rw [hx]; exact k1

theorem brute_run_stillSearching (test : BruteForce → Bytes → Bool) (sched : List Nat) :
    ∀ r : BruteForce.Run, BruteForce.StillSearching r → BruteForce.reports test r sched = [] →
      BruteForce.StillSearching (sched.foldl (BruteForce.stepWith test) r) := by
  induction sched with
  | nil => intro r h _; exact h
  | cons i is ih =>
    intro r h hrep
    simp only [BruteForce.reports, List.append_eq_nil] at hrep
    have hnone : BruteForce.reported test r i = none := by
      cases hx : BruteForce.reported test r i with
      | none => rfl
      | some p => rw [hx] at hrep; simp at hrep
    exact ih _ (brute_step_stillSearching test r i h hnone) hrep.2

theorem brute_reports_placeholder (sched : List Nat) :
    ∀ r : BruteForce.Run, BruteForce.reports BruteForce.testPasswordWorker r sched = [] := by
  induction sched with
  | nil => intro r; rfl
  | cons i is ih =>
    intro r
    simp only [BruteForce.reports, ih, List.append_nil]
    unfold BruteForce.reported
    split
    · simp [BruteForce.testPasswordWorker]
    · rfl

/-- C28: with at least one worker thread, along every interleaving on which no
candidate is reported as a success (with the password test of the source,
every interleaving), no worker of `BruteForce::crack` ever returns, however
far the shared index has passed the size of the keyspace: `running_` stays
true, `found_` stays false, and `crack` is either still blocked in its `join`
or past an undefined conversion; it never returns not-found. -/
theorem brute_force_never_returns_not_found (test : BruteForce → Bytes → Bool)
    (self : BruteForce) (sched : List Nat) (found_password : Bytes)
    (hthreads : 0 < self.num_threads_)
    (hrep : BruteForce.reports test (BruteForce.startRun self) sched = []) :
    BruteForce.StillSearching (sched.foldl (BruteForce.stepWith test) (BruteForce.startRun self)) ∧
    (BruteForce.crackWith test self sched found_password = .blocked ∨
      BruteForce.crackWith test self sched found_password = .undefined) ∧
    BruteForce.reports BruteForce.testPasswordWorker (BruteForce.startRun self) sched = [] ∧
    (BruteForce.crack self sched found_password = .blocked ∨
      BruteForce.crack self sched found_password = .undefined) := by
  have hstart : BruteForce.StillSearching (BruteForce.startRun self) := by
    refine ⟨rfl, rfl, ?_⟩
    intro w hw
    simp only [BruteForce.startRun] at hw
    rw [List.eq_of_mem_replicate hw]
    simp
  have key : ∀ t : BruteForce → Bytes → Bool,
      BruteForce.reports t (BruteForce.startRun self) sched = [] →
      BruteForce.StillSearching (sched.foldl (BruteForce.stepWith t) (BruteForce.startRun self)) ∧
      (BruteForce.crackWith t self sched found_password = .blocked ∨
        BruteForce.crackWith t self sched found_password = .undefined) := by
    intro t ht
    have hfin := brute_run_stillSearching t sched _ hstart ht
    refine ⟨hfin, ?_⟩
    have hlen := brute_workers_length t sched (BruteForce.startRun self)
    have hn : (BruteForce.startRun self).workers.length = self.num_threads_ := by
      simp [BruteForce.startRun]
    unfold BruteForce.crackWith
    cases BruteForce.calculateTotalCombinations self with
    | none => right; rfl
    | some total =>
      simp only
      generalize sched.foldl (BruteForce.stepWith t) (BruteForce.startRun self) = final
        at hfin hlen
      split
      · right; rfl
      · left
        have hall : final.workers.all (fun w => w == BruteForce.Worker.finished) = false := by
          cases hws : final.workers with
          | nil => rw [hws] at hlen; simp at hlen; omega
          | cons w ws =>
            have hw := hfin.2.2 w (by rw [hws]; exact List.mem_cons_self _ _)
            simp only [List.all_cons, Bool.and_eq_false_imp, beq_iff_eq]
            intro h; exact absurd h hw
        rw [hall]
        simp
  obtain ⟨a, b⟩ := key test hrep
  obtain ⟨_, d⟩ := key BruteForce.testPasswordWorker (brute_reports_placeholder sched _)
  exact ⟨a, b, brute_reports_placeholder sched _, d⟩

set_option maxRecDepth 100000 in
theorem brute_force_never_returns_not_found_witness :
    (0 < BruteForce.bruteAb3Single.num_threads_ ∧
      BruteForce.reports BruteForce.testPasswordWorker
        (BruteForce.startRun BruteForce.bruteAb3Single) (List.replicate 28 0) = []) ∧
    BruteForce.keyspace BruteForce.bruteAb3Single = 8 ∧
    ((List.replicate 24 0).foldl (BruteForce.stepWith BruteForce.testPasswordWorker)
        (BruteForce.startRun BruteForce.bruteAb3Single)).self.attempts_ = 8 ∧
    ((List.replicate 25 0).foldl (BruteForce.stepWith BruteForce.testPasswordWorker)
        (BruteForce.startRun BruteForce.bruteAb3Single)).workers = [.forLoop 8 3] ∧
    ((List.replicate 27 0).foldl (BruteForce.stepWith BruteForce.testPasswordWorker)
        (BruteForce.startRun BruteForce.bruteAb3Single)).workers = [.atLoopHead] ∧
    ((List.replicate 28 0).foldl (BruteForce.stepWith BruteForce.testPasswordWorker)
        (BruteForce.startRun BruteForce.bruteAb3Single)).workers = [.forLoop 9 3] ∧
    BruteForce.crack BruteForce.bruteAb3Single (List.replicate 28 0) [] = .blocked ∧
    BruteForce.StillSearching ((List.replicate 28 0).foldl
      (BruteForce.stepWith BruteForce.testPasswordWorker)
      (BruteForce.startRun BruteForce.bruteAb3Single)) :=
  ⟨⟨by decide, by decide⟩, by decide, by decide, by decide, by decide, by decide, by decide,
    (brute_force_never_returns_not_found BruteForce.testPasswordWorker
      BruteForce.bruteAb3Single (List.replicate 28 0) [] (by decide) (by decide)).1⟩

theorem parseEAPOLFrame_nonces (p : Bytes) (len : Int) (hs : HandshakePacket)
    (r : Bool × HandshakePacket) (h : PacketParser.parseEAPOLFrame p len hs = .ok r)
    (ha : hs.anonce = []) (hsn : hs.snonce = []) :
    r.2.anonce = [] ∨ r.2.snonce = [] := by
  unfold PacketParser.parseEAPOLFrame at h
  split at h
  · injection h with h; subst h; left; exact ha
  · obtain ⟨e6, -, h⟩ := bind_ok h
    split at h
    · injection h with h; subst h; left; exact ha
    · obtain ⟨e7, -, h⟩ := bind_ok h
      split at h
      · injection h with h; subst h; left; exact ha
      · obtain ⟨ty, -, h⟩ := bind_ok h
        split at h
        · injection h with h; subst h; left; exact ha
        · obtain ⟨ap, -, h⟩ := bind_ok h
          obtain ⟨cl, -, h⟩ := bind_ok h
          obtain ⟨k1, -, h⟩ := bind_ok h
          obtain ⟨k0, -, h⟩ := bind_ok h
          dsimp only at h
          obtain ⟨an, han, h⟩ := bind_ok h
          obtain ⟨sn, hsn2, h⟩ := bind_ok h
          obtain ⟨mi, -, h⟩ := bind_ok h
          obtain ⟨l2, -, h⟩ := bind_ok h
          obtain ⟨l3, -, h⟩ := bind_ok h
          obtain ⟨ed, -, h⟩ := bind_ok h
          injection h with h; subst h
          simp only
          split at han
          · rename_i h13
            split at hsn2
            · rename_i h24
              omega
            · injection hsn2 with hsn2
              right; rw [← hsn2]; exact hsn
          · injection han with han
            left; rw [← han]; exact ha

theorem extractHandshakes_removes_all (s : WPACrack)
    (hinv : ∀ h ∈ s.handshakes_, h.essid = []) :
    (WPACrack.extractHandshakes s).1 = false ∧
      (WPACrack.extractHandshakes s).2.handshakes_ = [] := by
  refine ⟨extractHandshakes_no_essid s hinv, ?_⟩
  unfold WPACrack.extractHandshakes
  split
  · rename_i he
    simpa using he
  · dsimp only
    rw [List.filter_eq_nil_iff]
    intro a ha
    have hmem : a ∈ s.handshakes_ := by
      split at ha
      · exact List.mem_of_mem_filter ha
      · exact ha
    simp [validateHandshake_no_essid a (hinv a hmem)]

/-- C29: every record that `parseEAPOLFrame` makes of a frame, starting from a
default-initialised `HandshakePacket`, has an empty network name and at most
one of ANonce and SNonce, and `validateHandshake` returns false on it; so
after every `loadCaptureFile` that returns, `extractHandshakes` returns false
and leaves no handshake. -/
theorem parsed_handshake_never_validates (packet : Bytes) (length junk : Int)
    (r : HandshakePacket)
    (h : PacketParser.parseEAPOLFrame packet length (HandshakePacket.fresh junk) = .ok (true, r)) :
    r.essid = [] ∧ (r.anonce = [] ∨ r.snonce = []) ∧ WPACrack.validateHandshake r = false ∧
    (∀ (cfg : Config) (env : Env) (junks : Nat → Int) (b : Bool) (s : WPACrack),
      WPACrack.loadCaptureFile (WPACrack.new cfg) env junks = .ok (b, s) →
        (WPACrack.extractHandshakes s).1 = false ∧
        (WPACrack.extractHandshakes s).2.handshakes_ = []) := by
  have he : r.essid = [] := parseEAPOLFrame_essid _ _ _ _ h
  refine ⟨he, parseEAPOLFrame_nonces _ _ _ _ h rfl rfl, validateHandshake_no_essid r he, ?_⟩
  intro cfg env junks b s hl
  apply extractHandshakes_removes_all
  rcases loadCaptureFile_cases cfg env junks with hc | ⟨b2, s2, hc, hinv⟩
  · rw [hc] at hl; cases hl
  · rw [hc] at hl
    injection hl with hl
    injection hl with _ hl
    rw [← hl]; exact hinv

set_option maxRecDepth 100000 in
theorem parsed_handshake_never_validates_witness :
    PacketParser.parseEAPOLFrame frame81 81 (HandshakePacket.fresh 7) =
      .ok (true, handshake81) ∧
    (handshake81.essid = [] ∧ (handshake81.anonce = [] ∨ handshake81.snonce = []) ∧
      WPACrack.validateHandshake handshake81 = false ∧
      (∀ (cfg : Config) (env : Env) (junks : Nat → Int) (b : Bool) (s : WPACrack),
        WPACrack.loadCaptureFile (WPACrack.new cfg) env junks = .ok (b, s) →
          (WPACrack.extractHandshakes s).1 = false ∧
          (WPACrack.extractHandshakes s).2.handshakes_ = [])) :=
  ⟨by decide, parsed_handshake_never_validates frame81 81 7 handshake81 (by decide)⟩

theorem rd_inv {p : Bytes} {i b : Nat} (h : rd p i = .ok b) : i < p.length ∧ b = p.getD i 0 := by
  unfold rd at h
  cases hg : p.get? i with
  | none => rw [hg] at h; cases h
  | some x =>
    rw [hg] at h
    injection h with h
    rw [List.get?_eq_some] at hg
    obtain ⟨hl, hx⟩ := hg
    refine ⟨hl, ?_⟩
    rw [← h, List.getD_eq_getElem _ _ hl]
    exact hx.symm

theorem rdN_inv {p : Bytes} {off n : Nat} {bs : Bytes} (h : rdN p off n = .ok bs) :
    off + n ≤ p.length ∧ bs = (p.drop off).take n := by
  unfold rdN at h
  split at h
  · rename_i hl
    injection h with h
    exact ⟨hl, h.symm⟩
  · cases h

/-- What `parseEAPOLFrame` stores when it returns true. -/
theorem parseEAPOLFrame_accepted (p : Bytes) (len : Int) (hs : HandshakePacket)
    (r : HandshakePacket) (h : PacketParser.parseEAPOLFrame p len hs = .ok (true, r)) :
    r.message_number = PacketParser.classifyMessage (PacketParser.ackFlag p)
        (PacketParser.installFlag p) (PacketParser.micFlag p) hs.message_number ∧
    (PacketParser.micFlag p = true → 129 ≤ p.length ∧ r.mic = (p.drop 113).take 16) ∧
    (PacketParser.micFlag p = false → r.mic = hs.mic) ∧
    36 + ((p.getD 34 0 <<< 8) ||| p.getD 35 0) ≤ p.length ∧
    r.eapol_data = (p.drop 32).take (((p.getD 34 0 <<< 8) ||| p.getD 35 0) + 4) := by
  unfold PacketParser.parseEAPOLFrame at h
  split at h
  · injection h with h; injection h with h1 h2; cases h1
  · obtain ⟨e6, -, h⟩ := bind_ok h
    split at h
    · injection h with h; injection h with h1 h2; cases h1
    · obtain ⟨e7, -, h⟩ := bind_ok h
      split at h
      · injection h with h; injection h with h1 h2; cases h1
      · obtain ⟨ty, -, h⟩ := bind_ok h
        split at h
        · injection h with h; injection h with h1 h2; cases h1
        · obtain ⟨ap, -, h⟩ := bind_ok h
          obtain ⟨cl, -, h⟩ := bind_ok h
          obtain ⟨k1, hk1, h⟩ := bind_ok h
          obtain ⟨k0, hk0, h⟩ := bind_ok h
          dsimp only at h
          obtain ⟨an, -, h⟩ := bind_ok h
          obtain ⟨sn, -, h⟩ := bind_ok h
          obtain ⟨mi, hmi, h⟩ := bind_ok h
          obtain ⟨l2, hl2, h⟩ := bind_ok h
          obtain ⟨l3, hl3, h⟩ := bind_ok h
          obtain ⟨ed, hed, h⟩ := bind_ok h
          injection h with h
          injection h with _ h
          subst h
          obtain ⟨-, hk1v⟩ := rd_inv hk1
          obtain ⟨-, hk0v⟩ := rd_inv hk0
          obtain ⟨-, hl2v⟩ := rd_inv hl2
          obtain ⟨-, hl3v⟩ := rd_inv hl3
          obtain ⟨hedl, hedv⟩ := rdN_inv hed
          have hk1' : k1 = p.getD 37 0 := hk1v
          have hk0' : k0 = p.getD 36 0 := hk0v
          have hl2' : l2 = p.getD 34 0 := hl2v
          have hl3' : l3 = p.getD 35 0 := hl3v
          subst hk1' hk0' hl2' hl3'
          simp only
          refine ⟨rfl, ?_, ?_, ?_, hedv⟩
          · intro hm
            have hm' : ((((p.getD 37 0 <<< 8) ||| p.getD 36 0) % 65536) &&& 0x0100 != 0) = true := hm
            rw [hm'] at hmi
            simp only [if_true] at hmi
            obtain ⟨hml, hmv⟩ := rdN_inv hmi
            exact ⟨hml, hmv⟩
          · intro hm
            have hm' : ((((p.getD 37 0 <<< 8) ||| p.getD 36 0) % 65536) &&& 0x0100 != 0) = false := hm
            rw [hm'] at hmi
            simp only [Bool.false_eq_true, if_false] at hmi
            injection hmi with hmi
            exact hmi.symm
          · have : PacketParser.sizeofIEEE80211Header + 8 +
                ((p.getD 34 0 <<< 8 ||| p.getD 35 0) + 4) ≤ p.length := hedl
            simp only [PacketParser.sizeofIEEE80211Header] at this
            omega

theorem rdMac_ok2 (p : Bytes) (off : Nat) (h : off + 6 ≤ p.length) :
    rdMac p off = .ok ⟨(p.drop off).take 6, by simp; omega⟩ := by
  unfold rdMac
  rw [dif_pos h]

/-- On a frame of at least 129 bytes that holds its declared EAPOL body, with
the EtherType 88 8e at offsets 30..31 and the type 3 at offset 33,
`parseEAPOLFrame` returns true, whatever the record held before. -/
theorem parseEAPOLFrame_accepts (p : Bytes) (len : Int) (hs : HandshakePacket)
    (hlen : 32 ≤ toSizeT len) (h129 : 129 ≤ p.length)
    (h30 : p.getD 30 0 = 0x88) (h31 : p.getD 31 0 = 0x8e) (h33 : p.getD 33 0 = 0x03)
    (hel : 36 + ((p.getD 34 0 <<< 8) ||| p.getD 35 0) ≤ p.length) :
    ∃ r, PacketParser.parseEAPOLFrame p len hs = .ok (true, r) := by
  unfold PacketParser.parseEAPOLFrame
  rw [if_neg (by simp only [PacketParser.sizeofIEEE80211Header]; omega)]
  simp only [PacketParser.sizeofIEEE80211Header, Nat.reduceAdd]
  rw [rd_ok p 30 (by omega), rd_ok p 31 (by omega), rd_ok p 33 (by omega),
    rd_ok p 37 (by omega), rd_ok p 36 (by omega), rd_ok p 34 (by omega), rd_ok p 35 (by omega),
    rdMac_ok2 p 4 (by omega), rdMac_ok2 p 10 (by omega), rdN_ok p 113 16 (by omega),
    rdN_ok p 49 32 (by omega)]
  simp only [h30, h31, h33, bind, Except.bind, pure, Except.pure, ne_eq, not_true_eq_false,
    if_false]
  rw [rdN_ok p 32 _ (by omega)]
  split_ifs <;> exact ⟨_, rfl⟩

theorem frameMsg_accepted (p : Bytes) (junk : Int) (h129 : 129 ≤ p.length)
    (h30 : p.getD 30 0 = 0x88) (h31 : p.getD 31 0 = 0x8e) (h33 : p.getD 33 0 = 0x03)
    (hel : 36 + ((p.getD 34 0 <<< 8) ||| p.getD 35 0) ≤ p.length) :
    ∃ r, PacketParser.parseEAPOLFrame p 131 (HandshakePacket.fresh junk) = .ok (true, r) ∧
      r.message_number = PacketParser.classifyMessage (PacketParser.ackFlag p)
        (PacketParser.installFlag p) (PacketParser.micFlag p) junk := by
  obtain ⟨r, hr⟩ := parseEAPOLFrame_accepts p 131 (HandshakePacket.fresh junk) (by decide) h129
    h30 h31 h33 hel
  exact ⟨r, hr, (parseEAPOLFrame_accepted p 131 _ r hr).1⟩

set_option maxRecDepth 100000 in
/-- C25: the message number of a record that `parseEAPOLFrame` accepts is
the one its three tests give for the bits 0x80, 0x40 and 0x100 of
`(frame[37] << 8) | frame[36]`, and is left as the record held it when no
test applies; the value 4 is never assigned.  Message 1 of the captured
handshake (Key Information 00 8a: ACK, no Install, no MIC) is accepted with
the message number still unset, and message 3 (13 ca: ACK, Install, MIC)
with message number 2. -/
theorem parseEAPOLFrame_leaves_message_number_unset :
    (∀ (packet : Bytes) (length junk : Int) (r : HandshakePacket),
      PacketParser.parseEAPOLFrame packet length (HandshakePacket.fresh junk) = .ok (true, r) →
      r.message_number = PacketParser.classifyMessage (PacketParser.ackFlag packet)
        (PacketParser.installFlag packet) (PacketParser.micFlag packet) junk) ∧
    (∀ old : Int,
      PacketParser.classifyMessage false false false old = old ∧
      PacketParser.classifyMessage false true false old = old ∧
      PacketParser.classifyMessage false true true old = old ∧
      PacketParser.classifyMessage true true false old = old ∧
      PacketParser.classifyMessage true false true old = old ∧
      PacketParser.classifyMessage true false false old = 1 ∧
      PacketParser.classifyMessage false false true old = 2 ∧
      PacketParser.classifyMessage true true true old = 3) ∧
    (specKeyInfo frameMsg1 = 0x008a ∧ PacketParser.keyInfoFlags frameMsg1 = 0x0002 ∧
      ∀ junk : Int, ∃ r,
        PacketParser.parseEAPOLFrame frameMsg1 131 (HandshakePacket.fresh junk) = .ok (true, r) ∧
        r.message_number = junk) ∧
    (specKeyInfo frameMsg3 = 0x13ca ∧ PacketParser.keyInfoFlags frameMsg3 = 0x1302 ∧
      ∀ junk : Int, ∃ r,
        PacketParser.parseEAPOLFrame frameMsg3 131 (HandshakePacket.fresh junk) = .ok (true, r) ∧
        r.message_number = 2) := by
  refine ⟨?_, ?_, ⟨by decide, by decide, ?_⟩, ⟨by decide, by decide, ?_⟩⟩
  · intro packet length junk r h
    exact (parseEAPOLFrame_accepted packet length _ r h).1
  · intro old
    simp [PacketParser.classifyMessage]
  · intro junk
    obtain ⟨r, h1, h2⟩ := frameMsg_accepted frameMsg1 junk (by decide) (by decide) (by decide)
      (by decide) (by decide)
    refine ⟨r, h1, ?_⟩
    rw [h2]
    have ha : PacketParser.ackFlag frameMsg1 = false := by decide
    have hi : PacketParser.installFlag frameMsg1 = false := by decide
    have hm : PacketParser.micFlag frameMsg1 = false := by decide
    rw [ha, hi, hm]
    simp [PacketParser.classifyMessage]
  · intro junk
    obtain ⟨r, h1, h2⟩ := frameMsg_accepted frameMsg3 junk (by decide) (by decide) (by decide)
      (by decide) (by decide)
    refine ⟨r, h1, ?_⟩
    rw [h2]
    have ha : PacketParser.ackFlag frameMsg3 = false := by decide
    have hi : PacketParser.installFlag frameMsg3 = false := by decide
    have hm : PacketParser.micFlag frameMsg3 = true := by decide
    rw [ha, hi, hm]
    simp [PacketParser.classifyMessage]

theorem specZeroMic_getD (d : Bytes) (i : Nat) (h : 97 ≤ d.length) :
    (specZeroMic d).getD i 0 = if 81 ≤ i ∧ i < 97 then 0 else d.getD i 0 := by
  unfold specZeroMic
  simp only [List.getD_eq_getElem?_getD]
  by_cases h1 : i < 81
  · rw [List.append_assoc, List.getElem?_append_left (by simp; omega)]
    rw [if_neg (by omega), List.getElem?_take_of_lt h1]
  · by_cases h2 : i < 97
    · rw [List.append_assoc, List.getElem?_append_right (by simp; omega)]
      rw [List.getElem?_append_left (by simp; omega)]
      rw [if_pos ⟨by omega, h2⟩]
      exact replicate_zero_getD 16 _
    · rw [List.getElem?_append_right (by simp; omega)]
      rw [if_neg (by omega), List.getElem?_drop]
      congr 2
      simp
      omega

theorem drop_take_getD (d : Bytes) (off n k : Nat) (hk : k < n) :
    ((d.drop off).take n).getD k 0 = d.getD (off + k) 0 := by
  simp only [List.getD_eq_getElem?_getD, List.getElem?_take_of_lt hk, List.getElem?_drop]

/-- The MIC that `parseEAPOLFrame` stores, against the stored payload. -/
theorem parseEAPOLFrame_mic_offset (p : Bytes) (len : Int) (hs r : HandshakePacket)
    (h : PacketParser.parseEAPOLFrame p len hs = .ok (true, r))
    (hm : PacketParser.micFlag p = true) (h97 : 97 ≤ r.eapol_data.length) :
    r.mic = (r.eapol_data.drop 81).take 16 := by
  obtain ⟨-, h2, -, h4, h5⟩ := parseEAPOLFrame_accepted p len hs r h
  obtain ⟨h129, hmic⟩ := h2 hm
  rw [hmic, h5]
  rw [h5, List.length_take, List.length_drop] at h97
  rw [List.drop_take, List.drop_drop, List.take_take]
  congr 1
  omega

set_option maxRecDepth 1000000 in
/-- C23: for every frame that `parseEAPOLFrame` accepts with its MIC test
true and a stored payload of at least 97 bytes, the MIC it extracts is
payload bytes 81..96, while `calculateMIC` zeroes payload bytes 77..92 of
its copy: payload bytes 77..80, which are not part of the MIC, are zeroed,
and the last four MIC bytes (payload 93..96) are left in the copy that is
hashed.  The two ranges give the same copy only when those eight bytes are
zero already.  On message 2 of the captured handshake the hashed copy still
holds the MIC bytes f6 ff dc 12. -/
theorem calculateMIC_zeroes_other_bytes_than_mic :
    (∀ (packet : Bytes) (length : Int) (hs r : HandshakePacket),
      PacketParser.parseEAPOLFrame packet length hs = .ok (true, r) →
      PacketParser.micFlag packet = true → 97 ≤ r.eapol_data.length →
      r.mic = (r.eapol_data.drop 81).take 16 ∧
      CryptoUtils.zeroMicField r.eapol_data =
        r.eapol_data.take 77 ++ List.replicate 16 0 ++ r.eapol_data.drop 93 ∧
      (∀ k, 12 ≤ k → k < 16 →
        (CryptoUtils.zeroMicField r.eapol_data).getD (81 + k) 0 = r.mic.getD k 0) ∧
      (∀ i, 77 ≤ i → i < 81 → (CryptoUtils.zeroMicField r.eapol_data).getD i 0 = 0) ∧
      (CryptoUtils.zeroMicField r.eapol_data = specZeroMic r.eapol_data →
        (∀ k, 12 ≤ k → k < 16 → r.mic.getD k 0 = 0) ∧
        (∀ i, 77 ≤ i → i < 81 → r.eapol_data.getD i 0 = 0))) ∧
    (PacketParser.micFlag frameMsg2 = true ∧
      ∀ junk : Int, ∃ r,
        PacketParser.parseEAPOLFrame frameMsg2 131 (HandshakePacket.fresh junk) = .ok (true, r) ∧
        r.eapol_data = eapolMsg2 ∧
        r.mic = [0x9f, 0x95, 0x3e, 0x04, 0xf4, 0xb6, 0xa9, 0x36, 0xc4, 0x5e, 0xaa, 0x19,
          0xf6, 0xff, 0xdc, 0x12] ∧
        ((CryptoUtils.zeroMicField r.eapol_data).drop 93).take 4 = [0xf6, 0xff, 0xdc, 0x12] ∧
        CryptoUtils.zeroMicField r.eapol_data ≠ specZeroMic r.eapol_data) := by
  refine ⟨?_, by decide, ?_⟩
  · intro packet length hs r h hm h97
    have hmic := parseEAPOLFrame_mic_offset packet length hs r h hm h97
    have hz : CryptoUtils.zeroMicField r.eapol_data =
        r.eapol_data.take 77 ++ List.replicate 16 0 ++ r.eapol_data.drop 93 := by
      unfold CryptoUtils.zeroMicField
      rw [if_pos (by omega)]
    have hlast : ∀ k, 12 ≤ k → k < 16 →
        (CryptoUtils.zeroMicField r.eapol_data).getD (81 + k) 0 = r.mic.getD k 0 := by
      intro k h12 h16
      rw [zeroMicField_getD, if_neg (by omega), hmic, drop_take_getD _ _ _ _ h16]
    have hfirst : ∀ i, 77 ≤ i → i < 81 →
        (CryptoUtils.zeroMicField r.eapol_data).getD i 0 = 0 := by
      intro i h77 h81
      rw [zeroMicField_getD, if_pos ⟨by omega, h77, by omega⟩]
    refine ⟨hmic, hz, hlast, hfirst, ?_⟩
    intro heq
    constructor
    · intro k h12 h16
      rw [← hlast k h12 h16, heq, specZeroMic_getD _ _ h97, if_pos ⟨by omega, by omega⟩]
    · intro i h77 h81
      have := hfirst i h77 h81
      rw [heq, specZeroMic_getD _ _ h97, if_neg (by omega)] at this
      exact this
  · intro junk
    obtain ⟨r, h1, -⟩ := frameMsg_accepted frameMsg2 junk (by decide) (by decide) (by decide)
      (by decide) (by decide)
    obtain ⟨-, h2, -, -, h5⟩ := parseEAPOLFrame_accepted frameMsg2 131 _ r h1
    obtain ⟨-, hmic⟩ := h2 (by decide)
    have hd : r.eapol_data = eapolMsg2 := by rw [h5]; decide
    refine ⟨r, h1, hd, by rw [hmic]; decide, by rw [hd]; decide, by rw [hd]; decide⟩

theorem scanPMKID_in_bounds (packet : Bytes) :
    ∀ l : List Nat, (∀ i ∈ l, 99 + i + 22 ≤ packet.length) →
      ∃ found, PMKIDAttack.scanPMKID packet l = .ok found := by
  intro l
  induction l with
  | nil => intro _; exact ⟨none, rfl⟩
  | cons i rest ih =>
    intro h
    have hi := h i (List.mem_cons_self _ _)
    have hrest := ih (fun j hj => h j (List.mem_cons_of_mem _ hj))
    unfold PMKIDAttack.scanPMKID
    refine ok_bind (rd_ok packet _ (by omega)) ?_
    split
    · exact hrest
    · refine ok_bind (rd_ok packet _ (by omega)) ?_
      split
      · exact hrest
      · obtain ⟨m, hm⟩ := rdMatch_ok packet [0x00, 0x0F, 0xAC, 0x04] (99 + i + 2)
          (by simp only [List.length_cons, List.length_nil]; omega)
        refine ok_bind hm ?_
        split
        · exact hrest
        · exact ok_bind (rdN_ok packet _ 16 (by omega)) ⟨_, rfl⟩

set_option maxRecDepth 1000000 in
/-- C27: on the 152 bytes that a capture with that snap length keeps of the
PMKID frame, the tag is matched at scan position 32 (frame offsets
131..136) and the copy of the 16 PMKID bytes reads frame offsets 137..152,
one byte past the frame: the loop bound `i < key_data_len - 20` admits the
position `length - 120`, whose sixteenth PMKID byte is at offset `length`.
Every scan position below `length - 120` is read within the frame. -/
theorem extractPMKID_reads_past_frame_end :
    framePMKIDCut.length = 152 ∧
    (framePMKIDCut.drop 131).take 6 = [0xDD, 0x14, 0x00, 0x0F, 0xAC, 0x04] ∧
    PMKIDAttack.scanPMKID framePMKIDCut (List.range 32) = .ok none ∧
    rdN framePMKIDCut (99 + 32 + 6) 16 = .error .outOfBounds ∧
    PMKIDAttack.findPMKID framePMKIDCut 152 = .error .outOfBounds ∧
    (∀ self : PMKIDAttack,
      PMKIDAttack.extractPMKID self framePMKIDCut 152 = .error .outOfBounds) ∧
    (∀ self : PMKIDAttack,
      PMKIDAttack.parseDataFrame self framePMKIDCut 152 = .error .outOfBounds) ∧
    (∀ (packet : Bytes) (n : Nat), n + 120 ≤ packet.length →
      ∃ found, PMKIDAttack.scanPMKID packet (List.range n) = .ok found) ∧
    PMKIDAttack.findPMKID framePMKID 153 =
      .ok (some [0x83, 0xe7, 0xa4, 0x73, 0x4a, 0xde, 0x51, 0x94, 0x5b, 0xcb, 0xb0, 0x69,
        0xd3, 0xa6, 0x19, 0x5f]) := by
  have hfind : PMKIDAttack.findPMKID framePMKIDCut 152 = .error .outOfBounds := by decide
  have hmac : ∃ m, rdMac framePMKIDCut 16 = .ok m := rdMac_ok _ _ (by decide)
  have hext : ∀ self : PMKIDAttack,
      PMKIDAttack.extractPMKID self framePMKIDCut 152 = .error .outOfBounds := by
    intro self
    obtain ⟨m, hm⟩ := hmac
    unfold PMKIDAttack.extractPMKID
    rw [hm, hfind]
    rfl
  refine ⟨by decide, by decide, by decide, by decide, hfind, hext, ?_, ?_, by decide⟩
  · intro self
    unfold PMKIDAttack.parseDataFrame
    rw [if_neg (by decide)]
    have h1 : rdMatch framePMKIDCut 24 [0xAA, 0xAA, 0x03] = .ok true := by decide
    have h2 : rdMatch framePMKIDCut 30 [0x88, 0x8E] = .ok true := by decide
    have h3 : rd framePMKIDCut 33 = .ok 3 := by decide
    rw [h1]
    simp only [bind, Except.bind, Bool.not_true, Bool.false_eq_true, if_false]
    rw [h2]
    simp only [Bool.not_true, Bool.false_eq_true, if_false]
    rw [h3]
    simp only [if_true]
    exact hext self
  · intro packet n hn
    apply scanPMKID_in_bounds
    intro i hi
    rw [List.mem_range] at hi
    omega

theorem MacAddress.eq_iff (a b : MacAddress) : a.eq b = true ↔ a = b := by
  unfold MacAddress.eq
  rw [beq_iff_eq, memcmp_eq_zero_iff 6 a.bytes b.bytes (le_of_eq a.size_eq.symm)
    (le_of_eq b.size_eq.symm)]
  rw [List.take_of_length_le (le_of_eq a.size_eq), List.take_of_length_le (le_of_eq b.size_eq)]
  constructor
  · intro h
    cases a; cases b
    simp only at h
    subst h
    rfl
  · intro h; rw [h]

/-- The effect of one call of `extractPMKID` that returns. -/
theorem extractPMKID_cases (s t : PMKIDAttack) (f : Bytes) (len : Int)
    (h : PMKIDAttack.extractPMKID s f len = .ok t) :
    ∃ b found, rdMac f 16 = .ok b ∧ PMKIDAttack.findPMKID f len = .ok found ∧
      ((found = none ∧ t = s) ∨
       (∃ pm, found = some pm ∧ (∃ r ∈ s.results, r.bssid = b) ∧ t = s) ∨
       (∃ pm, found = some pm ∧ (∀ r ∈ s.results, r.bssid ≠ b) ∧
          t.targets = s.targets ∧
          ∃ rec, rec.bssid = b ∧ rec.pmkid = pm ∧ t.results = s.results ++ [rec])) := by
  unfold PMKIDAttack.extractPMKID at h
  obtain ⟨b, hb, h⟩ := bind_ok h
  obtain ⟨found, hf, h⟩ := bind_ok h
  refine ⟨b, found, hb, hf, ?_⟩
  cases found with
  | none =>
    left
    injection h with h
    exact ⟨rfl, h.symm⟩
  | some pm =>
    right
    simp only at h
    split at h
    · rename_i hany
      left
      injection h with h
      refine ⟨pm, rfl, ?_, h.symm⟩
      rw [List.any_eq_true] at hany
      obtain ⟨r, hr, hre⟩ := hany
      exact ⟨r, hr, (MacAddress.eq_iff _ _).mp hre⟩
    · rename_i hany
      right
      injection h with h
      refine ⟨pm, rfl, ?_, by rw [← h], _, rfl, rfl, by rw [← h]⟩
      intro r hr hrb
      apply hany
      rw [List.any_eq_true]
      exact ⟨r, hr, (MacAddress.eq_iff _ _).mpr hrb⟩

theorem firstWins_step (done : List Bytes) (s t : PMKIDAttack) (f : Bytes)
    (hinv : PMKIDAttack.FirstWins done s)
    (hok : ∀ g ∈ done, ∃ o, PMKIDAttack.findPMKID g g.length = .ok o)
    (h : PMKIDAttack.extractPMKID s f f.length = .ok t) :
    PMKIDAttack.FirstWins (done ++ [f]) t ∧
      ∀ g ∈ done ++ [f], ∃ o, PMKIDAttack.findPMKID g g.length = .ok o := by
  obtain ⟨i1, i2, i3⟩ := hinv
  obtain ⟨b, found, hb, hf, hcase⟩ := extractPMKID_cases s t f _ h
  have hok2 : ∀ g ∈ done ++ [f], ∃ o, PMKIDAttack.findPMKID g g.length = .ok o := by
    intro g hg
    rcases List.mem_append.mp hg with hg | hg
    · exact hok g hg
    · rw [List.mem_singleton.mp hg]; exact ⟨found, hf⟩
  have hold : ∀ r ∈ s.results, ∃ pre f0 post, done ++ [f] = pre ++ f0 :: post ∧
      rdMac f0 16 = .ok r.bssid ∧
      PMKIDAttack.findPMKID f0 f0.length = .ok (some r.pmkid) ∧
      ∀ g ∈ pre, rdMac g 16 = .ok r.bssid → PMKIDAttack.findPMKID g g.length = .ok none := by
    intro r hr
    obtain ⟨pre, f0, post, e, h1, h2, h3⟩ := i2 r hr
    exact ⟨pre, f0, post ++ [f], by rw [e]; simp, h1, h2, h3⟩
  refine ⟨?_, hok2⟩
  rcases hcase with ⟨hn, ht⟩ | ⟨pm, hs, hex, ht⟩ | ⟨pm, hs, hnew, -, rec, hrb, hrp, hres⟩
  · subst ht
    refine ⟨i1, hold, ?_⟩
    intro g hg b2 p hgb hgp
    rcases List.mem_append.mp hg with hg | hg
    · exact i3 g hg b2 p hgb hgp
    · rw [List.mem_singleton.mp hg, hf, hn] at hgp
      cases hgp
  · subst ht
    refine ⟨i1, hold, ?_⟩
    intro g hg b2 p hgb hgp
    rcases List.mem_append.mp hg with hg | hg
    · exact i3 g hg b2 p hgb hgp
    · rw [List.mem_singleton.mp hg, hb] at hgb
      injection hgb with hgb
      rw [← hgb]
      exact hex
  · refine ⟨?_, ?_, ?_⟩
    · rw [hres, List.pairwise_append]
      refine ⟨i1, List.pairwise_singleton _ _, ?_⟩
      intro x hx y hy
      rw [List.mem_singleton.mp hy, hrb]
      exact hnew x hx
    · intro r hr
      rw [hres] at hr
      rcases List.mem_append.mp hr with hr | hr
      · exact hold r hr
      · rw [List.mem_singleton.mp hr]
        refine ⟨done, f, [], rfl, by rw [hrb]; exact hb, by rw [hrp, hf, hs], ?_⟩
        intro g hg hgb
        obtain ⟨o, ho⟩ := hok g hg
        cases o with
        | none => exact ho
        | some p =>
          obtain ⟨r2, hr2, hr2b⟩ := i3 g hg b p (by rw [hgb, hrb]) ho
          exact absurd hr2b (hnew r2 hr2)
    · intro g hg b2 p hgb hgp
      rw [hres]
      rcases List.mem_append.mp hg with hg | hg
      · obtain ⟨r, hr, hrb2⟩ := i3 g hg b2 p hgb hgp
        exact ⟨r, List.mem_append_left _ hr, hrb2⟩
      · rw [List.mem_singleton.mp hg, hb] at hgb
        injection hgb with hgb
        exact ⟨rec, List.mem_append_right _ (List.mem_singleton.mpr rfl), by rw [hrb, hgb]⟩

theorem firstWins_run :
    ∀ (frames done : List Bytes) (s t : PMKIDAttack), PMKIDAttack.FirstWins done s →
      (∀ g ∈ done, ∃ o, PMKIDAttack.findPMKID g g.length = .ok o) →
      PMKIDAttack.extractAll s frames = .ok t →
      PMKIDAttack.FirstWins (done ++ frames) t := by
  intro frames
  induction frames with
  | nil =>
    intro done s t hinv _ h
    injection h with h
    rw [List.append_nil, ← h]
    exact hinv
  | cons f rest ih =>
    intro done s t hinv hok h
    unfold PMKIDAttack.extractAll at h
    obtain ⟨s1, h1, h⟩ := bind_ok h
    obtain ⟨j1, j2⟩ := firstWins_step done s s1 f hinv hok h1
    have := ih (done ++ [f]) s1 t j1 j2 h
    rw [List.append_assoc] at this
    exact this

/-- C21: after any sequence of frames has been processed by `extractPMKID`,
starting without results, no two records of the result list have the same
AP address; each record holds the PMKID of the first processed frame of its
AP in which a PMKID element was found; every AP with such a frame has a
record; and a further frame of an AP that has a record leaves the object as
it is. -/
theorem extractPMKID_first_per_ap_wins (s0 s : PMKIDAttack) (frames : List Bytes)
    (h0 : s0.results = []) (h : PMKIDAttack.extractAll s0 frames = .ok s) :
    s.results.Pairwise (fun a b => a.bssid ≠ b.bssid) ∧
    (∀ r ∈ s.results, ∃ pre f post, frames = pre ++ f :: post ∧
      rdMac f 16 = .ok r.bssid ∧ PMKIDAttack.findPMKID f f.length = .ok (some r.pmkid) ∧
      ∀ g ∈ pre, rdMac g 16 = .ok r.bssid → PMKIDAttack.findPMKID g g.length = .ok none) ∧
    (∀ f ∈ frames, ∀ b p, rdMac f 16 = .ok b →
      PMKIDAttack.findPMKID f f.length = .ok (some p) → ∃ r ∈ s.results, r.bssid = b) ∧
    (∀ (f : Bytes) (t : PMKIDAttack), (∃ r ∈ s.results, rdMac f 16 = .ok r.bssid) →
      PMKIDAttack.extractPMKID s f f.length = .ok t → t = s) := by
  have hstart : PMKIDAttack.FirstWins [] s0 := by
    refine ⟨by rw [h0]; exact List.Pairwise.nil, ?_, ?_⟩
    · intro r hr; rw [h0] at hr; simp at hr
    · intro f hf; simp at hf
  have hfin := firstWins_run frames [] s0 s hstart (by intro g hg; simp at hg) h
  rw [List.nil_append] at hfin
  obtain ⟨i1, i2, i3⟩ := hfin
  refine ⟨i1, i2, i3, ?_⟩
  intro f t ⟨r, hr, hrb⟩ ht
  obtain ⟨b, found, hb, hf, hcase⟩ := extractPMKID_cases s t f _ ht
  rcases hcase with ⟨_, ht⟩ | ⟨_, _, _, ht⟩ | ⟨pm, _, hnew, _⟩
  · exact ht
  · exact ht
  · rw [hb] at hrb
    injection hrb with hrb
    exact absurd hrb.symm (hnew r hr)

set_option maxRecDepth 1000000 in
theorem extractPMKID_first_per_ap_wins_witness :
    (PMKIDAttack.empty.results = [] ∧
      PMKIDAttack.extractAll PMKIDAttack.empty pmkidFrames = .ok pmkidTwoAps) ∧
    (pmkidTwoAps.results.Pairwise (fun a b => a.bssid ≠ b.bssid) ∧
      (∀ r ∈ pmkidTwoAps.results, ∃ pre f post, pmkidFrames = pre ++ f :: post ∧
        rdMac f 16 = .ok r.bssid ∧ PMKIDAttack.findPMKID f f.length = .ok (some r.pmkid) ∧
        ∀ g ∈ pre, rdMac g 16 = .ok r.bssid → PMKIDAttack.findPMKID g g.length = .ok none) ∧
      (∀ f ∈ pmkidFrames, ∀ b p, rdMac f 16 = .ok b →
        PMKIDAttack.findPMKID f f.length = .ok (some p) →
        ∃ r ∈ pmkidTwoAps.results, r.bssid = b) ∧
      (∀ (f : Bytes) (t : PMKIDAttack),
        (∃ r ∈ pmkidTwoAps.results, rdMac f 16 = .ok r.bssid) →
        PMKIDAttack.extractPMKID pmkidTwoAps f f.length = .ok t → t = pmkidTwoAps)) :=
  ⟨⟨rfl, by decide⟩,
    extractPMKID_first_per_ap_wins PMKIDAttack.empty pmkidTwoAps pmkidFrames rfl (by decide)⟩

/-- C22: `generatePMK` and `generatePTK` always return (32 and 64 bytes), two
calls with equal arguments return equal outputs, and nothing but the
arguments enters the result: of the library only the one PBKDF2 call on the
passphrase and the network name (4096 rounds, 32 bytes), respectively the
HMAC-SHA1 under the given master key, is consulted, so two libraries that
agree there give the same output. -/
theorem key_derivation_deterministic (C : Crypto) :
    (∀ passphrase1 passphrase2 ssid1 ssid2 : Bytes,
      passphrase1 = passphrase2 → ssid1 = ssid2 →
      CryptoUtils.generatePMK C passphrase1 ssid1 = CryptoUtils.generatePMK C passphrase2 ssid2) ∧
    (∀ (pmk1 pmk2 : Bytes) (ap1 ap2 client1 client2 : MacAddress)
        (anonce1 anonce2 snonce1 snonce2 : Bytes),
      pmk1 = pmk2 → ap1.bytes = ap2.bytes → client1.bytes = client2.bytes →
      anonce1 = anonce2 → snonce1 = snonce2 →
      CryptoUtils.generatePTK C pmk1 ap1 client1 anonce1 snonce1 =
        CryptoUtils.generatePTK C pmk2 ap2 client2 anonce2 snonce2) ∧
    (∀ passphrase ssid : Bytes, (CryptoUtils.generatePMK C passphrase ssid).length = 32) ∧
    (∀ (pmk : Bytes) (ap client : MacAddress) (anonce snonce : Bytes),
      ∃ ptk, CryptoUtils.generatePTK C pmk ap client anonce snonce = .ok ptk ∧
        ptk.length = 64) ∧
    (∀ (D : Crypto) (passphrase ssid : Bytes),
      C.pbkdf2HmacSha1 passphrase ssid 4096 32 = D.pbkdf2HmacSha1 passphrase ssid 4096 32 →
      CryptoUtils.generatePMK C passphrase ssid = CryptoUtils.generatePMK D passphrase ssid) ∧
    (∀ (D : Crypto) (pmk : Bytes) (ap client : MacAddress) (anonce snonce : Bytes),
      (∀ data, C.hmacSha1 pmk data = D.hmacSha1 pmk data) →
      CryptoUtils.generatePTK C pmk ap client anonce snonce =
        CryptoUtils.generatePTK D pmk ap client anonce snonce) := by
  refine ⟨?_, ?_, ?_, ?_, ?_, ?_⟩
  · intro p1 p2 s1 s2 hp hs
    rw [hp, hs]
  · intro pmk1 pmk2 ap1 ap2 cl1 cl2 an1 an2 sn1 sn2 hpmk hap hcl han hsn
    have e1 : ap1 = ap2 := by
      cases ap1; cases ap2; simp only at hap; subst hap; rfl
    have e2 : cl1 = cl2 := by
      cases cl1; cases cl2; simp only at hcl; subst hcl; rfl
    rw [hpmk, e1, e2, han, hsn]
  · intro p s
    simp [CryptoUtils.generatePMK, CryptoUtils.pbkdf2, C.pbkdf2_size]
  · intro pmk ap cl an sn
    exact ⟨_, generatePTK_ok C pmk ap cl an sn 0, specPrfStream_take_length C pmk _ _ 0⟩
  · intro D p s h
    simp only [CryptoUtils.generatePMK, CryptoUtils.pbkdf2, h]
  · intro D pmk ap cl an sn h
    rw [generatePTK_ok C pmk ap cl an sn 0, generatePTK_ok D pmk ap cl an sn 0]
    simp only [specPrfStream, h]

theorem calculateMIC_eq (C : Crypto) (kck eapol_data : Bytes) :
    CryptoUtils.calculateMIC C kck eapol_data =
      C.hmacMd5 kck (CryptoUtils.zeroMicField eapol_data) := by
  unfold CryptoUtils.calculateMIC
  exact List.take_of_length_le (by rw [C.hmacMd5_size])

set_option maxRecDepth 1000000 in
theorem specComputeMIC_msg2 :
    specComputeMIC refCrypto kckGenuine eapolMsg2 =
      some [0x9f, 0x95, 0x3e, 0x04, 0xf4, 0xb6, 0xa9, 0x36, 0xc4, 0x5e, 0xaa, 0x19, 0xf6, 0xff,
        0xdc, 0x12] := by
  decide

set_option maxRecDepth 1000000 in
theorem calculateMIC_msg2 :
    CryptoUtils.calculateMIC refCrypto kckGenuine eapolMsg2 =
      [0x79, 0xca, 0x28, 0x96, 0x51, 0x38, 0x1d, 0xa6, 0x38, 0xe7, 0xbd, 0xe3, 0x92, 0xc7,
        0xef, 0xbc] := by
  decide

set_option maxRecDepth 1000000 in
/-- C6: for every key and payload `calculateMIC` returns HMAC-MD5 of the copy
with payload bytes 77..92 zeroed: it does not read the key-descriptor
version, and the bytes it zeroes are not the MIC field (bytes 81..96).  On
message 2 of the captured handshake, which declares version 2, the spec's
`computeMIC` under the genuine confirmation key is the MIC the frame
carries, 9f953e04..., and `calculateMIC` returns 79ca2896...; on the same
payload with version 1 declared the spec's value is HMAC-MD5 with the MIC
field zeroed, 38536c45..., and `calculateMIC` returns e73dd0fb.... -/
theorem calculateMIC_ignores_version_and_mic_field :
    (∀ (C : Crypto) (kck eapol_data : Bytes),
      CryptoUtils.calculateMIC C kck eapol_data =
        C.hmacMd5 kck (CryptoUtils.zeroMicField eapol_data)) ∧
    declaredKeyDescriptorVersion eapolMsg2 = 2 ∧
    specComputeMIC refCrypto kckGenuine eapolMsg2 =
      some [0x9f, 0x95, 0x3e, 0x04, 0xf4, 0xb6, 0xa9, 0x36, 0xc4, 0x5e, 0xaa, 0x19, 0xf6, 0xff,
        0xdc, 0x12] ∧
    (eapolMsg2.drop 81).take 16 =
      [0x9f, 0x95, 0x3e, 0x04, 0xf4, 0xb6, 0xa9, 0x36, 0xc4, 0x5e, 0xaa, 0x19, 0xf6, 0xff,
        0xdc, 0x12] ∧
    CryptoUtils.calculateMIC refCrypto kckGenuine eapolMsg2 =
      [0x79, 0xca, 0x28, 0x96, 0x51, 0x38, 0x1d, 0xa6, 0x38, 0xe7, 0xbd, 0xe3, 0x92, 0xc7,
        0xef, 0xbc] ∧
    declaredKeyDescriptorVersion eapolMsg2V1 = 1 ∧
    specComputeMIC refCrypto kckGenuine eapolMsg2V1 =
      some [0x38, 0x53, 0x6c, 0x45, 0x69, 0xd9, 0xea, 0xeb, 0xd4, 0x65, 0x7d, 0xc1, 0x01, 0xc8,
        0xd5, 0xac] ∧
    CryptoUtils.calculateMIC refCrypto kckGenuine eapolMsg2V1 =
      [0xe7, 0x3d, 0xd0, 0xfb, 0x26, 0x3f, 0x6f, 0x08, 0x39, 0xf3, 0x41, 0x23, 0xa7, 0xd8,
        0x92, 0xb2] :=
  ⟨calculateMIC_eq, by decide, specComputeMIC_msg2, by decide, calculateMIC_msg2, by decide,
    by decide, by decide⟩

theorem verifyMIC_eq_decide (C : Crypto) (hs : HandshakePacket) (ptk : Bytes)
    (h : 16 ≤ ptk.length) (hm : hs.mic.length = 16) :
    CryptoUtils.verifyMIC C hs ptk =
      .ok (decide (CryptoUtils.calculateMIC C (ptk.take 16) hs.eapol_data = hs.mic)) := by
  rw [verifyMIC_of_length C hs ptk h]
  exact stdEqual_same_length _ _ (by rw [calculateMIC_length, hm])

set_option maxRecDepth 1000000 in
/-- C2: `verifyMIC` under a session key of at least 16 bytes accepts a
16-byte MIC exactly when it equals `calculateMIC` of the payload under the
first 16 bytes of the key, so a handshake whose MIC is the spec's
`computeMIC` is accepted only where the two values coincide.  They do not
on the captured handshake: the MIC of its message 2 is the spec's
`computeMIC` under the confirmation key of passphrase "password123", and
`verifyMIC` returns false for every session key that starts with that
confirmation key. -/
theorem verifyMIC_rejects_genuine_handshake :
    (∀ (C : Crypto) (hs : HandshakePacket) (ptk : Bytes),
      16 ≤ ptk.length → hs.mic.length = 16 →
      specComputeMIC C (ptk.take 16) hs.eapol_data = some hs.mic →
      (CryptoUtils.verifyMIC C hs ptk = .ok true ↔
        specComputeMIC C (ptk.take 16) hs.eapol_data =
          some (CryptoUtils.calculateMIC C (ptk.take 16) hs.eapol_data))) ∧
    hsSample.eapol_data = eapolMsg2 ∧
    specComputeMIC refCrypto kckGenuine hsSample.eapol_data = some hsSample.mic ∧
    (∀ rest : Bytes,
      CryptoUtils.verifyMIC refCrypto hsSample (kckGenuine ++ rest) = .ok false) := by
  refine ⟨?_, rfl, specComputeMIC_msg2, ?_⟩
  · intro C hs ptk h hm hspec
    rw [verifyMIC_eq_decide C hs ptk h hm, hspec]
    simp only [Except.ok.injEq, decide_eq_true_eq, Option.some.injEq]
    exact eq_comm
  · intro rest
    have hk : (kckGenuine ++ rest).take 16 = kckGenuine := by
      rw [List.take_append_of_le_length (by decide)]
      decide
    rw [verifyMIC_eq_decide refCrypto hsSample (kckGenuine ++ rest)
      (by rw [List.length_append]; have : kckGenuine.length = 16 := by decide
          omega) (by decide), hk]
    have hne : CryptoUtils.calculateMIC refCrypto kckGenuine hsSample.eapol_data ≠ hsSample.mic := by
      have he : hsSample.eapol_data = eapolMsg2 := rfl
      rw [he, calculateMIC_msg2]
      decide
    simp only [decide_eq_false hne]

theorem testKey_eq_count_cipher (W : WepPrimitives) (self : WEPCrack) (key : Bytes)
    (h10 : 10 ≤ self.captured_packets_.length) (hint : self.captured_packets_.length < 2 ^ 31) :
    WEPCrack.testKey W self key =
      decide (7 ≤ ((self.captured_packets_.take 10).filter fun packet =>
        decide (44 ≤ packet.length) &&
          startsLlcSnap (W.rc4 ((packet.drop 28).take 3 ++ key)
            ((packet.drop 32).take (packet.length - 36)))).length) := by
  rw [testKey_eq_count W self key h10 hint]
  have hfun : decryptsToLlcSnapHeader W key = fun packet =>
      decide (44 ≤ packet.length) &&
        startsLlcSnap (W.rc4 ((packet.drop 28).take 3 ++ key)
          ((packet.drop 32).take (packet.length - 36))) := by
    funext packet
    rw [← testKeyFrame_eq, testKeyFrame_cipher]
  rw [hfun]

set_option maxRecDepth 1000000 in
/-- C14: on a frame set of at least 10 (and fewer than 2^31) frames `testKey`
returns true exactly when at least 7 of the first 10 frames have 44 bytes or
more and give AA AA 03 under the cipher key made of frame bytes 28..30 and
the candidate key, applied to frame bytes 32 up to the ICV; it does not count
the frames that decrypt under the key.  Of the ten frames
7 x `wepFrameGenuine`, 3 x `wepFrameNoise` exactly 7 decrypt under the sample
key to a payload starting AA AA 03, and `testKey` returns false; of the ten
frames 6 x `wepFrameBoth`, 4 x `wepFrameLlc` exactly 6 do, and `testKey`
returns true. -/
theorem testKey_counts_frames_keyed_by_ciphertext :
    (∀ (W : WepPrimitives) (self : WEPCrack) (key : Bytes),
      10 ≤ self.captured_packets_.length → self.captured_packets_.length < 2 ^ 31 →
      WEPCrack.testKey W self key =
        decide (7 ≤ ((self.captured_packets_.take 10).filter fun packet =>
          decide (44 ≤ packet.length) &&
            startsLlcSnap (W.rc4 ((packet.drop 28).take 3 ++ key)
              ((packet.drop 32).take (packet.length - 36)))).length)) ∧
    (specWepDecrypt refWep wepKeySample wepFrameGenuine =
        [0xaa, 0xaa, 0x03, 0x00, 0x00, 0x00, 0x08, 0x00, 0x45, 0x00, 0x00, 0x1c] ∧
      specDecryptsToLlcSnap refWep wepKeySample wepFrameNoise = false ∧
      ((List.replicate 7 wepFrameGenuine ++ List.replicate 3 wepFrameNoise).filter
        (specDecryptsToLlcSnap refWep wepKeySample)).length = 7 ∧
      WEPCrack.testKey refWep
        (wepWith (List.replicate 7 wepFrameGenuine ++ List.replicate 3 wepFrameNoise))
        wepKeySample = false) ∧
    (specDecryptsToLlcSnap refWep wepKeySample wepFrameBoth = true ∧
      specDecryptsToLlcSnap refWep wepKeySample wepFrameLlc = false ∧
      ((List.replicate 6 wepFrameBoth ++ List.replicate 4 wepFrameLlc).filter
        (specDecryptsToLlcSnap refWep wepKeySample)).length = 6 ∧
      WEPCrack.testKey refWep
        (wepWith (List.replicate 6 wepFrameBoth ++ List.replicate 4 wepFrameLlc))
        wepKeySample = true) :=
  ⟨testKey_eq_count_cipher,
    ⟨by decide, by decide, by decide, by decide⟩,
    ⟨by decide, by decide, by decide, by decide⟩⟩

theorem collectWeakIVs_fold_length3 (packets : List Bytes) :
    ∀ acc : List Bytes, (∀ iv ∈ acc, iv.length = 3) →
      ∀ iv ∈ packets.foldl
        (fun weak_ivs packet =>
          if packet.length < 27 then weak_ivs
          else
            let iv := (packet.drop 24).take 3
            if WEPCrack.isWeakIV iv then weak_ivs ++ [iv] else weak_ivs) acc,
        iv.length = 3 := by
  induction packets with
  | nil => intro acc h; exact h
  | cons p rest ih =>
    intro acc h
    simp only [List.foldl_cons]
    apply ih
    split
    · exact h
    · split
      · intro iv hiv
        rcases List.mem_append.mp hiv with hiv | hiv
        · exact h iv hiv
        · rw [List.mem_singleton.mp hiv, List.length_take, List.length_drop]
          omega
      · exact h

theorem collectWeakIVs_length3 (s : WEPCrack) :
    ∀ iv ∈ (WEPCrack.collectWeakIVs s).weak_ivs_, iv.length = 3 :=
  collectWeakIVs_fold_length3 s.captured_packets_ [] (fun _ h => by simp at h)

theorem fmsKeyBytes_length :
    ∀ votes : List (List (Nat × Int)), (WEPCrack.fmsKeyBytes votes).length = votes.length := by
  intro votes
  induction votes with
  | nil => rfl
  | cons t rest ih =>
    cases t with
    | nil => simp [WEPCrack.fmsKeyBytes]
    | cons e es => simp [WEPCrack.fmsKeyBytes, ih]

theorem fmsKeyBytes_zero_from :
    ∀ (votes : List (List (Nat × Int))) (j : Nat), j < votes.length → votes.getD j [] = [] →
      ∀ pos, j ≤ pos → (WEPCrack.fmsKeyBytes votes).getD pos 0 = 0 := by
  intro votes
  induction votes with
  | nil => intro j hj; simp at hj
  | cons t rest ih =>
    intro j hj he pos hpos
    cases t with
    | nil =>
      simp only [WEPCrack.fmsKeyBytes, List.getD_eq_getElem?_getD]
      exact replicate_zero_getD _ _
    | cons e es =>
      cases j with
      | zero => simp at he
      | succ j =>
        cases pos with
        | zero => omega
        | succ pos =>
          simp only [List.getD_cons_succ] at he
          simp only [WEPCrack.fmsKeyBytes, List.getD_cons_succ]
          exact ih j (by simpa using hj) he pos (by omega)

theorem fmsLoopKeys_both (W : WepPrimitives) (s : WEPCrack) :
    WEPCrack.fmsLoopKeys W s [5, 13] =
      [WEPCrack.fmsKeyBytes (WEPCrack.fmsVotes s 5),
        WEPCrack.fmsKeyBytes (WEPCrack.fmsVotes s 13)] := by
  simp only [WEPCrack.fmsLoopKeys, fmsSelect_fmsVotes s 5 (by decide),
    fmsSelect_fmsVotes s 13 (by decide)]

theorem fmsAttackKeys_eq (W : WepPrimitives) (s : WEPCrack)
    (h100 : 100 ≤ (WEPCrack.collectWeakIVs s).weak_ivs_.length) :
    WEPCrack.fmsAttackKeys W s =
      [WEPCrack.fmsKeyBytes (WEPCrack.fmsVotes (WEPCrack.collectWeakIVs s) 5),
        WEPCrack.fmsKeyBytes (WEPCrack.fmsVotes (WEPCrack.collectWeakIVs s) 13)] := by
  unfold WEPCrack.fmsAttackKeys
  dsimp only
  have hw : (WEPCrack.collectWeakIVs
      { s with log_ := s.log_ ++ [ascii "Attempting FMS attack"] }).weak_ivs_ =
      (WEPCrack.collectWeakIVs s).weak_ivs_ := rfl
  rw [if_neg (by rw [hw]; omega), fmsLoopKeys_both]
  rfl

theorem fmsAttackKeys_few (W : WepPrimitives) (s : WEPCrack)
    (h100 : (WEPCrack.collectWeakIVs s).weak_ivs_.length < 100) :
    WEPCrack.fmsAttackKeys W s = [] := by
  unfold WEPCrack.fmsAttackKeys
  dsimp only
  have hw : (WEPCrack.collectWeakIVs
      { s with log_ := s.log_ ++ [ascii "Attempting FMS attack"] }).weak_ivs_ =
      (WEPCrack.collectWeakIVs s).weak_ivs_ := rfl
  rw [if_pos (by rw [hw]; exact h100)]

/-- C26 (as amended): when `fmsAttack` finds at least 100 (and fewer than
2^31) weak IVs it runs the selection for key length 5 and for key length 13.
In each of the two keys, the byte at a position below 3 is a candidate with
the largest number of votes at that position and, among the candidates with
that number, the smallest byte value, no count reaching 2^31; at the
positions 3 and above the vote table is empty and the byte keeps its
initial zero. -/
theorem fmsAttack_key_bytes_max_smallest (W : WepPrimitives) (s : WEPCrack)
    (h100 : 100 ≤ (WEPCrack.collectWeakIVs s).weak_ivs_.length)
    (hsize : (WEPCrack.collectWeakIVs s).weak_ivs_.length < 2 ^ 31) :
    ∃ key5 key13, WEPCrack.fmsAttackKeys W s = [key5, key13] ∧
      key5.length = 5 ∧ key13.length = 13 ∧
      (∀ pos c, fmsVoteCount (WEPCrack.collectWeakIVs s).weak_ivs_ pos c < 2 ^ 31) ∧
      ∀ key ∈ [key5, key13],
        (∀ pos, pos < 3 →
          1 ≤ fmsVoteCount (WEPCrack.collectWeakIVs s).weak_ivs_ pos (key.getD pos 0) ∧
          (∀ c, fmsVoteCount (WEPCrack.collectWeakIVs s).weak_ivs_ pos c ≤
            fmsVoteCount (WEPCrack.collectWeakIVs s).weak_ivs_ pos (key.getD pos 0)) ∧
          (∀ c, fmsVoteCount (WEPCrack.collectWeakIVs s).weak_ivs_ pos c =
              fmsVoteCount (WEPCrack.collectWeakIVs s).weak_ivs_ pos (key.getD pos 0) →
            key.getD pos 0 ≤ c)) ∧
        (∀ pos, 3 ≤ pos →
          (WEPCrack.fmsVotes (WEPCrack.collectWeakIVs s) key.length).getD pos [] = [] ∧
          key.getD pos 0 = 0) := by
  have hiv : ∃ iv ∈ (WEPCrack.collectWeakIVs s).weak_ivs_, 3 ≤ iv.length := by
    cases hl : (WEPCrack.collectWeakIVs s).weak_ivs_ with
    | nil => rw [hl] at h100; simp at h100
    | cons iv rest =>
      refine ⟨iv, List.mem_cons_self _ _, ?_⟩
      have := collectWeakIVs_length3 s iv (by rw [hl]; exact List.mem_cons_self _ _)
      omega
  have hkey : ∀ key_len, 3 < key_len →
      (WEPCrack.fmsKeyBytes (WEPCrack.fmsVotes (WEPCrack.collectWeakIVs s) key_len)).length
        = key_len ∧
      (∀ pos, pos < 3 →
        1 ≤ fmsVoteCount (WEPCrack.collectWeakIVs s).weak_ivs_ pos
          ((WEPCrack.fmsKeyBytes
            (WEPCrack.fmsVotes (WEPCrack.collectWeakIVs s) key_len)).getD pos 0) ∧
        (∀ c, fmsVoteCount (WEPCrack.collectWeakIVs s).weak_ivs_ pos c ≤
          fmsVoteCount (WEPCrack.collectWeakIVs s).weak_ivs_ pos
            ((WEPCrack.fmsKeyBytes
              (WEPCrack.fmsVotes (WEPCrack.collectWeakIVs s) key_len)).getD pos 0)) ∧
        (∀ c, fmsVoteCount (WEPCrack.collectWeakIVs s).weak_ivs_ pos c =
            fmsVoteCount (WEPCrack.collectWeakIVs s).weak_ivs_ pos
              ((WEPCrack.fmsKeyBytes
                (WEPCrack.fmsVotes (WEPCrack.collectWeakIVs s) key_len)).getD pos 0) →
          (WEPCrack.fmsKeyBytes
            (WEPCrack.fmsVotes (WEPCrack.collectWeakIVs s) key_len)).getD pos 0 ≤ c)) ∧
      (∀ pos, 3 ≤ pos →
        (WEPCrack.fmsVotes (WEPCrack.collectWeakIVs s) key_len).getD pos [] = [] ∧
        (WEPCrack.fmsKeyBytes
          (WEPCrack.fmsVotes (WEPCrack.collectWeakIVs s) key_len)).getD pos 0 = 0) := by
    intro key_len hk
    refine ⟨by rw [fmsKeyBytes_length, fmsVotes_length], ?_, ?_⟩
    · intro pos hpos
      exact fmsKeyBytes_max_smallest (WEPCrack.collectWeakIVs s) key_len pos (by omega) hpos hiv
    · intro pos hpos
      refine ⟨fmsVotes_high _ key_len pos hpos, ?_⟩
      exact fmsKeyBytes_zero_from _ 3 (by rw [fmsVotes_length]; exact hk)
        (fmsVotes_high _ key_len 3 (le_refl 3)) pos hpos
  obtain ⟨l5, a5, b5⟩ := hkey 5 (by decide)
  obtain ⟨l13, a13, b13⟩ := hkey 13 (by decide)
  refine ⟨_, _, fmsAttackKeys_eq W s h100, l5, l13, ?_, ?_⟩
  · intro pos c
    have := List.length_filter_le (fun iv : Bytes =>
      decide (3 ≤ iv.length) && decide ((iv.getD pos 0 ^^^ (pos + 1)) % 256 = c))
      (WEPCrack.collectWeakIVs s).weak_ivs_
    unfold fmsVoteCount
    omega
  intro key hkeymem
  simp only [List.mem_cons, List.mem_singleton, List.not_mem_nil, or_false] at hkeymem
  rcases hkeymem with hk | hk
  · subst hk
    rw [l5]
    exact ⟨a5, b5⟩
  · subst hk
    rw [l13]
    exact ⟨a13, b13⟩

set_option maxRecDepth 1000000 in
theorem fmsAttack_key_bytes_max_smallest_witness :
    (100 ≤ (WEPCrack.collectWeakIVs fmsTie100).weak_ivs_.length ∧
      (WEPCrack.collectWeakIVs fmsTie100).weak_ivs_.length < 2 ^ 31) ∧
    ∃ key5 key13, WEPCrack.fmsAttackKeys refWep fmsTie100 = [key5, key13] ∧
      key5.length = 5 ∧ key13.length = 13 ∧
      (∀ pos c, fmsVoteCount (WEPCrack.collectWeakIVs fmsTie100).weak_ivs_ pos c < 2 ^ 31) ∧
      ∀ key ∈ [key5, key13],
        (∀ pos, pos < 3 →
          1 ≤ fmsVoteCount (WEPCrack.collectWeakIVs fmsTie100).weak_ivs_ pos (key.getD pos 0) ∧
          (∀ c, fmsVoteCount (WEPCrack.collectWeakIVs fmsTie100).weak_ivs_ pos c ≤
            fmsVoteCount (WEPCrack.collectWeakIVs fmsTie100).weak_ivs_ pos (key.getD pos 0)) ∧
          (∀ c, fmsVoteCount (WEPCrack.collectWeakIVs fmsTie100).weak_ivs_ pos c =
              fmsVoteCount (WEPCrack.collectWeakIVs fmsTie100).weak_ivs_ pos (key.getD pos 0) →
            key.getD pos 0 ≤ c)) ∧
        (∀ pos, 3 ≤ pos →
          (WEPCrack.fmsVotes (WEPCrack.collectWeakIVs fmsTie100) key.length).getD pos [] = [] ∧
          key.getD pos 0 = 0) :=
  ⟨⟨by decide, by decide⟩,
    fmsAttack_key_bytes_max_smallest refWep fmsTie100 (by decide) (by decide)⟩

set_option maxRecDepth 1000000 in
/-- C26 (counterexample): of 100 weak IVs the first 50 are 03 ff 09 and the
last 50 are 03 ff 02, so that at key position 2 the candidates 0x0a and 0x01
have 50 votes each, 0x0a having received its first vote first; a vote table
kept in insertion order selects 0x0a.  `fmsAttack` passes its test on the
number of weak IVs and, for key length 5 and for key length 13, stores 0x01
at position 2. -/
theorem fmsAttack_tie_goes_to_smallest_byte :
    (WEPCrack.collectWeakIVs fmsTie100).weak_ivs_ =
      List.replicate 50 [0x03, 0xff, 0x09] ++ List.replicate 50 [0x03, 0xff, 0x02] ∧
    fmsVoteCount (WEPCrack.collectWeakIVs fmsTie100).weak_ivs_ 2 0x0a = 50 ∧
    fmsVoteCount (WEPCrack.collectWeakIVs fmsTie100).weak_ivs_ 2 0x01 = 50 ∧
    specFmsSelect (WEPCrack.collectWeakIVs fmsTie100).weak_ivs_ 2 = some 0x0a ∧
    (∀ W : WepPrimitives, WEPCrack.fmsAttackKeys W fmsTie100 =
      [[0x02, 0xfd, 0x01, 0, 0], [0x02, 0xfd, 0x01, 0, 0, 0, 0, 0, 0, 0, 0, 0, 0]]) := by
  refine ⟨by decide, by decide, by decide, by decide, ?_⟩
  intro W
  rw [fmsAttackKeys_eq W fmsTie100 (by decide)]
  decide

end Airlevi
